import Mathlib

/-! CasADi expression-graph nodes, integrators and solvers: a shallow embedding

Numeric buffers (`double*`, `bvec_t*`) are lists of values; a `std::copy` of
`n` values overwrites the first `n` cells of the destination buffer.
Dependency words (`bvec_t`) are natural numbers combined with bitwise OR.
-/

namespace casadi

/-! ## Shared infrastructure -/

/-- Exception object thrown by the `casadi_error` and `casadi_assert_message`
macros; it carries the message streamed into the macro. -/
structure CasadiException where
  msg : String
deriving DecidableEq

/-- Modelled from the spec: the `casadi_error` macro (its definition is not part
of the sources at hand) aborts the running operation with an exception that
carries the streamed message. -/
def casadi_error {β : Type} (msg : String) : Except CasadiException β :=
  Except.error ⟨msg⟩

/-- Effect of `std::copy(src, src+n, dst)` on the destination buffer: its first
`n` cells are replaced by the first `n` cells of `src` (both buffers are
expected to hold at least `n` cells). -/
def copy {T : Type} (src : List T) (n : Nat) (dst : List T) : List T :=
  src.take n ++ dst.drop n

/-- Effect of `std::copy(src+first, src+last, dst)` on the destination. -/
def copyRange {T : Type} (src : List T) (first last : Nat) (dst : List T) : List T :=
  (src.drop first).take (last - first) ++ dst.drop (last - first)

/-- Sparsity pattern in compressed-column form (spec section 3): `colind` has
`ncol+1` entries, `row` lists the row index of every structural nonzero in
column-major order. -/
structure Sparsity where
  nrow : Nat
  ncol : Nat
  colind : List Nat
  row : List Nat
deriving DecidableEq

namespace Sparsity

/-- Modelled from the spec: `nnz()`, the number of structural nonzeros, which
is the number of stored row indices. -/
def nnz (sp : Sparsity) : Nat := sp.row.length

/-- Modelled from the spec: `Sparsity::dense(nrow, ncol)`, the pattern in which
every entry is a structural nonzero. -/
def dense (nrow ncol : Nat) : Sparsity :=
  { nrow := nrow, ncol := ncol,
    colind := (List.range (ncol + 1)).map (fun c => c * nrow),
    row := (List.range ncol).flatMap (fun _ => List.range nrow) }

/-- Modelled from the spec: `getCol()`, the column index of every structural
nonzero in storage order; column `c` owns the nonzeros `colind[c]` up to
`colind[c+1]-1`. -/
def getCol (sp : Sparsity) : List Nat :=
  (List.range sp.ncol).flatMap
    (fun c => List.replicate (sp.colind.getD (c + 1) 0 - sp.colind.getD c 0) c)

/-- Storage index, row and column of every structural nonzero. -/
def triplets (sp : Sparsity) : List (Nat × Nat × Nat) :=
  (List.range sp.nnz).zip (sp.row.zip sp.getCol)

/-- Well-formedness of a compressed-column pattern: `colind` starts at 0, is
non-decreasing, has `ncol+1` entries and ends at the number of nonzeros; every
row index is below `nrow`. -/
def WellFormed (sp : Sparsity) : Prop :=
  sp.colind.length = sp.ncol + 1 ∧ sp.colind.getD 0 0 = 0 ∧
  sp.colind.getD sp.ncol 0 = sp.row.length ∧
  List.Pairwise (· ≤ ·) sp.colind ∧ ∀ r ∈ sp.row, r < sp.nrow

end Sparsity

/-! ## Assertion node (`assertion.cpp`) -/

namespace Assertion

/-- Translation of `Assertion::evaluateD`. `input0` is the buffer `input[0]`,
`input1_0` the cell `input[1][0]`, `output0` the buffer `output[0]` before the
call and `dep_nnz` the value of `dep().nnz()`. The result is the content of
`output[0]` after the call, or the raised exception. The value type `T` stands
for `double`: the test `input[1][0]!=1` holds exactly when the cell is not the
value one. -/
def evaluateD {T : Type} [One T] [DecidableEq T] (fail_message : String) (dep_nnz : Nat)
    (input0 : List T) (input1_0 : T) (output0 : List T) : Except CasadiException (List T) :=
  if input1_0 ≠ 1 then
    casadi_error ("Assertion error: " ++ fail_message)
  else
    Except.ok (copy input0 dep_nnz output0)

end Assertion

/-! ## Multiplication node (`multiplication.cpp`) -/

/-- Dependency word of the sparsity propagation (`bvec_t`), combined by
bitwise OR. -/
abbrev bvec_t := Nat

/-- Memory of the sparsity propagation: the buffer stored behind every pointer.
Two pointers denote the same array exactly when they are equal. -/
abbrev BvecMem := Nat → List bvec_t

/-- Store a buffer behind a pointer. -/
def BvecMem.write (m : BvecMem) (p : Nat) (buf : List bvec_t) : BvecMem :=
  fun q => if q = p then buf else m q

namespace Sparsity

/-- Bits contributed to the entry `(i, k)` by every pair of structural nonzeros
`X(i,j)`, `Y(j,k)`: the OR of the words of both factors. -/
def mulBits (x : List bvec_t) (x_sp : Sparsity) (y : List bvec_t) (y_sp : Sparsity)
    (i k : Nat) : bvec_t :=
  (y_sp.triplets.filter (fun ty => ty.2.2 == k)).foldl
    (fun acc ty =>
      (x_sp.triplets.filter (fun tx => tx.2.1 == i && tx.2.2 == ty.2.1)).foldl
        (fun acc2 tx => acc2 ||| (x.getD tx.1 0 ||| y.getD ty.1 0)) acc)
    0

/-- Modelled from the spec: `Sparsity::mul_sparsityF` (declared in `sparsity.hpp`,
not part of the sources at hand) is the forward bit-vector propagation of
`z += x*y`: every structural nonzero of `z` is OR-ed with the bits of every
pair `X(i,j)`, `Y(j,k)` landing on it. The result is the new content of the
buffer `z`. -/
def mul_sparsityF (x : List bvec_t) (x_sp : Sparsity) (y : List bvec_t) (y_sp : Sparsity)
    (z : List bvec_t) (z_sp : Sparsity) : List bvec_t :=
  z_sp.triplets.map (fun tz => z.getD tz.1 0 ||| mulBits x x_sp y y_sp tz.2.1 tz.2.2)

end Sparsity

/-- The data of a `Multiplication` node used by the sparsity propagation: the
patterns of the three dependencies `z`, `x`, `y`; the pattern of the node is
the one of `z` (constructor: `setSparsity(z.sparsity())`). -/
structure Multiplication where
  dep0 : Sparsity
  dep1 : Sparsity
  dep2 : Sparsity
deriving DecidableEq

namespace Multiplication

/-- Pattern of the node, set by the constructor to the pattern of `z`. -/
def sparsity (node : Multiplication) : Sparsity := node.dep0

/-- Number of nonzeros of the node. -/
def nnz (node : Multiplication) : Nat := node.sparsity.nnz

/-- Translation of the forward branch (`fwd == true`) of
`Multiplication::propagateSparsity`. `input` holds the three pointers
`input[0..2]`, `output0` is the pointer `output[0]`. -/
def propagateSparsityFwd (node : Multiplication) (input : Nat × Nat × Nat) (output0 : Nat)
    (mem : BvecMem) : BvecMem :=
  let zd := input.1
  let rd := output0
  let n := node.nnz
  let mem1 := if zd ≠ rd then mem.write rd (copy (mem zd) n (mem rd)) else mem
  mem1.write input.1
    (Sparsity.mul_sparsityF (mem1 input.2.1) node.dep1 (mem1 input.2.2) node.dep2
      (mem1 input.1) node.dep0)

/-- The claimed content of the output buffer after forward propagation: the
words of `z0` OR-ed with the bits of every pair of `x` and `y` landing on the
same nonzero. -/
def expectedFwd (node : Multiplication) (z0 x y : List bvec_t) : List bvec_t :=
  node.sparsity.triplets.map
    (fun tz => z0.getD tz.1 0 ||| Sparsity.mulBits x node.dep1 y node.dep2 tz.2.1 tz.2.2)

end Multiplication

/-! ## Split nodes (`split.cpp`) -/

namespace Sparsity

/-- Pattern of the columns `c1` up to `c2-1` of a pattern. -/
def columnBlock (sp : Sparsity) (c1 c2 : Nat) : Sparsity :=
  let k1 := sp.colind.getD c1 0
  let k2 := sp.colind.getD c2 0
  { nrow := sp.nrow, ncol := c2 - c1,
    colind := (List.range (c2 - c1 + 1)).map (fun c => sp.colind.getD (c1 + c) 0 - k1),
    row := (sp.row.drop k1).take (k2 - k1) }

/-- Modelled from the spec: `horzsplit(sp, offset)` (declared in
`sparsity_tools.hpp`, defined outside the sources at hand) splits a pattern
horizontally: output `i` is the pattern of the columns `offset[i]` up to
`offset[i+1]-1`. -/
def horzsplit (sp : Sparsity) (output_offset : List Nat) : List Sparsity :=
  (List.range (output_offset.length - 1)).map
    (fun i => sp.columnBlock (output_offset.getD i 0) (output_offset.getD (i + 1) 0))

/-- Pattern of the rows `r1` up to `r2-1` of a pattern, its nonzeros kept in
column-major order. -/
def rowBlock (sp : Sparsity) (r1 r2 : Nat) : Sparsity :=
  { nrow := r2 - r1, ncol := sp.ncol,
    colind := (List.range (sp.ncol + 1)).map (fun c =>
      ((sp.row.zip sp.getCol).filter
        (fun t => decide (r1 ≤ t.1) && decide (t.1 < r2) && decide (t.2 < c))).length),
    row := (sp.row.filter (fun r => decide (r1 ≤ r) && decide (r < r2))).map (fun r => r - r1) }

/-- Modelled from the spec: `vertsplit(sp, offset)` (declared in
`sparsity_tools.hpp`, defined outside the sources at hand) splits a pattern
vertically: output `i` is the pattern of the rows `offset[i]` up to
`offset[i+1]-1`, its nonzeros in column-major order. -/
def vertsplit (sp : Sparsity) (output_offset : List Nat) : List Sparsity :=
  (List.range (output_offset.length - 1)).map
    (fun i => sp.rowBlock (output_offset.getD i 0) (output_offset.getD (i + 1) 0))

end Sparsity

/-- State of a `Split` node: the nonzero offsets `offset_` and the patterns of
the outputs `output_sparsity_`. -/
structure Split where
  offset_ : List Nat
  output_sparsity_ : List Sparsity
deriving DecidableEq

namespace Split

/-- Number of outputs of the node. -/
def nout (node : Split) : Nat := node.output_sparsity_.length

/-- The loop shared by the three constructors: `offset_.resize(1)` keeps the
first entry of the offsets (or a single 0 when there is none), then every
output pattern appends `offset_.back() + it->nnz()`. -/
def nzOffsets (offset : List Nat) (output_sparsity : List Sparsity) : List Nat :=
  output_sparsity.foldl (fun off it => off ++ [off.getLastD 0 + it.nnz])
    [offset.headD 0]

/-- Translation of `Split::evalGen`. `input0` is the buffer `input[0]`;
`output` lists the output pointers, `none` being the null pointer and
`some buf` a buffer with content `buf`. The result lists the buffers after the
call. -/
def evalGen {T : Type} (node : Split) (input0 : List T) (output : List (Option (List T))) :
    List (Option (List T)) :=
  let nx := node.offset_.length - 1
  (List.range nx).map (fun i =>
    let nz_first := node.offset_.getD i 0
    let nz_last := node.offset_.getD (i + 1) 0
    match output.getD i none with
    | some buf => some (copyRange input0 nz_first nz_last buf)
    | none => none)

end Split

namespace Horzsplit

/-- Translation of the constructor `Horzsplit::Horzsplit(x, offset)`, `x_sp`
being the pattern of `x`. -/
def mk (x_sp : Sparsity) (offset : List Nat) : Split :=
  let output_sparsity := Sparsity.horzsplit x_sp offset
  { offset_ := Split.nzOffsets offset output_sparsity, output_sparsity_ := output_sparsity }

/-- The nonzeros of the columns `c1` up to `c2-1` of a matrix in
compressed-column form, in their original order: column `c` owns the nonzeros
`colind[c]` up to `colind[c+1]-1`. -/
def columnsNonzeros {T : Type} (x_sp : Sparsity) (x : List T) (c1 c2 : Nat) : List T :=
  (List.range (c2 - c1)).flatMap (fun c =>
    (x.drop (x_sp.colind.getD (c1 + c) 0)).take
      (x_sp.colind.getD (c1 + c + 1) 0 - x_sp.colind.getD (c1 + c) 0))

end Horzsplit

namespace Vertsplit

/-- Translation of the constructor `Vertsplit::Vertsplit(x, offset)`, `x_sp`
being the pattern of `x`. -/
def mk (x_sp : Sparsity) (offset : List Nat) : Split :=
  let output_sparsity := Sparsity.vertsplit x_sp offset
  { offset_ := Split.nzOffsets offset output_sparsity, output_sparsity_ := output_sparsity }

/-- The nonzeros of a matrix in compressed-column form lying in the rows `r1`
up to `r2-1`, in column-major order. -/
def rowsNonzeros {T : Type} (x_sp : Sparsity) (x : List T) (r1 r2 : Nat) : List T :=
  ((x.zip x_sp.row).filter (fun t => decide (r1 ≤ t.2) && decide (t.2 < r2))).map Prod.fst

end Vertsplit

/-- Validity of an offset sequence for a dimension of size `n`: it has a first
entry, which is 0, is non-decreasing and ends at `n`. -/
def ValidOffset (offset : List Nat) (n : Nat) : Prop :=
  offset.headD 1 = 0 ∧ List.Pairwise (· ≤ ·) offset ∧ offset.getLastD 0 = n

/-- Offsets appended after an entry `last` by the constructor loop: the running
sums of the nonzero counts. -/
def Split.runningOffsets : Nat → List Sparsity → List Nat
  | _, [] => []
  | last, it :: rest => (last + it.nnz) :: Split.runningOffsets (last + it.nnz) rest

/-- Number of entries of `rows` below `r`. -/
def countBelow (rows : List Nat) (r : Nat) : Nat :=
  (rows.filter (fun k => decide (k < r))).length

instance (sp : Sparsity) : Decidable sp.WellFormed := by
  unfold Sparsity.WellFormed
  infer_instance

instance (offset : List Nat) (n : Nat) : Decidable (ValidOffset offset n) := by
  unfold ValidOffset
  infer_instance

/-! ### Symbolic concatenation of the outputs of a split node -/

/-- Modelled from the spec: the queries of `MXNode` used by the concatenation
shortcuts (`mx_node.hpp` is not part of the sources at hand). An `MX` handle is
the address of the node it points to; for every address the graph tells whether
the node is an output node (`isOutputNode()`), which output it selects
(`getFunctionOutput()`), the address of its first dependency (`dep().get()`)
and its number of outputs (`nout()`). -/
structure MXGraph where
  isOutputNode : Nat → Bool
  getFunctionOutput : Nat → Int
  dep : Nat → Nat
  nout : Nat → Nat

namespace Split

/-- The content check shared by `getHorzcat`, `getVertcat` and `getDiagcat`:
the loop returns early at the first entry `x[i]` that is not output `i` of the
node `this`; the result is `true` when the loop runs to its end. -/
def checkContent (g : MXGraph) (this : Nat) (x : List Nat) : Bool :=
  (List.range x.length).all (fun i =>
    g.isOutputNode (x.getD i 0) && decide (g.getFunctionOutput (x.getD i 0) = (i : Int))
      && decide (g.dep (x.getD i 0) = this))

/-- The list `x` is the complete list of the outputs of the node `this` in
their original order. -/
def IsOutputList (g : MXGraph) (this : Nat) (x : List Nat) : Prop :=
  x.length = g.nout this ∧
  ∀ i, i < x.length → g.isOutputNode (x.getD i 0) = true ∧
    g.getFunctionOutput (x.getD i 0) = (i : Int) ∧ g.dep (x.getD i 0) = this

end Split

/-- Translation of `Horzsplit::getHorzcat`; `generic` is `MXNode::getHorzcat`. -/
def Horzsplit.getHorzcat (g : MXGraph) (this : Nat) (generic : List Nat → Nat) (x : List Nat) :
    Nat :=
  if x.length ≠ g.nout this then generic x
  else if !Split.checkContent g this x then generic x
  else g.dep this

/-- Translation of `Vertsplit::getVertcat`; `generic` is `MXNode::getVertcat`. -/
def Vertsplit.getVertcat (g : MXGraph) (this : Nat) (generic : List Nat → Nat) (x : List Nat) :
    Nat :=
  if x.length ≠ g.nout this then generic x
  else if !Split.checkContent g this x then generic x
  else g.dep this

/-- Translation of `Diagsplit::getDiagcat`; `generic` is `MXNode::getDiagcat`. -/
def Diagsplit.getDiagcat (g : MXGraph) (this : Nat) (generic : List Nat → Nat) (x : List Nat) :
    Nat :=
  if x.length ≠ g.nout this then generic x
  else if !Split.checkContent g this x then generic x
  else g.dep this

/-! ## Symbolic layer (`MX`) -/

/-- Sparsity pattern seen as a set of positions, the view used by the symbolic
layer: `nz i j` tells whether the entry `(i, j)` is a structural nonzero. -/
structure Pattern where
  size1 : Nat
  size2 : Nat
  nz : Nat → Nat → Bool

/-- Modelled from the spec: `multiplySparsity(A, B)`, the structure of a matrix
product: `(i, k)` is a nonzero iff some `j` has `A(i,j)` and `B(j,k)` nonzero. -/
def Pattern.patternProduct (a b : Pattern) : Pattern :=
  { size1 := a.size1, size2 := b.size2,
    nz := fun i k => (List.range a.size2).any (fun j => a.nz i j && b.nz j k) }

/-- Modelled from the spec: the matrix denoted by an `MX` expression (the class
`MX` is declared in `mx.hpp`, not part of the sources at hand). An expression
is represented by its shape and its entries over a commutative ring `R`; the
entry is `none` at a structural zero. The operations below compute entry by
entry; their operands are expected to have the matching shapes that the node
constructors check. -/
structure MX (R : Type) where
  size1 : Nat
  size2 : Nat
  elem : Nat → Nat → Option R

namespace MX

variable {R : Type}

/-- Modelled from the spec: the empty expression `MX()`, a 0-by-0 matrix. -/
def empty : MX R := { size1 := 0, size2 := 0, elem := fun _ _ => none }

/-- Modelled from the spec: the test `isEmpty(true)`, both dimensions are zero. -/
def isEmpty (x : MX R) : Bool := x.size1 == 0 && x.size2 == 0

/-- Numeric value of the entry `(i, j)`: a structural zero has value 0. -/
def val [Zero R] (x : MX R) (i j : Nat) : R := (x.elem i j).getD 0

/-- Modelled from the spec: the pattern `x.sparsity()`. -/
def sparsity (x : MX R) : Pattern :=
  { size1 := x.size1, size2 := x.size2, nz := fun i j => (x.elem i j).isSome }

/-- Modelled from the spec: the matrix `MX::zeros(sp)`, in which every
structural nonzero of `sp` holds 0. -/
def zeros [Zero R] (sp : Pattern) : MX R :=
  { size1 := sp.size1, size2 := sp.size2, elem := fun i j => if sp.nz i j then some 0 else none }

/-- Modelled from the spec: the transpose `x.T()`. -/
def T (x : MX R) : MX R :=
  { size1 := x.size2, size2 := x.size1, elem := fun i j => x.elem j i }

/-- Modelled from the spec: the negation `-x`. -/
def neg [Neg R] (x : MX R) : MX R :=
  { size1 := x.size1, size2 := x.size2, elem := fun i j => (x.elem i j).map (fun v => -v) }

/-- Modelled from the spec: the sum `a + b` of two matrices of the same shape;
the pattern of the result is the union of the patterns. -/
def add [Add R] (a b : MX R) : MX R :=
  { size1 := a.size1, size2 := a.size2,
    elem := fun i j =>
      match a.elem i j, b.elem i j with
      | none, none => none
      | some u, none => some u
      | none, some v => some v
      | some u, some v => some (u + v) }

/-- Entry `(i, k)` of the matrix product of `x` and `y`. -/
def dot [Zero R] [Add R] [Mul R] (x y : MX R) (i k : Nat) : R :=
  ((List.range x.size2).map (fun j => x.val i j * y.val j k)).sum

/-- Modelled from the spec: the fused product `mul(x, y, z)`, that is `z + x*y`
on the pattern of `z` (the pattern of a multiplication node is the pattern of
`z`). -/
def mul [Zero R] [Add R] [Mul R] (x y z : MX R) : MX R :=
  { size1 := z.size1, size2 := z.size2,
    elem := fun i k => (z.elem i k).map (fun v => v + dot x y i k) }

/-- Modelled from the spec: the product `mul(x, y)`, the fused product
accumulated onto a zero matrix with the pattern of the product. -/
def mul2 [Zero R] [Add R] [Mul R] (x y : MX R) : MX R :=
  mul x y (zeros (x.sparsity.patternProduct y.sparsity))

/-- Modelled from the spec: the update `slot.addToSum(x)` accumulates `x` into
the running sum held by the slot: an empty slot takes the value `x`, any other
slot is incremented by `x`. The result is the new content of the slot. -/
def addToSum [Add R] (slot x : MX R) : MX R :=
  if slot.isEmpty then x else add slot x

/-- Coherence of shape and entries required of the content of a slot: a
0-by-0 matrix has no structural nonzero. -/
def Proper (x : MX R) : Prop := x.isEmpty = true → ∀ i j, x.elem i j = none

/-- The dense matrix with the given entries. -/
def ofMatrix {m n : Nat} (A : Matrix (Fin m) (Fin n) R) : MX R :=
  { size1 := m, size2 := n,
    elem := fun i j => if h : i < m ∧ j < n then some (A ⟨i, h.1⟩ ⟨j, h.2⟩) else none }

/-- The values of the leading `m`-by-`n` block. -/
def toMatrix [Zero R] (x : MX R) (m n : Nat) : Matrix (Fin m) (Fin n) R :=
  fun i j => x.val i j

end MX

/-- The slots addressed by the seed and sensitivity pointers of the derivative
propagation. Two pointers denote the same slot exactly when they are equal. -/
abbrev MXStore (R : Type) := Nat → MX R

/-- Assignment `*p = x`. -/
def MXStore.write {R : Type} (st : MXStore R) (p : Nat) (x : MX R) : MXStore R :=
  fun q => if q = p then x else st q

/-- The call `p->addToSum(x)`. -/
def MXStore.addToSum {R : Type} [Add R] (st : MXStore R) (p : Nat) (x : MX R) : MXStore R :=
  st.write p (MX.addToSum (st p) x)

namespace Multiplication

variable {R : Type}

/-- Translation of `Multiplication::evalFwd`; `dep0`, `dep1`, `dep2` are the
dependencies `z`, `x`, `y` of the node, entry `d` of `fwdSeed` holds the three
seeds `*fwdSeed[d][0..2]`, entry `d` of the result is the value assigned to
`*fwdSens[d][0]`. -/
def evalFwd [Zero R] [Add R] [Mul R] (dep0 dep1 dep2 : MX R)
    (fwdSeed : List (MX R × MX R × MX R)) : List (MX R) :=
  fwdSeed.map (fun seed =>
    MX.add
      (MX.add seed.1 (MX.mul dep1 seed.2.2 (MX.zeros dep0.sparsity)))
      (MX.mul seed.2.1 dep2 (MX.zeros dep0.sparsity)))

/-- Body of the loop of `Multiplication::evalAdj` for one direction: `adjSeed0`
is the pointer `adjSeed[d][0]`, `adjSens` holds the pointers `adjSens[d][0..2]`. -/
def evalAdjDir [Zero R] [Add R] [Mul R] (dep1 dep2 : MX R) (adjSeed0 : Nat)
    (adjSens : Nat × Nat × Nat) (st : MXStore R) : MXStore R :=
  let st1 := st.addToSum adjSens.2.1 (MX.mul (st adjSeed0) dep2.T (MX.zeros dep1.sparsity))
  let st2 := st1.addToSum adjSens.2.2 (MX.mul dep1.T (st1 adjSeed0) (MX.zeros dep2.sparsity))
  if adjSeed0 ≠ adjSens.1 then
    (st2.addToSum adjSens.1 (st2 adjSeed0)).write adjSeed0 MX.empty
  else
    st2

/-- Translation of `Multiplication::evalAdj`: the loop over the directions. -/
def evalAdj [Zero R] [Add R] [Mul R] (dep1 dep2 : MX R) (adjSeed : List Nat)
    (adjSens : List (Nat × Nat × Nat)) (st : MXStore R) : MXStore R :=
  (adjSeed.zip adjSens).foldl (fun s d => evalAdjDir dep1 dep2 d.1 d.2 s) st

end Multiplication

namespace Inverse

variable {R : Type}

/-- Translation of `Inverse::evalFwd`; `inv_X` is the node itself
(`shared_from_this`), entry `d` of `fwdSeed` is `*fwdSeed[d][0]` and entry `d`
of the result is the value assigned to `*fwdSens[d][0]`. -/
def evalFwd [Zero R] [Add R] [Mul R] [Neg R] (inv_X : MX R) (fwdSeed : List (MX R)) :
    List (MX R) :=
  fwdSeed.map (fun seed => MX.neg (MX.mul2 inv_X (MX.mul2 seed inv_X)))

/-- Body of the loop of `Inverse::evalAdj` for one direction: `adjSeed0` is the
pointer `adjSeed[d][0]`, `adjSens0` the pointer `adjSens[d][0]`. -/
def evalAdjDir [Zero R] [Add R] [Mul R] [Neg R] (inv_X : MX R) (adjSeed0 adjSens0 : Nat)
    (st : MXStore R) : MXStore R :=
  let trans_inv_X := inv_X.T
  let st1 := st.addToSum adjSens0
    (MX.neg (MX.mul2 trans_inv_X (MX.mul2 (st adjSeed0) trans_inv_X)))
  st1.write adjSeed0 MX.empty

/-- Translation of `Inverse::evalAdj`: the loop over the directions. -/
def evalAdj [Zero R] [Add R] [Mul R] [Neg R] (inv_X : MX R) (adjSeed adjSens : List Nat)
    (st : MXStore R) : MXStore R :=
  (adjSeed.zip adjSens).foldl (fun s d => evalAdjDir inv_X d.1 d.2 s) st

end Inverse

/-- Frobenius inner product of two matrices of the same shape. -/
def frobenius {R : Type} [CommRing R] {m n : Nat} (A B : Matrix (Fin m) (Fin n) R) : R :=
  ∑ i, ∑ j, A i j * B i j

/-- Forward sensitivity of the multiplication node with dense operands, for the
single direction with seeds `dZ0`, `dX`, `dY`. -/
def Multiplication.denseFwd {R : Type} [CommRing R] {m p n : Nat}
    (Z0 : Matrix (Fin m) (Fin n) R) (X : Matrix (Fin m) (Fin p) R)
    (Y : Matrix (Fin p) (Fin n) R) (dZ0 : Matrix (Fin m) (Fin n) R)
    (dX : Matrix (Fin m) (Fin p) R) (dY : Matrix (Fin p) (Fin n) R) :
    Matrix (Fin m) (Fin n) R :=
  ((Multiplication.evalFwd (MX.ofMatrix Z0) (MX.ofMatrix X) (MX.ofMatrix Y)
    [(MX.ofMatrix dZ0, MX.ofMatrix dX, MX.ofMatrix dY)]).getD 0 MX.empty).toMatrix m n

/-- Initial slots of one adjoint direction: the seed `W` sits in slot 0, every
other slot is empty. -/
def Multiplication.seedStore {R : Type} (W : MX R) : MXStore R :=
  fun q => if q = 0 then W else MX.empty

/-- Slots after one adjoint direction of the multiplication node with dense
operands: the seed `W` sits in slot 0, the adjoint slots 1, 2, 3 of `Z0`, `X`,
`Y` start empty. -/
def Multiplication.denseAdj {R : Type} [CommRing R] {m p n : Nat}
    (X : Matrix (Fin m) (Fin p) R) (Y : Matrix (Fin p) (Fin n) R)
    (W : Matrix (Fin m) (Fin n) R) : MXStore R :=
  Multiplication.evalAdjDir (MX.ofMatrix X) (MX.ofMatrix Y) 0 (1, 2, 3)
    (Multiplication.seedStore (MX.ofMatrix W))

/-! ## Construction of nodes -/

/-- Modelled from the spec: an `MX` argument handed to a node constructor, that
is the address of the node it points to and its sparsity pattern (`mx.hpp` is
not part of the sources at hand). -/
structure MXArg where
  node : Nat
  sparsity : Sparsity
deriving DecidableEq

namespace MXArg

/-- Modelled from the spec: `size1()`, the number of rows. -/
def size1 (x : MXArg) : Nat := x.sparsity.nrow

/-- Modelled from the spec: `size2()`, the number of columns. -/
def size2 (x : MXArg) : Nat := x.sparsity.ncol

/-- Modelled from the spec: `isScalar()`, the matrix is 1-by-1. -/
def isScalar (x : MXArg) : Bool := x.size1 == 1 && x.size2 == 1

end MXArg

/-- The fields of `MXNode` written by a constructor: the dependencies and the
sparsity pattern. -/
structure MXNodeData where
  dep : List MXArg
  sparsity : Sparsity
deriving DecidableEq

namespace MXNodeData

/-- Modelled from the spec: a node before its constructor body runs, without
dependencies and with the empty 0-by-0 pattern. -/
def fresh : MXNodeData := { dep := [], sparsity := { nrow := 0, ncol := 0, colind := [0], row := [] } }

/-- The call `setDependencies(...)`. -/
def setDependencies (node : MXNodeData) (dep : List MXArg) : MXNodeData :=
  { node with dep := dep }

/-- The call `setSparsity(sp)`. -/
def setSparsity (node : MXNodeData) (sp : Sparsity) : MXNodeData :=
  { node with sparsity := sp }

end MXNodeData

/-- Outcome of running a constructor: the fields of the node when the
constructor returned or threw, and the exception thrown, if any. -/
structure Construction where
  node : MXNodeData
  raised : Option CasadiException
deriving DecidableEq

/-- Translation of the constructor `Multiplication::Multiplication(z, x, y)`;
`dimString` is the method `dimString()` used in the message. -/
def Multiplication.mkNode (dimString : MXArg → String) (z x y : MXArg) : Construction :=
  if ¬ (x.size2 = y.size1 ∧ x.size1 = z.size1 ∧ y.size2 = z.size2) then
    { node := MXNodeData.fresh,
      raised := some ⟨"Multiplication::Multiplication: dimension mismatch. Attempting to multiply "
        ++ dimString x ++ " with " ++ dimString y ++ " and add the result to " ++ dimString z⟩ }
  else
    { node := (MXNodeData.fresh.setDependencies [z, x, y]).setSparsity z.sparsity,
      raised := none }

/-- Translation of the constructor `Inverse::Inverse(x)`; `dimString` is the
method `dimString()` used in the message. -/
def Inverse.mkNode (dimString : MXArg → String) (x : MXArg) : Construction :=
  if ¬ (x.size1 = x.size2) then
    { node := MXNodeData.fresh,
      raised := some ⟨"Inverse: matrix must be square, but you supllied " ++ dimString x⟩ }
  else
    { node := (MXNodeData.fresh.setDependencies [x]).setSparsity
        (Sparsity.dense x.size1 x.size2),
      raised := none }

/-- Translation of the constructor `Assertion::Assertion(x, y, fail_message)`;
`dimString` is the method `dimString()` used in the message. The second
component of the result is the member `fail_message_`, set by the initialiser
list before the body runs. -/
def Assertion.mkNode (dimString : MXArg → String) (x y : MXArg) (fail_message : String) :
    Construction × String :=
  if ¬ (y.isScalar = true) then
    ({ node := MXNodeData.fresh,
       raised := some ⟨"Assertion:: assertion expression y must be scalar, but got "
         ++ dimString y⟩ }, fail_message)
  else
    ({ node := (MXNodeData.fresh.setDependencies [x, y]).setSparsity x.sparsity,
       raised := none }, fail_message)

/-- The dense pattern of the given shape: every position is a structural
nonzero, column after column. -/
def Sparsity.IsDense (sp : Sparsity) : Prop :=
  sp.nnz = sp.nrow * sp.ncol ∧
  ∀ r c, r < sp.nrow → c < sp.ncol → (r, c) ∈ sp.row.zip sp.getCol

/-! ## Unary nodes (`unary_mx.cpp`) -/

/-- Operation codes (`Operation`, declared in `casadi_calculus.hpp`, which is
not part of the sources at hand): the codes named in `unary_mx.cpp` and a
constructor for every other code. -/
inductive Operation where
  | OP_NEG
  | OP_SQ
  | OP_FABS
  | OP_COS
  | OP_SIN
  | OP_SQRT
  | OP_EXP
  | OP_LOG
  | OP_INV
  | OP_TWICE
  | OP_ADD
  | OP_SUB
  | OP_MUL
  | OP_DIV
  | OP_OTHER (code : Nat)
deriving DecidableEq

/-- Expression graph seen from a unary node: a `UnaryMX` node with its
operation `op_` and its dependency, a binary node with its two dependencies, or
a node of any other class, identified by a number. -/
inductive MXTerm where
  | leaf (id : Nat)
  | unary (op_ : Operation) (dep : MXTerm)
  | binary (op_ : Operation) (x y : MXTerm)
deriving DecidableEq

namespace MXTerm

/-- Virtual call `x->getUnary(op)`. On a `UnaryMX` node it runs the translation
of `UnaryMX::getUnary`; `base this op` stands for `MXNode::getUnary(op)` called
on the node `this` (defined outside the sources at hand), which is also what a
node of another class answers. `simplification_on_the_fly` is the option
`CasadiOptions::simplification_on_the_fly`. -/
def getUnary (simplification_on_the_fly : Bool) (base : MXTerm → Operation → MXTerm) :
    MXTerm → Operation → MXTerm
  | unary op_ dep, op =>
    if !simplification_on_the_fly then base (unary op_ dep) op
    else
      match op_ with
      | Operation.OP_NEG =>
        if op = Operation.OP_NEG then dep
        else if op = Operation.OP_SQ then
          getUnary simplification_on_the_fly base dep Operation.OP_SQ
        else if op = Operation.OP_FABS then
          getUnary simplification_on_the_fly base dep Operation.OP_FABS
        else if op = Operation.OP_COS then
          getUnary simplification_on_the_fly base dep Operation.OP_COS
        else base (unary op_ dep) op
      | Operation.OP_SQRT =>
        if op = Operation.OP_SQ then dep
        else if op = Operation.OP_FABS then unary op_ dep
        else base (unary op_ dep) op
      | Operation.OP_SQ =>
        if op = Operation.OP_SQRT then
          getUnary simplification_on_the_fly base dep Operation.OP_FABS
        else if op = Operation.OP_FABS then unary op_ dep
        else base (unary op_ dep) op
      | Operation.OP_EXP =>
        if op = Operation.OP_LOG then dep
        else if op = Operation.OP_FABS then unary op_ dep
        else base (unary op_ dep) op
      | Operation.OP_LOG =>
        if op = Operation.OP_EXP then dep
        else base (unary op_ dep) op
      | Operation.OP_FABS =>
        if op = Operation.OP_FABS then unary op_ dep
        else if op = Operation.OP_SQ then
          getUnary simplification_on_the_fly base dep Operation.OP_SQ
        else if op = Operation.OP_COS then
          getUnary simplification_on_the_fly base dep Operation.OP_COS
        else base (unary op_ dep) op
      | Operation.OP_INV =>
        if op = Operation.OP_INV then dep
        else base (unary op_ dep) op
      | _ => base (unary op_ dep) op
  | t, op => base t op

/-- Modelled from the spec: the default `MXNode::getUnary(op)` creates a new
unary node applying `op` to the node. -/
def newUnary (this : MXTerm) (op : Operation) : MXTerm := unary op this

end MXTerm

/-! ## Derivative rules of the unary and assertion nodes -/

/-- Modelled from the spec: the elementwise product `a*b` of two matrices of the
same shape; an entry is a structural nonzero where both factors have one. -/
def MX.times {R : Type} [Mul R] (a b : MX R) : MX R :=
  { size1 := a.size1, size2 := a.size2,
    elem := fun i j =>
      match a.elem i j, b.elem i j with
      | some u, some v => some (u * v)
      | _, _ => none }

namespace UnaryMX

variable {R : Type}

/-- Translation of `UnaryMX::evalFwd`. `der` is `casadi_math<MX>::der` (the
per-operation table of `casadi_calculus.hpp`, not part of the sources at hand),
called with the operation, the dependency, the dummy second argument `MX()` and
the node itself; it returns `pd[0]` and `pd[1]`. Entry `d` of `fwdSeed` is
`*fwdSeed[d][0]`, entry `d` of the result the value assigned to
`*fwdSens[d][0]`. -/
def evalFwd [Mul R] (der : Operation → MX R → MX R → MX R → MX R × MX R) (op_ : Operation)
    (dep this : MX R) (fwdSeed : List (MX R)) : List (MX R) :=
  let dummy : MX R := MX.empty
  let pd := der op_ dep dummy this
  fwdSeed.map (fun seed => MX.times pd.1 seed)

/-- Body of the loop of `UnaryMX::evalAdj` for one direction, `pd0` being
`pd[0]`: the seed is read, its slot is cleared, then the product is added to the
adjoint slot. -/
def evalAdjDir [Add R] [Mul R] (pd0 : MX R) (adjSeed0 adjSens0 : Nat) (st : MXStore R) :
    MXStore R :=
  let s := st adjSeed0
  let st1 := st.write adjSeed0 MX.empty
  st1.addToSum adjSens0 (MX.times pd0 s)

/-- Translation of `UnaryMX::evalAdj`: the partial derivative is obtained once,
then the loop runs over the directions. -/
def evalAdj [Add R] [Mul R] (der : Operation → MX R → MX R → MX R → MX R × MX R)
    (op_ : Operation) (dep this : MX R) (adjSeed adjSens : List Nat) (st : MXStore R) :
    MXStore R :=
  let dummy : MX R := MX.empty
  let pd := der op_ dep dummy this
  (adjSeed.zip adjSens).foldl (fun s d => evalAdjDir pd.1 d.1 d.2 s) st

end UnaryMX

namespace Assertion

variable {R : Type}

/-- Translation of `Assertion::evalFwd`: entry `d` of `fwdSeed` holds the seeds
`*fwdSeed[d][0]` of the value and `*fwdSeed[d][1]` of the condition, entry `d`
of the result is the value assigned to `*fwdSens[d][0]`. -/
def evalFwd (fwdSeed : List (MX R × MX R)) : List (MX R) :=
  fwdSeed.map (fun seed => seed.1)

/-- Body of the loop of `Assertion::evalAdj` for one direction: `adjSeed0` is
the pointer `adjSeed[d][0]`, `adjSens` holds the pointers `adjSens[d][0]` (value)
and `adjSens[d][1]` (condition). -/
def evalAdjDir [Add R] (adjSeed0 : Nat) (adjSens : Nat × Nat) (st : MXStore R) : MXStore R :=
  (st.addToSum adjSens.1 (st adjSeed0)).write adjSeed0 MX.empty

/-- Translation of `Assertion::evalAdj`: the loop over the directions. -/
def evalAdj [Add R] (adjSeed : List Nat) (adjSens : List (Nat × Nat)) (st : MXStore R) :
    MXStore R :=
  (adjSeed.zip adjSens).foldl (fun s d => evalAdjDir d.1 d.2 s) st

end Assertion

namespace Diagsplit

/-- The position `t = (row, column)` lies in the diagonal block `i` delimited by
the row offsets `offset1` and the column offsets `offset2`. -/
def inBlock (offset1 offset2 : List Nat) (i : Nat) (t : Nat × Nat) : Bool :=
  decide (offset1.getD i 0 ≤ t.1) && decide (t.1 < offset1.getD (i + 1) 0)
    && decide (offset2.getD i 0 ≤ t.2) && decide (t.2 < offset2.getD (i + 1) 0)

end Diagsplit

namespace Sparsity

/-- Pattern of the diagonal block `i`: the structural nonzeros lying in its rows
and columns, kept in column-major order. -/
def diagBlock (sp : Sparsity) (offset1 offset2 : List Nat) (i : Nat) : Sparsity :=
  { nrow := offset1.getD (i + 1) 0 - offset1.getD i 0,
    ncol := offset2.getD (i + 1) 0 - offset2.getD i 0,
    colind := (List.range (offset2.getD (i + 1) 0 - offset2.getD i 0 + 1)).map (fun c =>
      ((sp.row.zip sp.getCol).filter (fun t =>
        Diagsplit.inBlock offset1 offset2 i t && decide (t.2 < offset2.getD i 0 + c))).length),
    row := ((sp.row.zip sp.getCol).filter (Diagsplit.inBlock offset1 offset2 i)).map
      (fun t => t.1 - offset1.getD i 0) }

/-- Modelled from the spec: `diagsplit(sp, offset1, offset2)` (defined outside
the sources at hand) splits a pattern into its diagonal blocks: output `i` is
the pattern of the rows `offset1[i]` up to `offset1[i+1]-1` and the columns
`offset2[i]` up to `offset2[i+1]-1`. -/
def diagsplit (sp : Sparsity) (offset1 offset2 : List Nat) : List Sparsity :=
  (List.range (offset1.length - 1)).map (fun i => sp.diagBlock offset1 offset2 i)

end Sparsity

/-- Translation of the constructor `Diagsplit::Diagsplit(x, offset1, offset2)`,
`x_sp` being the pattern of `x`: the node, or the exception thrown by the final
assertion. -/
def Diagsplit.mk (x_sp : Sparsity) (offset1 offset2 : List Nat) :
    Except CasadiException Split :=
  let output_sparsity := Sparsity.diagsplit x_sp offset1 offset2
  let offset_ := Split.nzOffsets offset1 output_sparsity
  if ¬ (offset_.getLastD 0 = x_sp.nnz) then
    Except.error
      ⟨"DiagSplit:: the presence of nonzeros outside the diagonal blocks in unsupported."⟩
  else
    Except.ok { offset_ := offset_, output_sparsity_ := output_sparsity }

/-- Every structural nonzero of the pattern lies inside one of the diagonal
blocks delimited by the offsets. -/
def Diagsplit.AllInBlocks (x_sp : Sparsity) (offset1 offset2 : List Nat) : Prop :=
  ∀ t ∈ x_sp.row.zip x_sp.getCol,
    ∃ i, i < offset1.length - 1 ∧ Diagsplit.inBlock offset1 offset2 i t = true

instance (x_sp : Sparsity) (offset1 offset2 : List Nat) :
    Decidable (Diagsplit.AllInBlocks x_sp offset1 offset2) := by
  unfold Diagsplit.AllInBlocks
  infer_instance

/-! ## Reverse mode of the split nodes (`split.cpp`) -/

/-- Modelled from the spec: `shape()`, the pair of the numbers of rows and
columns of a pattern. -/
def Sparsity.shape (sp : Sparsity) : Nat × Nat := (sp.nrow, sp.ncol)

namespace MX

variable {R : Type}

/-- The pair of the numbers of rows and columns of a matrix. -/
def shape (x : MX R) : Nat × Nat := (x.size1, x.size2)

/-- Modelled from the spec: `MX(shape)`, the matrix of the given shape whose
entries are all structural zeros. -/
def sparse (shape : Nat × Nat) : MX R :=
  { size1 := shape.1, size2 := shape.2, elem := fun _ _ => none }

/-- Horizontal concatenation `[a b]` of two matrices with the same number of
rows. -/
def horzcat2 (a b : MX R) : MX R :=
  { size1 := a.size1, size2 := a.size2 + b.size2,
    elem := fun i j => if j < a.size2 then a.elem i j else b.elem i (j - a.size2) }

/-- Modelled from the spec: `horzcat(v)`, the horizontal concatenation of an
ordered sequence of matrices; the empty sequence gives the empty matrix. -/
def horzcat : List (MX R) → MX R
  | [] => MX.empty
  | a :: rest => rest.foldl horzcat2 a

/-- Vertical concatenation `[a; b]` of two matrices with the same number of
columns. -/
def vertcat2 (a b : MX R) : MX R :=
  { size1 := a.size1 + b.size1, size2 := a.size2,
    elem := fun i j => if i < a.size1 then a.elem i j else b.elem (i - a.size1) j }

/-- Modelled from the spec: `vertcat(v)`, the vertical concatenation of an
ordered sequence of matrices; the empty sequence gives the empty matrix. -/
def vertcat : List (MX R) → MX R
  | [] => MX.empty
  | a :: rest => rest.foldl vertcat2 a

/-- Block-diagonal concatenation of two matrices. -/
def diagcat2 (a b : MX R) : MX R :=
  { size1 := a.size1 + b.size1, size2 := a.size2 + b.size2,
    elem := fun i j =>
      if i < a.size1 then (if j < a.size2 then a.elem i j else none)
      else (if j < a.size2 then none else b.elem (i - a.size1) (j - a.size2)) }

/-- Modelled from the spec: `diagcat(v)` (`blkdiag`), the block-diagonal
concatenation of an ordered sequence of matrices. -/
def diagcat (v : List (MX R)) : MX R := v.foldl diagcat2 MX.empty

end MX

namespace Split

variable {R : Type}

/-- The inner loop of `evalAdj` over the outputs of one direction: for every
output `i` the vector `v` receives the seed `*x_i`, whose slot is then cleared,
or, when the pointer `x_i` is null (`none`), the matrix
`MX(output_sparsity_[i].shape())`. The result is `v` and the slots. -/
def collectSeeds (node : Split) (adjSeed : List (Option Nat)) (nx : Nat) (st : MXStore R) :
    List (MX R) × MXStore R :=
  (List.range nx).foldl
    (fun acc i =>
      match adjSeed.getD i none with
      | some x_i => (acc.1 ++ [acc.2 x_i], acc.2.write x_i MX.empty)
      | none =>
        (acc.1 ++ [MX.sparse ((node.output_sparsity_.map Sparsity.shape).getD i (0, 0))], acc.2))
    ([], st)

/-- Body of the loop over the directions shared by `Horzsplit::evalAdj`,
`Vertsplit::evalAdj` and `Diagsplit::evalAdj`, which differ in the
concatenation `cat` only: `adjSeed` lists the pointers `adjSeed[d][i]`,
`adjSens0` is the pointer `adjSens[d][0]`, `none` being the null pointer. -/
def evalAdjDir [Add R] (cat : List (MX R) → MX R) (node : Split) (adjSeed : List (Option Nat))
    (adjSens0 : Option Nat) (st : MXStore R) : MXStore R :=
  let nx := node.offset_.length - 1
  match adjSens0 with
  | some p =>
    let r := collectSeeds node adjSeed nx st
    r.2.addToSum p (cat r.1)
  | none => st

/-- One matrix per output slot: the seed held by the slot when the slot is
present, the all-structurally-zero matrix of the shape of the output when it is
absent. -/
def seedMatrices (node : Split) (adjSeed : List (Option Nat)) (st : MXStore R) : List (MX R) :=
  (List.range (node.offset_.length - 1)).map (fun i =>
    match adjSeed.getD i none with
    | some x_i => st x_i
    | none => MX.sparse ((node.output_sparsity_.map Sparsity.shape).getD i (0, 0)))

end Split

/-- Translation of the loop body of `Horzsplit::evalAdj`. -/
def Horzsplit.evalAdjDir {R : Type} [Add R] (node : Split) (adjSeed : List (Option Nat))
    (adjSens0 : Option Nat) (st : MXStore R) : MXStore R :=
  Split.evalAdjDir MX.horzcat node adjSeed adjSens0 st

/-- Translation of the loop body of `Vertsplit::evalAdj`. -/
def Vertsplit.evalAdjDir {R : Type} [Add R] (node : Split) (adjSeed : List (Option Nat))
    (adjSens0 : Option Nat) (st : MXStore R) : MXStore R :=
  Split.evalAdjDir MX.vertcat node adjSeed adjSens0 st

/-- Translation of the loop body of `Diagsplit::evalAdj`. -/
def Diagsplit.evalAdjDir {R : Type} [Add R] (node : Split) (adjSeed : List (Option Nat))
    (adjSens0 : Option Nat) (st : MXStore R) : MXStore R :=
  Split.evalAdjDir MX.diagcat node adjSeed adjSens0 st

/-- Translation of `Horzsplit::evalAdj`: the loop over the directions. -/
def Horzsplit.evalAdj {R : Type} [Add R] (node : Split) (adjSeed : List (List (Option Nat)))
    (adjSens : List (Option Nat)) (st : MXStore R) : MXStore R :=
  (adjSeed.zip adjSens).foldl (fun s d => Horzsplit.evalAdjDir node d.1 d.2 s) st

/-- Translation of `Vertsplit::evalAdj`: the loop over the directions. -/
def Vertsplit.evalAdj {R : Type} [Add R] (node : Split) (adjSeed : List (List (Option Nat)))
    (adjSens : List (Option Nat)) (st : MXStore R) : MXStore R :=
  (adjSeed.zip adjSens).foldl (fun s d => Vertsplit.evalAdjDir node d.1 d.2 s) st

/-- Translation of `Diagsplit::evalAdj`: the loop over the directions. -/
def Diagsplit.evalAdj {R : Type} [Add R] (node : Split) (adjSeed : List (List (Option Nat)))
    (adjSens : List (Option Nat)) (st : MXStore R) : MXStore R :=
  (adjSeed.zip adjSens).foldl (fun s d => Diagsplit.evalAdjDir node d.1 d.2 s) st

/-! ## Binary requests on unary nodes (`unary_mx.cpp`) -/

namespace MXTerm

/-- Modelled from the spec: `getOp()`, the operation code of a node
(`mx_node.hpp` is not part of the sources at hand). A unary or binary node
answers its `op_`; a node of another class answers a code outside the ones
named in `unary_mx.cpp`. -/
def getOp : MXTerm → Operation
  | leaf id => Operation.OP_OTHER id
  | unary op_ _ => op_
  | binary op_ _ _ => op_

/-- Modelled from the spec: `dep()`, the first dependency of a node; a node
without dependencies is left as it is. -/
def dep : MXTerm → MXTerm
  | leaf id => leaf id
  | unary _ d => d
  | binary _ x _ => x

/-- Virtual call `x->getBinary(op, y, scX, scY)`. On a `UnaryMX` node it runs the
translation of `UnaryMX::getBinary`, which does not read
`CasadiOptions::simplification_on_the_fly`; `base this op y scX scY` stands for
`MXNode::getBinary(op, y, scX, scY)` called on the node `this`, which is also
what a node of another class answers. The other parameters are defined outside
the sources at hand: `neg` is `MX::operator-()`, `isEqual a b depth` the
comparison `isEqual(a, b, depth)`, `maxDepth` the value of `maxDepth()` and
`ones y` the matrix `MX::ones(y.sparsity())`. -/
def getBinary (base : MXTerm → Operation → MXTerm → Bool → Bool → MXTerm)
    (neg : MXTerm → MXTerm) (isEqual : MXTerm → MXTerm → Nat → Bool) (maxDepth : Nat)
    (ones : MXTerm → MXTerm) : MXTerm → Operation → MXTerm → Bool → Bool → MXTerm
  | leaf id, op, y, scX, scY => base (leaf id) op y scX scY
  | binary op_ a b, op, y, scX, scY => base (binary op_ a b) op y scX scY
  | unary op_ d, op, y, scX, scY =>
    match op_ with
    | Operation.OP_NEG =>
      if op = Operation.OP_ADD then
        getBinary base neg isEqual maxDepth ones y Operation.OP_SUB d scY scX
      else if op = Operation.OP_MUL then
        neg (getBinary base neg isEqual maxDepth ones d Operation.OP_MUL y scX scY)
      else if op = Operation.OP_DIV then
        neg (getBinary base neg isEqual maxDepth ones d Operation.OP_DIV y scX scY)
      else base (unary op_ d) op y scX scY
    | Operation.OP_TWICE =>
      if op = Operation.OP_SUB ∧ isEqual y d maxDepth = true then d
      else base (unary op_ d) op y scX scY
    | Operation.OP_SQ =>
      if op = Operation.OP_ADD ∧ y.getOp = Operation.OP_SQ then
        if (d.getOp = Operation.OP_SIN ∧ y.dep.getOp = Operation.OP_COS) ∨
            (d.getOp = Operation.OP_COS ∧ y.dep.getOp = Operation.OP_SIN) then
          if isEqual d.dep y.dep.dep maxDepth = true then ones y
          else base (unary op_ d) op y scX scY
        else base (unary op_ d) op y scX scY
      else base (unary op_ d) op y scX scY
    | _ => base (unary op_ d) op y scX scY
termination_by t _ y => sizeOf t + sizeOf y

/-- Modelled from the spec: the default `MXNode::getBinary(op, y, scX, scY)`
creates a new binary node applying `op` to the node and `y`. -/
def newBinary (this : MXTerm) (op : Operation) (y : MXTerm) (_scX _scY : Bool) : MXTerm :=
  binary op this y

/-- Value of an expression: `f op x y` is `casadi_math<T>::fun(op, x, y, f)`, the
table of the operations (`casadi_calculus.hpp` is not part of the sources at
hand); a unary node passes a dummy second argument, as `UnaryMX::evaluateD`
does; `env` gives the value of every other node. -/
def eval {R : Type} (f : Operation → R → R → R) (dummy : R) (env : Nat → R) : MXTerm → R
  | leaf id => env id
  | unary op_ d => f op_ (eval f dummy env d) dummy
  | binary op_ x y => f op_ (eval f dummy env x) (eval f dummy env y)

/-- The table `f` gives the operations named in `unary_mx.cpp` their meaning
over the real numbers. -/
def RealMeaning (f : Operation → ℝ → ℝ → ℝ) : Prop :=
  ∀ x y : ℝ,
    f Operation.OP_NEG x y = -x ∧ f Operation.OP_SQ x y = x * x ∧
    f Operation.OP_FABS x y = |x| ∧ f Operation.OP_COS x y = Real.cos x ∧
    f Operation.OP_SIN x y = Real.sin x ∧ f Operation.OP_SQRT x y = Real.sqrt x ∧
    f Operation.OP_EXP x y = Real.exp x ∧ f Operation.OP_LOG x y = Real.log x ∧
    f Operation.OP_INV x y = 1 / x ∧ f Operation.OP_TWICE x y = 2 * x ∧
    f Operation.OP_ADD x y = x + y ∧ f Operation.OP_SUB x y = x - y ∧
    f Operation.OP_MUL x y = x * y ∧ f Operation.OP_DIV x y = x / y

/-- Every operation of the expression is applied inside its domain: a square
root to a non-negative value, a logarithm to a positive value, an inverse to a
value other than zero and a division to a divisor other than zero. -/
def InDomain (f : Operation → ℝ → ℝ → ℝ) (dummy : ℝ) (env : Nat → ℝ) : MXTerm → Prop
  | leaf _ => True
  | unary op_ d =>
    InDomain f dummy env d ∧ (op_ = Operation.OP_SQRT → 0 ≤ eval f dummy env d) ∧
      (op_ = Operation.OP_LOG → 0 < eval f dummy env d) ∧
      (op_ = Operation.OP_INV → eval f dummy env d ≠ 0)
  | binary op_ x y =>
    InDomain f dummy env x ∧ InDomain f dummy env y ∧
      (op_ = Operation.OP_DIV → eval f dummy env y ≠ 0)

end MXTerm

/-! ## Symbolic optimal control problem (`symbolic_ocp.cpp`) -/

/-- Modelled from the spec: a scalar symbolic expression (`SXElement`, declared
in `sx_element.hpp`): a symbolic primitive with its name, or any other
expression, identified by a number. -/
inductive SXElement where
  | sym (name : String)
  | node (id : Nat)
deriving DecidableEq

namespace SXElement

/-- Modelled from the spec: `isSymbolic()`, whether the expression is a
symbolic primitive. -/
def isSymbolic : SXElement → Bool
  | sym _ => true
  | node _ => false

/-- Modelled from the spec: `getName()`, the name of a symbolic primitive (the
callers test `isSymbolic()` first). -/
def getName : SXElement → String
  | sym name => name
  | node _ => ""

end SXElement

/-- Modelled from the spec: a matrix of scalar expressions (`SX`, that is
`Matrix<SXElement>`, defined outside the sources at hand) with its shape and its
stored entries. -/
structure SX where
  size1 : Nat
  size2 : Nat
  data : List SXElement
deriving DecidableEq

namespace SX

/-- Modelled from the spec: `size()`, the number of stored entries. -/
def size (x : SX) : Nat := x.data.length

/-- Modelled from the spec: `isVector()`, a matrix with a single column. -/
def isVector (x : SX) : Bool := x.size2 == 1

/-- Modelled from the spec: `isSymbolic()`, every entry is a symbolic
primitive. -/
def isSymbolic (x : SX) : Bool := x.data.all SXElement.isSymbolic

/-- Modelled from the spec: `isEmpty()`, a matrix without entries. -/
def isEmpty (x : SX) : Bool := x.size1 * x.size2 == 0

/-- Modelled from the spec: `at(i)`, the checked access to the stored entry `i`,
which raises `std::out_of_range` past the end. -/
def at_ (x : SX) (i : Nat) : Except CasadiException SXElement :=
  match x.data.get? i with
  | some e => Except.ok e
  | none => Except.error ⟨"out_of_range"⟩

end SX

/-- Modelled from the spec: `std::vector<double>::at(i)`, the checked access,
which raises `std::out_of_range` past the end. The type `D` stands for
`double`. -/
def vector_at {D : Type} (v : List D) (i : Nat) : Except CasadiException D :=
  match v.get? i with
  | some e => Except.ok e
  | none => Except.error ⟨"out_of_range"⟩

/-- Modelled from the spec: the attributes of a variable of the problem (class
`Variable`, defined outside the sources at hand) read or written by the
functions below: the expression of its time derivative, its nominal value and
its start value. -/
structure Variable (D : Type) where
  der_ : SXElement
  nominal_ : D
  start_ : D
deriving DecidableEq

/-- State of a `SymbolicOCP` object: the variables by name (`varmap_`), the
implicitly defined states `s` with the equations `dae`, the differential states
`x` with the equations `ode`, the algebraic states `z` with the equations
`alg`, and the dependent variables `y` with their definitions `dep`. -/
structure SymbolicOCP (D : Type) where
  varmap_ : List (String × Variable D)
  s : SX
  dae : SX
  x : SX
  ode : SX
  z : SX
  alg : SX
  y : SX
  dep : SX
deriving DecidableEq

namespace SymbolicOCP

variable {D : Type}

/-- Translation of `SymbolicOCP::variable(name)`: the variable stored under the
name, or the error raised when there is none. -/
def variable_ (ocp : SymbolicOCP D) (name : String) : Except CasadiException (Variable D) :=
  match ocp.varmap_.lookup name with
  | none => casadi_error ("No such variable: \"" ++ name ++ "\".")
  | some v => Except.ok v

/-- Translation of `SymbolicOCP::setStart(name, val)`: `variable(name)->start_ =
val`. -/
def setStartByName (ocp : SymbolicOCP D) (name : String) (val : D) :
    Except CasadiException (SymbolicOCP D) :=
  match ocp.variable_ name with
  | Except.error e => Except.error e
  | Except.ok _ =>
    Except.ok { ocp with varmap_ := ocp.varmap_.map (fun kv =>
      if kv.1 = name then (kv.1, { kv.2 with start_ := val }) else kv) }

/-- The loop of `SymbolicOCP::setStart(var, val)` over the indices still to be
visited. The result is the state of the object when the loop stops and the
exception that stopped it, if any. -/
def setStartLoop (var : SX) (val : List D) :
    List Nat → SymbolicOCP D → SymbolicOCP D × Option CasadiException
  | [], ocp => (ocp, none)
  | i :: rest, ocp =>
    match var.at_ i with
    | Except.error e => (ocp, some e)
    | Except.ok el =>
      match vector_at val i with
      | Except.error e => (ocp, some e)
      | Except.ok v =>
        match ocp.setStartByName el.getName v with
        | Except.error e => (ocp, some e)
        | Except.ok ocp1 => setStartLoop var val rest ocp1

/-- Translation of `SymbolicOCP::setStart(var, val)`. The second assertion
compares `var.size()` with `var.size()`; the loop runs over the indices of
`val`. The result is the state of the object after the call and the exception
raised, if any. -/
def setStart (ocp : SymbolicOCP D) (var : SX) (val : List D) :
    SymbolicOCP D × Option CasadiException :=
  if ¬ (var.isVector = true ∧ var.isSymbolic = true) then
    (ocp, some ⟨"SymbolicOCP::setStart: Argument must be a symbolic vector"⟩)
  else if ¬ (var.size = var.size) then
    (ocp, some ⟨"SymbolicOCP::setStart: Dimension mismatch"⟩)
  else
    setStartLoop var val (List.range val.length) ocp

/-- Translation of `SymbolicOCP::start(name, nominal)` for `nominal = false`:
the start value of the variable. -/
def start (ocp : SymbolicOCP D) (name : String) : Except CasadiException D :=
  match ocp.variable_ name with
  | Except.error e => Except.error e
  | Except.ok v => Except.ok v.start_

end SymbolicOCP

/-! ## Implicit Runge-Kutta integrator (`irk_integrator_internal.cpp`) -/

namespace IRKIntegratorInternal

/-- Expressions allocated for one finite element by the layout loop of `init`,
with the running `offset`. An expression `V[range(first, last)]` is represented
by the pair `(first, last)`. -/
structure Row where
  offset : Nat
  X : List (Nat × Nat)
  RX : List (Nat × Nat)
  Z : List (Nat × Nat)
  RZ : List (Nat × Nat)
deriving DecidableEq

/-- Body of the loop over the time points `j` of `init`: `X[k][j]`, `RX[k][j]`
and, for `j > 0`, `Z[k][j-1]` and `RZ[k][j-1]` take the next ranges of `V`. -/
def initTimePoint (nx_ nrx_ nz_ nrz_ : Nat) (st : Row) (j : Nat) : Row :=
  let X_kj := (st.offset, st.offset + nx_)
  let offset1 := st.offset + nx_
  let RX_kj := (offset1, offset1 + nrx_)
  let offset2 := offset1 + nrx_
  if j > 0 then
    let Z_kj := (offset2, offset2 + nz_)
    let offset3 := offset2 + nz_
    let RZ_kj := (offset3, offset3 + nrz_)
    let offset4 := offset3 + nrz_
    { offset := offset4, X := st.X ++ [X_kj], RX := st.RX ++ [RX_kj], Z := st.Z ++ [Z_kj],
      RZ := st.RZ ++ [RZ_kj] }
  else
    { offset := offset2, X := st.X ++ [X_kj], RX := st.RX ++ [RX_kj], Z := st.Z, RZ := st.RZ }

/-- Result of the layout loop of `init`: the final `offset`, the ranges of the
collocated states `X[k][j]`, `RX[k][j]`, of the algebraic variables `Z[k][j]`,
`RZ[k][j]`, and the sizes `coll_time_[k].size()`. -/
structure Layout where
  offset : Nat
  X : List (List (Nat × Nat))
  RX : List (List (Nat × Nat))
  Z : List (List (Nat × Nat))
  RZ : List (List (Nat × Nat))
  coll_time_size : List Nat
deriving DecidableEq

/-- Body of the loop over the finite elements `k` of `init`. -/
def initElement (nk_ deg nx_ nrx_ nz_ nrz_ : Nat) (L : Layout) (k : Nat) : Layout :=
  let nj := if k = nk_ then 1 else deg + 1
  let row := (List.range nj).foldl (initTimePoint nx_ nrx_ nz_ nrz_)
    { offset := L.offset, X := [], RX := [], Z := [], RZ := [] }
  { offset := row.offset, X := L.X ++ [row.X], RX := L.RX ++ [row.RX],
    Z := if k ≠ nk_ then L.Z ++ [row.Z] else L.Z,
    RZ := if k ≠ nk_ then L.RZ ++ [row.RZ] else L.RZ,
    coll_time_size := L.coll_time_size ++ [nj] }

/-- Length of the vector of unknowns `V` declared by `init`: `nX+nZ`. -/
def V_size (nk_ deg nx_ nrx_ nz_ nrz_ : Nat) : Nat :=
  (nk_ * (deg + 1) + 1) * (nx_ + nrx_) + nk_ * deg * (nz_ + nrz_)

/-- Translation of the layout part of `IRKIntegratorInternal::init`: the loop
over the finite elements followed by the check `offset==V.size()`. -/
def init (nk_ deg nx_ nrx_ nz_ nrz_ : Nat) : Except CasadiException Layout :=
  let L := (List.range (nk_ + 1)).foldl (initElement nk_ deg nx_ nrx_ nz_ nrz_)
    { offset := 0, X := [], RX := [], Z := [], RZ := [], coll_time_size := [] }
  if ¬ (L.offset = V_size nk_ deg nx_ nrx_ nz_ nrz_) then
    casadi_error "Assertion offset==V.size() failed"
  else Except.ok L

/-- Positions of the vector `v` written for one finite element by the
initial-guess loop of `reset`, with the running position `offs`. -/
structure GuessRow where
  offs : Nat
  X : List (Nat × Nat)
  Z : List (Nat × Nat)
  RX : List (Nat × Nat)
deriving DecidableEq

/-- Body of the loop over the time points `j` of `reset`: the differential
state is written at the next `nx_` positions; for `j > 0` the next `nz_`
positions are written with `init_z` (when `write_z` holds) or skipped; the
backward state is written at the next `nrx_` positions; for `j > 0` the next
`nrz_` positions are skipped. -/
def resetTimePoint (nx_ nrx_ nz_ nrz_ : Nat) (write_z : Bool) (st : GuessRow) (j : Nat) :
    GuessRow :=
  let x_w := (st.offs, st.offs + nx_)
  let offs1 := st.offs + nx_
  let z_w := if j > 0 ∧ write_z = true then [(offs1, offs1 + nz_)] else []
  let offs2 := if j > 0 then offs1 + nz_ else offs1
  let rx_w := (offs2, offs2 + nrx_)
  let offs3 := offs2 + nrx_
  let offs4 := if j > 0 then offs3 + nrz_ else offs3
  { offs := offs4, X := st.X ++ [x_w], Z := st.Z ++ z_w, RX := st.RX ++ [rx_w] }

/-- Result of the initial-guess loop of `reset`: the final position `offs` and,
for every time point, the positions written with the guess of the differential
state and of the backward state. -/
structure Guess where
  offs : Nat
  X : List (List (Nat × Nat))
  Z : List (List (Nat × Nat))
  RX : List (List (Nat × Nat))
deriving DecidableEq

/-- Body of the loop over `k` of `reset`; `nj` is `coll_time_[k].size()`. -/
def resetElement (nx_ nrx_ nz_ nrz_ : Nat) (write_z : Bool) (G : Guess) (nj : Nat) : Guess :=
  let row := (List.range nj).foldl (resetTimePoint nx_ nrx_ nz_ nrz_ write_z)
    { offs := G.offs, X := [], Z := [], RX := [] }
  { offs := row.offs, X := G.X ++ [row.X], Z := G.Z ++ [row.Z], RX := G.RX ++ [row.RX] }

/-- Translation of the initial-guess loop of `IRKIntegratorInternal::reset`,
run over the sizes of `coll_time_` left by `init`. `write_z` tells whether a
startup integrator with the option `init_z` is present. -/
def reset (nx_ nrx_ nz_ nrz_ : Nat) (write_z : Bool) (coll_time_size : List Nat) : Guess :=
  coll_time_size.foldl (resetElement nx_ nrx_ nz_ nrz_ write_z)
    { offs := 0, X := [], Z := [], RX := [] }

end IRKIntegratorInternal

/-! ## Sparsity propagation of the split nodes (`split.cpp`) -/

namespace Split

/-- Modelled from the spec: `sparsity(i)`, the pattern of output `i` of the
node, which is `output_sparsity_[i]` (the accessor is declared outside the
sources at hand); past the last output the empty pattern stands in. -/
def sparsity (node : Split) (i : Nat) : Sparsity :=
  node.output_sparsity_.getD i { nrow := 0, ncol := 0, colind := [0], row := [] }

/-- Translation of `Split::spFwd`. `arg0` is the array `arg[0]`; `res` lists the
output pointers, `none` being the null pointer and `some buf` an array with
content `buf`. For every output present, `sparsity(i).nnz()` words are copied
from `arg[0] + offset_[i]` to the start of the output. The result lists the
output arrays after the call. -/
def spFwd (node : Split) (arg0 : List bvec_t) (res : List (Option (List bvec_t))) :
    List (Option (List bvec_t)) :=
  let nx := node.offset_.length - 1
  (List.range nx).map (fun i =>
    match res.getD i none with
    | some buf =>
      let n_i := (node.sparsity i).nnz
      some ((arg0.drop (node.offset_.getD i 0)).take n_i ++ buf.drop n_i)
    | none => none)

/-- The inner loop of `Split::spAdj` for one output: for `k < n_i` the word
`k` of the output array is OR-ed into the word `first + k` of `arg[0]` and then
cleared. The result is the pair of `arg[0]` and the output array. -/
def spAdjOutput (first n_i : Nat) (arg0 buf : List bvec_t) : List bvec_t × List bvec_t :=
  (List.range n_i).foldl
    (fun st k => (st.1.set (first + k) (st.1.getD (first + k) 0 ||| st.2.getD k 0), st.2.set k 0))
    (arg0, buf)

/-- Body of the loop over the outputs of `Split::spAdj`: an output that is
present runs the inner loop from `arg[0] + offset_[i]` over
`sparsity(i).nnz()` words. The state is the array `arg[0]` and the list of the
output arrays. -/
def spAdjStep (node : Split) (st : List bvec_t × List (Option (List bvec_t))) (i : Nat) :
    List bvec_t × List (Option (List bvec_t)) :=
  match st.2.getD i none with
  | some buf =>
    let p := spAdjOutput (node.offset_.getD i 0) (node.sparsity i).nnz st.1 buf
    (p.1, st.2.set i (some p.2))
  | none => st

/-- Translation of `Split::spAdj`: the loop over the outputs. The result is the
array `arg[0]` and the output arrays after the call. -/
def spAdj (node : Split) (arg0 : List bvec_t) (res : List (Option (List bvec_t))) :
    List bvec_t × List (Option (List bvec_t)) :=
  let nx := node.offset_.length - 1
  (List.range nx).foldl (spAdjStep node) (arg0, res)

/-- The offset invariant of a split node: `offset_` has one entry more than the
node has outputs, starts at 0, is non-decreasing, and two consecutive entries
differ by the number of nonzeros of the output between them. -/
def OffsetInvariant (node : Split) : Prop :=
  node.offset_.length = node.nout + 1 ∧ node.offset_.getD 0 0 = 0 ∧
  node.offset_.Pairwise (· ≤ ·) ∧
  ∀ i, i < node.nout →
    node.offset_.getD (i + 1) 0 - node.offset_.getD i 0 = (node.sparsity i).nnz

end Split

/-! ## Code generation of the dense multiplication (`multiplication.cpp`) -/

/-- A statement of the code emitted by `DenseMultiplication::generateOperation`:
the loop copying `n` cells from the array `src` to the array `dst`, and the
triple loop of the dense product with its three bounds and the names of its
three arrays. -/
inductive CStmt where
  | copyLoop (n : Nat) (dst src : String)
  | mulLoop (ncol_y nrow_x nrow_y : Nat) (res x y : String)
deriving DecidableEq

/-- Work arrays of the generated code, by cell name. Two names denote the same
array exactly when they are equal. -/
abbrev CellMem (R : Type) := String → List R

/-- Store an array under a cell name. -/
def CellMem.write {R : Type} (m : CellMem R) (name : String) (buf : List R) : CellMem R :=
  fun q => if q = name then buf else m q

/-- Read the cell `idx` of an array; there is no result when the index lies
outside the array. -/
def CellMem.readCell {R : Type} (m : CellMem R) (name : String) (idx : Nat) : Option R :=
  (m name).get? idx

/-- Write the cell `idx` of an array; there is no result when the index lies
outside the array. -/
def CellMem.writeCell {R : Type} (m : CellMem R) (name : String) (idx : Nat) (v : R) :
    Option (CellMem R) :=
  if idx < (m name).length then some (m.write name ((m name).set idx v)) else none

namespace CStmt

/-- The C text of a statement, as written to the stream. -/
def render : CStmt → String
  | copyLoop n dst src =>
    "  for (i=0; i<" ++ toString n ++ "; ++i) " ++ dst ++ "[i]=" ++ src ++ "[i];" ++ "\n"
  | mulLoop ncol_y nrow_x nrow_y res x y =>
    "  for (i=0, rr=" ++ res ++ "; i<" ++ toString ncol_y ++ "; ++i)"
      ++ " for (j=0; j<" ++ toString nrow_x ++ "; ++j, ++rr)"
      ++ " for (k=0, ss=" ++ x ++ "+j, tt=" ++ y ++ "+i*" ++ toString nrow_y ++ "; k<"
      ++ toString nrow_y ++ "; ++k)"
      ++ " *rr += ss[k*" ++ toString nrow_x ++ "]**tt++;" ++ "\n"

variable {R : Type} [Add R] [Mul R]

/-- Body of the loop over `k`: `*rr += ss[k*nrow_x]**tt++`, with `rr` a
position in `res`, `ss` a position in `x` and `tt` a position in `y`. The state
is the memory and the pointer `tt`. -/
def mulBody (nrow_x : Nat) (res x y : String) (rr ss : Nat) (st : CellMem R × Nat) (k : Nat) :
    Option (CellMem R × Nat) :=
  match st.1.readCell res rr, st.1.readCell x (ss + k * nrow_x), st.1.readCell y st.2 with
  | some r, some a, some b =>
    match st.1.writeCell res rr (r + a * b) with
    | some m => some (m, st.2 + 1)
    | none => none
  | _, _, _ => none

/-- Body of the loop over `j`: the loop over `k` started with `ss = x+j` and
`tt = y+i*nrow_y`, followed by `++rr`. The state is the memory and the pointer
`rr`. -/
def mulColumnBody (nrow_x nrow_y : Nat) (res x y : String) (i : Nat) (st : CellMem R × Nat)
    (j : Nat) : Option (CellMem R × Nat) :=
  match (List.range nrow_y).foldlM (mulBody nrow_x res x y st.2 j) (st.1, i * nrow_y) with
  | some p => some (p.1, st.2 + 1)
  | none => none

/-- Execution of a statement on the work arrays. There is no result when a cell
outside an array is read or written. -/
def exec : CStmt → CellMem R → Option (CellMem R)
  | copyLoop n dst src, m =>
    (List.range n).foldlM
      (fun (mem : CellMem R) i =>
        match mem.readCell src i with
        | some v => mem.writeCell dst i v
        | none => none) m
  | mulLoop ncol_y nrow_x nrow_y res x y, m =>
    match (List.range ncol_y).foldlM
        (fun (st : CellMem R × Nat) i =>
          (List.range nrow_x).foldlM (mulColumnBody nrow_x nrow_y res x y i) st) (m, 0) with
    | some p => some p.1
    | none => none

/-- Execution of a sequence of statements. -/
def execAll (stmts : List CStmt) (m : CellMem R) : Option (CellMem R) :=
  stmts.foldlM (fun mem s => s.exec mem) m

end CStmt

namespace DenseMultiplication

/-- Translation of `DenseMultiplication::generateOperation`: the text written to
the stream, or the exception raised by an access `arg.at(i)` past the end.
`nnz` is `this->nnz()`, `nrow_x` is `dep(1).size1()`, `nrow_y` is
`dep(2).size1()` and `ncol_y` is `dep(2).size2()`; `res.front()` is the first
name of `res`. -/
def generateOperation (nnz nrow_x nrow_y ncol_y : Nat) (arg res : List String) :
    Except CasadiException String :=
  match vector_at arg 0 with
  | Except.error e => Except.error e
  | Except.ok arg0 =>
    let inplace := decide (arg0 = res.headD "")
    let copy_text :=
      if !inplace then
        "  for (i=0; i<" ++ toString nnz ++ "; ++i) " ++ res.headD "" ++ "[i]=" ++ arg0
          ++ "[i];" ++ "\n"
      else ""
    match vector_at arg 1 with
    | Except.error e => Except.error e
    | Except.ok arg1 =>
      match vector_at arg 2 with
      | Except.error e => Except.error e
      | Except.ok arg2 =>
        Except.ok (copy_text
          ++ ("  for (i=0, rr=" ++ res.headD "" ++ "; i<" ++ toString ncol_y ++ "; ++i)"
          ++ " for (j=0; j<" ++ toString nrow_x ++ "; ++j, ++rr)"
          ++ " for (k=0, ss=" ++ arg1 ++ "+j, tt=" ++ arg2 ++ "+i*" ++ toString nrow_y ++ "; k<"
          ++ toString nrow_y ++ "; ++k)"
          ++ " *rr += ss[k*" ++ toString nrow_x ++ "]**tt++;" ++ "\n"))

/-- The statements of the text emitted by `generateOperation` for the cell
names `arg0`, `arg1`, `arg2` and `res0`: the copy loop when the result cell is
not the cell of the first argument, then the product loop. -/
def emitted (nnz nrow_x nrow_y ncol_y : Nat) (arg0 arg1 arg2 res0 : String) : List CStmt :=
  (if arg0 = res0 then [] else [CStmt.copyLoop nnz res0 arg0])
    ++ [CStmt.mulLoop ncol_y nrow_x nrow_y res0 arg1 arg2]

end DenseMultiplication

/-! ## Sorting and explicit solution of the implicit equations (`symbolic_ocp.cpp`) -/

/-- Result of `Sparsity::dulmageMendelsohn`: the number of blocks, the row and
column permutations and the block boundaries (the coarse decomposition is not
used by the callers at hand). -/
structure BLT where
  nb : Nat
  rowperm : List Nat
  colperm : List Nat
  rowblock : List Nat
  colblock : List Nat
deriving DecidableEq

/-- The functions of the expression library that `SymbolicOCP::makeExplicit`
calls and that are defined outside the sources at hand; they are taken to
return without raising. `jacSparsity arg res` and `jac arg res` are
`f.jacSparsity()` and `f.jac()` for `f = SXFunction(arg, res)`; `getPerm x p` is
the indexing `x(p)` with a list of indices, `slice x a b` is `x(Slice(a, b))`
and `slice2 x a b c d` is `x(Slice(a, b), Slice(c, d))`; `zeros x` is
`SX::zeros(x.sparsity())`; `substituteInPlace v vdef reverse` returns the new
value of its second argument; `toString` is the text printed by `<<`. -/
structure SXTools where
  jacSparsity : SX → SX → Sparsity
  dulmageMendelsohn : Sparsity → BLT
  getPerm : SX → List Nat → SX
  jac : SX → SX → SX
  slice : SX → Nat → Nat → SX
  slice2 : SX → Nat → Nat → Nat → Nat → SX
  dependsOn : SX → SX → Bool
  substitute : SX → SX → SX → SX
  zeros : SX → SX
  inv : SX → SX
  mul : SX → SX → SX
  neg : SX → SX
  solve : SX → SX → SX
  append : SX → SX → SX
  substituteInPlace : SX → SX → Bool → SX
  toString : SX → String

namespace SymbolicOCP

variable {D : Type}

/-- Translation of `SymbolicOCP::der(var)`: the vector of the time derivatives
of the variables of a symbolic vector. The assertion rejects an argument that is
not a symbolic vector; every entry is replaced by `der(name)`, that is
`variable(name)->der_`, which raises when the name is unknown. -/
def der (ocp : SymbolicOCP D) (var : SX) : Except CasadiException SX :=
  if ¬ (var.isVector = true ∧ var.isSymbolic = true) then
    casadi_error "Assertion var.isVector() && var.isSymbolic() failed"
  else
    match var.data.mapM (fun e =>
        match ocp.variable_ e.getName with
        | Except.error err => Except.error err
        | Except.ok v => Except.ok v.der_) with
    | Except.error err => Except.error err
    | Except.ok ds => Except.ok { size1 := var.size1, size2 := var.size2, data := ds }

/-- Explicit solution of one block, shared by `makeExplicit` and
`eliminateAlgebraic`: the residual `fb_res = substitute(fb, v, zeros)` is the
part of `fb` that does not depend on the unknowns, and the unknowns are
`mul(inv(Jb), -fb_res)` for a block of size at most 3 and `solve(Jb, -fb_res)`
for a larger block. The types are those of the expressions involved. -/
def explicitBlock {E W Z M V : Type} (substitute : E → W → Z → V) (mul : M → V → V)
    (inv : M → M) (solve : M → V → V) (neg : V → V) (bs : Nat) (Jb : M) (fb : E) (v : W)
    (zeros : Z) : V :=
  let fb_res := substitute fb v zeros
  if bs ≤ 3 then mul (inv Jb) (neg fb_res) else solve Jb (neg fb_res)

/-- The sorting step of `makeExplicit`: the block-triangular decomposition of
the Jacobian pattern of the equations with respect to the state derivatives
`ds = der(s)`. -/
def makeExplicitBLT (T : SXTools) (ocp : SymbolicOCP D) (ds : SX) : BLT :=
  T.dulmageMendelsohn (T.jacSparsity ds ocp.dae)

/-- The state of the object after the sorting step of `makeExplicit`: the
equations and the variables are permuted. -/
def makeExplicitSorted (T : SXTools) (ocp : SymbolicOCP D) (ds : SX) : SymbolicOCP D :=
  let blt := makeExplicitBLT T ocp ds
  { ocp with dae := T.getPerm ocp.dae blt.rowperm, s := T.getPerm ocp.s blt.colperm }

/-- Block size `bs` of block `b`; a negative difference and the difference 0
take the same branch of the test `bs <= 3`. -/
def blockSize (blt : BLT) (b : Nat) : Nat :=
  blt.rowblock.getD (b + 1) 0 - blt.rowblock.getD b 0

/-- The variables `xb` of block `b`. -/
def blockVariables (T : SXTools) (ocp : SymbolicOCP D) (blt : BLT) (b : Nat) : SX :=
  T.slice ocp.s (blt.colblock.getD b 0) (blt.colblock.getD (b + 1) 0)

/-- The equations `fb` of block `b`. -/
def blockEquations (T : SXTools) (ocp : SymbolicOCP D) (blt : BLT) (b : Nat) : SX :=
  T.slice ocp.dae (blt.rowblock.getD b 0) (blt.rowblock.getD (b + 1) 0)

/-- The local Jacobian `Jb` of block `b`. -/
def blockJacobian (T : SXTools) (J : SX) (blt : BLT) (b : Nat) : SX :=
  T.slice2 J (blt.rowblock.getD b 0) (blt.rowblock.getD (b + 1) 0)
    (blt.colblock.getD b 0) (blt.colblock.getD (b + 1) 0)

/-- Body of the loop over the blocks of `makeExplicit`; the state of the loop
is `new_ode`. -/
def makeExplicitBlock (T : SXTools) (ocp : SymbolicOCP D) (J : SX) (blt : BLT) (new_ode : SX)
    (b : Nat) : Except CasadiException SX :=
  let bs := blockSize blt b
  let xb := blockVariables T ocp blt b
  let fb := blockEquations T ocp blt b
  let Jb := blockJacobian T J blt b
  match ocp.der xb with
  | Except.error e => Except.error e
  | Except.ok dxb =>
    if T.dependsOn Jb dxb = true then
      casadi_error ("Cannot find an explicit expression for variable(s) " ++ T.toString xb)
    else
      Except.ok (T.append new_ode
        (explicitBlock T.substitute T.mul T.inv T.solve T.neg bs Jb fb dxb (T.zeros xb)))

/-- Translation of `SymbolicOCP::makeExplicit`. The result is the state of the
object after the call, or the exception raised. -/
def makeExplicit (T : SXTools) (ocp : SymbolicOCP D) : Except CasadiException (SymbolicOCP D) :=
  if ocp.s.isEmpty = true then Except.ok ocp
  else
    match ocp.der ocp.s with
    | Except.error e => Except.error e
    | Except.ok ds =>
      let blt := makeExplicitBLT T ocp ds
      let ocp1 := makeExplicitSorted T ocp ds
      match ocp1.der ocp1.s with
      | Except.error e => Except.error e
      | Except.ok ds1 =>
        let J := T.jac ds1 ocp1.dae
        match (List.range blt.nb).foldlM (makeExplicitBlock T ocp1 J blt)
            { size1 := 0, size2 := 0, data := [] } with
        | Except.error e => Except.error e
        | Except.ok new_ode =>
          let new_ode1 := T.substituteInPlace ds1 new_ode false
          Except.ok { ocp1 with
            ode := T.append ocp1.ode new_ode1, x := T.append ocp1.x ocp1.s,
            s := { size1 := 0, size2 := 1, data := [] } }

end SymbolicOCP

/-! ## Discrete Lyapunov equation solver (`dle_internal.cpp`) -/

namespace Pattern

/-- The positions of a matrix of the shape of the pattern, column after
column. -/
def positions (p : Pattern) : List (Nat × Nat) :=
  (List.range p.size2).flatMap (fun j => (List.range p.size1).map (fun i => (i, j)))

/-- Modelled from the spec: `size()`, the number of structural nonzeros of a
pattern of class `Sparsity`. -/
def size (p : Pattern) : Nat := p.positions.countP (fun t => p.nz t.1 t.2)

/-- Modelled from the spec: `Sparsity::sparse(nrow, ncol)`, the pattern without
structural nonzeros. -/
def sparse (nrow ncol : Nat) : Pattern :=
  { size1 := nrow, size2 := ncol, nz := fun _ _ => false }

/-- Modelled from the spec: `T()`, the transposed pattern. -/
def T (p : Pattern) : Pattern :=
  { size1 := p.size2, size2 := p.size1, nz := fun i j => p.nz j i }

/-- Modelled from the spec: `isSymmetric()`, a square pattern equal to its
transpose. -/
def isSymmetric (p : Pattern) : Bool :=
  p.size1 == p.size2 && p.positions.all (fun t => p.nz t.1 t.2 == p.nz t.2 t.1)

/-- Modelled from the spec: `mul(a, b)` of `sparsity_tools.hpp` (declared
there, defined outside the sources at hand), the structure of the matrix
product; a dimension mismatch fails with an error naming the operation and both
shapes. `dimString` is the method printing a shape. -/
def mul (dimString : Pattern → String) (a b : Pattern) : Except CasadiException Pattern :=
  if ¬ (a.size2 = b.size1) then
    casadi_error ("Matrix product with incompatible dimensions. Lhs is " ++ dimString a
      ++ " and rhs is " ++ dimString b ++ ".")
  else Except.ok (a.patternProduct b)

/-- Modelled from the spec: `horzcat(x, y)` of `sparsity_tools.hpp`, the
pattern `[x y]`; a mismatch of the numbers of rows fails with an error naming
the operation and both shapes. -/
def horzcat (dimString : Pattern → String) (x y : Pattern) : Except CasadiException Pattern :=
  if ¬ (x.size1 = y.size1) then
    casadi_error ("horzcat: dimension mismatch. Got " ++ dimString x ++ " and " ++ dimString y
      ++ ".")
  else
    Except.ok { size1 := x.size1, size2 := x.size2 + y.size2,
                nz := fun i j => if j < x.size2 then x.nz i j else y.nz i (j - x.size2) }

/-- Modelled from the spec: `blkdiag(x, y)` of `sparsity_tools.hpp`, the
pattern with the blocks `x` and `y` on the diagonal. -/
def blkdiag (x y : Pattern) : Pattern :=
  { size1 := x.size1 + y.size1, size2 := x.size2 + y.size2,
    nz := fun i j =>
      if i < x.size1 then decide (j < x.size2) && x.nz i j
      else decide (x.size2 ≤ j) && y.nz (i - x.size1) (j - x.size2) }

/-- The identity pattern of size `n`. -/
def identity (n : Nat) : Pattern :=
  { size1 := n, size2 := n, nz := fun i j => decide (i = j) }

/-- The structural power `A^k` of a square pattern. -/
def power (A : Pattern) : Nat → Pattern
  | 0 => identity A.size1
  | k + 1 => A.patternProduct (power A k)

end Pattern

namespace DleInternal

/-- The variables of the sparsity loop of `DleInternal::init`. -/
structure LoopState where
  C : Pattern
  V : Pattern
  A : Pattern
  P : Pattern
  Pprev : Pattern

/-- Body of the sparsity loop of `DleInternal::init`. -/
def loopBody (dimString : Pattern → String) (S : LoopState) : Except CasadiException LoopState :=
  match Pattern.mul dimString S.A S.C with
  | Except.error e => Except.error e
  | Except.ok AC =>
    match Pattern.horzcat dimString S.C AC with
    | Except.error e => Except.error e
    | Except.ok C1 =>
      let V1 := Pattern.blkdiag S.V S.V
      match Pattern.mul dimString S.A S.A with
      | Except.error e => Except.error e
      | Except.ok A1 =>
        match Pattern.mul dimString C1 V1 with
        | Except.error e => Except.error e
        | Except.ok CV =>
          match Pattern.mul dimString CV C1.T with
          | Except.error e => Except.error e
          | Except.ok P1 => Except.ok { C := C1, V := V1, A := A1, P := P1, Pprev := S.P }

/-- The sparsity loop of `DleInternal::init`, `while (Pprev.size()!=P.size())`, run
for at most `fuel` iterations. The result is `some P` when the loop has stopped
and `none` when the iterations are used up. -/
def loop (dimString : Pattern → String) : Nat → LoopState → Except CasadiException (Option Pattern)
  | 0, S => if S.Pprev.size ≠ S.P.size then Except.ok none else Except.ok (some S.P)
  | fuel + 1, S =>
    if S.Pprev.size ≠ S.P.size then
      match loopBody dimString S with
      | Except.error e => Except.error e
      | Except.ok S1 => loop dimString fuel S1
    else Except.ok (some S.P)

/-- Translation of `DleInternal::init`: the dimension checks and the
computation of the pattern of the outputs. `A`, `V` are the patterns
`st_[Dle_STRUCT_A]`, `st_[Dle_STRUCT_V]`; `C` is `st_[Dle_STRUCT_C]`, `none`
being the null pattern. The result is the pattern `P` given to every output,
`none` when the loop has not stopped within `fuel` iterations, or the exception
raised. -/
def init (dimString : Pattern → String) (A_ V_ : Pattern) (C : Option Pattern) (fuel : Nat) :
    Except CasadiException (Option Pattern) :=
  let with_C_ := C.isSome
  let C_ := match C with
    | some c => c
    | none => Pattern.sparse 0 0
  let n := A_.size1
  if ¬ (V_.isSymmetric = true) then
    casadi_error ("V must be symmetric but got " ++ dimString V_ ++ ".")
  else if ¬ (A_.size1 = A_.size2) then
    casadi_error ("A must be square but got " ++ dimString A_ ++ ".")
  else
    let m := if with_C_ = true then V_.size1 else n
    if with_C_ = true ∧ ¬ (n = C_.size1) then
      casadi_error ("Number of rows in C (" ++ toString C_.size1
        ++ ") must match dimension of square A (" ++ toString n ++ ")" ++ ".")
    else if with_C_ = true ∧ ¬ (m = C_.size2) then
      casadi_error ("Number of columns in C (" ++ toString C_.size2
        ++ ") must match dimension of symmetric V (" ++ toString m ++ ")" ++ ".")
    else if with_C_ = false ∧ ¬ (A_.size1 = V_.size1) then
      casadi_error ("First dimension of A (" ++ toString A_.size1
        ++ ") must match dimension of symmetric V (" ++ toString V_.size1 ++ ")" ++ ".")
    else
      match Pattern.mul dimString C_ V_ with
      | Except.error e => Except.error e
      | Except.ok CV =>
        match Pattern.mul dimString CV C_.T with
        | Except.error e => Except.error e
        | Except.ok P =>
          loop dimString fuel { C := C_, V := V_, A := A_, P := P, Pprev := Pattern.sparse n n }

/-- The structural product `A^k * (C*V*C^T) * (A^T)^k`. -/
def term (A C V : Pattern) (k : Nat) : Pattern :=
  ((A.power k).patternProduct ((C.patternProduct V).patternProduct C.T)).patternProduct
    (A.power k).T

end DleInternal

/-- Invariant of the sparsity loop of `DleInternal::init` started from the
patterns `A0`, `C0`, `V0` with `A0` of size `n`: the shapes fit; `A` is the
structural power `A0^N`; `P` is the product `C*V*C^T` and holds the terms
`A0^s*(C0*V0*C0^T)*(A0^T)^s` for `s < N`; `Pprev` holds those for `s < M`. -/
def DleInternal.Invariant (A0 C0 V0 : Pattern) (n N M : Nat) (S : DleInternal.LoopState) :
    Prop :=
  M < N ∧
  (S.A.size1 = n ∧ S.A.size2 = n ∧ S.C.size1 = n ∧ S.V.size1 = S.C.size2 ∧
    S.V.size2 = S.C.size2 ∧ S.P.size1 = n ∧ S.P.size2 = n ∧ S.Pprev.size1 = n ∧
    S.Pprev.size2 = n) ∧
  (∀ i c, i < n → c < n → (S.A.nz i c = true ↔ (A0.power N).nz i c = true)) ∧
  (∀ i j, S.P.nz i j = true
    ↔ ((S.C.patternProduct S.V).patternProduct S.C.T).nz i j = true) ∧
  (∀ i j, i < n → j < n →
    (S.P.nz i j = true ↔ ∃ s, s < N ∧ (DleInternal.term A0 C0 V0 s).nz i j = true)) ∧
  (∀ i j, i < n → j < n →
    (S.Pprev.nz i j = true ↔ ∃ s, s < M ∧ (DleInternal.term A0 C0 V0 s).nz i j = true))

/-! ## Slots addressed by one adjoint direction -/

/-- The slots addressed by one adjoint direction of `Multiplication::evalAdj`:
the seed slot `adjSeed[d][0]` and the adjoint slots `adjSens[d][0..2]`. -/
def Multiplication.slots (d : Nat × Nat × Nat × Nat) : List Nat :=
  [d.1, d.2.1, d.2.2.1, d.2.2.2]

/-- The slots addressed by one adjoint direction of `Inverse::evalAdj`: the seed
slot `adjSeed[d][0]` and the adjoint slot `adjSens[d][0]`. -/
def Inverse.slots (d : Nat × Nat) : List Nat := [d.1, d.2]

/-- The slots addressed by one adjoint direction of `UnaryMX::evalAdj`: the seed
slot `adjSeed[d][0]` and the adjoint slot `adjSens[d][0]`. -/
def UnaryMX.slots (d : Nat × Nat) : List Nat := [d.1, d.2]

/-- The slots addressed by one adjoint direction of `Assertion::evalAdj`: the
seed slot `adjSeed[d][0]` and the adjoint slot `adjSens[d][0]` of the value; the
adjoint slot `adjSens[d][1]` of the condition is never addressed. -/
def Assertion.slots (d : Nat × Nat × Nat) : List Nat := [d.1, d.2.1]

/-- The slots addressed by one adjoint direction of the `evalAdj` of a split
node: the present seed slots `adjSeed[d][i]`, `i < nx`, and the adjoint slot
`adjSens[d][0]` when it is present. -/
def Split.slots (node : Split) (d : List (Option Nat) × Option Nat) : List Nat :=
  (List.range (node.offset_.length - 1)).filterMap (fun i => d.1.getD i none) ++ d.2.toList

/-- The slots that hold the listed matrices in the slots `0`, `1`, ..., every
later slot being empty. -/
def MXStore.ofList {R : Type} (l : List (MX R)) : MXStore R :=
  fun q => l.getD q MX.empty

/-! ## Theorems -/

/-! ### Assertion: numeric evaluation -/

/-- C1: numeric evaluation of an assertion node returns the nonzeros of `x`
unchanged and in the same order when the condition cell is exactly one, and in
every other case fails with an exception carrying the configured message,
returning no result. -/
theorem Assertion.evaluateD_spec {T : Type} [One T] [DecidableEq T] (fail_message : String)
    (x : List T) (c : T) (output0 : List T) (hlen : output0.length = x.length) :
    Assertion.evaluateD fail_message x.length x c output0
      = if c = 1 then Except.ok x
        else Except.error ⟨"Assertion error: " ++ fail_message⟩ := by
  by_cases hc : c = 1
  · simp [Assertion.evaluateD, hc, copy, ← hlen]
  · simp [Assertion.evaluateD, hc, casadi_error]

/-- Witness for C1: the value `[7, 8]` passes through under the condition `1`. -/
theorem Assertion.evaluateD_spec_witness :
    Assertion.evaluateD "x must be positive" 2 [7, 8] (1 : Int) [0, 0]
      = if (1 : Int) = 1 then Except.ok [7, 8]
        else Except.error ⟨"Assertion error: " ++ "x must be positive"⟩ :=
  Assertion.evaluateD_spec "x must be positive" [7, 8] (1 : Int) [0, 0] rfl

/-- The condition `0` makes the evaluation of the same node fail with the
configured message. -/
theorem Assertion.evaluateD_zero_fails :
    Assertion.evaluateD "x must be positive" 2 [7, 8] (0 : Int) [0, 0]
      = Except.error ⟨"Assertion error: " ++ "x must be positive"⟩ := by
  simp [Assertion.evaluateD, casadi_error]

/-! ### Multiplication: forward sparsity propagation -/

/-- When the output array is the array of `z0`, forward propagation leaves in
it the words of `z0` OR-ed with the bits of every pair of `x` and `y`. -/
theorem Multiplication.propagateSparsityFwd_inplace (node : Multiplication) (zd xd yd : Nat)
    (mem : BvecMem) :
    Multiplication.propagateSparsityFwd node (zd, xd, yd) zd mem zd
      = Multiplication.expectedFwd node (mem zd) (mem xd) (mem yd) := by
  simp [Multiplication.propagateSparsityFwd, BvecMem.write, Sparsity.mul_sparsityF,
    Multiplication.expectedFwd, Multiplication.sparsity]

/-- When the output array differs from the array of `z0`, forward propagation
leaves in the output only the copied words of `z0`; the product is accumulated
into the input array of `z0`. -/
theorem Multiplication.propagateSparsityFwd_separate (node : Multiplication) (zd xd yd rd : Nat)
    (mem : BvecMem) (h : zd ≠ rd) :
    Multiplication.propagateSparsityFwd node (zd, xd, yd) rd mem rd
      = copy (mem zd) node.nnz (mem rd) := by
  have h2 : ¬ rd = zd := fun e => h e.symm
  simp [Multiplication.propagateSparsityFwd, BvecMem.write, h, h2]

/-- C2 (evaluation at the failing input): for the product of dense 1x1
operands with `z0 = [1]`, `x = [2]`, `y = [4]` stored behind the pointers 0, 1, 2
and a separate output array behind pointer 3, the output holds `[1]` after
forward propagation, whereas the OR of `z0` with the bits of the pair is `[7]`;
the value `[7]` is found in the input array of `z0` instead. -/
theorem Multiplication.propagateSparsityFwd_separate_output_misses_product :
    Multiplication.propagateSparsityFwd
        ⟨Sparsity.dense 1 1, Sparsity.dense 1 1, Sparsity.dense 1 1⟩ (0, 1, 2) 3
        (fun p => [[1], [2], [4], [0]].getD p []) 3 = [1] ∧
    Multiplication.expectedFwd ⟨Sparsity.dense 1 1, Sparsity.dense 1 1, Sparsity.dense 1 1⟩
        [1] [2] [4] = [7] ∧
    Multiplication.propagateSparsityFwd
        ⟨Sparsity.dense 1 1, Sparsity.dense 1 1, Sparsity.dense 1 1⟩ (0, 1, 2) 3
        (fun p => [[1], [2], [4], [0]].getD p []) 0 = [7] := by
  decide

/-! ### Split nodes: symbolic concatenation of the outputs -/

/-- The content loop succeeds exactly on lists whose entry `i` is output `i` of
the node. -/
theorem Split.checkContent_iff (g : MXGraph) (this : Nat) (x : List Nat) :
    Split.checkContent g this x = true ↔
      ∀ i, i < x.length → g.isOutputNode (x.getD i 0) = true ∧
        g.getFunctionOutput (x.getD i 0) = (i : Int) ∧ g.dep (x.getD i 0) = this := by
  simp only [Split.checkContent, List.all_eq_true, List.mem_range, Bool.and_eq_true,
    decide_eq_true_eq, and_assoc]

/-- C5: `getHorzcat`, `getVertcat` and `getDiagcat` of a split node return the
dependency of the node when called on the complete list of its own outputs in
their original order, and the generic concatenation of `MXNode` on every other
list. -/
theorem Split.getCat_spec (g : MXGraph) (this : Nat) (generic : List Nat → Nat)
    (x : List Nat) :
    (Split.IsOutputList g this x →
      Horzsplit.getHorzcat g this generic x = g.dep this ∧
      Vertsplit.getVertcat g this generic x = g.dep this ∧
      Diagsplit.getDiagcat g this generic x = g.dep this) ∧
    (¬ Split.IsOutputList g this x →
      Horzsplit.getHorzcat g this generic x = generic x ∧
      Vertsplit.getVertcat g this generic x = generic x ∧
      Diagsplit.getDiagcat g this generic x = generic x) := by
  constructor
  · rintro ⟨hlen, hall⟩
    have hc := (Split.checkContent_iff g this x).mpr hall
    simp [Horzsplit.getHorzcat, Vertsplit.getVertcat, Diagsplit.getDiagcat, hlen, hc]
  · intro hn
    by_cases hlen : x.length = g.nout this
    · have hc : Split.checkContent g this x = false := by
        cases hcc : Split.checkContent g this x with
        | false => rfl
        | true => exact absurd ⟨hlen, (Split.checkContent_iff g this x).mp hcc⟩ hn
      simp [Horzsplit.getHorzcat, Vertsplit.getVertcat, Diagsplit.getDiagcat, hlen, hc]
    · simp [Horzsplit.getHorzcat, Vertsplit.getVertcat, Diagsplit.getDiagcat, hlen]

/-! ### Split nodes: numeric evaluation -/

theorem Split.foldl_push (acc : List Nat) (a : Nat) (sps : List Sparsity) :
    sps.foldl (fun off it => off ++ [off.getLastD 0 + it.nnz]) (acc ++ [a])
      = acc ++ a :: Split.runningOffsets a sps := by
  induction sps generalizing acc a with
  | nil => simp [Split.runningOffsets]
  | cons s rest ih =>
    simp only [List.foldl_cons, Split.runningOffsets]
    have h : (acc ++ [a]).getLastD 0 = a := by simp
    rw [h, ih (acc ++ [a]) (a + s.nnz)]
    simp

theorem Split.nzOffsets_eq (offset : List Nat) (sps : List Sparsity) :
    Split.nzOffsets offset sps = offset.headD 0 :: Split.runningOffsets (offset.headD 0) sps := by
  have h := Split.foldl_push [] (offset.headD 0) sps
  simpa [Split.nzOffsets] using h

theorem Split.runningOffsets_length (a : Nat) (sps : List Sparsity) :
    (Split.runningOffsets a sps).length = sps.length := by
  induction sps generalizing a with
  | nil => rfl
  | cons s rest ih => simp [Split.runningOffsets, ih]

theorem Split.nzOffsets_length (offset : List Nat) (sps : List Sparsity) :
    (Split.nzOffsets offset sps).length = sps.length + 1 := by
  simp [Split.nzOffsets_eq, Split.runningOffsets_length]

theorem Split.cons_runningOffsets_getD (a : Nat) (sps : List Sparsity) (i : Nat)
    (hi : i ≤ sps.length) :
    (a :: Split.runningOffsets a sps).getD i 0 = a + ((sps.take i).map Sparsity.nnz).sum := by
  induction sps generalizing a i with
  | nil =>
    have : i = 0 := by simpa using hi
    subst this
    simp
  | cons s rest ih =>
    cases i with
    | zero => simp
    | succ j =>
      have hj : j ≤ rest.length := by simpa using hi
      have := ih (a + s.nnz) j hj
      simp only [Split.runningOffsets, List.getD_cons_succ, List.take_succ_cons, List.map_cons,
        List.sum_cons]
      rw [this]
      omega

/-- Entry `i` of the nonzero offsets when the outputs are generated by `g`. -/
theorem Split.nzOffsets_getD_map (offset : List Nat) (n : Nat) (g : Nat → Sparsity) (i : Nat)
    (hi : i ≤ n) :
    (Split.nzOffsets offset ((List.range n).map g)).getD i 0
      = offset.headD 0 + ((List.range i).map (fun j => (g j).nnz)).sum := by
  rw [Split.nzOffsets_eq, Split.cons_runningOffsets_getD _ _ _ (by simpa using hi)]
  congr 1
  rw [← List.map_take, List.take_range, Nat.min_eq_left hi, List.map_map]
  rfl

/-- Telescoping sum of the increments of a function that is monotone up to `n`. -/
theorem sum_increments (f : Nat → Nat) (n : Nat)
    (hf : ∀ a b, a ≤ b → b ≤ n → f a ≤ f b) :
    ((List.range n).map (fun j => f (j + 1) - f j)).sum = f n - f 0 := by
  induction n with
  | zero => simp
  | succ k ih =>
    have h1 := ih (fun a b hab hb => hf a b hab (by omega))
    have h2 := hf 0 k (by omega) (by omega)
    have h3 := hf k (k + 1) (by omega) (by omega)
    rw [List.range_succ, List.map_append, List.sum_append, h1]
    simp only [List.map_cons, List.map_nil, List.sum_cons, List.sum_nil]
    omega

/-- Adjacent slices of a list concatenate to one slice. -/
theorem flatMap_slices {T : Type} (x : List T) (f : Nat → Nat) (n : Nat)
    (hf : ∀ a b, a ≤ b → b ≤ n → f a ≤ f b) :
    (List.range n).flatMap (fun c => (x.drop (f c)).take (f (c + 1) - f c))
      = (x.drop (f 0)).take (f n - f 0) := by
  induction n with
  | zero => simp
  | succ k ih =>
    have h1 := ih (fun a b hab hb => hf a b hab (by omega))
    have h2 := hf 0 k (by omega) (by omega)
    have h3 := hf k (k + 1) (by omega) (by omega)
    rw [List.range_succ, List.flatMap_append, h1]
    simp only [List.flatMap_cons, List.flatMap_nil, List.append_nil]
    have e1 : f (k + 1) - f 0 = (f k - f 0) + (f (k + 1) - f k) := by omega
    have e2 : f k = f 0 + (f k - f 0) := by omega
    rw [e1, List.take_add, List.drop_drop]
    congr 2
    rw [← e2]

/-- Entries of a non-decreasing list are monotone in the index. -/
theorem getD_mono_of_pairwise (l : List Nat) (h : l.Pairwise (· ≤ ·)) (a b : Nat)
    (hab : a ≤ b) (hb : b < l.length) : l.getD a 0 ≤ l.getD b 0 := by
  rcases Nat.eq_or_lt_of_le hab with rfl | hlt
  · exact Nat.le_refl _
  · rw [List.getD_eq_getElem l 0 hb, List.getD_eq_getElem l 0 (by omega)]
    exact (List.pairwise_iff_getElem.mp h) a b (by omega) hb hlt

/-- Every entry of a non-decreasing list is at most its last entry. -/
theorem getD_le_getLastD (l : List Nat) (h : l.Pairwise (· ≤ ·)) (a : Nat)
    (ha : a < l.length) : l.getD a 0 ≤ l.getLastD 0 := by
  have hl : l.getLastD 0 = l.getD (l.length - 1) 0 := by
    simp [List.getLast?_eq_getElem?]
  rw [hl]
  exact getD_mono_of_pairwise l h a (l.length - 1) (by omega) (by omega)

/-- A valid offset sequence is not empty. -/
theorem ValidOffset.length_pos {offset : List Nat} {n : Nat} (h : ValidOffset offset n) :
    0 < offset.length := by
  rcases h with ⟨h0, _, _⟩
  cases offset with
  | nil => simp at h0
  | cons a l => simp

theorem ValidOffset.headD_zero {offset : List Nat} {n : Nat} (h : ValidOffset offset n) :
    offset.headD 0 = 0 := by
  rcases h with ⟨h0, _, _⟩
  cases offset with
  | nil => simp at h0
  | cons a l => simpa using h0

theorem ValidOffset.getD_zero {offset : List Nat} {n : Nat} (h : ValidOffset offset n) :
    offset.getD 0 0 = 0 := by
  rcases h with ⟨h0, _, _⟩
  cases offset with
  | nil => simp at h0
  | cons a l => simpa using h0

theorem ValidOffset.getD_last {offset : List Nat} {n : Nat} (h : ValidOffset offset n) :
    offset.getD (offset.length - 1) 0 = n := by
  rcases h with ⟨_, _, h2⟩
  rw [← h2]
  simp [List.getLast?_eq_getElem?]

theorem ValidOffset.getD_le {offset : List Nat} {n : Nat} (h : ValidOffset offset n) (i : Nat)
    (hi : i < offset.length) : offset.getD i 0 ≤ n := by
  have := getD_le_getLastD offset h.2.1 i hi
  rw [h.2.2] at this
  exact this

theorem ValidOffset.mono {offset : List Nat} {n : Nat} (h : ValidOffset offset n) (a b : Nat)
    (hab : a ≤ b) (hb : b ≤ offset.length - 1) : offset.getD a 0 ≤ offset.getD b 0 :=
  getD_mono_of_pairwise offset h.2.1 a b hab (by have := h.length_pos; omega)

/-- The column starts of a well-formed pattern are monotone up to `ncol`. -/
theorem Sparsity.WellFormed.colind_mono {sp : Sparsity} (h : sp.WellFormed) (a b : Nat)
    (hab : a ≤ b) (hb : b ≤ sp.ncol) : sp.colind.getD a 0 ≤ sp.colind.getD b 0 :=
  getD_mono_of_pairwise sp.colind h.2.2.2.1 a b hab (by rw [h.1]; omega)

/-- Column start of the offset entry `j`, the nonzero offset of a horizontal split. -/
theorem Horzsplit.colStart_mono {sp : Sparsity} {offset : List Nat} (hwf : sp.WellFormed)
    (hoff : ValidOffset offset sp.ncol) (a b : Nat) (hab : a ≤ b)
    (hb : b ≤ offset.length - 1) :
    sp.colind.getD (offset.getD a 0) 0 ≤ sp.colind.getD (offset.getD b 0) 0 :=
  hwf.colind_mono _ _ (hoff.mono a b hab hb)
    (hoff.getD_le b (by have := hoff.length_pos; omega))

/-- Number of nonzeros of output `j` of a horizontal split of a well-formed pattern. -/
theorem Horzsplit.horz_nnz_output {sp : Sparsity} {offset : List Nat} (hwf : sp.WellFormed)
    (hoff : ValidOffset offset sp.ncol) (j : Nat) (hj : j < offset.length - 1) :
    (sp.columnBlock (offset.getD j 0) (offset.getD (j + 1) 0)).nnz
      = sp.colind.getD (offset.getD (j + 1) 0) 0 - sp.colind.getD (offset.getD j 0) 0 := by
  have h1 := Horzsplit.colStart_mono hwf hoff j (j + 1) (by omega) (by omega)
  have h2 : sp.colind.getD (offset.getD (j + 1) 0) 0 ≤ sp.row.length := by
    rw [← hwf.2.2.1]
    exact hwf.colind_mono _ _ (hoff.getD_le (j + 1) (by omega)) (Nat.le_refl _)
  simp only [Sparsity.nnz, Sparsity.columnBlock, List.length_take, List.length_drop]
  omega

/-- The nonzero offsets of a horizontal split are the column starts of the
column offsets. -/
theorem Horzsplit.horz_offset_getD {sp : Sparsity} {offset : List Nat} (hwf : sp.WellFormed)
    (hoff : ValidOffset offset sp.ncol) (i : Nat) (hi : i ≤ offset.length - 1) :
    (Horzsplit.mk sp offset).offset_.getD i 0 = sp.colind.getD (offset.getD i 0) 0 := by
  show (Split.nzOffsets offset ((List.range (offset.length - 1)).map
    (fun i => sp.columnBlock (offset.getD i 0) (offset.getD (i + 1) 0)))).getD i 0 = _
  rw [Split.nzOffsets_getD_map offset _ _ i hi, hoff.headD_zero, Nat.zero_add]
  have hs : (List.range i).map (fun j =>
      (sp.columnBlock (offset.getD j 0) (offset.getD (j + 1) 0)).nnz)
      = (List.range i).map (fun j => sp.colind.getD (offset.getD (j + 1) 0) 0
          - sp.colind.getD (offset.getD j 0) 0) := by
    apply List.map_congr_left
    intro j hj
    have hj2 : j < i := List.mem_range.mp hj
    exact Horzsplit.horz_nnz_output hwf hoff j (by omega)
  rw [hs, sum_increments (fun j => sp.colind.getD (offset.getD j 0) 0) i
    (fun a b hab hb => Horzsplit.colStart_mono hwf hoff a b hab (by omega))]
  show sp.colind.getD (offset.getD i 0) 0 - sp.colind.getD (offset.getD 0 0) 0 = _
  rw [hoff.getD_zero, hwf.2.1, Nat.sub_zero]

/-- The nonzeros of a block of columns form one slice of the nonzero vector. -/
theorem Horzsplit.columnsNonzeros_eq_slice {T : Type} {sp : Sparsity} (hwf : sp.WellFormed)
    (x : List T) (c1 c2 : Nat) (h12 : c1 ≤ c2) (h2 : c2 ≤ sp.ncol) :
    Horzsplit.columnsNonzeros sp x c1 c2
      = (x.drop (sp.colind.getD c1 0)).take (sp.colind.getD c2 0 - sp.colind.getD c1 0) := by
  have h := flatMap_slices x (fun c => sp.colind.getD (c1 + c) 0) (c2 - c1)
    (fun a b hab hb => hwf.colind_mono _ _ (by omega) (by omega))
  have e : c1 + (c2 - c1) = c2 := by omega
  simp only [Nat.add_zero, e] at h
  exact h

theorem Horzsplit.horz_offset_length (sp : Sparsity) (offset : List Nat) :
    (Horzsplit.mk sp offset).offset_.length - 1 = offset.length - 1 := by
  show (Split.nzOffsets offset (Sparsity.horzsplit sp offset)).length - 1 = _
  rw [Split.nzOffsets_length]
  simp [Sparsity.horzsplit]

theorem Horzsplit.horz_nnz_getD {sp : Sparsity} {offset : List Nat} (hwf : sp.WellFormed)
    (hoff : ValidOffset offset sp.ncol) (i : Nat) (hi : i < offset.length - 1) :
    ((Horzsplit.mk sp offset).output_sparsity_.map Sparsity.nnz).getD i 0
      = sp.colind.getD (offset.getD (i + 1) 0) 0 - sp.colind.getD (offset.getD i 0) 0 := by
  show ((Sparsity.horzsplit sp offset).map Sparsity.nnz).getD i 0 = _
  unfold Sparsity.horzsplit
  rw [List.getD_eq_getElem _ _ (by simpa using hi)]
  simp only [List.getElem_map, List.getElem_range]
  exact Horzsplit.horz_nnz_output hwf hoff i hi

/-- C4: numeric evaluation of a Horzsplit node writes into output `i` exactly
the nonzeros of the columns `offset[i]` up to `offset[i+1]-1` in their original
order; these outputs are consecutive, non-overlapping slices of the nonzero
vector of `x`, and their concatenation in order is the nonzero vector of `x`. -/
theorem Horzsplit.horz_evalGen_spec {T : Type} (x_sp : Sparsity) (x : List T) (offset : List Nat)
    (output : List (Option (List T)))
    (hwf : x_sp.WellFormed) (hx : x.length = x_sp.nnz) (hoff : ValidOffset offset x_sp.ncol)
    (hout : ∀ i, i < offset.length - 1 → ∃ buf, output.getD i none = some buf ∧
      buf.length = ((Horzsplit.mk x_sp offset).output_sparsity_.map Sparsity.nnz).getD i 0) :
    Split.evalGen (Horzsplit.mk x_sp offset) x output
        = (List.range (offset.length - 1)).map (fun i =>
            some (Horzsplit.columnsNonzeros x_sp x (offset.getD i 0) (offset.getD (i + 1) 0)))
    ∧ (∀ i, i < offset.length - 1 →
        Horzsplit.columnsNonzeros x_sp x (offset.getD i 0) (offset.getD (i + 1) 0)
          = (x.drop ((Horzsplit.mk x_sp offset).offset_.getD i 0)).take
              ((Horzsplit.mk x_sp offset).offset_.getD (i + 1) 0
                - (Horzsplit.mk x_sp offset).offset_.getD i 0))
    ∧ (∀ i j, i < j → j ≤ offset.length - 1 →
        (Horzsplit.mk x_sp offset).offset_.getD (i + 1) 0
          ≤ (Horzsplit.mk x_sp offset).offset_.getD j 0)
    ∧ (List.range (offset.length - 1)).flatMap (fun i =>
        Horzsplit.columnsNonzeros x_sp x (offset.getD i 0) (offset.getD (i + 1) 0)) = x := by
  have hpos := hoff.length_pos
  have hslice : ∀ i, i < offset.length - 1 →
      Horzsplit.columnsNonzeros x_sp x (offset.getD i 0) (offset.getD (i + 1) 0)
        = (x.drop ((Horzsplit.mk x_sp offset).offset_.getD i 0)).take
            ((Horzsplit.mk x_sp offset).offset_.getD (i + 1) 0
              - (Horzsplit.mk x_sp offset).offset_.getD i 0) := by
    intro i hi
    rw [Horzsplit.horz_offset_getD hwf hoff i (by omega),
      Horzsplit.horz_offset_getD hwf hoff (i + 1) (by omega)]
    exact Horzsplit.columnsNonzeros_eq_slice hwf x _ _ (hoff.mono i (i + 1) (by omega) (by omega))
      (hoff.getD_le (i + 1) (by omega))
  refine ⟨?_, hslice, ?_, ?_⟩
  · unfold Split.evalGen
    rw [Horzsplit.horz_offset_length]
    apply List.map_congr_left
    intro i hi
    have hi2 : i < offset.length - 1 := List.mem_range.mp hi
    obtain ⟨buf, hb1, hb2⟩ := hout i hi2
    rw [hb1, hslice i hi2]
    simp only [copyRange]
    rw [Horzsplit.horz_nnz_getD hwf hoff i hi2] at hb2
    rw [Horzsplit.horz_offset_getD hwf hoff i (by omega),
      Horzsplit.horz_offset_getD hwf hoff (i + 1) (by omega), ← hb2]
    simp
  · intro i j hij hj
    rw [Horzsplit.horz_offset_getD hwf hoff (i + 1) (by omega), Horzsplit.horz_offset_getD hwf hoff j hj]
    exact Horzsplit.colStart_mono hwf hoff (i + 1) j (by omega) hj
  · have hs : (List.range (offset.length - 1)).flatMap (fun i =>
        Horzsplit.columnsNonzeros x_sp x (offset.getD i 0) (offset.getD (i + 1) 0))
        = (List.range (offset.length - 1)).flatMap (fun i =>
          (x.drop (x_sp.colind.getD (offset.getD i 0) 0)).take
            (x_sp.colind.getD (offset.getD (i + 1) 0) 0 - x_sp.colind.getD (offset.getD i 0) 0)) := by
      apply List.flatMap_congr
      intro i hi
      have hi2 : i < offset.length - 1 := List.mem_range.mp hi
      exact Horzsplit.columnsNonzeros_eq_slice hwf x _ _
        (hoff.mono i (i + 1) (by omega) (by omega)) (hoff.getD_le (i + 1) (by omega))
    rw [hs, flatMap_slices x (fun i => x_sp.colind.getD (offset.getD i 0) 0) (offset.length - 1)
      (fun a b hab hb => Horzsplit.colStart_mono hwf hoff a b hab hb)]
    show (x.drop (x_sp.colind.getD (offset.getD 0 0) 0)).take
      (x_sp.colind.getD (offset.getD (offset.length - 1) 0) 0
        - x_sp.colind.getD (offset.getD 0 0) 0) = x
    rw [hoff.getD_zero, hoff.getD_last, hwf.2.1, hwf.2.2.1, ← Sparsity.nnz, ← hx]
    simp

theorem countBelow_cons (k : Nat) (rows : List Nat) (r : Nat) :
    countBelow (k :: rows) r = countBelow rows r + (if k < r then 1 else 0) := by
  unfold countBelow
  by_cases h : k < r <;> simp [List.filter_cons, h]

theorem countBelow_mono (rows : List Nat) (a b : Nat) (hab : a ≤ b) :
    countBelow rows a ≤ countBelow rows b := by
  induction rows with
  | nil => simp [countBelow]
  | cons k rest ih =>
    rw [countBelow_cons, countBelow_cons]
    by_cases h1 : k < a
    · have h2 : k < b := by omega
      simp [h1, h2, ih]
    · by_cases h2 : k < b <;> simp [h1, h2] <;> omega

theorem countBelow_zero (rows : List Nat) : countBelow rows 0 = 0 := by
  simp [countBelow]

theorem countBelow_eq_zero (rows : List Nat) (r : Nat) (h : ∀ k ∈ rows, r ≤ k) :
    countBelow rows r = 0 := by
  unfold countBelow
  rw [List.length_eq_zero, List.filter_eq_nil_iff]
  intro k hk
  have := h k hk
  simp only [decide_eq_true_eq]
  omega

theorem countBelow_eq_length (rows : List Nat) (r : Nat) (h : ∀ k ∈ rows, k < r) :
    countBelow rows r = rows.length := by
  unfold countBelow
  rw [List.filter_eq_self.mpr]
  intro k hk
  simpa using h k hk

/-- Number of entries in a half-open range of values. -/
theorem length_filter_range (rows : List Nat) (r1 r2 : Nat) (h : r1 ≤ r2) :
    (rows.filter (fun r => decide (r1 ≤ r) && decide (r < r2))).length
      = countBelow rows r2 - countBelow rows r1 := by
  induction rows with
  | nil => simp [countBelow]
  | cons k rest ih =>
    have hm := countBelow_mono rest r1 r2 h
    rw [countBelow_cons, countBelow_cons, List.filter_cons]
    by_cases h1 : k < r1
    · have h2 : k < r2 := by omega
      have h3 : ¬ r1 ≤ k := by omega
      simp only [h1, h2, h3, decide_True, decide_False, Bool.false_and, if_true,
          Bool.false_eq_true, if_false]
      rw [ih]
      simp
    · by_cases h2 : k < r2
      · have h3 : r1 ≤ k := by omega
        simp only [h1, h2, h3, decide_True, decide_False, Bool.and_self, if_true, if_false,
          List.length_cons]
        rw [ih]
        omega
      · simp only [h1, h2, decide_False, Bool.and_false, if_false, Bool.false_eq_true]
        rw [ih]
        simp

/-- In a matrix whose row indices are stored in non-decreasing order, the
nonzeros of a block of rows form one slice of the nonzero vector. -/
theorem filter_zip_sorted {T : Type} (rows : List Nat) (hs : rows.Pairwise (· ≤ ·))
    (x : List T) (hx : x.length = rows.length) (r1 r2 : Nat) (h : r1 ≤ r2) :
    ((x.zip rows).filter (fun t => decide (r1 ≤ t.2) && decide (t.2 < r2))).map Prod.fst
      = (x.drop (countBelow rows r1)).take (countBelow rows r2 - countBelow rows r1) := by
  induction rows generalizing x with
  | nil => simp [countBelow]
  | cons k rest ih =>
    cases x with
    | nil => simp at hx
    | cons a xs =>
      have hxs : xs.length = rest.length := by simpa using hx
      rw [List.pairwise_cons] at hs
      have ih2 := ih hs.2 xs hxs
      rw [countBelow_cons, countBelow_cons, List.zip_cons_cons, List.filter_cons]
      by_cases h1 : k < r1
      · have h2 : k < r2 := by omega
        have h3 : ¬ r1 ≤ k := by omega
        simp only [h1, h2, h3, decide_True, decide_False, Bool.false_and, if_true,
          Bool.false_eq_true, if_false]
        rw [ih2]
        simp
      · have z1 : countBelow rest r1 = 0 :=
          countBelow_eq_zero rest r1 (fun k2 hk2 => by have := hs.1 k2 hk2; omega)
        by_cases h2 : k < r2
        · have h3 : r1 ≤ k := by omega
          simp only [h1, h2, h3, decide_True, decide_False, Bool.and_self, if_true, if_false,
            List.map_cons]
          rw [ih2, z1]
          simp
        · have z2 : countBelow rest r2 = 0 :=
            countBelow_eq_zero rest r2 (fun k2 hk2 => by have := hs.1 k2 hk2; omega)
          simp only [h1, h2, decide_False, Bool.and_false, if_false, Bool.false_eq_true]
          rw [ih2, z1, z2]
          simp

theorem Vertsplit.vert_nnz_output (sp : Sparsity) {offset : List Nat} {n : Nat}
    (hoff : ValidOffset offset n) (j : Nat) (hj : j < offset.length - 1) :
    (sp.rowBlock (offset.getD j 0) (offset.getD (j + 1) 0)).nnz
      = countBelow sp.row (offset.getD (j + 1) 0) - countBelow sp.row (offset.getD j 0) := by
  simp only [Sparsity.nnz, Sparsity.rowBlock, List.length_map]
  exact length_filter_range sp.row _ _ (hoff.mono j (j + 1) (by omega) (by omega))

/-- The nonzero offsets of a vertical split count the nonzeros above each
row offset. -/
theorem Vertsplit.vert_offset_getD (sp : Sparsity) {offset : List Nat} {n : Nat}
    (hoff : ValidOffset offset n) (i : Nat) (hi : i ≤ offset.length - 1) :
    (Vertsplit.mk sp offset).offset_.getD i 0 = countBelow sp.row (offset.getD i 0) := by
  show (Split.nzOffsets offset ((List.range (offset.length - 1)).map
    (fun i => sp.rowBlock (offset.getD i 0) (offset.getD (i + 1) 0)))).getD i 0 = _
  rw [Split.nzOffsets_getD_map offset _ _ i hi, hoff.headD_zero, Nat.zero_add]
  have hs : (List.range i).map (fun j =>
      (sp.rowBlock (offset.getD j 0) (offset.getD (j + 1) 0)).nnz)
      = (List.range i).map (fun j => countBelow sp.row (offset.getD (j + 1) 0)
          - countBelow sp.row (offset.getD j 0)) := by
    apply List.map_congr_left
    intro j hj
    have hj2 : j < i := List.mem_range.mp hj
    exact Vertsplit.vert_nnz_output sp hoff j (by omega)
  rw [hs, sum_increments (fun j => countBelow sp.row (offset.getD j 0)) i
    (fun a b hab hb => countBelow_mono _ _ _ (hoff.mono a b hab (by omega)))]
  show countBelow sp.row (offset.getD i 0) - countBelow sp.row (offset.getD 0 0) = _
  rw [hoff.getD_zero, countBelow_zero, Nat.sub_zero]

theorem Vertsplit.vert_offset_length (sp : Sparsity) (offset : List Nat) :
    (Vertsplit.mk sp offset).offset_.length - 1 = offset.length - 1 := by
  show (Split.nzOffsets offset (Sparsity.vertsplit sp offset)).length - 1 = _
  rw [Split.nzOffsets_length]
  simp [Sparsity.vertsplit]

theorem Vertsplit.vert_nnz_getD (sp : Sparsity) {offset : List Nat} {n : Nat}
    (hoff : ValidOffset offset n) (i : Nat) (hi : i < offset.length - 1) :
    ((Vertsplit.mk sp offset).output_sparsity_.map Sparsity.nnz).getD i 0
      = countBelow sp.row (offset.getD (i + 1) 0) - countBelow sp.row (offset.getD i 0) := by
  show ((Sparsity.vertsplit sp offset).map Sparsity.nnz).getD i 0 = _
  unfold Sparsity.vertsplit
  rw [List.getD_eq_getElem _ _ (by simpa using hi)]
  simp only [List.getElem_map, List.getElem_range]
  exact Vertsplit.vert_nnz_output sp hoff i hi

/-- C3 (as amended): for a matrix whose row indices are stored in
non-decreasing order (every column vector with sorted rows), numeric evaluation
of a Vertsplit node writes into output `i` exactly the nonzeros lying in the
rows `offset[i]` up to `offset[i+1]-1`, and the outputs concatenated in order
are the nonzero vector of `x`. -/
theorem Vertsplit.vert_evalGen_sorted_rows {T : Type} (x_sp : Sparsity) (x : List T)
    (offset : List Nat) (output : List (Option (List T)))
    (hwf : x_sp.WellFormed) (hsorted : x_sp.row.Pairwise (· ≤ ·))
    (hx : x.length = x_sp.nnz) (hoff : ValidOffset offset x_sp.nrow)
    (hout : ∀ i, i < offset.length - 1 → ∃ buf, output.getD i none = some buf ∧
      buf.length = ((Vertsplit.mk x_sp offset).output_sparsity_.map Sparsity.nnz).getD i 0) :
    Split.evalGen (Vertsplit.mk x_sp offset) x output
        = (List.range (offset.length - 1)).map (fun i =>
            some (Vertsplit.rowsNonzeros x_sp x (offset.getD i 0) (offset.getD (i + 1) 0)))
    ∧ (List.range (offset.length - 1)).flatMap (fun i =>
        Vertsplit.rowsNonzeros x_sp x (offset.getD i 0) (offset.getD (i + 1) 0)) = x := by
  have hpos := hoff.length_pos
  have hxr : x.length = x_sp.row.length := hx
  have hslice : ∀ i, i < offset.length - 1 →
      Vertsplit.rowsNonzeros x_sp x (offset.getD i 0) (offset.getD (i + 1) 0)
        = (x.drop (countBelow x_sp.row (offset.getD i 0))).take
            (countBelow x_sp.row (offset.getD (i + 1) 0)
              - countBelow x_sp.row (offset.getD i 0)) := by
    intro i hi
    exact filter_zip_sorted x_sp.row hsorted x hxr _ _ (hoff.mono i (i + 1) (by omega) (by omega))
  constructor
  · unfold Split.evalGen
    rw [Vertsplit.vert_offset_length]
    apply List.map_congr_left
    intro i hi
    have hi2 : i < offset.length - 1 := List.mem_range.mp hi
    obtain ⟨buf, hb1, hb2⟩ := hout i hi2
    rw [hb1, hslice i hi2]
    simp only [copyRange]
    rw [Vertsplit.vert_nnz_getD x_sp hoff i hi2] at hb2
    rw [Vertsplit.vert_offset_getD x_sp hoff i (by omega),
      Vertsplit.vert_offset_getD x_sp hoff (i + 1) (by omega), ← hb2]
    simp
  · have hs : (List.range (offset.length - 1)).flatMap (fun i =>
        Vertsplit.rowsNonzeros x_sp x (offset.getD i 0) (offset.getD (i + 1) 0))
        = (List.range (offset.length - 1)).flatMap (fun i =>
          (x.drop (countBelow x_sp.row (offset.getD i 0))).take
            (countBelow x_sp.row (offset.getD (i + 1) 0)
              - countBelow x_sp.row (offset.getD i 0))) := by
      apply List.flatMap_congr
      intro i hi
      exact hslice i (List.mem_range.mp hi)
    rw [hs, flatMap_slices x (fun i => countBelow x_sp.row (offset.getD i 0)) (offset.length - 1)
      (fun a b hab hb => countBelow_mono _ _ _ (hoff.mono a b hab hb))]
    show (x.drop (countBelow x_sp.row (offset.getD 0 0))).take
      (countBelow x_sp.row (offset.getD (offset.length - 1) 0)
        - countBelow x_sp.row (offset.getD 0 0)) = x
    rw [hoff.getD_zero, hoff.getD_last, countBelow_zero,
      countBelow_eq_length _ _ hwf.2.2.2.2, ← hxr]
    simp

/-- Witness for C3 (amended): a column vector with three nonzeros split after
its first row. -/
theorem Vertsplit.vert_evalGen_sorted_rows_witness :
    Split.evalGen (Vertsplit.mk (Sparsity.dense 3 1) [0, 1, 3]) [7, 8, 9]
        [some [0], some [0, 0]]
      = (List.range 2).map (fun i =>
          some (Vertsplit.rowsNonzeros (Sparsity.dense 3 1) [7, 8, 9]
            ([0, 1, 3].getD i 0) ([0, 1, 3].getD (i + 1) 0))) :=
  (Vertsplit.vert_evalGen_sorted_rows (Sparsity.dense 3 1) [7, 8, 9] [0, 1, 3]
    [some [0], some [0, 0]] (by decide) (by decide) (by decide) (by decide)
    (by
      intro i hi
      have hi2 : i < 2 := hi
      interval_cases i
      · exact ⟨[0], by decide, by decide⟩
      · exact ⟨[0, 0], by decide, by decide⟩)).1

/-- C3 counterexample: on the dense 2x2 matrix with nonzero vector `[1,2,3,4]`
(column-major) split after its first row, the numeric evaluation writes
`[1,2]` and `[3,4]` (the two columns), while the nonzeros of row 0 are `[1,3]`
and those of row 1 are `[2,4]`. -/
theorem Vertsplit.vert_evalGen_counterexample :
    ValidOffset [0, 1, 2] (Sparsity.dense 2 2).nrow ∧ (Sparsity.dense 2 2).WellFormed ∧
    Split.evalGen (Vertsplit.mk (Sparsity.dense 2 2) [0, 1, 2]) [1, 2, 3, 4]
        [some [0, 0], some [0, 0]] = [some [1, 2], some [3, 4]] ∧
    Vertsplit.rowsNonzeros (Sparsity.dense 2 2) [1, 2, 3, 4] 0 1 = [1, 3] ∧
    Vertsplit.rowsNonzeros (Sparsity.dense 2 2) [1, 2, 3, 4] 1 2 = [2, 4] ∧
    Split.evalGen (Vertsplit.mk (Sparsity.dense 2 2) [0, 1, 2]) [1, 2, 3, 4]
        [some [0, 0], some [0, 0]]
      ≠ (List.range 2).map (fun i =>
          some (Vertsplit.rowsNonzeros (Sparsity.dense 2 2) [1, 2, 3, 4]
            ([0, 1, 2].getD i 0) ([0, 1, 2].getD (i + 1) 0))) := by
  decide

/-- Witness for C4: the dense 2x3 matrix split after its first column. -/
theorem Horzsplit.horz_evalGen_spec_witness :
    Split.evalGen (Horzsplit.mk (Sparsity.dense 2 3) [0, 1, 3]) [1, 2, 3, 4, 5, 6]
        [some [0, 0], some [0, 0, 0, 0]]
      = (List.range 2).map (fun i =>
          some (Horzsplit.columnsNonzeros (Sparsity.dense 2 3) [1, 2, 3, 4, 5, 6]
            ([0, 1, 3].getD i 0) ([0, 1, 3].getD (i + 1) 0))) :=
  (Horzsplit.horz_evalGen_spec (Sparsity.dense 2 3) [1, 2, 3, 4, 5, 6] [0, 1, 3]
    [some [0, 0], some [0, 0, 0, 0]] (by decide) (by decide) (by decide)
    (by
      intro i hi
      have hi2 : i < 2 := hi
      interval_cases i
      · exact ⟨[0, 0], by decide, by decide⟩
      · exact ⟨[0, 0, 0, 0], by decide, by decide⟩)).1

/-! ### Values of the symbolic operations -/

namespace MX

variable {R : Type} [CommRing R]

theorem val_empty (i j : Nat) : (MX.empty : MX R).val i j = 0 := rfl

theorem val_T (x : MX R) (i j : Nat) : x.T.val i j = x.val j i := rfl

theorem val_neg (x : MX R) (i j : Nat) : x.neg.val i j = - x.val i j := by
  simp only [MX.val, MX.neg]
  cases h : x.elem i j <;> simp

theorem val_add (a b : MX R) (i j : Nat) : (MX.add a b).val i j = a.val i j + b.val i j := by
  simp only [MX.val, MX.add]
  cases ha : a.elem i j <;> cases hb : b.elem i j <;> simp

theorem val_mul (x y z : MX R) (i k : Nat) :
    (MX.mul x y z).val i k
      = if (z.elem i k).isSome then z.val i k + MX.dot x y i k else 0 := by
  simp only [MX.val, MX.mul]
  cases hz : z.elem i k <;> simp

theorem val_mul_zeros (x y : MX R) (sp : Pattern) (i k : Nat) :
    (MX.mul x y (MX.zeros sp)).val i k = if sp.nz i k then MX.dot x y i k else 0 := by
  rw [val_mul]
  simp only [MX.zeros, MX.val]
  cases h : sp.nz i k <;> simp

/-- A product entry vanishes where the product pattern has a structural zero. -/
theorem dot_eq_zero_of_pattern (x y : MX R) (i k : Nat)
    (h : (x.sparsity.patternProduct y.sparsity).nz i k = false) : MX.dot x y i k = 0 := by
  unfold MX.dot
  apply List.sum_eq_zero
  intro v hv
  rw [List.mem_map] at hv
  obtain ⟨j, hj, rfl⟩ := hv
  simp only [Pattern.patternProduct, MX.sparsity, List.any_eq_false, Bool.and_eq_true,
    not_and] at h
  have h2 := h j hj
  unfold MX.val
  cases hx : x.elem i j with
  | none => simp
  | some u =>
    have h3 := h2 (by simp [hx])
    cases hy : y.elem j k with
    | none => simp
    | some v => simp [hy] at h3

theorem val_mul2 (x y : MX R) (i k : Nat) : (MX.mul2 x y).val i k = MX.dot x y i k := by
  unfold MX.mul2
  rw [val_mul_zeros]
  cases h : (x.sparsity.patternProduct y.sparsity).nz i k with
  | true => simp
  | false => simp [dot_eq_zero_of_pattern x y i k h]

theorem val_addToSum (slot x : MX R) (h : slot.Proper) (i j : Nat) :
    (MX.addToSum slot x).val i j = slot.val i j + x.val i j := by
  unfold MX.addToSum
  by_cases he : slot.isEmpty = true
  · have : slot.val i j = 0 := by
      unfold MX.val
      rw [h he i j]
      rfl
    simp [he, this]
  · simp [he, val_add]

theorem proper_addToSum (slot x : MX R) (hx : x.Proper) :
    (MX.addToSum slot x).Proper := by
  unfold MX.addToSum
  by_cases he : slot.isEmpty = true
  · simpa [he] using hx
  · simp only [he]
    intro h2
    exact absurd h2 he

theorem proper_mul_zeros (x y d : MX R) (hd : d.Proper) :
    (MX.mul x y (MX.zeros d.sparsity)).Proper := by
  intro he i j
  have := hd he i j
  simp [MX.mul, MX.zeros, MX.sparsity, this]

theorem list_sum_range (f : Nat → R) (p : Nat) :
    ((List.range p).map f).sum = ∑ j ∈ Finset.range p, f j := by
  induction p with
  | zero => simp
  | succ q ih => simp [List.range_succ, Finset.sum_range_succ, ih]

/-- The entries of a product as a sum over the inner dimension. -/
theorem dot_eq_sum (x y : MX R) (p : Nat) (hp : x.size2 = p) (i k : Nat) :
    MX.dot x y i k = ∑ j : Fin p, x.val i j * y.val j k := by
  unfold MX.dot
  rw [hp, list_sum_range, Finset.sum_range]

theorem toMatrix_mul2 (x y : MX R) (m p n : Nat) (hp : x.size2 = p) :
    (MX.mul2 x y).toMatrix m n = x.toMatrix m p * y.toMatrix p n := by
  ext i k
  simp only [MX.toMatrix, val_mul2, Matrix.mul_apply]
  exact dot_eq_sum x y p hp i k

theorem toMatrix_neg (x : MX R) (m n : Nat) : x.neg.toMatrix m n = - x.toMatrix m n := by
  ext i k
  simp [MX.toMatrix, val_neg]

theorem toMatrix_add (a b : MX R) (m n : Nat) :
    (MX.add a b).toMatrix m n = a.toMatrix m n + b.toMatrix m n := by
  ext i k
  simp [MX.toMatrix, val_add]

theorem toMatrix_T (x : MX R) (m n : Nat) : x.T.toMatrix m n = (x.toMatrix n m).transpose := by
  ext i k
  simp [MX.toMatrix, val_T]

theorem toMatrix_ofMatrix {m n : Nat} (A : Matrix (Fin m) (Fin n) R) :
    (MX.ofMatrix A).toMatrix m n = A := by
  ext i k
  simp [MX.toMatrix, MX.ofMatrix, MX.val]

end MX

/-! ### Slots of the derivative propagation -/

theorem MXStore.write_same {R : Type} (st : MXStore R) (p : Nat) (x : MX R) :
    st.write p x p = x := by
  simp [MXStore.write]

theorem MXStore.write_of_ne {R : Type} (st : MXStore R) (p : Nat) (x : MX R) (q : Nat)
    (h : q ≠ p) : st.write p x q = st q := by
  simp [MXStore.write, h]

section Store

variable {R : Type} [CommRing R]

theorem MXStore.slot_val_addToSum (st : MXStore R) (hst : ∀ q, (st q).Proper) (p : Nat) (x : MX R)
    (q i j : Nat) :
    (st.addToSum p x q).val i j = (st q).val i j + if q = p then x.val i j else 0 := by
  unfold MXStore.addToSum MXStore.write
  by_cases h : q = p
  · subst h
    simp [MX.val_addToSum _ _ (hst q)]
  · simp [h]

theorem MXStore.slot_proper_addToSum (st : MXStore R) (hst : ∀ q, (st q).Proper) (p : Nat) (x : MX R)
    (hx : x.Proper) : ∀ q, (st.addToSum p x q).Proper := by
  intro q
  unfold MXStore.addToSum MXStore.write
  by_cases h : q = p
  · simp only [h, if_true]
    exact MX.proper_addToSum _ _ hx
  · simp only [h, if_false]
    exact hst q

theorem MXStore.addToSum_of_ne (st : MXStore R) (p : Nat) (x : MX R) (q : Nat) (h : q ≠ p) :
    st.addToSum p x q = st q := by
  simp [MXStore.addToSum, MXStore.write, h]

end Store

/-- The loop of `Multiplication::evalAdj` runs the body once per direction,
in order. -/
theorem Multiplication.evalAdj_cons {R : Type} [Zero R] [Add R] [Mul R] (dep1 dep2 : MX R)
    (seed : Nat) (adjSeed : List Nat) (sens : Nat × Nat × Nat)
    (adjSens : List (Nat × Nat × Nat)) (st : MXStore R) :
    Multiplication.evalAdj dep1 dep2 (seed :: adjSeed) (sens :: adjSens) st
      = Multiplication.evalAdj dep1 dep2 adjSeed adjSens
          (Multiplication.evalAdjDir dep1 dep2 seed sens st) := rfl

/-- The loop of `Inverse::evalAdj` runs the body once per direction, in order. -/
theorem Inverse.inv_evalAdj_cons {R : Type} [Zero R] [Add R] [Mul R] [Neg R] (inv_X : MX R)
    (seed : Nat) (adjSeed : List Nat) (sens : Nat) (adjSens : List Nat) (st : MXStore R) :
    Inverse.evalAdj inv_X (seed :: adjSeed) (sens :: adjSens) st
      = Inverse.evalAdj inv_X adjSeed adjSens (Inverse.evalAdjDir inv_X seed sens st) := rfl

/-! ### Multiplication: derivative rules -/

section MultiplicationRules

variable {R : Type} [CommRing R]

/-- C7: the forward sensitivity written by `Multiplication::evalFwd` for
direction `d` is `dZ0 + X*dY + dX*Y`, where `X` and `Y` are the dependencies of
the node and each product is accumulated onto a zero matrix with the pattern of
`Z0` (its entries outside that pattern are structural zeros). -/
theorem Multiplication.mul_evalFwd_spec (dep0 dep1 dep2 : MX R)
    (fwdSeed : List (MX R × MX R × MX R)) (d : Nat) (hd : d < fwdSeed.length)
    (hsz : fwdSeed[d].2.1.size2 = dep1.size2) (i k : Nat) :
    (Multiplication.evalFwd dep0 dep1 dep2 fwdSeed).length = fwdSeed.length ∧
    ((Multiplication.evalFwd dep0 dep1 dep2 fwdSeed).getD d MX.empty).val i k
      = fwdSeed[d].1.val i k
        + (if (dep0.elem i k).isSome then
            ∑ j ∈ Finset.range dep1.size2, dep1.val i j * fwdSeed[d].2.2.val j k else 0)
        + (if (dep0.elem i k).isSome then
            ∑ j ∈ Finset.range dep1.size2, fwdSeed[d].2.1.val i j * dep2.val j k else 0) := by
  constructor
  · simp [Multiplication.evalFwd]
  · have hlen : d < (Multiplication.evalFwd dep0 dep1 dep2 fwdSeed).length := by
      simpa [Multiplication.evalFwd] using hd
    rw [List.getD_eq_getElem _ _ hlen]
    simp only [Multiplication.evalFwd, List.getElem_map, MX.val_add, MX.val_mul_zeros,
      MX.sparsity, MX.dot, MX.list_sum_range, hsz]

/-- Witness for C7: scalar operands `X = 2`, `Y = 3` and seeds `dZ0 = 5`,
`dX = 7`, `dY = 11` give the sensitivity `5 + 2*11 + 7*3`. -/
theorem Multiplication.mul_evalFwd_spec_witness :
    ((Multiplication.evalFwd (⟨1, 1, fun _ _ => some 1⟩ : MX Int) ⟨1, 1, fun _ _ => some 2⟩
        ⟨1, 1, fun _ _ => some 3⟩
        [(⟨1, 1, fun _ _ => some 5⟩, ⟨1, 1, fun _ _ => some 7⟩,
          ⟨1, 1, fun _ _ => some 11⟩)]).getD 0 MX.empty).val 0 0 = 5 + 2 * 11 + 7 * 3 := by
  have h := (Multiplication.mul_evalFwd_spec (⟨1, 1, fun _ _ => some 1⟩ : MX Int)
    ⟨1, 1, fun _ _ => some 2⟩ ⟨1, 1, fun _ _ => some 3⟩
    [(⟨1, 1, fun _ _ => some 5⟩, ⟨1, 1, fun _ _ => some 7⟩, ⟨1, 1, fun _ _ => some 11⟩)]
    0 (by decide) rfl 0 0).2
  rw [h]
  decide

/-- Body of the loop of `Multiplication::evalAdj`:
for one adjoint direction with output seed `S` whose slot is distinct
from the adjoint slots of `X` and `Y`, `Multiplication::evalAdj` adds `S*Y^T`
projected on the pattern of `X` to the adjoint of `X`, adds `X^T*S` projected on
the pattern of `Y` to the adjoint of `Y`, and, when the seed slot differs from
the adjoint slot of `Z0`, adds `S` to the adjoint of `Z0` and clears the seed;
when the two slots coincide the slot still holds `S`. Every contribution is
added to the previous content of its slot. -/
theorem Multiplication.mul_evalAdjDir_spec (dep1 dep2 : MX R) (seed sens0 sens1 sens2 : Nat)
    (st : MXStore R) (h1 : seed ≠ sens1) (h2 : seed ≠ sens2) (hst : ∀ q, (st q).Proper)
    (hd1 : dep1.Proper) (hd2 : dep2.Proper) :
    (∀ p i j, p ≠ seed →
      (Multiplication.evalAdjDir dep1 dep2 seed (sens0, sens1, sens2) st p).val i j
        = (st p).val i j
          + (if p = sens1 then
              (if (dep1.elem i j).isSome then
                ∑ k ∈ Finset.range (st seed).size2, (st seed).val i k * dep2.val j k else 0)
             else 0)
          + (if p = sens2 then
              (if (dep2.elem i j).isSome then
                ∑ k ∈ Finset.range dep1.size1, dep1.val k i * (st seed).val k j else 0)
             else 0)
          + (if p = sens0 then (st seed).val i j else 0)) ∧
    (seed ≠ sens0 →
      Multiplication.evalAdjDir dep1 dep2 seed (sens0, sens1, sens2) st seed = MX.empty) ∧
    (seed = sens0 →
      Multiplication.evalAdjDir dep1 dep2 seed (sens0, sens1, sens2) st seed = st seed) := by
  have hc1 : (MX.mul (st seed) dep2.T (MX.zeros dep1.sparsity)).Proper :=
    MX.proper_mul_zeros _ _ _ hd1
  have hst1 := MXStore.slot_proper_addToSum st hst sens1 _ hc1
  have hseed1 : st.addToSum sens1 (MX.mul (st seed) dep2.T (MX.zeros dep1.sparsity)) seed
      = st seed := MXStore.addToSum_of_ne _ _ _ _ h1
  have hc2 : (MX.mul dep1.T (st seed) (MX.zeros dep2.sparsity)).Proper :=
    MX.proper_mul_zeros _ _ _ hd2
  have hst2 := MXStore.slot_proper_addToSum _ hst1 sens2 _ hc2
  have hseed2 : (st.addToSum sens1 (MX.mul (st seed) dep2.T (MX.zeros dep1.sparsity))).addToSum
      sens2 (MX.mul dep1.T (st seed) (MX.zeros dep2.sparsity)) seed = st seed := by
    rw [MXStore.addToSum_of_ne _ _ _ _ h2, hseed1]
  have hv1 : ∀ i j, (MX.mul (st seed) dep2.T (MX.zeros dep1.sparsity)).val i j
      = if (dep1.elem i j).isSome then
          ∑ k ∈ Finset.range (st seed).size2, (st seed).val i k * dep2.val j k else 0 := by
    intro i j
    simp only [MX.val_mul_zeros, MX.sparsity, MX.dot, MX.list_sum_range, MX.val_T]
  have hv2 : ∀ i j, (MX.mul dep1.T (st seed) (MX.zeros dep2.sparsity)).val i j
      = if (dep2.elem i j).isSome then
          ∑ k ∈ Finset.range dep1.size1, dep1.val k i * (st seed).val k j else 0 := by
    intro i j
    simp only [MX.val_mul_zeros, MX.sparsity, MX.dot, MX.list_sum_range, MX.val_T]
    rfl
  refine ⟨?_, ?_, ?_⟩
  · intro p i j hp
    by_cases h0 : seed = sens0
    · subst h0
      simp only [Multiplication.evalAdjDir, hseed1, ne_eq, not_true_eq_false, if_false]
      rw [MXStore.slot_val_addToSum _ hst1, MXStore.slot_val_addToSum _ hst, hv1, hv2]
      simp only [if_neg hp, add_zero]
    · simp only [Multiplication.evalAdjDir, hseed1, hseed2, ne_eq, h0, not_false_eq_true,
        if_true, MXStore.write, if_neg hp]
      rw [MXStore.slot_val_addToSum _ hst2, MXStore.slot_val_addToSum _ hst1, MXStore.slot_val_addToSum _ hst,
        hv1, hv2]
  · intro h0
    simp [Multiplication.evalAdjDir, h0, MXStore.write]
  · intro h0
    subst h0
    simp only [Multiplication.evalAdjDir, hseed1, ne_eq, not_true_eq_false, if_false]
    rw [hseed2]

end MultiplicationRules

section Duality

variable {R : Type} [CommRing R]

theorem frobenius_eq_trace {m n : Nat} (A B : Matrix (Fin m) (Fin n) R) :
    frobenius A B = (A.transpose * B).trace := by
  unfold frobenius Matrix.trace
  simp only [Matrix.diag_apply, Matrix.mul_apply, Matrix.transpose_apply]
  exact Finset.sum_comm

/-- A product accumulated onto a zero matrix with a dense pattern is the full
product. -/
theorem MX.toMatrix_mul_zeros_dense {m p n : Nat} (x y : MX R) (Z : Matrix (Fin m) (Fin n) R)
    (hp : x.size2 = p) :
    (MX.mul x y (MX.zeros (MX.ofMatrix Z).sparsity)).toMatrix m n
      = x.toMatrix m p * y.toMatrix p n := by
  ext i k
  simp only [MX.toMatrix, MX.val_mul_zeros, Matrix.mul_apply]
  have : (MX.ofMatrix Z).sparsity.nz i k = true := by
    simp [MX.sparsity, MX.ofMatrix]
  rw [this, if_pos rfl]
  exact MX.dot_eq_sum x y p hp i k

theorem Multiplication.denseFwd_eq {m p n : Nat}
    (Z0 : Matrix (Fin m) (Fin n) R) (X : Matrix (Fin m) (Fin p) R)
    (Y : Matrix (Fin p) (Fin n) R) (dZ0 : Matrix (Fin m) (Fin n) R)
    (dX : Matrix (Fin m) (Fin p) R) (dY : Matrix (Fin p) (Fin n) R) :
    Multiplication.denseFwd Z0 X Y dZ0 dX dY = dZ0 + X * dY + dX * Y := by
  simp only [Multiplication.denseFwd, Multiplication.evalFwd, List.map_cons, List.map_nil,
    List.getD_cons_zero, MX.toMatrix_add]
  rw [@MX.toMatrix_mul_zeros_dense R _ m p n (MX.ofMatrix X) (MX.ofMatrix dY) Z0 rfl,
    @MX.toMatrix_mul_zeros_dense R _ m p n (MX.ofMatrix dX) (MX.ofMatrix Y) Z0 rfl]
  simp only [MX.toMatrix_ofMatrix]

theorem MX.addToSum_empty (x : MX R) : MX.addToSum MX.empty x = x := by
  simp [MX.addToSum, MX.isEmpty, MX.empty]

theorem Multiplication.denseAdj_eq {m p n : Nat} (X : Matrix (Fin m) (Fin p) R)
    (Y : Matrix (Fin p) (Fin n) R) (W : Matrix (Fin m) (Fin n) R) :
    (Multiplication.denseAdj X Y W 1).toMatrix m n = W ∧
    (Multiplication.denseAdj X Y W 2).toMatrix m p = W * Y.transpose ∧
    (Multiplication.denseAdj X Y W 3).toMatrix p n = X.transpose * W := by
  have s1 : ∀ q, q ≠ 0 → Multiplication.seedStore (MX.ofMatrix W) q = MX.empty := by
    intro q hq
    simp [Multiplication.seedStore, hq]
  have s0 : Multiplication.seedStore (MX.ofMatrix W) 0 = MX.ofMatrix W := by
    simp [Multiplication.seedStore]
  have e : ∀ q, Multiplication.denseAdj X Y W q
      = MXStore.write (MXStore.write (MXStore.write (MXStore.write
          (Multiplication.seedStore (MX.ofMatrix W)) 2
          (MX.mul (MX.ofMatrix W) (MX.ofMatrix Y).T (MX.zeros (MX.ofMatrix X).sparsity))) 3
          (MX.mul (MX.ofMatrix X).T (MX.ofMatrix W) (MX.zeros (MX.ofMatrix Y).sparsity))) 1
          (MX.ofMatrix W)) 0 MX.empty q := by
    intro q
    simp [Multiplication.denseAdj, Multiplication.evalAdjDir, MXStore.addToSum,
      MXStore.write_of_ne, MXStore.write_same, MX.addToSum_empty, s0, s1]
  refine ⟨?_, ?_, ?_⟩
  · rw [e, MXStore.write_of_ne _ _ _ _ (by decide), MXStore.write_same, MX.toMatrix_ofMatrix]
  · rw [e, MXStore.write_of_ne _ _ _ _ (by decide), MXStore.write_of_ne _ _ _ _ (by decide),
      MXStore.write_of_ne _ _ _ _ (by decide), MXStore.write_same,
      @MX.toMatrix_mul_zeros_dense R _ m n p (MX.ofMatrix W) (MX.ofMatrix Y).T X rfl,
      MX.toMatrix_T]
    simp only [MX.toMatrix_ofMatrix]
  · rw [e, MXStore.write_of_ne _ _ _ _ (by decide), MXStore.write_of_ne _ _ _ _ (by decide),
      MXStore.write_same,
      @MX.toMatrix_mul_zeros_dense R _ p m n (MX.ofMatrix X).T (MX.ofMatrix W) Y rfl,
      MX.toMatrix_T]
    simp only [MX.toMatrix_ofMatrix]

/-- C8: forward/reverse duality of the multiplication node for dense operands:
the inner product of the adjoint seed `W` with the forward sensitivity
`dZ0 + X*dY + dX*Y` equals the sum of the inner products of the reverse
contributions `W`, `W*Y^T`, `X^T*W` with the forward seeds `dZ0`, `dX`, `dY`. -/
theorem Multiplication.fwd_adj_duality {m p n : Nat}
    (Z0 : Matrix (Fin m) (Fin n) R) (X : Matrix (Fin m) (Fin p) R)
    (Y : Matrix (Fin p) (Fin n) R) (dZ0 : Matrix (Fin m) (Fin n) R)
    (dX : Matrix (Fin m) (Fin p) R) (dY : Matrix (Fin p) (Fin n) R)
    (W : Matrix (Fin m) (Fin n) R) :
    Multiplication.denseFwd Z0 X Y dZ0 dX dY = dZ0 + X * dY + dX * Y ∧
    (Multiplication.denseAdj X Y W 1).toMatrix m n = W ∧
    (Multiplication.denseAdj X Y W 2).toMatrix m p = W * Y.transpose ∧
    (Multiplication.denseAdj X Y W 3).toMatrix p n = X.transpose * W ∧
    frobenius W (Multiplication.denseFwd Z0 X Y dZ0 dX dY)
      = frobenius ((Multiplication.denseAdj X Y W 1).toMatrix m n) dZ0
        + frobenius ((Multiplication.denseAdj X Y W 2).toMatrix m p) dX
        + frobenius ((Multiplication.denseAdj X Y W 3).toMatrix p n) dY := by
  obtain ⟨a1, a2, a3⟩ := Multiplication.denseAdj_eq X Y W
  refine ⟨Multiplication.denseFwd_eq Z0 X Y dZ0 dX dY, a1, a2, a3, ?_⟩
  rw [a1, a2, a3, Multiplication.denseFwd_eq]
  simp only [frobenius_eq_trace, Matrix.mul_add, Matrix.trace_add, Matrix.transpose_mul,
    Matrix.transpose_transpose]
  have e1 : (Y * W.transpose * dX).trace = (W.transpose * (dX * Y)).trace := by
    rw [Matrix.trace_mul_cycle, Matrix.trace_mul_comm]
  have e2 : (W.transpose * X * dY).trace = (W.transpose * (X * dY)).trace := by
    rw [Matrix.mul_assoc]
  rw [e1, e2]
  ring

end Duality

/-! ### Inverse: derivative rules -/

section InverseRules

variable {R : Type} [CommRing R]

/-- C9: the forward sensitivity written by `Inverse::evalFwd` for direction `d`
is `-Y*dX*Y`, where `Y` is the value of the node itself; hence whenever
`Y*X = I` it satisfies `dY*X + Y*dX = 0`, and for the seed `E00` its entry
`(i, k)` is `-Y(i,0)*Y(0,k)`. -/
theorem Inverse.inv_evalFwd_spec (inv_X : MX R) (fwdSeed : List (MX R)) (n d : Nat)
    (hY : inv_X.size2 = n) (hd : d < fwdSeed.length) (hS : fwdSeed[d].size2 = n) :
    (Inverse.evalFwd inv_X fwdSeed).length = fwdSeed.length ∧
    ((Inverse.evalFwd inv_X fwdSeed).getD d MX.empty).toMatrix n n
      = -(inv_X.toMatrix n n * fwdSeed[d].toMatrix n n * inv_X.toMatrix n n) ∧
    (∀ X : Matrix (Fin n) (Fin n) R, inv_X.toMatrix n n * X = 1 →
      ((Inverse.evalFwd inv_X fwdSeed).getD d MX.empty).toMatrix n n * X
        + inv_X.toMatrix n n * fwdSeed[d].toMatrix n n = 0) ∧
    (∀ (i0 k0 : Fin n), fwdSeed[d].toMatrix n n = Matrix.stdBasisMatrix i0 k0 1 →
      ∀ i k : Fin n, ((Inverse.evalFwd inv_X fwdSeed).getD d MX.empty).val i k
        = -(inv_X.val i i0 * inv_X.val k0 k)) := by
  have hlen : d < (Inverse.evalFwd inv_X fwdSeed).length := by
    simpa [Inverse.evalFwd] using hd
  have hmain : ((Inverse.evalFwd inv_X fwdSeed).getD d MX.empty).toMatrix n n
      = -(inv_X.toMatrix n n * fwdSeed[d].toMatrix n n * inv_X.toMatrix n n) := by
    rw [List.getD_eq_getElem _ _ hlen]
    simp only [Inverse.evalFwd, List.getElem_map]
    rw [MX.toMatrix_neg, MX.toMatrix_mul2 _ _ n n n hY, MX.toMatrix_mul2 _ _ n n n hS,
      Matrix.mul_assoc]
  refine ⟨by simp [Inverse.evalFwd], hmain, ?_, ?_⟩
  · intro X hX
    rw [hmain, Matrix.neg_mul, Matrix.mul_assoc, hX, Matrix.mul_one, neg_add_cancel]
  · intro i0 k0 hE i k
    have h := congrFun (congrFun hmain i) k
    rw [hE] at h
    simp only [MX.toMatrix] at h
    rw [h]
    simp only [Matrix.neg_apply, Matrix.mul_apply, MX.toMatrix, Matrix.stdBasisMatrix,
      Matrix.of_apply, mul_ite, mul_one, mul_zero, ite_mul, zero_mul]
    congr 1
    rw [Finset.sum_eq_single k0]
    · simp
    · intro b _ hb
      have hb2 : ¬ k0 = b := fun e => hb e.symm
      simp [hb2]
    · simp

/-- Body of the loop of `Inverse::evalAdj`:
for one adjoint direction with output seed `S` whose slot is distinct
from the adjoint slot of `X`, `Inverse::evalAdj` adds `-Y^T*S*Y^T` to the
previous content of the adjoint of `X`, where `Y` is the value of the node
itself, clears the seed to the empty matrix and leaves every other slot
untouched. -/
theorem Inverse.inv_evalAdjDir_spec (inv_X : MX R) (seed sens : Nat) (st : MXStore R) (n : Nat)
    (hne : seed ≠ sens) (hst : (st sens).Proper) (hY : inv_X.size1 = n)
    (hS : (st seed).size2 = n) :
    (Inverse.evalAdjDir inv_X seed sens st sens).toMatrix n n
      = (st sens).toMatrix n n
        + -((inv_X.toMatrix n n).transpose * (st seed).toMatrix n n
            * (inv_X.toMatrix n n).transpose) ∧
    Inverse.evalAdjDir inv_X seed sens st seed = MX.empty ∧
    (∀ q, q ≠ seed → q ≠ sens → Inverse.evalAdjDir inv_X seed sens st q = st q) := by
  have hne2 : sens ≠ seed := fun e => hne e.symm
  refine ⟨?_, ?_, ?_⟩
  · simp only [Inverse.evalAdjDir, MXStore.addToSum]
    rw [MXStore.write_of_ne _ _ _ _ hne2, MXStore.write_same]
    ext i k
    simp only [MX.toMatrix, MX.val_addToSum _ _ hst, Matrix.add_apply]
    congr 1
    have h := congrFun (congrFun
      ((MX.toMatrix_neg (MX.mul2 inv_X.T (MX.mul2 (st seed) inv_X.T)) n n).trans
        (by rw [MX.toMatrix_mul2 _ _ n n n hY, MX.toMatrix_mul2 _ _ n n n hS, MX.toMatrix_T,
              Matrix.mul_assoc] :
          -(MX.mul2 inv_X.T (MX.mul2 (st seed) inv_X.T)).toMatrix n n
            = -((inv_X.toMatrix n n).transpose * (st seed).toMatrix n n
                * (inv_X.toMatrix n n).transpose))) i) k
    exact h
  · simp [Inverse.evalAdjDir, MXStore.write_same]
  · intro q hq1 hq2
    simp only [Inverse.evalAdjDir, MXStore.addToSum]
    rw [MXStore.write_of_ne _ _ _ _ hq1, MXStore.write_of_ne _ _ _ _ hq2]

end InverseRules

/-- Instance of the loop body of `Multiplication::evalAdj`:
scalar operands `X = 2`, `Y = 3`, seed `S = 5` in slot 0 and
empty adjoint slots 1, 2, 3 for `Z0`, `X`, `Y`. -/
theorem Multiplication.mul_evalAdjDir_spec_witness :
    (Multiplication.evalAdjDir (⟨1, 1, fun _ _ => some 2⟩ : MX Int) ⟨1, 1, fun _ _ => some 3⟩
        0 (1, 2, 3) (Multiplication.seedStore ⟨1, 1, fun _ _ => some 5⟩) 2).val 0 0 = 5 * 3 ∧
    (Multiplication.evalAdjDir (⟨1, 1, fun _ _ => some 2⟩ : MX Int) ⟨1, 1, fun _ _ => some 3⟩
        0 (1, 2, 3) (Multiplication.seedStore ⟨1, 1, fun _ _ => some 5⟩) 3).val 0 0 = 2 * 5 ∧
    (Multiplication.evalAdjDir (⟨1, 1, fun _ _ => some 2⟩ : MX Int) ⟨1, 1, fun _ _ => some 3⟩
        0 (1, 2, 3) (Multiplication.seedStore ⟨1, 1, fun _ _ => some 5⟩) 1).val 0 0 = 5 ∧
    Multiplication.evalAdjDir (⟨1, 1, fun _ _ => some 2⟩ : MX Int) ⟨1, 1, fun _ _ => some 3⟩
        0 (1, 2, 3) (Multiplication.seedStore ⟨1, 1, fun _ _ => some 5⟩) 0 = MX.empty := by
  have h := Multiplication.mul_evalAdjDir_spec (⟨1, 1, fun _ _ => some 2⟩ : MX Int)
    ⟨1, 1, fun _ _ => some 3⟩ 0 1 2 3 (Multiplication.seedStore ⟨1, 1, fun _ _ => some 5⟩)
    (by decide) (by decide)
    (by
      intro q
      unfold Multiplication.seedStore
      by_cases hq : q = 0 <;> simp [hq, MX.Proper, MX.isEmpty, MX.empty])
    (by simp [MX.Proper, MX.isEmpty]) (by simp [MX.Proper, MX.isEmpty])
  refine ⟨?_, ?_, ?_, h.2.1 (by decide)⟩
  · rw [h.1 2 0 0 (by decide)]
    decide
  · rw [h.1 3 0 0 (by decide)]
    decide
  · rw [h.1 1 0 0 (by decide)]
    decide

/-- Witness for C9: a 2x2 node value and the seed `E00`, stored with a single
structural nonzero. -/
theorem Inverse.inv_evalFwd_spec_witness :
    ((Inverse.evalFwd (⟨2, 2, fun i j => some (if i = j then 1 else 3)⟩ : MX Int)
        [⟨2, 2, fun i j => if i = 0 ∧ j = 0 then some 1 else none⟩]).getD 0 MX.empty).toMatrix 2 2
      = -((⟨2, 2, fun i j => some (if i = j then 1 else 3)⟩ : MX Int).toMatrix 2 2
          * ([(⟨2, 2, fun i j => if i = 0 ∧ j = 0 then some 1 else none⟩ : MX Int)][0]).toMatrix
              2 2
          * (⟨2, 2, fun i j => some (if i = j then 1 else 3)⟩ : MX Int).toMatrix 2 2) :=
  (Inverse.inv_evalFwd_spec (⟨2, 2, fun i j => some (if i = j then 1 else 3)⟩ : MX Int)
    [⟨2, 2, fun i j => if i = 0 ∧ j = 0 then some 1 else none⟩] 2 0 rfl (by decide) rfl).2.1

/-- Instance of the loop body of `Inverse::evalAdj`:
scalar node value `Y = 2`, seed `S = 5` in slot 0 and an
empty adjoint slot 1. -/
theorem Inverse.inv_evalAdjDir_spec_witness :
    (Inverse.evalAdjDir (⟨1, 1, fun _ _ => some 2⟩ : MX Int) 0 1
        (Multiplication.seedStore ⟨1, 1, fun _ _ => some 5⟩) 1).val 0 0 = -(2 * 5 * 2) ∧
    Inverse.evalAdjDir (⟨1, 1, fun _ _ => some 2⟩ : MX Int) 0 1
        (Multiplication.seedStore ⟨1, 1, fun _ _ => some 5⟩) 0 = MX.empty := by
  have h := Inverse.inv_evalAdjDir_spec (⟨1, 1, fun _ _ => some 2⟩ : MX Int) 0 1
    (Multiplication.seedStore ⟨1, 1, fun _ _ => some 5⟩) 1 (by decide)
    (by simp [Multiplication.seedStore, MX.Proper, MX.empty]) rfl rfl
  refine ⟨?_, h.2.1⟩
  have h1 := congrFun (congrFun h.1 0) 0
  simp only [MX.toMatrix] at h1
  exact h1.trans (by decide)

/-! ### Construction of nodes -/

/-- C16: construction of a multiplication node from `(z, x, y)` succeeds exactly
when `cols(x) = rows(y)`, `rows(x) = rows(z)` and `cols(y) = cols(z)`; on a
mismatch it throws while the node has no dependency, and on success the
dependencies are `(z, x, y)` in that order and the pattern is the one of `z`. -/
theorem Multiplication.mkNode_spec (dimString : MXArg → String) (z x y : MXArg) :
    ((Multiplication.mkNode dimString z x y).raised = none ↔
      (x.size2 = y.size1 ∧ x.size1 = z.size1 ∧ y.size2 = z.size2)) ∧
    ((Multiplication.mkNode dimString z x y).raised ≠ none →
      (Multiplication.mkNode dimString z x y).node.dep = []) ∧
    ((Multiplication.mkNode dimString z x y).raised = none →
      (Multiplication.mkNode dimString z x y).node.dep = [z, x, y] ∧
      (Multiplication.mkNode dimString z x y).node.sparsity = z.sparsity) := by
  unfold Multiplication.mkNode
  by_cases h : x.size2 = y.size1 ∧ x.size1 = z.size1 ∧ y.size2 = z.size2
  · simp [h, MXNodeData.setDependencies, MXNodeData.setSparsity]
  · simp [h, MXNodeData.fresh]

theorem zip_flatMap_of_length_eq {α β γ : Type} (l : List α) (f : α → List β) (g : α → List γ)
    (h : ∀ a ∈ l, (f a).length = (g a).length) :
    (l.flatMap f).zip (l.flatMap g) = l.flatMap (fun a => (f a).zip (g a)) := by
  induction l with
  | nil => simp
  | cons a rest ih =>
    simp only [List.flatMap_cons]
    rw [List.zip_append (h a (List.mem_cons_self a rest)),
      ih (fun b hb => h b (List.mem_cons_of_mem a hb))]

theorem mem_zip_range_replicate (n c r : Nat) (hr : r < n) :
    (r, c) ∈ (List.range n).zip (List.replicate n c) := by
  rw [List.mem_iff_getElem]
  exact ⟨r, by simpa using hr, by simp⟩

/-- The column indices of the dense pattern: `nrow` copies of every column. -/
theorem Sparsity.getCol_dense (nrow ncol : Nat) :
    (Sparsity.dense nrow ncol).getCol
      = (List.range ncol).flatMap (fun c => List.replicate nrow c) := by
  unfold Sparsity.getCol Sparsity.dense
  apply List.flatMap_congr
  intro c hc
  have hc2 : c < ncol := List.mem_range.mp hc
  have e1 : ((List.range (ncol + 1)).map (fun c => c * nrow)).getD (c + 1) 0 = (c + 1) * nrow := by
    rw [List.getD_eq_getElem _ _ (by simpa using hc2)]
    simp
  have e2 : ((List.range (ncol + 1)).map (fun c => c * nrow)).getD c 0 = c * nrow := by
    rw [List.getD_eq_getElem _ _ (by simp; omega)]
    simp
  simp only [e1, e2]
  congr 1
  rw [Nat.add_mul]
  omega

/-- The pattern built by `Sparsity::dense` holds every position. -/
theorem Sparsity.dense_isDense (nrow ncol : Nat) : (Sparsity.dense nrow ncol).IsDense := by
  constructor
  · show ((List.range ncol).flatMap (fun _ => List.range nrow)).length = nrow * ncol
    induction ncol with
    | zero => simp
    | succ k ih =>
      rw [List.range_succ, List.flatMap_append, List.length_append, ih]
      simp [Nat.mul_succ]
  · intro r c hr hc
    rw [Sparsity.getCol_dense]
    have hrow : (Sparsity.dense nrow ncol).row
        = (List.range ncol).flatMap (fun _ => List.range nrow) := rfl
    have hnr : (Sparsity.dense nrow ncol).nrow = nrow := rfl
    have hnc : (Sparsity.dense nrow ncol).ncol = ncol := rfl
    rw [hnr] at hr
    rw [hnc] at hc
    rw [hrow, zip_flatMap_of_length_eq _ _ _ (by intro a _; simp), List.mem_flatMap]
    exact ⟨c, List.mem_range.mpr hc, mem_zip_range_replicate nrow c r hr⟩

/-- C17: construction of an inverse node from `x` succeeds exactly when `x` is
square; on a non-square `x` it throws while the node has no dependency, and on
success the dependency is `x` and the pattern is the dense pattern of the shape
of `x`, which holds every position whatever the pattern of `x`. -/
theorem Inverse.inv_mkNode_spec (dimString : MXArg → String) (x : MXArg) :
    ((Inverse.mkNode dimString x).raised = none ↔ x.size1 = x.size2) ∧
    ((Inverse.mkNode dimString x).raised ≠ none → (Inverse.mkNode dimString x).node.dep = []) ∧
    ((Inverse.mkNode dimString x).raised = none →
      (Inverse.mkNode dimString x).node.dep = [x] ∧
      (Inverse.mkNode dimString x).node.sparsity = Sparsity.dense x.size1 x.size2 ∧
      (Inverse.mkNode dimString x).node.sparsity.IsDense ∧
      (Inverse.mkNode dimString x).node.sparsity.nrow = x.size1 ∧
      (Inverse.mkNode dimString x).node.sparsity.ncol = x.size1) := by
  unfold Inverse.mkNode
  by_cases h : x.size1 = x.size2
  · simp only [h, not_true_eq_false, if_false, true_iff, ne_eq, not_true_eq_false,
      false_implies, true_and, forall_const, MXNodeData.setDependencies,
      MXNodeData.setSparsity, iff_true]
    exact ⟨Sparsity.dense_isDense _ _, rfl, rfl⟩
  · simp [h, MXNodeData.fresh]

/-- C18: construction of an assertion node from `(x, y, message)` succeeds
exactly when the condition `y` is 1-by-1; on a non-scalar `y` it throws while
the node has no dependency, and on success the dependencies are `(x, y)` and the
pattern is the one of `x`. -/
theorem Assertion.assert_mkNode_spec (dimString : MXArg → String) (x y : MXArg)
    (fail_message : String) :
    ((Assertion.mkNode dimString x y fail_message).1.raised = none ↔
      (y.size1 = 1 ∧ y.size2 = 1)) ∧
    ((Assertion.mkNode dimString x y fail_message).1.raised ≠ none →
      (Assertion.mkNode dimString x y fail_message).1.node.dep = []) ∧
    ((Assertion.mkNode dimString x y fail_message).1.raised = none →
      (Assertion.mkNode dimString x y fail_message).1.node.dep = [x, y] ∧
      (Assertion.mkNode dimString x y fail_message).1.node.sparsity = x.sparsity ∧
      (Assertion.mkNode dimString x y fail_message).2 = fail_message) := by
  unfold Assertion.mkNode
  by_cases h : y.isScalar = true
  · have h2 : y.size1 = 1 ∧ y.size2 = 1 := by
      simpa [MXArg.isScalar] using h
    simp [h, h2, MXNodeData.setDependencies, MXNodeData.setSparsity]
  · have h2 : ¬ (y.size1 = 1 ∧ y.size2 = 1) := by
      simpa [MXArg.isScalar] using h
    simp [h, h2, MXNodeData.fresh]

/-! ### Unary nodes: rewrite rules at construction -/

/-- C19: with simplification on the fly enabled, asking a negation node
`neg(x)` for its negation returns the dependency `x` itself, whatever
the default construction does. -/
theorem MXTerm.getUnary_neg_neg (base : MXTerm → Operation → MXTerm) (x : MXTerm) :
    MXTerm.getUnary true base (MXTerm.unary Operation.OP_NEG x) Operation.OP_NEG = x := by
  simp [MXTerm.getUnary]

/-- With simplification on the fly enabled, the square of a square root node
`sqrt(x)` is `x` itself. -/
theorem MXTerm.getUnary_sqrt_sq (base : MXTerm → Operation → MXTerm) (x : MXTerm) :
    MXTerm.getUnary true base (MXTerm.unary Operation.OP_SQRT x) Operation.OP_SQ = x := by
  simp [MXTerm.getUnary]

/-- C20 (as amended): with simplification on the fly enabled, asking a square
node `sq(x)` for its square root returns what `x` answers to a request for its
absolute value, `x->getUnary(OP_FABS)`. -/
theorem MXTerm.getUnary_sq_sqrt (base : MXTerm → Operation → MXTerm) (x : MXTerm) :
    MXTerm.getUnary true base (MXTerm.unary Operation.OP_SQ x) Operation.OP_SQRT
      = MXTerm.getUnary true base x Operation.OP_FABS := by
  simp [MXTerm.getUnary]

/-- C20 counterexample: for a symbolic leaf `x`, the square root of `sq(x)` is
the new node `fabs(x)`, not `x`. -/
theorem MXTerm.getUnary_sq_sqrt_counterexample :
    MXTerm.getUnary true MXTerm.newUnary (MXTerm.unary Operation.OP_SQ (MXTerm.leaf 0))
        Operation.OP_SQRT = MXTerm.unary Operation.OP_FABS (MXTerm.leaf 0) ∧
    MXTerm.getUnary true MXTerm.newUnary (MXTerm.unary Operation.OP_SQ (MXTerm.leaf 0))
        Operation.OP_SQRT ≠ MXTerm.leaf 0 := by
  decide

/-! ### Unary and assertion nodes: derivative rules -/

section UnaryRules

variable {R : Type} [CommRing R]

theorem MX.val_times (a b : MX R) (i j : Nat) :
    (MX.times a b).val i j = a.val i j * b.val i j := by
  simp only [MX.val, MX.times]
  cases ha : a.elem i j <;> cases hb : b.elem i j <;> simp

/-- The loop of `UnaryMX::evalAdj` runs the body once per direction, in order,
with the partial derivative computed before the loop. -/
theorem UnaryMX.unary_evalAdj_cons (der : Operation → MX R → MX R → MX R → MX R × MX R)
    (op_ : Operation) (dep this : MX R) (seed : Nat) (adjSeed : List Nat) (sens : Nat)
    (adjSens : List Nat) (st : MXStore R) :
    UnaryMX.evalAdj der op_ dep this (seed :: adjSeed) (sens :: adjSens) st
      = UnaryMX.evalAdj der op_ dep this adjSeed adjSens
          (UnaryMX.evalAdjDir (der op_ dep MX.empty this).1 seed sens st) := rfl

/-- One direction of a unary node:
with `pd` the partial derivative returned by the per-operation table
for the dependency `x` and the node's own value, every forward direction of a
unary node writes the elementwise product `pd*seed`; every adjoint direction
whose seed slot differs from the adjoint slot adds `pd*seed` to the previous
content of the adjoint slot and leaves the seed slot empty, the seed used in the
product being the one held before clearing. -/
theorem UnaryMX.unary_deriv_spec (der : Operation → MX R → MX R → MX R → MX R × MX R)
    (op_ : Operation) (dep this : MX R) (fwdSeed : List (MX R)) (d : Nat)
    (hd : d < fwdSeed.length) (seed sens : Nat) (st : MXStore R) (hne : seed ≠ sens)
    (hst : (st sens).Proper) (i j : Nat) :
    (UnaryMX.evalFwd der op_ dep this fwdSeed).length = fwdSeed.length ∧
    (UnaryMX.evalFwd der op_ dep this fwdSeed).getD d MX.empty
      = MX.times (der op_ dep MX.empty this).1 fwdSeed[d] ∧
    ((UnaryMX.evalFwd der op_ dep this fwdSeed).getD d MX.empty).val i j
      = (der op_ dep MX.empty this).1.val i j * fwdSeed[d].val i j ∧
    (UnaryMX.evalAdj der op_ dep this [seed] [sens] st sens).val i j
      = (st sens).val i j + (der op_ dep MX.empty this).1.val i j * (st seed).val i j ∧
    UnaryMX.evalAdj der op_ dep this [seed] [sens] st seed = MX.empty ∧
    (∀ q, q ≠ seed → q ≠ sens → UnaryMX.evalAdj der op_ dep this [seed] [sens] st q = st q) := by
  have hlen : d < (UnaryMX.evalFwd der op_ dep this fwdSeed).length := by
    simpa [UnaryMX.evalFwd] using hd
  have hne2 : sens ≠ seed := fun e => hne e.symm
  have hfwd : (UnaryMX.evalFwd der op_ dep this fwdSeed).getD d MX.empty
      = MX.times (der op_ dep MX.empty this).1 fwdSeed[d] := by
    rw [List.getD_eq_getElem _ _ hlen]
    simp [UnaryMX.evalFwd]
  have hadj : ∀ q, UnaryMX.evalAdj der op_ dep this [seed] [sens] st q
      = MXStore.addToSum (MXStore.write st seed MX.empty) sens
          (MX.times (der op_ dep MX.empty this).1 (st seed)) q := by
    intro q
    rfl
  refine ⟨by simp [UnaryMX.evalFwd], hfwd, ?_, ?_, ?_, ?_⟩
  · rw [hfwd, MX.val_times]
  · rw [hadj]
    unfold MXStore.addToSum
    rw [MXStore.write_same, MXStore.write_of_ne _ _ _ _ hne2, MX.val_addToSum _ _ hst,
      MX.val_times]
  · rw [hadj, MXStore.addToSum_of_ne _ _ _ _ hne, MXStore.write_same]
  · intro q hq1 hq2
    rw [hadj, MXStore.addToSum_of_ne _ _ _ _ hq2, MXStore.write_of_ne _ _ _ _ hq1]

/-- When the seed slot is the adjoint slot itself (in-place evaluation), the
slot ends with the product of `pd` and the seed it held: the seed is read before
the slot is cleared. -/
theorem UnaryMX.unary_evalAdjDir_inplace (pd0 : MX R) (p : Nat) (st : MXStore R) :
    UnaryMX.evalAdjDir pd0 p p st p = MX.times pd0 (st p) := by
  simp [UnaryMX.evalAdjDir, MXStore.addToSum, MXStore.write_same, MX.addToSum_empty]

/-- Instance for one direction of a unary node:
a scalar node with partial derivative 3, forward seed 5,
adjoint seed 7 in slot 0 and an empty adjoint slot 1. -/
theorem UnaryMX.unary_deriv_spec_witness :
    ((UnaryMX.evalFwd (fun _ _ _ _ => (⟨1, 1, fun _ _ => some 3⟩, MX.empty))
        Operation.OP_SQ (⟨1, 1, fun _ _ => some 2⟩ : MX Int) ⟨1, 1, fun _ _ => some 4⟩
        [⟨1, 1, fun _ _ => some 5⟩]).getD 0 MX.empty).val 0 0 = 3 * 5 ∧
    (UnaryMX.evalAdj (fun _ _ _ _ => (⟨1, 1, fun _ _ => some 3⟩, MX.empty))
        Operation.OP_SQ (⟨1, 1, fun _ _ => some 2⟩ : MX Int) ⟨1, 1, fun _ _ => some 4⟩
        [0] [1] (Multiplication.seedStore ⟨1, 1, fun _ _ => some 7⟩) 1).val 0 0 = 0 + 3 * 7 ∧
    UnaryMX.evalAdj (fun _ _ _ _ => (⟨1, 1, fun _ _ => some 3⟩, MX.empty))
        Operation.OP_SQ (⟨1, 1, fun _ _ => some 2⟩ : MX Int) ⟨1, 1, fun _ _ => some 4⟩
        [0] [1] (Multiplication.seedStore ⟨1, 1, fun _ _ => some 7⟩) 0 = MX.empty := by
  have h := UnaryMX.unary_deriv_spec (fun _ _ _ _ => (⟨1, 1, fun _ _ => some 3⟩, MX.empty))
    Operation.OP_SQ (⟨1, 1, fun _ _ => some 2⟩ : MX Int) ⟨1, 1, fun _ _ => some 4⟩
    [⟨1, 1, fun _ _ => some 5⟩] 0 (by decide) 0 1
    (Multiplication.seedStore ⟨1, 1, fun _ _ => some 7⟩) (by decide)
    (by simp [Multiplication.seedStore, MX.Proper, MX.empty]) 0 0
  exact ⟨h.2.2.1, h.2.2.2.1, h.2.2.2.2.1⟩

/-- The loop of `Assertion::evalAdj` runs the body once per direction, in
order. -/
theorem Assertion.assert_evalAdj_cons (seed : Nat) (adjSeed : List Nat) (sens : Nat × Nat)
    (adjSens : List (Nat × Nat)) (st : MXStore R) :
    Assertion.evalAdj (seed :: adjSeed) (sens :: adjSens) st
      = Assertion.evalAdj adjSeed adjSens (Assertion.evalAdjDir seed sens st) := rfl

/-- One direction of an assertion node:
the forward sensitivity of an assertion node is the forward seed of
the value, whatever the seed of the condition; for an adjoint direction whose
seed slot differs from the adjoint slot of the value, the output seed is added
to the adjoint of the value, the seed slot is emptied and every other slot, the
adjoint of the condition included, is left as it was. -/
theorem Assertion.assert_deriv_spec (fwdSeed : List (MX R × MX R)) (d : Nat)
    (hd : d < fwdSeed.length) (seed sens0 sens1 : Nat) (st : MXStore R) (hne : seed ≠ sens0)
    (hst : (st sens0).Proper) (i j : Nat) :
    (Assertion.evalFwd fwdSeed).length = fwdSeed.length ∧
    (Assertion.evalFwd fwdSeed).getD d MX.empty = fwdSeed[d].1 ∧
    (∀ c : MX R, (Assertion.evalFwd (fwdSeed.set d (fwdSeed[d].1, c))).getD d MX.empty
      = (Assertion.evalFwd fwdSeed).getD d MX.empty) ∧
    (Assertion.evalAdj [seed] [(sens0, sens1)] st sens0).val i j
      = (st sens0).val i j + (st seed).val i j ∧
    Assertion.evalAdj [seed] [(sens0, sens1)] st seed = MX.empty ∧
    (∀ q, q ≠ seed → q ≠ sens0 → Assertion.evalAdj [seed] [(sens0, sens1)] st q = st q) := by
  have hlen : d < (Assertion.evalFwd fwdSeed).length := by
    simpa [Assertion.evalFwd] using hd
  have hne2 : sens0 ≠ seed := fun e => hne e.symm
  have hfwd : (Assertion.evalFwd fwdSeed).getD d MX.empty = fwdSeed[d].1 := by
    rw [List.getD_eq_getElem _ _ hlen]
    simp [Assertion.evalFwd]
  have hadj : ∀ q, Assertion.evalAdj [seed] [(sens0, sens1)] st q
      = MXStore.write (MXStore.addToSum st sens0 (st seed)) seed MX.empty q := by
    intro q
    rfl
  refine ⟨by simp [Assertion.evalFwd], hfwd, ?_, ?_, ?_, ?_⟩
  · intro c
    rw [hfwd]
    have hlen2 : d < (Assertion.evalFwd (fwdSeed.set d (fwdSeed[d].1, c))).length := by
      simpa [Assertion.evalFwd] using hd
    rw [List.getD_eq_getElem _ _ hlen2]
    simp [Assertion.evalFwd]
  · rw [hadj, MXStore.write_of_ne _ _ _ _ hne2, MXStore.addToSum, MXStore.write_same,
      MX.val_addToSum _ _ hst]
  · rw [hadj, MXStore.write_same]
  · intro q hq1 hq2
    rw [hadj, MXStore.write_of_ne _ _ _ _ hq1, MXStore.addToSum_of_ne _ _ _ _ hq2]

/-- When the seed slot of an assertion node is the adjoint slot of the value
itself, the slot is empty after the direction. -/
theorem Assertion.assert_evalAdjDir_same_slot (p c : Nat) (st : MXStore R) :
    Assertion.evalAdjDir p (p, c) st p = MX.empty := by
  simp [Assertion.evalAdjDir, MXStore.write_same]

/-- Instance for one direction of an assertion node:
forward seeds 5 (value) and 9 (condition); adjoint seed 7
in slot 0, empty adjoint slots 1 (value) and 2 (condition). -/
theorem Assertion.assert_deriv_spec_witness :
    (Assertion.evalFwd [((⟨1, 1, fun _ _ => some 5⟩ : MX Int),
        (⟨1, 1, fun _ _ => some 9⟩ : MX Int))]).getD 0 MX.empty
      = [((⟨1, 1, fun _ _ => some 5⟩ : MX Int), (⟨1, 1, fun _ _ => some 9⟩ : MX Int))][0].1 ∧
    (Assertion.evalAdj [0] [(1, 2)]
        (Multiplication.seedStore (⟨1, 1, fun _ _ => some 7⟩ : MX Int)) 1).val 0 0 = 0 + 7 ∧
    Assertion.evalAdj [0] [(1, 2)]
        (Multiplication.seedStore (⟨1, 1, fun _ _ => some 7⟩ : MX Int)) 0 = MX.empty := by
  have h := Assertion.assert_deriv_spec
    [((⟨1, 1, fun _ _ => some 5⟩ : MX Int), (⟨1, 1, fun _ _ => some 9⟩ : MX Int))] 0
    (by decide) 0 1 2 (Multiplication.seedStore (⟨1, 1, fun _ _ => some 7⟩ : MX Int))
    (by decide) (by simp [Multiplication.seedStore, MX.Proper, MX.empty]) 0 0
  exact ⟨h.2.1, h.2.2.2.1, h.2.2.2.2.1⟩

end UnaryRules

/-! ### Assertion: sparsity propagation -/

/-- A well-formed pattern lists a column index for every structural nonzero. -/
theorem Sparsity.WellFormed.getCol_length {sp : Sparsity} (h : sp.WellFormed) :
    sp.getCol.length = sp.row.length := by
  unfold Sparsity.getCol
  rw [List.length_flatMap]
  have e : (List.range sp.ncol).map
      (List.length ∘ fun c => List.replicate (sp.colind.getD (c + 1) 0 - sp.colind.getD c 0) c)
      = (List.range sp.ncol).map (fun c => sp.colind.getD (c + 1) 0 - sp.colind.getD c 0) := by
    apply List.map_congr_left
    intro c _
    simp
  rw [e, sum_increments (fun c => sp.colind.getD c 0) sp.ncol
    (fun a b hab hb => h.colind_mono a b hab hb)]
  show sp.colind.getD sp.ncol 0 - sp.colind.getD 0 0 = _
  rw [h.2.1, h.2.2.1, Nat.sub_zero]

/-- At most one of the conditions holds: the number of those that hold is 0 or 1. -/
theorem sum_indicator_of_unique (n : Nat) (b : Nat → Bool)
    (huniq : ∀ i j, i < n → j < n → b i = true → b j = true → i = j) :
    ((List.range n).map (fun i => if b i = true then 1 else 0)).sum
      = if (List.range n).any b = true then 1 else 0 := by
  induction n with
  | zero => simp
  | succ k ih =>
    have ih2 := ih (fun i j hi hj => huniq i j (by omega) (by omega))
    rw [List.range_succ, List.map_append, List.sum_append, ih2, List.any_append]
    by_cases hk : b k = true
    · have hnone : (List.range k).any b = false := by
        rw [List.any_eq_false]
        intro i hi hbi
        have hi2 : i < k := List.mem_range.mp hi
        have := huniq i k (by omega) (by omega) hbi hk
        omega
      simp [hk, hnone]
    · simp [hk]

/-- Counting the members of pairwise disjoint classes one class at a time
counts the members of their union. -/
theorem sum_filter_length_of_unique {α : Type} (n : Nat) (b : Nat → α → Bool) (l : List α)
    (huniq : ∀ t i j, i < n → j < n → b i t = true → b j t = true → i = j) :
    ((List.range n).map (fun i => (l.filter (b i)).length)).sum
      = (l.filter (fun t => (List.range n).any (fun i => b i t))).length := by
  induction l with
  | nil => simp
  | cons t rest ih =>
    have e : (List.range n).map (fun i => ((t :: rest).filter (b i)).length)
        = (List.range n).map (fun i =>
            (if b i t = true then 1 else 0) + (rest.filter (b i)).length) := by
      apply List.map_congr_left
      intro i _
      by_cases hb : b i t = true
      · simp [List.filter_cons, hb, Nat.add_comm]
      · simp [List.filter_cons, hb]
    rw [e, List.sum_map_add, ih, sum_indicator_of_unique n (fun i => b i t) (huniq t),
      List.filter_cons]
    by_cases ha : (List.range n).any (fun i => b i t) = true
    · simp [ha, Nat.add_comm]
    · simp [ha]

/-- A position lies in at most one diagonal block. -/
theorem Diagsplit.inBlock_unique {offset1 : List Nat} {n : Nat} (h1 : ValidOffset offset1 n)
    (offset2 : List Nat) (t : Nat × Nat) (i j : Nat) (hi : i < offset1.length - 1)
    (hj : j < offset1.length - 1) (hbi : Diagsplit.inBlock offset1 offset2 i t = true)
    (hbj : Diagsplit.inBlock offset1 offset2 j t = true) : i = j := by
  simp only [Diagsplit.inBlock, Bool.and_eq_true, decide_eq_true_eq] at hbi hbj
  rcases Nat.lt_trichotomy i j with hlt | heq | hgt
  · have := h1.mono (i + 1) j (by omega) (by omega)
    omega
  · exact heq
  · have := h1.mono (j + 1) i (by omega) (by omega)
    omega

/-- The last nonzero offset of a diagonal split counts the structural nonzeros
lying in the blocks. -/
theorem Diagsplit.diag_last_offset {sp : Sparsity} {offset1 : List Nat} {n : Nat}
    (h1 : ValidOffset offset1 n) (offset2 : List Nat) :
    (Split.nzOffsets offset1 (Sparsity.diagsplit sp offset1 offset2)).getLastD 0
      = ((sp.row.zip sp.getCol).filter (fun t =>
          (List.range (offset1.length - 1)).any
            (fun i => Diagsplit.inBlock offset1 offset2 i t))).length := by
  have hl : (Split.nzOffsets offset1 (Sparsity.diagsplit sp offset1 offset2)).getLastD 0
      = (Split.nzOffsets offset1 (Sparsity.diagsplit sp offset1 offset2)).getD
          (offset1.length - 1) 0 := by
    have hlen := Split.nzOffsets_length offset1 (Sparsity.diagsplit sp offset1 offset2)
    have hn : (Sparsity.diagsplit sp offset1 offset2).length = offset1.length - 1 := by
      simp [Sparsity.diagsplit]
    simp [List.getLast?_eq_getElem?, hlen, hn]
  rw [hl]
  unfold Sparsity.diagsplit
  rw [Split.nzOffsets_getD_map offset1 _ _ _ (Nat.le_refl _), h1.headD_zero, Nat.zero_add]
  have e : (List.range (offset1.length - 1)).map
      (fun j => (sp.diagBlock offset1 offset2 j).nnz)
      = (List.range (offset1.length - 1)).map (fun i =>
          ((sp.row.zip sp.getCol).filter (Diagsplit.inBlock offset1 offset2 i)).length) := by
    apply List.map_congr_left
    intro i _
    simp [Sparsity.nnz, Sparsity.diagBlock]
  rw [e]
  exact sum_filter_length_of_unique _ _ _
    (fun t i j hi hj => Diagsplit.inBlock_unique h1 offset2 t i j hi hj)

/-- The final assertion of the constructor holds exactly when every structural
nonzero lies in a diagonal block. -/
theorem Diagsplit.diag_check_iff {x_sp : Sparsity} {offset1 : List Nat}
    (hwf : x_sp.WellFormed) (h1 : ValidOffset offset1 x_sp.nrow) (offset2 : List Nat) :
    (Split.nzOffsets offset1 (Sparsity.diagsplit x_sp offset1 offset2)).getLastD 0 = x_sp.nnz
      ↔ Diagsplit.AllInBlocks x_sp offset1 offset2 := by
  have hz : (x_sp.row.zip x_sp.getCol).length = x_sp.nnz := by
    rw [List.length_zip, hwf.getCol_length, Nat.min_self]
    rfl
  rw [Diagsplit.diag_last_offset h1 offset2, ← hz, List.filter_length_eq_length]
  unfold Diagsplit.AllInBlocks
  constructor
  · intro h t ht
    have := h t ht
    rw [List.any_eq_true] at this
    obtain ⟨i, hi, hb⟩ := this
    exact ⟨i, List.mem_range.mp hi, hb⟩
  · intro h t ht
    obtain ⟨i, hi, hb⟩ := h t ht
    rw [List.any_eq_true]
    exact ⟨i, List.mem_range.mpr hi, hb⟩

/-- C15: for a well-formed pattern and valid row offsets, construction of a
Diagsplit node succeeds exactly when every structural nonzero of `x` lies inside
one of the diagonal blocks, equivalently when the nonzero counts of the blocks
sum to `nnz(x)`; otherwise it fails with the exception of the final
assertion. -/
theorem Diagsplit.diag_mk_spec (x_sp : Sparsity) (offset1 offset2 : List Nat)
    (hwf : x_sp.WellFormed) (h1 : ValidOffset offset1 x_sp.nrow) :
    (Diagsplit.AllInBlocks x_sp offset1 offset2 →
      Diagsplit.mk x_sp offset1 offset2
        = Except.ok { offset_ := Split.nzOffsets offset1
                        (Sparsity.diagsplit x_sp offset1 offset2),
                      output_sparsity_ := Sparsity.diagsplit x_sp offset1 offset2 }) ∧
    (¬ Diagsplit.AllInBlocks x_sp offset1 offset2 →
      Diagsplit.mk x_sp offset1 offset2 = Except.error
        ⟨"DiagSplit:: the presence of nonzeros outside the diagonal blocks in unsupported."⟩) ∧
    (Diagsplit.AllInBlocks x_sp offset1 offset2 ↔
      ((Sparsity.diagsplit x_sp offset1 offset2).map Sparsity.nnz).sum = x_sp.nnz) := by
  have hiff := Diagsplit.diag_check_iff hwf h1 offset2
  refine ⟨?_, ?_, ?_⟩
  · intro h
    have := hiff.mpr h
    simp only [Diagsplit.mk, this, not_true_eq_false, if_false]
  · intro h
    have : ¬ (Split.nzOffsets offset1 (Sparsity.diagsplit x_sp offset1 offset2)).getLastD 0
        = x_sp.nnz := fun e => h (hiff.mp e)
    simp only [Diagsplit.mk, this, not_false_eq_true, if_true]
  · rw [← hiff]
    have hl : (Split.nzOffsets offset1 (Sparsity.diagsplit x_sp offset1 offset2)).getLastD 0
        = ((Sparsity.diagsplit x_sp offset1 offset2).map Sparsity.nnz).sum := by
      have hlen := Split.nzOffsets_length offset1 (Sparsity.diagsplit x_sp offset1 offset2)
      have e : (Split.nzOffsets offset1 (Sparsity.diagsplit x_sp offset1 offset2)).getLastD 0
          = (Split.nzOffsets offset1 (Sparsity.diagsplit x_sp offset1 offset2)).getD
              (Sparsity.diagsplit x_sp offset1 offset2).length 0 := by
        simp [List.getLast?_eq_getElem?, hlen]
      rw [e, Split.nzOffsets_eq, Split.cons_runningOffsets_getD _ _ _ (Nat.le_refl _),
        h1.headD_zero, Nat.zero_add, List.take_length]
    rw [hl]

/-- Witness for C15: the 2x2 diagonal pattern split into its two 1x1 blocks is
accepted. -/
theorem Diagsplit.diag_mk_spec_witness :
    Diagsplit.mk ⟨2, 2, [0, 1, 2], [0, 1]⟩ [0, 1, 2] [0, 1, 2]
      = Except.ok { offset_ := Split.nzOffsets [0, 1, 2]
                      (Sparsity.diagsplit ⟨2, 2, [0, 1, 2], [0, 1]⟩ [0, 1, 2] [0, 1, 2]),
                    output_sparsity_ :=
                      Sparsity.diagsplit ⟨2, 2, [0, 1, 2], [0, 1]⟩ [0, 1, 2] [0, 1, 2] } :=
  (Diagsplit.diag_mk_spec ⟨2, 2, [0, 1, 2], [0, 1]⟩ [0, 1, 2] [0, 1, 2] (by decide)
    (by decide)).1 (by decide)

/-- The dense 2x2 pattern split into 1x1 diagonal blocks has nonzeros outside
the blocks and is rejected. -/
theorem Diagsplit.diag_mk_dense_rejected :
    Diagsplit.mk (Sparsity.dense 2 2) [0, 1, 2] [0, 1, 2] = Except.error
      ⟨"DiagSplit:: the presence of nonzeros outside the diagonal blocks in unsupported."⟩ := by
  have h : ¬ (Split.nzOffsets [0, 1, 2]
      (Sparsity.diagsplit (Sparsity.dense 2 2) [0, 1, 2] [0, 1, 2])).getLastD 0
        = (Sparsity.dense 2 2).nnz := by decide
  simp only [Diagsplit.mk, h, not_false_eq_true, if_true]

/-! ### Split nodes: reverse mode -/

/-- State of the inner loop of `evalAdj` after `k` outputs, when the present
seed pointers are pairwise distinct: `v` holds the matrices of the first `k`
outputs, read from the initial slots, and exactly the seeds met so far are
cleared. -/
theorem Split.collectSeeds_steps {R : Type} (node : Split) (adjSeed : List (Option Nat))
    (k : Nat) (st : MXStore R)
    (hdist : ∀ a b q, a < b → b < k → adjSeed.getD a none = some q →
      adjSeed.getD b none ≠ some q) :
    (Split.collectSeeds node adjSeed k st).1
      = (List.range k).map (fun i =>
          match adjSeed.getD i none with
          | some x_i => st x_i
          | none => MX.sparse ((node.output_sparsity_.map Sparsity.shape).getD i (0, 0))) ∧
    (∀ q, (Split.collectSeeds node adjSeed k st).2 q
      = if (List.range k).any (fun i => decide (adjSeed.getD i none = some q)) = true
        then MX.empty else st q) := by
  induction k with
  | zero => simp [Split.collectSeeds]
  | succ k ih =>
    obtain ⟨h1, h2⟩ := ih (fun a b q hab hb => hdist a b q hab (by omega))
    have hstep : Split.collectSeeds node adjSeed (k + 1) st
        = (match adjSeed.getD k none with
          | some x_i => ((Split.collectSeeds node adjSeed k st).1
              ++ [(Split.collectSeeds node adjSeed k st).2 x_i],
              (Split.collectSeeds node adjSeed k st).2.write x_i MX.empty)
          | none => ((Split.collectSeeds node adjSeed k st).1
              ++ [MX.sparse ((node.output_sparsity_.map Sparsity.shape).getD k (0, 0))],
              (Split.collectSeeds node adjSeed k st).2)) := by
      simp [Split.collectSeeds, List.range_succ, List.foldl_append]
    rw [hstep]
    cases hk : adjSeed.getD k none with
    | none =>
      refine ⟨?_, ?_⟩
      · simp only [h1, List.range_succ, List.map_append, List.map_cons, List.map_nil, hk]
      · intro q
        simp only [h2 q, List.range_succ, List.any_append, List.any_cons, List.any_nil, hk,
          Bool.or_false]
        simp
    | some x =>
      have hx : (Split.collectSeeds node adjSeed k st).2 x = st x := by
        have : (List.range k).any (fun i => decide (adjSeed.getD i none = some x)) = false := by
          rw [List.any_eq_false]
          intro a ha hax
          have ha2 : a < k := List.mem_range.mp ha
          exact hdist a k x ha2 (by omega) (by simpa using hax) hk
        rw [h2 x, this]
        simp
      refine ⟨?_, ?_⟩
      · simp only [h1, hx, List.range_succ, List.map_append, List.map_cons, List.map_nil, hk]
      · intro q
        simp only [List.range_succ, List.any_append, List.any_cons, List.any_nil, hk,
          Bool.or_false]
        by_cases hq : q = x
        · subst hq
          simp [MXStore.write_same]
        · have hq2 : ¬ x = q := fun e => hq e.symm
          rw [MXStore.write_of_ne _ _ _ _ hq, h2 q]
          simp [hq2]

theorem MX.foldl_horzcat2_shape {R : Type} (rest : List (MX R)) (a : MX R) :
    (rest.foldl MX.horzcat2 a).size1 = a.size1 ∧
    (rest.foldl MX.horzcat2 a).size2 = a.size2 + (rest.map (fun m => m.size2)).sum := by
  induction rest generalizing a with
  | nil => simp
  | cons b rest ih =>
    obtain ⟨h1, h2⟩ := ih (MX.horzcat2 a b)
    simp only [List.foldl_cons, List.map_cons, List.sum_cons]
    refine ⟨h1, ?_⟩
    rw [h2]
    simp only [MX.horzcat2]
    omega

theorem MX.foldl_vertcat2_shape {R : Type} (rest : List (MX R)) (a : MX R) :
    (rest.foldl MX.vertcat2 a).size2 = a.size2 ∧
    (rest.foldl MX.vertcat2 a).size1 = a.size1 + (rest.map (fun m => m.size1)).sum := by
  induction rest generalizing a with
  | nil => simp
  | cons b rest ih =>
    obtain ⟨h1, h2⟩ := ih (MX.vertcat2 a b)
    simp only [List.foldl_cons, List.map_cons, List.sum_cons]
    refine ⟨h1, ?_⟩
    rw [h2]
    simp only [MX.vertcat2]
    omega

theorem MX.foldl_diagcat2_shape {R : Type} (rest : List (MX R)) (a : MX R) :
    (rest.foldl MX.diagcat2 a).size1 = a.size1 + (rest.map (fun m => m.size1)).sum ∧
    (rest.foldl MX.diagcat2 a).size2 = a.size2 + (rest.map (fun m => m.size2)).sum := by
  induction rest generalizing a with
  | nil => simp
  | cons b rest ih =>
    obtain ⟨h1, h2⟩ := ih (MX.diagcat2 a b)
    simp only [List.foldl_cons, List.map_cons, List.sum_cons]
    rw [h1, h2]
    simp only [MX.diagcat2]
    omega

/-- Shape of the concatenations of the matrices `g 0, ..., g (n-1)`, `n ≥ 1`. -/
theorem MX.cat_range_shape {R : Type} (n : Nat) (g : Nat → MX R) (hn : 0 < n) :
    (MX.horzcat ((List.range n).map g)).size1 = (g 0).size1 ∧
    (MX.horzcat ((List.range n).map g)).size2
      = ((List.range n).map (fun i => (g i).size2)).sum ∧
    (MX.vertcat ((List.range n).map g)).size2 = (g 0).size2 ∧
    (MX.vertcat ((List.range n).map g)).size1
      = ((List.range n).map (fun i => (g i).size1)).sum ∧
    (MX.diagcat ((List.range n).map g)).size1
      = ((List.range n).map (fun i => (g i).size1)).sum ∧
    (MX.diagcat ((List.range n).map g)).size2
      = ((List.range n).map (fun i => (g i).size2)).sum := by
  obtain ⟨m, rfl⟩ : ∃ m, n = m + 1 := ⟨n - 1, by omega⟩
  have e : (List.range (m + 1)).map g = g 0 :: (List.range m).map (fun i => g (i + 1)) := by
    rw [List.range_succ_eq_map]
    simp [List.map_map, Function.comp_def]
  have hd1 := (MX.foldl_diagcat2_shape ((List.range (m + 1)).map g) (MX.empty : MX R)).1
  have hd2 := (MX.foldl_diagcat2_shape ((List.range (m + 1)).map g) (MX.empty : MX R)).2
  have hh := MX.foldl_horzcat2_shape ((List.range m).map (fun i => g (i + 1))) (g 0)
  have hv := MX.foldl_vertcat2_shape ((List.range m).map (fun i => g (i + 1))) (g 0)
  have s1 : ((List.range (m + 1)).map (fun i => (g i).size1)).sum
      = (g 0).size1 + (((List.range m).map (fun i => g (i + 1))).map (fun x => x.size1)).sum := by
    rw [List.range_succ_eq_map]
    simp [List.map_map, Function.comp_def]
  have s2 : ((List.range (m + 1)).map (fun i => (g i).size2)).sum
      = (g 0).size2 + (((List.range m).map (fun i => g (i + 1))).map (fun x => x.size2)).sum := by
    rw [List.range_succ_eq_map]
    simp [List.map_map, Function.comp_def]
  refine ⟨?_, ?_, ?_, ?_, ?_, ?_⟩
  · rw [e]; exact hh.1
  · rw [e, s2]; exact hh.2
  · rw [e]; exact hv.1
  · rw [e, s1]; exact hv.2
  · unfold MX.diagcat
    rw [hd1]
    simp [MX.empty, List.map_map, Function.comp_def]
  · unfold MX.diagcat
    rw [hd2]
    simp [MX.empty, List.map_map, Function.comp_def]

/-- Shapes of the matrices handed to the concatenation: each one has the shape
of its output as soon as every present seed has. -/
theorem Split.seedMatrices_shape {R : Type} (node : Split) (adjSeed : List (Option Nat))
    (st : MXStore R) (i : Nat)
    (hshape : ∀ q, adjSeed.getD i none = some q →
      (st q).shape = (node.output_sparsity_.map Sparsity.shape).getD i (0, 0)) :
    (match adjSeed.getD i none with
      | some x_i => st x_i
      | none => (MX.sparse ((node.output_sparsity_.map Sparsity.shape).getD i (0, 0)) : MX R)).shape
      = (node.output_sparsity_.map Sparsity.shape).getD i (0, 0) := by
  cases h : adjSeed.getD i none with
  | none => rfl
  | some q => exact hshape q h

/-- Shape of the three concatenations of the matrices handed over by the inner
loop, when the node has at least one output, the shape of output `i` is `sh i`
and every present seed has the shape of its output. -/
theorem Split.cat_seedMatrices_shape {R : Type} (node : Split) (adjSeed : List (Option Nat))
    (st : MXStore R) (sh : Nat → Nat × Nat) (hn : 0 < node.offset_.length - 1)
    (hsh : ∀ i, i < node.offset_.length - 1 →
      (node.output_sparsity_.map Sparsity.shape).getD i (0, 0) = sh i)
    (hshape : ∀ i q, i < node.offset_.length - 1 → adjSeed.getD i none = some q →
      (st q).shape = (node.output_sparsity_.map Sparsity.shape).getD i (0, 0)) :
    (MX.horzcat (Split.seedMatrices node adjSeed st)).size1 = (sh 0).1 ∧
    (MX.horzcat (Split.seedMatrices node adjSeed st)).size2
      = ((List.range (node.offset_.length - 1)).map (fun i => (sh i).2)).sum ∧
    (MX.vertcat (Split.seedMatrices node adjSeed st)).size2 = (sh 0).2 ∧
    (MX.vertcat (Split.seedMatrices node adjSeed st)).size1
      = ((List.range (node.offset_.length - 1)).map (fun i => (sh i).1)).sum ∧
    (MX.diagcat (Split.seedMatrices node adjSeed st)).size1
      = ((List.range (node.offset_.length - 1)).map (fun i => (sh i).1)).sum ∧
    (MX.diagcat (Split.seedMatrices node adjSeed st)).size2
      = ((List.range (node.offset_.length - 1)).map (fun i => (sh i).2)).sum := by
  have hg : ∀ i, i < node.offset_.length - 1 →
      (match adjSeed.getD i none with
        | some x_i => st x_i
        | none => (MX.sparse ((node.output_sparsity_.map Sparsity.shape).getD i (0, 0)) : MX R)).shape
        = sh i := by
    intro i hi
    rw [Split.seedMatrices_shape node adjSeed st i (fun q hq => hshape i q hi hq), hsh i hi]
  obtain ⟨c1, c2, c3, c4, c5, c6⟩ := MX.cat_range_shape (node.offset_.length - 1)
    (fun i => match adjSeed.getD i none with
      | some x_i => st x_i
      | none => (MX.sparse ((node.output_sparsity_.map Sparsity.shape).getD i (0, 0)) : MX R)) hn
  have e1 : (List.range (node.offset_.length - 1)).map (fun i =>
      (match adjSeed.getD i none with
        | some x_i => st x_i
        | none => (MX.sparse ((node.output_sparsity_.map Sparsity.shape).getD i (0, 0)) : MX R)).size1)
      = (List.range (node.offset_.length - 1)).map (fun i => (sh i).1) := by
    apply List.map_congr_left
    intro i hi
    exact congrArg Prod.fst (hg i (List.mem_range.mp hi))
  have e2 : (List.range (node.offset_.length - 1)).map (fun i =>
      (match adjSeed.getD i none with
        | some x_i => st x_i
        | none => (MX.sparse ((node.output_sparsity_.map Sparsity.shape).getD i (0, 0)) : MX R)).size2)
      = (List.range (node.offset_.length - 1)).map (fun i => (sh i).2) := by
    apply List.map_congr_left
    intro i hi
    exact congrArg Prod.snd (hg i (List.mem_range.mp hi))
  have z1 := congrArg Prod.fst (hg 0 hn)
  have z2 := congrArg Prod.snd (hg 0 hn)
  simp only [MX.shape] at z1 z2
  unfold Split.seedMatrices
  exact ⟨c1.trans z1, c2.trans (by rw [e2]), c3.trans z2, c4.trans (by rw [e1]),
    c5.trans (by rw [e1]), c6.trans (by rw [e2])⟩

/-- Sum of the widths of the blocks delimited by a valid offset sequence. -/
theorem ValidOffset.sum_widths {offset : List Nat} {n : Nat} (h : ValidOffset offset n) :
    ((List.range (offset.length - 1)).map
      (fun i => offset.getD (i + 1) 0 - offset.getD i 0)).sum = n := by
  rw [sum_increments (fun i => offset.getD i 0) (offset.length - 1)
    (fun a b hab hb => h.mono a b hab hb)]
  show offset.getD (offset.length - 1) 0 - offset.getD 0 0 = n
  rw [h.getD_zero, h.getD_last, Nat.sub_zero]

theorem Horzsplit.horz_shape_getD (sp : Sparsity) (offset : List Nat) (i : Nat)
    (hi : i < offset.length - 1) :
    ((Horzsplit.mk sp offset).output_sparsity_.map Sparsity.shape).getD i (0, 0)
      = (sp.nrow, offset.getD (i + 1) 0 - offset.getD i 0) := by
  show ((Sparsity.horzsplit sp offset).map Sparsity.shape).getD i (0, 0) = _
  unfold Sparsity.horzsplit
  rw [List.getD_eq_getElem _ _ (by simpa using hi)]
  simp [Sparsity.shape, Sparsity.columnBlock]

theorem Vertsplit.vert_shape_getD (sp : Sparsity) (offset : List Nat) (i : Nat)
    (hi : i < offset.length - 1) :
    ((Vertsplit.mk sp offset).output_sparsity_.map Sparsity.shape).getD i (0, 0)
      = (offset.getD (i + 1) 0 - offset.getD i 0, sp.ncol) := by
  show ((Sparsity.vertsplit sp offset).map Sparsity.shape).getD i (0, 0) = _
  unfold Sparsity.vertsplit
  rw [List.getD_eq_getElem _ _ (by simpa using hi)]
  simp [Sparsity.shape, Sparsity.rowBlock]

theorem Diagsplit.diag_shape_getD (sp : Sparsity) (offset1 offset2 : List Nat) (i : Nat)
    (hi : i < offset1.length - 1) :
    ((Sparsity.diagsplit sp offset1 offset2).map Sparsity.shape).getD i (0, 0)
      = (offset1.getD (i + 1) 0 - offset1.getD i 0,
         offset2.getD (i + 1) 0 - offset2.getD i 0) := by
  unfold Sparsity.diagsplit
  rw [List.getD_eq_getElem _ _ (by simpa using hi)]
  simp [Sparsity.shape, Sparsity.diagBlock]

theorem Diagsplit.diag_mk_ok {sp : Sparsity} {offset1 offset2 : List Nat} {node : Split}
    (h : Diagsplit.mk sp offset1 offset2 = Except.ok node) :
    node = { offset_ := Split.nzOffsets offset1 (Sparsity.diagsplit sp offset1 offset2),
             output_sparsity_ := Sparsity.diagsplit sp offset1 offset2 } := by
  unfold Diagsplit.mk at h
  simp only [] at h
  split at h
  · cases h
  · cases h
    rfl

/-- The loops of `Horzsplit::evalAdj`, `Vertsplit::evalAdj` and
`Diagsplit::evalAdj` run their body once per direction, in order. -/
theorem Split.split_evalAdj_cons {R : Type} [Add R] (node : Split) (seed : List (Option Nat))
    (adjSeed : List (List (Option Nat))) (sens : Option Nat) (adjSens : List (Option Nat))
    (st : MXStore R) :
    Horzsplit.evalAdj node (seed :: adjSeed) (sens :: adjSens) st
      = Horzsplit.evalAdj node adjSeed adjSens (Horzsplit.evalAdjDir node seed sens st) ∧
    Vertsplit.evalAdj node (seed :: adjSeed) (sens :: adjSens) st
      = Vertsplit.evalAdj node adjSeed adjSens (Vertsplit.evalAdjDir node seed sens st) ∧
    Diagsplit.evalAdj node (seed :: adjSeed) (sens :: adjSens) st
      = Diagsplit.evalAdj node adjSeed adjSens (Diagsplit.evalAdjDir node seed sens st) :=
  ⟨rfl, rfl, rfl⟩

/-- A direction whose dependency-adjoint pointer is null leaves every slot, the
seeds included, as it was. -/
theorem Split.split_evalAdjDir_absent {R : Type} [Add R] (cat : List (MX R) → MX R)
    (node : Split) (adjSeed : List (Option Nat)) (st : MXStore R) :
    Split.evalAdjDir cat node adjSeed none st = st := rfl

/-- Body of the loop of the `evalAdj` of the split nodes:
for an adjoint direction whose dependency-adjoint slot is present (and
is none of the seed slots, themselves pairwise distinct), the reverse-mode rule
of the split nodes adds to the adjoint of the dependency the concatenation
(`horzcat`, `vertcat` or `diagcat`), in output order, of one matrix per output
slot: the seed of the slot when it is present, the all-structurally-zero matrix
of the shape of the output when it is absent; every present seed is cleared and
no other slot changes. For a node with at least one output whose present seeds
have the shapes of their outputs, the concatenated matrix has the shape of the
dependency. -/
theorem Split.split_evalAdjDir_spec {R : Type} [CommRing R] (cat : List (MX R) → MX R)
    (node : Split) (adjSeed : List (Option Nat)) (p : Nat) (st : MXStore R)
    (hp : ∀ i, i < node.offset_.length - 1 → adjSeed.getD i none ≠ some p)
    (hdist : ∀ a b q, a < b → b < node.offset_.length - 1 → adjSeed.getD a none = some q →
      adjSeed.getD b none ≠ some q)
    (hst : (st p).Proper) :
    (Horzsplit.evalAdjDir node adjSeed (some p) st
        = Split.evalAdjDir MX.horzcat node adjSeed (some p) st ∧
      Vertsplit.evalAdjDir node adjSeed (some p) st
        = Split.evalAdjDir MX.vertcat node adjSeed (some p) st ∧
      Diagsplit.evalAdjDir node adjSeed (some p) st
        = Split.evalAdjDir MX.diagcat node adjSeed (some p) st) ∧
    (∀ i j, (Split.evalAdjDir cat node adjSeed (some p) st p).val i j
      = (st p).val i j + (cat (Split.seedMatrices node adjSeed st)).val i j) ∧
    (∀ k q, k < node.offset_.length - 1 → adjSeed.getD k none = some q →
      Split.evalAdjDir cat node adjSeed (some p) st q = MX.empty) ∧
    (∀ q, q ≠ p → (∀ k, k < node.offset_.length - 1 → adjSeed.getD k none ≠ some q) →
      Split.evalAdjDir cat node adjSeed (some p) st q = st q) ∧
    ((∀ i q, i < node.offset_.length - 1 → adjSeed.getD i none = some q →
        (st q).shape = (node.output_sparsity_.map Sparsity.shape).getD i (0, 0)) →
      (∀ sp offset, node = Horzsplit.mk sp offset → ValidOffset offset sp.ncol →
        2 ≤ offset.length →
        (MX.horzcat (Split.seedMatrices node adjSeed st)).shape = sp.shape) ∧
      (∀ sp offset, node = Vertsplit.mk sp offset → ValidOffset offset sp.nrow →
        2 ≤ offset.length →
        (MX.vertcat (Split.seedMatrices node adjSeed st)).shape = sp.shape) ∧
      (∀ sp offset1 offset2, Diagsplit.mk sp offset1 offset2 = Except.ok node →
        ValidOffset offset1 sp.nrow → ValidOffset offset2 sp.ncol →
        offset2.length = offset1.length → 2 ≤ offset1.length →
        (MX.diagcat (Split.seedMatrices node adjSeed st)).shape = sp.shape)) := by
  obtain ⟨r1, r2⟩ := Split.collectSeeds_steps node adjSeed (node.offset_.length - 1) st hdist
  have hv : (Split.collectSeeds node adjSeed (node.offset_.length - 1) st).1
      = Split.seedMatrices node adjSeed st := r1
  have hev : Split.evalAdjDir cat node adjSeed (some p) st
      = MXStore.addToSum (Split.collectSeeds node adjSeed (node.offset_.length - 1) st).2 p
          (cat (Split.seedMatrices node adjSeed st)) := by
    rw [← hv]
    rfl
  have hany : ∀ q, (∀ k, k < node.offset_.length - 1 → adjSeed.getD k none ≠ some q) →
      (Split.collectSeeds node adjSeed (node.offset_.length - 1) st).2 q = st q := by
    intro q hq
    have : (List.range (node.offset_.length - 1)).any
        (fun i => decide (adjSeed.getD i none = some q)) = false := by
      rw [List.any_eq_false]
      intro a ha hax
      exact hq a (List.mem_range.mp ha) (by simpa using hax)
    rw [r2 q, this]
    simp
  refine ⟨⟨rfl, rfl, rfl⟩, ?_, ?_, ?_, ?_⟩
  · intro i j
    rw [hev]
    unfold MXStore.addToSum
    rw [MXStore.write_same, hany p hp, MX.val_addToSum _ _ hst]
  · intro k q hk hq
    have hqp : q ≠ p := by
      intro e
      rw [e] at hq
      exact hp k hk hq
    have : (List.range (node.offset_.length - 1)).any
        (fun i => decide (adjSeed.getD i none = some q)) = true := by
      rw [List.any_eq_true]
      exact ⟨k, List.mem_range.mpr hk, by simpa using hq⟩
    rw [hev, MXStore.addToSum_of_ne _ _ _ _ hqp, r2 q, this]
    simp
  · intro q hq1 hq2
    rw [hev, MXStore.addToSum_of_ne _ _ _ _ hq1, hany q hq2]
  · intro hshape
    refine ⟨?_, ?_, ?_⟩
    · intro sp offset hnode hoff h2
      have hnx : node.offset_.length - 1 = offset.length - 1 := by
        rw [hnode]; exact Horzsplit.horz_offset_length sp offset
      obtain ⟨c1, c2, _, _, _, _⟩ := Split.cat_seedMatrices_shape node adjSeed st
        (fun i => (sp.nrow, offset.getD (i + 1) 0 - offset.getD i 0)) (by omega)
        (fun i hi => by rw [hnode]; exact Horzsplit.horz_shape_getD sp offset i (by omega))
        hshape
      rw [hnx, hoff.sum_widths] at c2
      simp only [MX.shape, Sparsity.shape, c1, c2]
    · intro sp offset hnode hoff h2
      have hnx : node.offset_.length - 1 = offset.length - 1 := by
        rw [hnode]; exact Vertsplit.vert_offset_length sp offset
      obtain ⟨_, _, c3, c4, _, _⟩ := Split.cat_seedMatrices_shape node adjSeed st
        (fun i => (offset.getD (i + 1) 0 - offset.getD i 0, sp.ncol)) (by omega)
        (fun i hi => by rw [hnode]; exact Vertsplit.vert_shape_getD sp offset i (by omega))
        hshape
      rw [hnx, hoff.sum_widths] at c4
      simp only [MX.shape, Sparsity.shape, c3, c4]
    · intro sp offset1 offset2 hmk hoff1 hoff2 hlen h2
      have hnode := Diagsplit.diag_mk_ok hmk
      have hnx : node.offset_.length - 1 = offset1.length - 1 := by
        rw [hnode]
        show (Split.nzOffsets offset1 (Sparsity.diagsplit sp offset1 offset2)).length - 1 = _
        rw [Split.nzOffsets_length]
        simp [Sparsity.diagsplit]
      obtain ⟨_, _, _, _, c5, c6⟩ := Split.cat_seedMatrices_shape node adjSeed st
        (fun i => (offset1.getD (i + 1) 0 - offset1.getD i 0,
          offset2.getD (i + 1) 0 - offset2.getD i 0)) (by omega)
        (fun i hi => by
          rw [hnode]
          exact Diagsplit.diag_shape_getD sp offset1 offset2 i (by omega))
        hshape
      rw [hnx] at c5 c6
      rw [hoff1.sum_widths] at c5
      rw [← hlen, hoff2.sum_widths] at c6
      simp only [MX.shape, Sparsity.shape, c5, c6]

/-- Instance of the loop body of `Horzsplit::evalAdj`:
a horizontal split of a dense 1x2 matrix into two 1x1
outputs; the seed of output 0 is the scalar 5 in slot 0, the seed of output 1 is
absent and the adjoint of the dependency is the empty slot 2. -/
theorem Split.split_evalAdjDir_spec_witness :
    (Split.evalAdjDir MX.horzcat (Horzsplit.mk (Sparsity.dense 1 2) [0, 1, 2]) [some 0, none]
        (some 2) (Multiplication.seedStore (⟨1, 1, fun _ _ => some 5⟩ : MX Int)) 2).val 0 0
      = 0 + 5 ∧
    (Split.evalAdjDir MX.horzcat (Horzsplit.mk (Sparsity.dense 1 2) [0, 1, 2]) [some 0, none]
        (some 2) (Multiplication.seedStore (⟨1, 1, fun _ _ => some 5⟩ : MX Int)) 2).val 0 1
      = 0 + 0 ∧
    Split.evalAdjDir MX.horzcat (Horzsplit.mk (Sparsity.dense 1 2) [0, 1, 2]) [some 0, none]
        (some 2) (Multiplication.seedStore (⟨1, 1, fun _ _ => some 5⟩ : MX Int)) 0
      = MX.empty := by
  have hnx : (Horzsplit.mk (Sparsity.dense 1 2) [0, 1, 2]).offset_.length - 1 = 2 := by decide
  have h := Split.split_evalAdjDir_spec MX.horzcat (Horzsplit.mk (Sparsity.dense 1 2) [0, 1, 2])
    [some 0, none] 2 (Multiplication.seedStore (⟨1, 1, fun _ _ => some 5⟩ : MX Int))
    (by
      intro i hi
      rw [hnx] at hi
      interval_cases i <;> decide)
    (by
      intro a b q hab hb ha
      rw [hnx] at hb
      interval_cases b
      · omega
      · intro hq
        cases hq)
    (by simp [Multiplication.seedStore, MX.Proper, MX.empty])
  refine ⟨?_, ?_, h.2.2.1 0 0 (by decide) rfl⟩
  · rw [h.2.1 0 0]
    decide
  · rw [h.2.1 0 1]
    decide

/-! ### Unary nodes: the simplification toggle and the meaning of the rewrites -/

theorem MXTerm.getUnary_off (base : MXTerm → Operation → MXTerm) (x : MXTerm)
    (op : Operation) : MXTerm.getUnary false base x op = base x op := by
  cases x <;> simp [MXTerm.getUnary]

theorem MXTerm.getBinary_neg_add_leaf
    (base : MXTerm → Operation → MXTerm → Bool → Bool → MXTerm)
    (neg : MXTerm → MXTerm) (isEqual : MXTerm → MXTerm → Nat → Bool) (maxDepth : Nat)
    (ones : MXTerm → MXTerm) (x : MXTerm) (id : Nat) (scX scY : Bool) :
    MXTerm.getBinary base neg isEqual maxDepth ones (MXTerm.unary Operation.OP_NEG x)
      Operation.OP_ADD (MXTerm.leaf id) scX scY
      = base (MXTerm.leaf id) Operation.OP_SUB x scY scX := by
  simp [MXTerm.getBinary]

section Meaning

variable (f : Operation → ℝ → ℝ → ℝ) (dummy : ℝ) (env : Nat → ℝ)

theorem MXTerm.eval_getUnary (hf : MXTerm.RealMeaning f) (base : MXTerm → Operation → MXTerm)
    (hbase : ∀ t op, MXTerm.eval f dummy env (base t op)
      = MXTerm.eval f dummy env (MXTerm.unary op t)) :
    ∀ (x : MXTerm) (op : Operation), MXTerm.InDomain f dummy env (MXTerm.unary op x) →
      MXTerm.eval f dummy env (MXTerm.getUnary true base x op)
        = MXTerm.eval f dummy env (MXTerm.unary op x) := by
  intro x
  induction x with
  | leaf id => intro op _; simp [MXTerm.getUnary, hbase]
  | binary o a b _ _ => intro op _; simp [MXTerm.getUnary, hbase]
  | unary op_ d ih =>
    intro op hd
    have hD : MXTerm.InDomain f dummy env d := hd.1.1
    have h0 : op_ = Operation.OP_SQRT → 0 ≤ MXTerm.eval f dummy env d := hd.1.2.1
    have hpos : op_ = Operation.OP_LOG → 0 < MXTerm.eval f dummy env d := hd.1.2.2.1
    have ihSQ := ih Operation.OP_SQ ⟨hD, by simp, by simp, by simp⟩
    have ihFABS := ih Operation.OP_FABS ⟨hD, by simp, by simp, by simp⟩
    have ihCOS := ih Operation.OP_COS ⟨hD, by simp, by simp, by simp⟩
    have hNEG := fun x y => (hf x y).1
    have hSQ := fun x y => (hf x y).2.1
    have hFABS := fun x y => (hf x y).2.2.1
    have hCOS := fun x y => (hf x y).2.2.2.1
    have hSQRT := fun x y => (hf x y).2.2.2.2.2.1
    have hEXP := fun x y => (hf x y).2.2.2.2.2.2.1
    have hLOG := fun x y => (hf x y).2.2.2.2.2.2.2.1
    have hINV := fun x y => (hf x y).2.2.2.2.2.2.2.2.1
    cases op_ <;> simp only [MXTerm.getUnary, Bool.not_true, Bool.false_eq_true, if_false]
      <;> (try split_ifs) <;> (try subst_vars)
      <;> (try simp only [hbase])
      <;> simp only [ihSQ, ihFABS, ihCOS, MXTerm.eval, hNEG, hSQ, hFABS, hCOS, hSQRT, hEXP,
        hLOG, hINV]
      <;> (try simp only [neg_neg, neg_mul_neg, abs_neg, Real.cos_neg, abs_mul_self, abs_abs,
        Real.cos_abs, Real.log_exp, abs_mul_abs_self, one_div, inv_inv,
        Real.sqrt_mul_self_eq_abs, abs_of_nonneg (Real.sqrt_nonneg _),
        abs_of_pos (Real.exp_pos _)])
    · exact (Real.mul_self_sqrt (h0 rfl)).symm
    · exact (Real.exp_log (hpos rfl)).symm

theorem MXTerm.eval_of_getOp (t : MXTerm) (o : Operation) (h : t.getOp = o)
    (ho : ∀ id, o ≠ Operation.OP_OTHER id) :
    ∃ z, MXTerm.eval f dummy env t = f o (MXTerm.eval f dummy env t.dep) z := by
  cases t with
  | leaf id => exact absurd h.symm (ho id)
  | unary op_ d => exact ⟨dummy, by simp only [MXTerm.getOp] at h; subst h; rfl⟩
  | binary op_ x y =>
    exact ⟨MXTerm.eval f dummy env y, by simp only [MXTerm.getOp] at h; subst h; rfl⟩

variable (base : MXTerm → Operation → MXTerm → Bool → Bool → MXTerm)
  (neg : MXTerm → MXTerm) (isEqual : MXTerm → MXTerm → Nat → Bool) (maxDepth : Nat)
  (ones : MXTerm → MXTerm)

theorem MXTerm.eval_getBinary_sub (hf : MXTerm.RealMeaning f)
    (hbase : ∀ t op y scX scY, MXTerm.eval f dummy env (base t op y scX scY)
      = MXTerm.eval f dummy env (MXTerm.binary op t y))
    (hEq : ∀ a b, isEqual a b maxDepth = true →
      MXTerm.eval f dummy env a = MXTerm.eval f dummy env b)
    (x y : MXTerm) (scX scY : Bool) :
    MXTerm.eval f dummy env
        (MXTerm.getBinary base neg isEqual maxDepth ones x Operation.OP_SUB y scX scY)
      = MXTerm.eval f dummy env (MXTerm.binary Operation.OP_SUB x y) := by
  have hTWICE := fun x y => (hf x y).2.2.2.2.2.2.2.2.2.1
  have hSUB := fun x y => (hf x y).2.2.2.2.2.2.2.2.2.2.2.1
  cases x with
  | leaf id => simp [MXTerm.getBinary, hbase]
  | binary o a b => simp [MXTerm.getBinary, hbase]
  | unary op_ d =>
    cases op_ <;> simp [MXTerm.getBinary, hbase]
    split_ifs with h
    · simp only [MXTerm.eval, hSUB, hTWICE, hEq y d h]
      ring
    · rw [hbase]

theorem MXTerm.eval_getBinary (hf : MXTerm.RealMeaning f)
    (hbase : ∀ t op y scX scY, MXTerm.eval f dummy env (base t op y scX scY)
      = MXTerm.eval f dummy env (MXTerm.binary op t y))
    (hneg : ∀ t, MXTerm.eval f dummy env (neg t) = -MXTerm.eval f dummy env t)
    (hEq : ∀ a b, isEqual a b maxDepth = true →
      MXTerm.eval f dummy env a = MXTerm.eval f dummy env b)
    (hones : ∀ y, MXTerm.eval f dummy env (ones y) = 1) :
    ∀ (x : MXTerm) (op : Operation) (y : MXTerm) (scX scY : Bool),
      MXTerm.eval f dummy env (MXTerm.getBinary base neg isEqual maxDepth ones x op y scX scY)
        = MXTerm.eval f dummy env (MXTerm.binary op x y) := by
  have hNEG := fun x y => (hf x y).1
  have hSQ := fun x y => (hf x y).2.1
  have hCOS := fun x y => (hf x y).2.2.2.1
  have hSIN := fun x y => (hf x y).2.2.2.2.1
  have hADD := fun x y => (hf x y).2.2.2.2.2.2.2.2.2.2.1
  have hSUB := fun x y => (hf x y).2.2.2.2.2.2.2.2.2.2.2.1
  have hMUL := fun x y => (hf x y).2.2.2.2.2.2.2.2.2.2.2.2.1
  have hDIV := fun x y => (hf x y).2.2.2.2.2.2.2.2.2.2.2.2.2
  have hsub := MXTerm.eval_getBinary_sub f dummy env base neg isEqual maxDepth ones hf hbase hEq
  intro x
  induction x with
  | leaf id => intro op y scX scY; simp [MXTerm.getBinary, hbase]
  | binary o a b _ _ => intro op y scX scY; simp [MXTerm.getBinary, hbase]
  | unary op_ d ih =>
    intro op y scX scY
    cases op_ with
    | OP_NEG =>
      simp only [MXTerm.getBinary]
      split_ifs with h1 h2 h3
      · subst h1
        rw [hsub]
        simp only [MXTerm.eval, hSUB, hADD, hNEG]
        ring
      · subst h2
        rw [hneg, ih]
        simp only [MXTerm.eval, hMUL, hNEG]
        ring
      · subst h3
        rw [hneg, ih]
        simp only [MXTerm.eval, hDIV, hNEG]
        ring
      · rw [hbase]
    | OP_TWICE =>
      have hTWICE := fun x y => (hf x y).2.2.2.2.2.2.2.2.2.1
      simp only [MXTerm.getBinary]
      split_ifs with h
      · obtain ⟨h1, h2⟩ := h
        subst h1
        simp only [MXTerm.eval, hSUB, hTWICE, hEq y d h2]
        ring
      · rw [hbase]
    | OP_SQ =>
      simp only [MXTerm.getBinary]
      split_ifs with h1 h2 h3
      · obtain ⟨ha, hy⟩ := h1
        subst ha
        obtain ⟨zy, hzy⟩ := MXTerm.eval_of_getOp f dummy env y _ hy (by intro id; simp)
        rw [hones]
        simp only [MXTerm.eval, hADD, hSQ]
        rw [hzy, hSQ]
        rcases h2 with ⟨hd, hyd⟩ | ⟨hd, hyd⟩
        · obtain ⟨z1, hz1⟩ := MXTerm.eval_of_getOp f dummy env d _ hd (by intro id; simp)
          obtain ⟨z2, hz2⟩ := MXTerm.eval_of_getOp f dummy env y.dep _ hyd (by intro id; simp)
          rw [hz1, hz2, hSIN, hCOS, hEq _ _ h3]
          have := Real.sin_sq_add_cos_sq (MXTerm.eval f dummy env y.dep.dep)
          nlinarith [this]
        · obtain ⟨z1, hz1⟩ := MXTerm.eval_of_getOp f dummy env d _ hd (by intro id; simp)
          obtain ⟨z2, hz2⟩ := MXTerm.eval_of_getOp f dummy env y.dep _ hyd (by intro id; simp)
          rw [hz1, hz2, hSIN, hCOS, hEq _ _ h3]
          have := Real.sin_sq_add_cos_sq (MXTerm.eval f dummy env y.dep.dep)
          nlinarith [this]
      · rw [hbase]
      · rw [hbase]
      · rw [hbase]
    | _ =>
      simp only [MXTerm.getBinary]
      rw [hbase]

end Meaning

/-- C21 (defect of the code): with on-the-fly simplification disabled,
`UnaryMX::getUnary` returns what `MXNode::getUnary` returns for every node and
every operation, but `UnaryMX::getBinary` never reads the toggle. For the sum of
a negation node `-x` and a node `y` of another class it returns the difference
`y - x` requested from `y`, whatever the toggle says, and not the sum node that
the default `MXNode::getBinary` creates. -/
theorem MXTerm.getBinary_ignores_toggle :
    (∀ (base : MXTerm → Operation → MXTerm) (x : MXTerm) (op : Operation),
      MXTerm.getUnary false base x op = base x op) ∧
    (∀ (neg : MXTerm → MXTerm) (isEqual : MXTerm → MXTerm → Nat → Bool) (maxDepth : Nat)
        (ones : MXTerm → MXTerm),
      MXTerm.getBinary MXTerm.newBinary neg isEqual maxDepth ones
          (MXTerm.unary Operation.OP_NEG (MXTerm.leaf 0)) Operation.OP_ADD (MXTerm.leaf 1)
          false false
        = MXTerm.binary Operation.OP_SUB (MXTerm.leaf 1) (MXTerm.leaf 0) ∧
      MXTerm.getBinary MXTerm.newBinary neg isEqual maxDepth ones
          (MXTerm.unary Operation.OP_NEG (MXTerm.leaf 0)) Operation.OP_ADD (MXTerm.leaf 1)
          false false
        ≠ MXTerm.newBinary (MXTerm.unary Operation.OP_NEG (MXTerm.leaf 0)) Operation.OP_ADD
            (MXTerm.leaf 1) false false) := by
  refine ⟨MXTerm.getUnary_off, fun neg isEqual maxDepth ones => ?_⟩
  rw [MXTerm.getBinary_neg_add_leaf]
  simp [MXTerm.newBinary]

/-- C25: every rewrite rule of `UnaryMX::getUnary` and `UnaryMX::getBinary`
preserves the real-valued meaning of the expression. With the operations read
over the real numbers, the expression returned for the request `op` on a node
`x` has the value of `op` applied to `x` (to `x` and `y` for a binary request),
provided every operation of the requested expression is applied inside its
domain. The functions defined outside `unary_mx.cpp` are assumed to keep the
meaning: the default `MXNode::getUnary` and `MXNode::getBinary` denote the
operation they are asked for, `MX::operator-` the negation, `MX::ones` the value
one, and two expressions found equal by `isEqual` have the same value. -/
theorem MXTerm.rewrites_preserve_meaning (f : Operation → ℝ → ℝ → ℝ) (dummy : ℝ)
    (env : Nat → ℝ) (base1 : MXTerm → Operation → MXTerm)
    (base2 : MXTerm → Operation → MXTerm → Bool → Bool → MXTerm) (neg : MXTerm → MXTerm)
    (isEqual : MXTerm → MXTerm → Nat → Bool) (maxDepth : Nat) (ones : MXTerm → MXTerm)
    (hf : MXTerm.RealMeaning f)
    (hbase1 : ∀ t op, MXTerm.eval f dummy env (base1 t op)
      = MXTerm.eval f dummy env (MXTerm.unary op t))
    (hbase2 : ∀ t op y scX scY, MXTerm.eval f dummy env (base2 t op y scX scY)
      = MXTerm.eval f dummy env (MXTerm.binary op t y))
    (hneg : ∀ t, MXTerm.eval f dummy env (neg t) = -MXTerm.eval f dummy env t)
    (hEq : ∀ a b, isEqual a b maxDepth = true →
      MXTerm.eval f dummy env a = MXTerm.eval f dummy env b)
    (hones : ∀ y, MXTerm.eval f dummy env (ones y) = 1) :
    (∀ (x : MXTerm) (op : Operation), MXTerm.InDomain f dummy env (MXTerm.unary op x) →
      MXTerm.eval f dummy env (MXTerm.getUnary true base1 x op)
        = f op (MXTerm.eval f dummy env x) dummy) ∧
    (∀ (x : MXTerm) (op : Operation) (y : MXTerm) (scX scY : Bool),
      MXTerm.InDomain f dummy env (MXTerm.binary op x y) →
      MXTerm.eval f dummy env (MXTerm.getBinary base2 neg isEqual maxDepth ones x op y scX scY)
        = f op (MXTerm.eval f dummy env x) (MXTerm.eval f dummy env y)) :=
  ⟨MXTerm.eval_getUnary f dummy env hf base1 hbase1,
   fun x op y scX scY _ =>
    MXTerm.eval_getBinary f dummy env base2 neg isEqual maxDepth ones hf hbase2 hneg hEq hones
      x op y scX scY⟩

/-- Witness for C25: the square of the square root of a node with value 1, and
the sum of the squared sine and the squared cosine of that node. -/
theorem MXTerm.rewrites_preserve_meaning_witness :
    let f : Operation → ℝ → ℝ → ℝ := fun op x y =>
      match op with
      | Operation.OP_NEG => -x
      | Operation.OP_SQ => x * x
      | Operation.OP_FABS => |x|
      | Operation.OP_COS => Real.cos x
      | Operation.OP_SIN => Real.sin x
      | Operation.OP_SQRT => Real.sqrt x
      | Operation.OP_EXP => Real.exp x
      | Operation.OP_LOG => Real.log x
      | Operation.OP_INV => 1 / x
      | Operation.OP_TWICE => 2 * x
      | Operation.OP_ADD => x + y
      | Operation.OP_SUB => x - y
      | Operation.OP_MUL => x * y
      | Operation.OP_DIV => x / y
      | Operation.OP_OTHER _ => 0
    let env : Nat → ℝ := fun _ => 1
    let sin2 := MXTerm.unary Operation.OP_SQ (MXTerm.unary Operation.OP_SIN (MXTerm.leaf 0))
    let cos2 := MXTerm.unary Operation.OP_SQ (MXTerm.unary Operation.OP_COS (MXTerm.leaf 0))
    MXTerm.RealMeaning f ∧
    MXTerm.getUnary true MXTerm.newUnary (MXTerm.unary Operation.OP_SQRT (MXTerm.leaf 0))
      Operation.OP_SQ = MXTerm.leaf 0 ∧
    MXTerm.eval f 0 env (MXTerm.getUnary true MXTerm.newUnary
      (MXTerm.unary Operation.OP_SQRT (MXTerm.leaf 0)) Operation.OP_SQ)
        = Real.sqrt 1 * Real.sqrt 1 ∧
    MXTerm.getBinary MXTerm.newBinary (fun t => MXTerm.unary Operation.OP_NEG t)
      (fun a b _ => decide (a = b)) 1 (fun _ => MXTerm.leaf 0) sin2 Operation.OP_ADD cos2
      false false = MXTerm.leaf 0 ∧
    MXTerm.eval f 0 env (MXTerm.getBinary MXTerm.newBinary
      (fun t => MXTerm.unary Operation.OP_NEG t) (fun a b _ => decide (a = b)) 1
      (fun _ => MXTerm.leaf 0) sin2 Operation.OP_ADD cos2 false false)
        = Real.sin 1 * Real.sin 1 + Real.cos 1 * Real.cos 1 := by
  intro f env sin2 cos2
  have hf : MXTerm.RealMeaning f := by
    intro x y
    simp [f]
  have hd1 : MXTerm.InDomain f 0 env
      (MXTerm.unary Operation.OP_SQ (MXTerm.unary Operation.OP_SQRT (MXTerm.leaf 0))) := by
    simp [MXTerm.InDomain, MXTerm.eval, env]
  have hd2 : MXTerm.InDomain f 0 env (MXTerm.binary Operation.OP_ADD sin2 cos2) := by
    simp [MXTerm.InDomain, sin2, cos2]
  have h := MXTerm.rewrites_preserve_meaning f 0 env MXTerm.newUnary MXTerm.newBinary
    (fun t => MXTerm.unary Operation.OP_NEG t) (fun a b _ => decide (a = b)) 1
    (fun _ => MXTerm.leaf 0) hf (fun _ _ => rfl) (fun _ _ _ _ _ => rfl) (fun _ => rfl)
    (fun a b hab => by rw [of_decide_eq_true hab]) (fun _ => rfl)
  refine ⟨hf, ?_, ?_, ?_, ?_⟩
  · simp [MXTerm.getUnary]
  · exact h.1 _ _ hd1
  · simp [MXTerm.getBinary, sin2, cos2, MXTerm.getOp, MXTerm.dep]
  · exact h.2 _ _ _ _ _ hd2

/-! ### Symbolic optimal control problem: start values -/

theorem SymbolicOCP.no_such_variable_ne (name : String) :
    ("No such variable: \"" ++ name ++ "\"." : String)
      ≠ "SymbolicOCP::setStart: Dimension mismatch" := by
  intro h
  have h2 := congrArg String.data h
  simp [String.data_append] at h2

theorem SymbolicOCP.setStartLoop_message {D : Type} (var : SX) (val : List D) (is : List Nat)
    (ocp : SymbolicOCP D) :
    (SymbolicOCP.setStartLoop var val is ocp).2
      ≠ some ⟨"SymbolicOCP::setStart: Dimension mismatch"⟩ := by
  induction is generalizing ocp with
  | nil => simp [SymbolicOCP.setStartLoop]
  | cons i rest ih =>
    simp only [SymbolicOCP.setStartLoop]
    cases hv : var.at_ i with
    | error e =>
      simp only [SX.at_] at hv
      cases hg : var.data.get? i with
      | none => rw [hg] at hv; cases hv; simp
      | some el => rw [hg] at hv; cases hv
    | ok el =>
      dsimp only
      cases hw : vector_at val i with
      | error e =>
        simp only [vector_at] at hw
        cases hg : val.get? i with
        | none => rw [hg] at hw; cases hw; simp
        | some v => rw [hg] at hw; cases hw
      | ok v =>
        dsimp only
        cases hs : ocp.setStartByName el.getName v with
        | error e =>
          simp only [SymbolicOCP.setStartByName, SymbolicOCP.variable_] at hs
          cases hl : ocp.varmap_.lookup el.getName with
          | none =>
            rw [hl] at hs
            simp only [casadi_error] at hs
            cases hs
            dsimp only
            simp only [ne_eq, Option.some.injEq, CasadiException.mk.injEq]
            exact SymbolicOCP.no_such_variable_ne _
          | some w => rw [hl] at hs; cases hs
        | ok ocp1 => exact ih ocp1

/-- C29 (defect of the code): `SymbolicOCP::setStart(var, val)` compares
`var.size()` with itself, so a dimension mismatch is never rejected. For no
input is the error `Dimension mismatch` raised. With two variables `x`, `y` and
the single value 5 the call raises nothing and sets the start value of `x`; with
the single variable `x` and the values 5, 6 it sets the start value of `x` and
then stops on the out-of-range access `var.at(1)`. -/
theorem SymbolicOCP.setStart_accepts_mismatch :
    (∀ (ocp : SymbolicOCP Int) (var : SX) (val : List Int),
      (ocp.setStart var val).2 ≠ some ⟨"SymbolicOCP::setStart: Dimension mismatch"⟩) ∧
    (let v0 : Variable Int := { der_ := SXElement.node 0, nominal_ := 1, start_ := 0 }
     let e : SX := ⟨0, 1, []⟩
     let ocp : SymbolicOCP Int :=
       { varmap_ := [("x", v0), ("y", v0)], s := e, dae := e, x := e, ode := e, z := e,
         alg := e, y := e, dep := e }
     ocp.setStart ⟨2, 1, [SXElement.sym "x", SXElement.sym "y"]⟩ [5]
         = ({ ocp with varmap_ := [("x", { v0 with start_ := 5 }), ("y", v0)] }, none) ∧
     ocp.setStart ⟨1, 1, [SXElement.sym "x"]⟩ [5, 6]
         = ({ ocp with varmap_ := [("x", { v0 with start_ := 5 }), ("y", v0)] },
            some ⟨"out_of_range"⟩)) := by
  refine ⟨fun ocp var val => ?_, by decide⟩
  unfold SymbolicOCP.setStart
  split_ifs with h1 h2
  · exact SymbolicOCP.setStartLoop_message var val _ ocp
  · exact absurd rfl h2
  · simp

/-! ### Implicit Runge-Kutta integrator: layout of the unknowns -/

namespace IRKIntegratorInternal

theorem initTimePoint_offset (nx_ nrx_ nz_ nrz_ : Nat) (st : Row) (j : Nat) :
    (initTimePoint nx_ nrx_ nz_ nrz_ st j).offset
      = st.offset + (nx_ + nrx_) + (if j > 0 then nz_ + nrz_ else 0) := by
  unfold initTimePoint
  split_ifs <;> simp <;> omega

theorem resetTimePoint_offs (nx_ nrx_ nz_ nrz_ : Nat) (write_z : Bool) (st : GuessRow)
    (j : Nat) :
    (resetTimePoint nx_ nrx_ nz_ nrz_ write_z st j).offs
      = st.offs + (nx_ + nrx_) + (if j > 0 then nz_ + nrz_ else 0) := by
  unfold resetTimePoint
  split_ifs <;> simp <;> omega

theorem timePoints_agree (nx_ nrx_ nz_ nrz_ : Nat) (write_z : Bool) (js : List Nat) :
    ∀ (st : Row) (g : GuessRow), st.offset = g.offs → st.X = g.X →
      (js.foldl (initTimePoint nx_ nrx_ nz_ nrz_) st).offset
          = (js.foldl (resetTimePoint nx_ nrx_ nz_ nrz_ write_z) g).offs ∧
      (js.foldl (initTimePoint nx_ nrx_ nz_ nrz_) st).X
          = (js.foldl (resetTimePoint nx_ nrx_ nz_ nrz_ write_z) g).X := by
  induction js with
  | nil => intro st g h1 h2; exact ⟨h1, h2⟩
  | cons j rest ih =>
    intro st g h1 h2
    simp only [List.foldl_cons]
    apply ih
    · rw [initTimePoint_offset, resetTimePoint_offs, h1]
    · unfold initTimePoint resetTimePoint
      split_ifs <;> simp [h1, h2]

theorem timePoints_offset (nx_ nrx_ nz_ nrz_ : Nat) (n : Nat) (st : Row) :
    ((List.range n).foldl (initTimePoint nx_ nrx_ nz_ nrz_) st).offset
      = st.offset + n * (nx_ + nrx_) + (n - 1) * (nz_ + nrz_) := by
  induction n with
  | zero => simp
  | succ n ih =>
    rw [List.range_succ, List.foldl_append, List.foldl_cons, List.foldl_nil,
      initTimePoint_offset, ih]
    rcases Nat.eq_zero_or_pos n with h | h
    · subst h; simp
    · have h1 : n - 1 + 1 = n := by omega
      have h2 : (n - 1 + 1) * (nz_ + nrz_) = (n - 1) * (nz_ + nrz_) + (nz_ + nrz_) :=
        Nat.succ_mul _ _
      rw [h1] at h2
      simp only [h, if_true, Nat.add_sub_cancel, Nat.succ_mul]
      omega

theorem elements_agree (nk_ deg nx_ nrx_ nz_ nrz_ : Nat) (write_z : Bool) (ks : List Nat) :
    ∀ (L : Layout) (G : Guess), L.offset = G.offs → L.X = G.X →
      (ks.foldl (initElement nk_ deg nx_ nrx_ nz_ nrz_) L).coll_time_size
          = L.coll_time_size ++ ks.map (fun k => if k = nk_ then 1 else deg + 1) ∧
      (ks.foldl (initElement nk_ deg nx_ nrx_ nz_ nrz_) L).offset
          = ((ks.map (fun k => if k = nk_ then 1 else deg + 1)).foldl
              (resetElement nx_ nrx_ nz_ nrz_ write_z) G).offs ∧
      (ks.foldl (initElement nk_ deg nx_ nrx_ nz_ nrz_) L).X
          = ((ks.map (fun k => if k = nk_ then 1 else deg + 1)).foldl
              (resetElement nx_ nrx_ nz_ nrz_ write_z) G).X := by
  induction ks with
  | nil => intro L G h1 h2; simp [h1, h2]
  | cons k rest ih =>
    intro L G h1 h2
    simp only [List.foldl_cons, List.map_cons]
    have hrow := timePoints_agree nx_ nrx_ nz_ nrz_ write_z
      (List.range (if k = nk_ then 1 else deg + 1))
      { offset := L.offset, X := [], RX := [], Z := [], RZ := [] }
      { offs := G.offs, X := [], Z := [], RX := [] } h1 rfl
    have h := ih (initElement nk_ deg nx_ nrx_ nz_ nrz_ L k)
      (resetElement nx_ nrx_ nz_ nrz_ write_z G (if k = nk_ then 1 else deg + 1))
      (by simp only [initElement, resetElement]; exact hrow.1)
      (by simp only [initElement, resetElement]; rw [hrow.2, h2])
    refine ⟨?_, h.2.1, h.2.2⟩
    rw [h.1]
    simp [initElement]

theorem elements_offset (nk_ deg nx_ nrx_ nz_ nrz_ : Nat) (m : Nat) (hm : m ≤ nk_)
    (L : Layout) :
    ((List.range m).foldl (initElement nk_ deg nx_ nrx_ nz_ nrz_) L).offset
      = L.offset + m * ((deg + 1) * (nx_ + nrx_) + deg * (nz_ + nrz_)) := by
  induction m with
  | zero => simp
  | succ m ih =>
    rw [List.range_succ, List.foldl_append, List.foldl_cons, List.foldl_nil]
    have hne : m ≠ nk_ := by omega
    simp only [initElement, hne, if_false]
    rw [timePoints_offset]
    simp only [ih (by omega), Nat.add_sub_cancel]
    ring

theorem layout_offset (nk_ deg nx_ nrx_ nz_ nrz_ : Nat) :
    ((List.range (nk_ + 1)).foldl (initElement nk_ deg nx_ nrx_ nz_ nrz_)
        { offset := 0, X := [], RX := [], Z := [], RZ := [], coll_time_size := [] }).offset
      = V_size nk_ deg nx_ nrx_ nz_ nrz_ := by
  rw [List.range_succ, List.foldl_append, List.foldl_cons, List.foldl_nil]
  simp only [initElement, if_true]
  rw [timePoints_offset, elements_offset _ _ _ _ _ _ _ (Nat.le_refl _)]
  simp only [V_size, Nat.sub_self, Nat.zero_mul, Nat.add_zero, Nat.zero_add, Nat.one_mul]
  ring

/-- The layout loop of `init` always passes its consistency check. -/
theorem init_ok (nk_ deg nx_ nrx_ nz_ nrz_ : Nat) :
    init nk_ deg nx_ nrx_ nz_ nrz_ = Except.ok
      ((List.range (nk_ + 1)).foldl (initElement nk_ deg nx_ nrx_ nz_ nrz_)
        { offset := 0, X := [], RX := [], Z := [], RZ := [], coll_time_size := [] }) := by
  simp only [init, layout_offset, not_true_eq_false, if_false]

/-- The positions written by `reset` for the differential states are the
ranges allocated by `init`, and `reset` traverses the whole vector `V`. -/
theorem reset_differential_states (nk_ deg nx_ nrx_ nz_ nrz_ : Nat) (write_z : Bool) :
    ∃ L, init nk_ deg nx_ nrx_ nz_ nrz_ = Except.ok L ∧
      (reset nx_ nrx_ nz_ nrz_ write_z L.coll_time_size).X = L.X ∧
      (reset nx_ nrx_ nz_ nrz_ write_z L.coll_time_size).offs
        = V_size nk_ deg nx_ nrx_ nz_ nrz_ := by
  refine ⟨_, init_ok nk_ deg nx_ nrx_ nz_ nrz_, ?_⟩
  have h := elements_agree nk_ deg nx_ nrx_ nz_ nrz_ write_z (List.range (nk_ + 1))
    { offset := 0, X := [], RX := [], Z := [], RZ := [], coll_time_size := [] }
    { offs := 0, X := [], Z := [], RX := [] } rfl rfl
  rw [h.1]
  simp only [List.nil_append, reset]
  exact ⟨h.2.2.symm, by rw [← h.2.1, layout_offset]⟩

end IRKIntegratorInternal

/-- C30 (defect of the code): the initial-guess loop of `reset` and the layout
loop of `init` order the blocks of a time point differently. `init` allocates
`X`, `RX`, `Z`, `RZ`; `reset` writes the state, skips the algebraic variables,
then writes the backward state. The guess of every differential state lands on
the range `init` gave it and the loop traverses the whole vector `V`, for all
sizes; but for `nk = deg = nx = nrx = nz = 1`, `nrz = 0` the backward state
`RX[0][1]`, allocated at position 3, is written at position 4, the range of the
algebraic variable `Z[0][0]`. -/
theorem IRKIntegratorInternal.reset_misplaces_backward_state :
    (∀ (nk_ deg nx_ nrx_ nz_ nrz_ : Nat) (write_z : Bool),
      ∃ L, IRKIntegratorInternal.init nk_ deg nx_ nrx_ nz_ nrz_ = Except.ok L ∧
        (IRKIntegratorInternal.reset nx_ nrx_ nz_ nrz_ write_z L.coll_time_size).X = L.X ∧
        (IRKIntegratorInternal.reset nx_ nrx_ nz_ nrz_ write_z L.coll_time_size).offs
          = IRKIntegratorInternal.V_size nk_ deg nx_ nrx_ nz_ nrz_) ∧
    (∃ L, IRKIntegratorInternal.init 1 1 1 1 1 0 = Except.ok L ∧
      L.RX = [[(1, 2), (3, 4)], [(6, 7)]] ∧ L.Z = [[(4, 5)]] ∧
      (IRKIntegratorInternal.reset 1 1 1 0 false L.coll_time_size).RX
        = [[(1, 2), (4, 5)], [(6, 7)]]) :=
  ⟨IRKIntegratorInternal.reset_differential_states,
   ⟨_, IRKIntegratorInternal.init_ok 1 1 1 1 1 0, by decide, by decide, by decide⟩⟩

/-! ### Split nodes: the offset invariant -/

theorem Split.runningOffsets_ge (a : Nat) (sps : List Sparsity) :
    ∀ x ∈ Split.runningOffsets a sps, a ≤ x := by
  induction sps generalizing a with
  | nil => intro x hx; simp [Split.runningOffsets] at hx
  | cons s rest ih =>
    intro x hx
    simp only [Split.runningOffsets, List.mem_cons] at hx
    rcases hx with rfl | hx
    · omega
    · have := ih (a + s.nnz) x hx
      omega

theorem Split.runningOffsets_pairwise (a : Nat) (sps : List Sparsity) :
    (a :: Split.runningOffsets a sps).Pairwise (· ≤ ·) := by
  induction sps generalizing a with
  | nil => simp [Split.runningOffsets]
  | cons s rest ih =>
    rw [List.pairwise_cons]
    refine ⟨Split.runningOffsets_ge a (s :: rest), ?_⟩
    simpa [Split.runningOffsets] using ih (a + s.nnz)

theorem Split.sum_take_succ_nnz (sps : List Sparsity) (i : Nat) (hi : i < sps.length) :
    ((sps.take (i + 1)).map Sparsity.nnz).sum
      = ((sps.take i).map Sparsity.nnz).sum
        + (sps.getD i { nrow := 0, ncol := 0, colind := [0], row := [] }).nnz := by
  induction sps generalizing i with
  | nil => simp at hi
  | cons s rest ih =>
    cases i with
    | zero => simp
    | succ j =>
      have hj : j < rest.length := by simpa using hi
      simp only [List.take_succ_cons, List.map_cons, List.sum_cons, List.getD_cons_succ]
      rw [ih j hj]
      omega

/-- The loop of the constructors establishes the offset invariant whenever the
offsets handed to the constructor start at 0. -/
theorem Split.offsetInvariant_of_nzOffsets (offset : List Nat) (sps : List Sparsity)
    (h0 : offset.headD 0 = 0) :
    Split.OffsetInvariant { offset_ := Split.nzOffsets offset sps, output_sparsity_ := sps } := by
  refine ⟨?_, ?_, ?_, ?_⟩
  · simp [Split.nzOffsets_length, Split.nout]
  · simp only [Split.nzOffsets_eq, List.getD_cons_zero, h0]
  · rw [Split.nzOffsets_eq]
    exact Split.runningOffsets_pairwise _ _
  · intro i hi
    simp only [Split.nout] at hi
    simp only [Split.nzOffsets_eq, Split.sparsity]
    rw [Split.cons_runningOffsets_getD _ _ _ (by omega),
      Split.cons_runningOffsets_getD _ _ _ (by omega), Split.sum_take_succ_nnz _ _ hi]
    omega

theorem Split.spFwd_eq_evalGen (node : Split) (h : node.OffsetInvariant) (arg0 : List bvec_t)
    (res : List (Option (List bvec_t))) : node.spFwd arg0 res = node.evalGen arg0 res := by
  obtain ⟨hlen, _, _, hinc⟩ := h
  simp only [Split.spFwd, Split.evalGen]
  apply List.map_congr_left
  intro i hi
  have hi2 : i < node.nout := by
    have := List.mem_range.mp hi
    omega
  cases res.getD i none with
  | none => rfl
  | some buf => simp only [copyRange, hinc i hi2]

theorem Split.ranges_disjoint (node : Split) (h : node.OffsetInvariant) (i j : Nat) (hij : i < j)
    (hj : j < node.nout) : node.offset_.getD (i + 1) 0 ≤ node.offset_.getD j 0 := by
  obtain ⟨hlen, _, hpw, _⟩ := h
  exact getD_mono_of_pairwise _ hpw _ _ (by omega) (by omega)

theorem getD_set_nat (l : List Nat) (i j v : Nat) :
    (l.set i v).getD j 0 = if i = j ∧ i < l.length then v else l.getD j 0 := by
  simp only [List.getD_eq_getElem?_getD, List.getElem?_set]
  by_cases hij : i = j
  · subst hij
    by_cases hl : i < l.length
    · simp [hl]
    · simp [hl, List.getElem?_eq_none (Nat.le_of_not_lt hl)]
  · simp [hij]

theorem Split.spAdjOutput_steps (first n : Nat) (arg0 buf : List bvec_t) :
    (Split.spAdjOutput first n arg0 buf).1.length = arg0.length ∧
    (Split.spAdjOutput first n arg0 buf).2.length = buf.length ∧
    (∀ p, (Split.spAdjOutput first n arg0 buf).1.getD p 0
      = if first ≤ p ∧ p < first + n ∧ p < arg0.length
        then arg0.getD p 0 ||| buf.getD (p - first) 0 else arg0.getD p 0) ∧
    (∀ k, (Split.spAdjOutput first n arg0 buf).2.getD k 0
      = if k < n ∧ k < buf.length then 0 else buf.getD k 0) := by
  induction n with
  | zero =>
    refine ⟨rfl, rfl, fun p => ?_, fun k => ?_⟩
    · rw [if_neg (by omega)]
      rfl
    · rw [if_neg (by omega)]
      rfl
  | succ n ih =>
    obtain ⟨h1, h2, h3, h4⟩ := ih
    have hstep : Split.spAdjOutput first (n + 1) arg0 buf
        = ((Split.spAdjOutput first n arg0 buf).1.set (first + n)
            ((Split.spAdjOutput first n arg0 buf).1.getD (first + n) 0
              ||| (Split.spAdjOutput first n arg0 buf).2.getD n 0),
           (Split.spAdjOutput first n arg0 buf).2.set n 0) := by
      simp [Split.spAdjOutput, List.range_succ, List.foldl_append]
    have ha : (Split.spAdjOutput first n arg0 buf).1.getD (first + n) 0
        = arg0.getD (first + n) 0 := by
      rw [h3, if_neg (by omega)]
    have hb : (Split.spAdjOutput first n arg0 buf).2.getD n 0 = buf.getD n 0 := by
      rw [h4, if_neg (by omega)]
    rw [hstep, ha, hb]
    refine ⟨by rw [List.length_set, h1], by rw [List.length_set, h2], ?_, ?_⟩
    · intro p
      simp only [getD_set_nat, h1, h3]
      by_cases hp : first + n = p
      · subst hp
        by_cases hl : first + n < arg0.length
        · simp [hl]
        · simp [hl]
      · by_cases hq : first ≤ p ∧ p < first + n ∧ p < arg0.length
        · rw [if_neg (fun h => hp h.1), if_pos hq, if_pos ⟨hq.1, by omega, hq.2.2⟩]
        · rw [if_neg (fun h => hp h.1), if_neg hq, if_neg (by omega)]
    · intro k
      simp only [getD_set_nat, h2, h4]
      by_cases hk : n = k
      · subst hk
        by_cases hl : n < buf.length
        · simp [hl]
        · simp [hl, List.getD_eq_default _ _ (Nat.le_of_not_lt hl)]
      · by_cases hq : k < n ∧ k < buf.length
        · rw [if_neg (fun h => hk h.1), if_pos hq, if_pos ⟨by omega, hq.2⟩]
        · rw [if_neg (fun h => hk h.1), if_neg hq, if_neg (by omega)]

theorem Split.spAdj_steps (node : Split) (h : node.OffsetInvariant) (arg0 : List bvec_t)
    (res : List (Option (List bvec_t))) (m : Nat) (hm : m ≤ node.nout) :
    ((List.range m).foldl (Split.spAdjStep node) (arg0, res)).1.length = arg0.length ∧
    (∀ i, m ≤ i → ((List.range m).foldl (Split.spAdjStep node) (arg0, res)).2.getD i none
      = res.getD i none) ∧
    (∀ i p, i < m → node.offset_.getD i 0 ≤ p → p < node.offset_.getD (i + 1) 0 →
      ((List.range m).foldl (Split.spAdjStep node) (arg0, res)).1.getD p 0
        = if p < arg0.length then
            arg0.getD p 0 ||| (match res.getD i none with
              | some buf => buf.getD (p - node.offset_.getD i 0) 0
              | none => 0)
          else arg0.getD p 0) ∧
    (∀ p, node.offset_.getD m 0 ≤ p →
      ((List.range m).foldl (Split.spAdjStep node) (arg0, res)).1.getD p 0 = arg0.getD p 0) := by
  induction m with
  | zero =>
    refine ⟨rfl, fun i _ => rfl, fun i p hi => absurd hi (Nat.not_lt_zero _), fun p _ => rfl⟩
  | succ m ih =>
    obtain ⟨h1, h2, h3, h4⟩ := ih (by omega)
    obtain ⟨hlen, _, hpw, hinc⟩ := h
    have hmono : ∀ a b, a ≤ b → b ≤ node.nout →
        node.offset_.getD a 0 ≤ node.offset_.getD b 0 := fun a b hab hb =>
      getD_mono_of_pairwise _ hpw a b hab (by omega)
    have hnext : node.offset_.getD (m + 1) 0
        = node.offset_.getD m 0 + (node.sparsity m).nnz := by
      have := hinc m (by omega)
      have := hmono m (m + 1) (by omega) (by omega)
      omega
    rw [List.range_succ, List.foldl_append, List.foldl_cons, List.foldl_nil]
    generalize hst : (List.range m).foldl (Split.spAdjStep node) (arg0, res) = st at h1 h2 h3 h4
    have hres : st.2.getD m none = res.getD m none := h2 m (Nat.le_refl _)
    unfold Split.spAdjStep
    cases hr : res.getD m none with
    | none =>
      rw [hres, hr]
      refine ⟨h1, fun i hi => h2 i (by omega), ?_, ?_⟩
      · intro i p hi hp1 hp2
        rcases Nat.lt_or_ge i m with him | him
        · exact h3 i p him hp1 hp2
        · have : i = m := by omega
          subst this
          rw [h4 p hp1, hr]
          simp
      · intro p hp
        exact h4 p (Nat.le_trans (hmono m (m + 1) (by omega) (by omega)) hp)
    | some buf =>
      rw [hres, hr]
      obtain ⟨s1, _, s3, _⟩ :=
        Split.spAdjOutput_steps (node.offset_.getD m 0) (node.sparsity m).nnz st.1 buf
      dsimp only
      refine ⟨by rw [s1, h1], ?_, ?_, ?_⟩
      · intro i hi
        rw [List.getD_eq_getElem?_getD, List.getElem?_set_ne (by omega),
          ← List.getD_eq_getElem?_getD]
        exact h2 i (by omega)
      · intro i p hi hp1 hp2
        rw [s3 p, h1, ← hnext]
        rcases Nat.lt_or_ge i m with him | him
        · have hle := hmono (i + 1) m (by omega) (by omega)
          rw [if_neg (by omega)]
          exact h3 i p him hp1 hp2
        · have : i = m := by omega
          subst this
          rw [h4 p hp1, hr]
          by_cases hl : p < arg0.length
          · rw [if_pos ⟨hp1, hp2, hl⟩, if_pos hl]
          · rw [if_neg (fun hh => hl hh.2.2), if_neg hl]
      · intro p hp
        have hle := hmono m (m + 1) (by omega) (by omega)
        rw [s3 p, ← hnext, if_neg (by omega)]
        exact h4 p (by omega)

/-- C26: offset invariant of the split nodes. A `Horzsplit`, `Vertsplit` or
`Diagsplit` node constructed from offsets that start at 0 stores an `offset_`
with one entry more than it has outputs, starting at 0, non-decreasing, whose
consecutive entries differ by the number of nonzeros of the output between
them. Consequently `spFwd` copies for every output exactly the words that
`evalGen` copies; `spAdj` ORs the words of output `i` into the positions
`offset_[i]` up to `offset_[i+1]-1` of the dependency and leaves every position
past the last offset as it was; and the ranges of two different outputs do not
overlap. -/
theorem Split.offset_invariant_spec (x_sp : Sparsity) (offset offset2 : List Nat) (node : Split)
    (h0 : offset.headD 0 = 0)
    (hnode : node = Horzsplit.mk x_sp offset ∨ node = Vertsplit.mk x_sp offset ∨
      Diagsplit.mk x_sp offset offset2 = Except.ok node) :
    node.offset_.length = node.nout + 1 ∧ node.offset_.getD 0 0 = 0 ∧
    node.offset_.Pairwise (· ≤ ·) ∧
    (∀ i, i < node.nout →
      node.offset_.getD (i + 1) 0 - node.offset_.getD i 0 = (node.sparsity i).nnz) ∧
    (∀ (arg0 : List bvec_t) (res : List (Option (List bvec_t))),
      node.spFwd arg0 res = node.evalGen arg0 res) ∧
    (∀ (arg0 : List bvec_t) (res : List (Option (List bvec_t))) (i p : Nat), i < node.nout →
      node.offset_.getD i 0 ≤ p → p < node.offset_.getD (i + 1) 0 →
      (node.spAdj arg0 res).1.getD p 0
        = if p < arg0.length then
            arg0.getD p 0 ||| (match res.getD i none with
              | some buf => buf.getD (p - node.offset_.getD i 0) 0
              | none => 0)
          else arg0.getD p 0) ∧
    (∀ (arg0 : List bvec_t) (res : List (Option (List bvec_t))) (p : Nat),
      node.offset_.getD node.nout 0 ≤ p → (node.spAdj arg0 res).1.getD p 0 = arg0.getD p 0) ∧
    (∀ i j, i < j → j < node.nout →
      node.offset_.getD (i + 1) 0 ≤ node.offset_.getD j 0) := by
  have hinv : node.OffsetInvariant := by
    rcases hnode with h | h | h
    · rw [h]
      exact Split.offsetInvariant_of_nzOffsets offset _ h0
    · rw [h]
      exact Split.offsetInvariant_of_nzOffsets offset _ h0
    · rw [Diagsplit.diag_mk_ok h]
      exact Split.offsetInvariant_of_nzOffsets offset _ h0
  have hnx : node.offset_.length - 1 = node.nout := by
    rw [hinv.1]
    omega
  refine ⟨hinv.1, hinv.2.1, hinv.2.2.1, hinv.2.2.2, Split.spFwd_eq_evalGen node hinv, ?_, ?_,
    Split.ranges_disjoint node hinv⟩
  · intro arg0 res i p hi hp1 hp2
    have h := (Split.spAdj_steps node hinv arg0 res node.nout (Nat.le_refl _)).2.2.1 i p hi hp1 hp2
    simpa only [Split.spAdj, hnx] using h
  · intro arg0 res p hp
    have h := (Split.spAdj_steps node hinv arg0 res node.nout (Nat.le_refl _)).2.2.2 p hp
    simpa only [Split.spAdj, hnx] using h

/-- Witness for C26: the dense 2x2 pattern split into its two columns. -/
theorem Split.offset_invariant_spec_witness :
    ([0, 1, 2] : List Nat).headD 0 = 0 ∧
    (Horzsplit.mk (Sparsity.dense 2 2) [0, 1, 2]).offset_ = [0, 2, 4] ∧
    (Horzsplit.mk (Sparsity.dense 2 2) [0, 1, 2]).spFwd [1, 2, 4, 8] [some [0, 0], some [0, 0]]
      = (Horzsplit.mk (Sparsity.dense 2 2) [0, 1, 2]).evalGen [1, 2, 4, 8]
          [some [0, 0], some [0, 0]] ∧
    (Horzsplit.mk (Sparsity.dense 2 2) [0, 1, 2]).spFwd [1, 2, 4, 8] [some [0, 0], some [0, 0]]
      = [some [1, 2], some [4, 8]] ∧
    ((Horzsplit.mk (Sparsity.dense 2 2) [0, 1, 2]).spAdj [1, 2, 4, 8]
      [some [16, 32], some [64, 128]]).1 = [17, 34, 68, 136] :=
  ⟨rfl, by decide,
    (Split.offset_invariant_spec (Sparsity.dense 2 2) [0, 1, 2] [] _ rfl (Or.inl rfl)).2.2.2.2.1
      [1, 2, 4, 8] [some [0, 0], some [0, 0]],
    by decide, by decide⟩

/-! ### Code generation of the dense multiplication -/

/-- The statements `emitted` are the text written by `generateOperation`. -/
theorem DenseMultiplication.render_emitted (nnz nrow_x nrow_y ncol_y : Nat)
    (arg0 arg1 arg2 res0 : String) (rest : List String) :
    DenseMultiplication.generateOperation nnz nrow_x nrow_y ncol_y [arg0, arg1, arg2]
        (res0 :: rest)
      = Except.ok (String.join
          ((DenseMultiplication.emitted nnz nrow_x nrow_y ncol_y arg0 arg1 arg2 res0).map
            CStmt.render)) := by
  by_cases h : arg0 = res0
  · simp [DenseMultiplication.generateOperation, DenseMultiplication.emitted, vector_at, h,
      CStmt.render, String.join]
  · simp [DenseMultiplication.generateOperation, DenseMultiplication.emitted, vector_at, h,
      CStmt.render, String.join]

theorem CellMem.cell_write_same {R : Type} (m : CellMem R) (name : String) (buf : List R) :
    m.write name buf name = buf := by
  simp [CellMem.write]

theorem CellMem.cell_write_of_ne {R : Type} (m : CellMem R) (name : String) (buf : List R) (q : String)
    (h : q ≠ name) : m.write name buf q = m q := by
  simp [CellMem.write, h]

section GeneratedCode

variable {R : Type} [CommRing R]

theorem CellMem.readCell_of_lt (m : CellMem R) (name : String) (idx : Nat)
    (h : idx < (m name).length) : m.readCell name idx = some ((m name).getD idx 0) := by
  simp [CellMem.readCell, List.getD_eq_getElem?_getD, List.getElem?_eq_getElem h]

theorem getD_set_ring (l : List R) (i j : Nat) (v : R) :
    (l.set i v).getD j 0 = if i = j ∧ i < l.length then v else l.getD j 0 := by
  simp only [List.getD_eq_getElem?_getD, List.getElem?_set]
  by_cases hij : i = j
  · subst hij
    by_cases hl : i < l.length
    · simp [hl]
    · simp [hl, List.getElem?_eq_none (Nat.le_of_not_lt hl)]
  · simp [hij]

/-- The loop over `k` adds the partial dot product to the cell `rr` of `res`. -/
theorem CStmt.mulBody_steps (nrow_x : Nat) (res x y : String) (hx : res ≠ x) (hy : res ≠ y)
    (rr ss tt : Nat) (m : CellMem R) (n : Nat) (hrr : rr < (m res).length)
    (hss : ∀ k, k < n → ss + k * nrow_x < (m x).length)
    (htt : tt + n ≤ (m y).length) :
    ∃ m1, (List.range n).foldlM (CStmt.mulBody nrow_x res x y rr ss) (m, tt)
        = some (m1, tt + n) ∧
      (∀ q, q ≠ res → m1 q = m q) ∧ (m1 res).length = (m res).length ∧
      ∀ p, (m1 res).getD p 0
        = if p = rr then
            (m res).getD rr 0 + ((List.range n).map (fun k =>
              (m x).getD (ss + k * nrow_x) 0 * (m y).getD (tt + k) 0)).sum
          else (m res).getD p 0 := by
  induction n with
  | zero =>
    refine ⟨m, rfl, fun _ _ => rfl, rfl, fun p => ?_⟩
    by_cases hp : p = rr
    · subst hp; simp
    · simp [hp]
  | succ n ih =>
    obtain ⟨m1, h1, h2, h3, h4⟩ := ih (fun k hk => hss k (by omega)) (by omega)
    have e1 : m1.readCell res rr = some ((m1 res).getD rr 0) :=
      CellMem.readCell_of_lt m1 res rr (by rw [h3]; exact hrr)
    have e2 : m1.readCell x (ss + n * nrow_x) = some ((m x).getD (ss + n * nrow_x) 0) := by
      rw [CellMem.readCell_of_lt m1 x _ (by rw [h2 x (Ne.symm hx)]; exact hss n (by omega)),
        h2 x (Ne.symm hx)]
    have e3 : m1.readCell y (tt + n) = some ((m y).getD (tt + n) 0) := by
      rw [CellMem.readCell_of_lt m1 y _ (by rw [h2 y (Ne.symm hy)]; omega), h2 y (Ne.symm hy)]
    have e4 : ∀ v, m1.writeCell res rr v = some (m1.write res ((m1 res).set rr v)) := by
      intro v
      simp [CellMem.writeCell, h3, hrr]
    refine ⟨m1.write res ((m1 res).set rr
        ((m1 res).getD rr 0 + (m x).getD (ss + n * nrow_x) 0 * (m y).getD (tt + n) 0)),
      ?_, ?_, ?_, ?_⟩
    · rw [List.range_succ, List.foldlM_append, h1]
      simp only [Option.bind_eq_bind, Option.some_bind, List.foldlM_cons, List.foldlM_nil,
        CStmt.mulBody, e1, e2, e3, e4]
      rfl
    · intro q hq
      rw [CellMem.cell_write_of_ne _ _ _ _ hq, h2 q hq]
    · rw [CellMem.cell_write_same, List.length_set, h3]
    · intro p
      rw [CellMem.cell_write_same, getD_set_ring, h3]
      by_cases hp : p = rr
      · subst hp
        rw [if_pos ⟨rfl, hrr⟩, if_pos rfl, h4 p, if_pos rfl, List.range_succ, List.map_append,
          List.sum_append]
        simp only [List.map_cons, List.map_nil, List.sum_cons, List.sum_nil, add_zero]
        ring
      · rw [if_neg (fun h => hp h.1.symm), if_neg hp, h4 p, if_neg hp]

/-- The loop over `j` adds the dot products of one column to the cells
`rr0`, `rr0+1`, ... of `res`. -/
theorem CStmt.mulColumn_steps (nrow_x nrow_y : Nat) (res x y : String) (hx : res ≠ x)
    (hy : res ≠ y) (i : Nat) (m : CellMem R) (rr0 n : Nat) (hn : n ≤ nrow_x)
    (hrr : rr0 + n ≤ (m res).length) (hlx : (m x).length = nrow_x * nrow_y)
    (hly : (i + 1) * nrow_y ≤ (m y).length) :
    ∃ m1, (List.range n).foldlM (CStmt.mulColumnBody nrow_x nrow_y res x y i) (m, rr0)
        = some (m1, rr0 + n) ∧
      (∀ q, q ≠ res → m1 q = m q) ∧ (m1 res).length = (m res).length ∧
      ∀ p, (m1 res).getD p 0
        = if rr0 ≤ p ∧ p < rr0 + n then
            (m res).getD p 0 + ((List.range nrow_y).map (fun k =>
              (m x).getD (p - rr0 + k * nrow_x) 0 * (m y).getD (i * nrow_y + k) 0)).sum
          else (m res).getD p 0 := by
  induction n with
  | zero =>
    refine ⟨m, rfl, fun _ _ => rfl, rfl, fun p => ?_⟩
    rw [if_neg (by omega)]
  | succ n ih =>
    obtain ⟨m1, h1, h2, h3, h4⟩ := ih (by omega) (by omega)
    have hss : ∀ k, k < nrow_y → n + k * nrow_x < (m1 x).length := by
      intro k hk
      rw [h2 x (Ne.symm hx), hlx]
      have h5 : (k + 1) * nrow_x ≤ nrow_y * nrow_x := Nat.mul_le_mul_right _ (by omega)
      rw [Nat.succ_mul] at h5
      rw [Nat.mul_comm nrow_x nrow_y]
      omega
    have htt : i * nrow_y + nrow_y ≤ (m1 y).length := by
      rw [h2 y (Ne.symm hy)]
      rw [Nat.succ_mul] at hly
      exact hly
    obtain ⟨m2, g1, g2, g3, g4⟩ := CStmt.mulBody_steps nrow_x res x y hx hy (rr0 + n) n
      (i * nrow_y) m1 nrow_y (by rw [h3]; omega) hss htt
    refine ⟨m2, ?_, ?_, ?_, ?_⟩
    · rw [List.range_succ, List.foldlM_append, h1]
      simp only [Option.bind_eq_bind, Option.some_bind, List.foldlM_cons, List.foldlM_nil,
        CStmt.mulColumnBody, g1]
      rfl
    · intro q hq
      rw [g2 q hq, h2 q hq]
    · rw [g3, h3]
    · intro p
      rw [g4 p, h2 x (Ne.symm hx), h2 y (Ne.symm hy)]
      by_cases hp : p = rr0 + n
      · subst hp
        rw [if_pos rfl, if_pos ⟨by omega, by omega⟩, h4, if_neg (by omega), Nat.add_sub_cancel_left]
      · rw [if_neg hp, h4 p]
        by_cases hq : rr0 ≤ p ∧ p < rr0 + n
        · rw [if_pos hq, if_pos ⟨hq.1, by omega⟩]
        · rw [if_neg hq, if_neg (by omega)]

/-- The loop over `i` adds the product to the first `n` columns of `res`. -/
theorem CStmt.mulLoop_steps (ncol_y nrow_x nrow_y : Nat) (res x y : String) (hx : res ≠ x)
    (hy : res ≠ y) (m : CellMem R) (hlr : (m res).length = nrow_x * ncol_y)
    (hlx : (m x).length = nrow_x * nrow_y) (hly : (m y).length = nrow_y * ncol_y) (n : Nat)
    (hn : n ≤ ncol_y) :
    ∃ m1, (List.range n).foldlM
        (fun (st : CellMem R × Nat) i =>
          (List.range nrow_x).foldlM (CStmt.mulColumnBody nrow_x nrow_y res x y i) st) (m, 0)
        = some (m1, n * nrow_x) ∧
      (∀ q, q ≠ res → m1 q = m q) ∧ (m1 res).length = (m res).length ∧
      ∀ i j, j < nrow_x → (m1 res).getD (j + i * nrow_x) 0
        = if i < n then
            (m res).getD (j + i * nrow_x) 0 + ((List.range nrow_y).map (fun k =>
              (m x).getD (j + k * nrow_x) 0 * (m y).getD (k + i * nrow_y) 0)).sum
          else (m res).getD (j + i * nrow_x) 0 := by
  induction n with
  | zero =>
    refine ⟨m, by simp, fun _ _ => rfl, rfl, fun i j _ => ?_⟩
    rw [if_neg (by omega)]
  | succ n ih =>
    obtain ⟨m1, h1, h2, h3, h4⟩ := ih (by omega)
    have hcol : (n + 1) * nrow_x ≤ ncol_y * nrow_x := Nat.mul_le_mul_right _ hn
    have hrow : (n + 1) * nrow_y ≤ ncol_y * nrow_y := Nat.mul_le_mul_right _ hn
    obtain ⟨m2, g1, g2, g3, g4⟩ := CStmt.mulColumn_steps nrow_x nrow_y res x y hx hy n m1
      (n * nrow_x) nrow_x (Nat.le_refl _)
      (by rw [h3, hlr, Nat.mul_comm nrow_x ncol_y]; rw [Nat.succ_mul] at hcol; exact hcol)
      (by rw [h2 x (Ne.symm hx), hlx])
      (by rw [h2 y (Ne.symm hy), hly, Nat.mul_comm nrow_y ncol_y]; exact hrow)
    refine ⟨m2, ?_, ?_, ?_, ?_⟩
    · rw [List.range_succ, List.foldlM_append, h1]
      simp only [Option.bind_eq_bind, Option.some_bind, List.foldlM_cons, List.foldlM_nil, g1,
        Nat.succ_mul]
      rfl
    · intro q hq
      rw [g2 q hq, h2 q hq]
    · rw [g3, h3]
    · intro i j hj
      rw [g4, h2 x (Ne.symm hx), h2 y (Ne.symm hy), h4 i j hj]
      rcases Nat.lt_trichotomy i n with hin | hin | hin
      · have h5 : (i + 1) * nrow_x ≤ n * nrow_x := Nat.mul_le_mul_right _ hin
        rw [Nat.succ_mul] at h5
        rw [if_neg (by omega), if_pos hin, if_pos (by omega)]
      · subst hin
        rw [if_pos ⟨by omega, by omega⟩, if_neg (Nat.lt_irrefl _), if_pos (by omega),
          Nat.add_sub_cancel]
        congr 2
        apply List.map_congr_left
        intro k _
        rw [Nat.add_comm k (i * nrow_y)]
      · have h5 : (n + 1) * nrow_x ≤ i * nrow_x := Nat.mul_le_mul_right _ hin
        rw [Nat.succ_mul] at h5
        rw [if_neg (by omega), if_neg (by omega), if_neg (by omega)]

/-- The copy loop overwrites the first `n` cells of `dst` with those of `src`. -/
theorem CStmt.copyLoop_steps (dst src : String) (hne : dst ≠ src) (m : CellMem R) (n : Nat)
    (hd : n ≤ (m dst).length) (hs : n ≤ (m src).length) :
    ∃ m1, (List.range n).foldlM
        (fun (mem : CellMem R) i =>
          match mem.readCell src i with
          | some v => mem.writeCell dst i v
          | none => none) m = some m1 ∧
      (∀ q, q ≠ dst → m1 q = m q) ∧ (m1 dst).length = (m dst).length ∧
      ∀ p, (m1 dst).getD p 0 = if p < n then (m src).getD p 0 else (m dst).getD p 0 := by
  induction n with
  | zero =>
    refine ⟨m, rfl, fun _ _ => rfl, rfl, fun p => ?_⟩
    rw [if_neg (by omega)]
  | succ n ih =>
    obtain ⟨m1, h1, h2, h3, h4⟩ := ih (by omega) (by omega)
    have e1 : m1.readCell src n = some ((m src).getD n 0) := by
      rw [CellMem.readCell_of_lt m1 src n (by rw [h2 src (Ne.symm hne)]; omega),
        h2 src (Ne.symm hne)]
    have e2 : ∀ v, m1.writeCell dst n v = some (m1.write dst ((m1 dst).set n v)) := by
      intro v
      have : n < (m dst).length := by omega
      simp [CellMem.writeCell, h3, this]
    refine ⟨m1.write dst ((m1 dst).set n ((m src).getD n 0)), ?_, ?_, ?_, ?_⟩
    · rw [List.range_succ, List.foldlM_append, h1]
      simp only [Option.bind_eq_bind, Option.some_bind, List.foldlM_cons, List.foldlM_nil, e1, e2]
      rfl
    · intro q hq
      rw [CellMem.cell_write_of_ne _ _ _ _ hq, h2 q hq]
    · rw [CellMem.cell_write_same, List.length_set, h3]
    · intro p
      rw [CellMem.cell_write_same, getD_set_ring, h3]
      by_cases hp : n = p
      · subst hp
        rw [if_pos ⟨rfl, by omega⟩, if_pos (by omega)]
      · rw [if_neg (fun h => hp h.1), h4 p]
        by_cases hq : p < n
        · rw [if_pos hq, if_pos (by omega)]
        · rw [if_neg hq, if_neg (by omega)]

/-- In a commutative ring, where the running accumulation is a sum, the code
emitted by `DenseMultiplication::generateOperation` computes
`Z = Z0 + X*Y` on dense column-major arrays. For a node whose result has
`nnz = nrow_x * ncol_y` nonzeros and arrays of the sizes of the operands, the
result cell being neither the cell of `x` nor the cell of `y`: the text written
to the stream is the text of the statements `emitted`; the copy of `z0` into
`res` is among them exactly when the name of the result cell differs from the
name of the first argument; their execution reads and writes no cell outside
the arrays, and afterwards `res[j + i*nrow_x] = z0[j + i*nrow_x] + sum over
k < nrow_y of x[j + k*nrow_x] * y[k + i*nrow_y]` for every `i < ncol_y` and
`j < nrow_x`, the other arrays being unchanged. -/
theorem DenseMultiplication.generateOperation_spec (nnz nrow_x nrow_y ncol_y : Nat)
    (arg0 arg1 arg2 res0 : String) (rest : List String) (mem : CellMem R)
    (hnnz : nnz = nrow_x * ncol_y) (hx : res0 ≠ arg1) (hy : res0 ≠ arg2)
    (hlz : (mem arg0).length = nnz) (hlr : (mem res0).length = nnz)
    (hlx : (mem arg1).length = nrow_x * nrow_y) (hly : (mem arg2).length = nrow_y * ncol_y) :
    DenseMultiplication.generateOperation nnz nrow_x nrow_y ncol_y [arg0, arg1, arg2]
        (res0 :: rest)
      = Except.ok (String.join
          ((DenseMultiplication.emitted nnz nrow_x nrow_y ncol_y arg0 arg1 arg2 res0).map
            CStmt.render)) ∧
    (CStmt.copyLoop nnz res0 arg0
        ∈ DenseMultiplication.emitted nnz nrow_x nrow_y ncol_y arg0 arg1 arg2 res0
      ↔ res0 ≠ arg0) ∧
    ∃ mem1,
      CStmt.execAll (DenseMultiplication.emitted nnz nrow_x nrow_y ncol_y arg0 arg1 arg2 res0)
        mem = some mem1 ∧
      (∀ q, q ≠ res0 → mem1 q = mem q) ∧
      ∀ i j, i < ncol_y → j < nrow_x →
        (mem1 res0).getD (j + i * nrow_x) 0
          = (mem arg0).getD (j + i * nrow_x) 0
            + ((List.range nrow_y).map (fun k =>
                (mem arg1).getD (j + k * nrow_x) 0 * (mem arg2).getD (k + i * nrow_y) 0)).sum := by
  refine ⟨DenseMultiplication.render_emitted nnz nrow_x nrow_y ncol_y arg0 arg1 arg2 res0 rest,
    ?_, ?_⟩
  · by_cases h : arg0 = res0
    · simp [DenseMultiplication.emitted, h]
    · simp [DenseMultiplication.emitted, h, Ne.symm h]
  · by_cases h : arg0 = res0
    · subst h
      obtain ⟨m1, g1, g2, _, g4⟩ := CStmt.mulLoop_steps ncol_y nrow_x nrow_y arg0 arg1 arg2 hx hy
        mem (by rw [hlr, hnnz]) hlx hly ncol_y (Nat.le_refl _)
      refine ⟨m1, ?_, g2, fun i j hi hj => ?_⟩
      · simp [DenseMultiplication.emitted, CStmt.execAll, CStmt.exec, g1]
      · rw [g4 i j hj, if_pos hi]
    · have hne : res0 ≠ arg0 := Ne.symm h
      obtain ⟨m0, c1, c2, c3, c4⟩ := CStmt.copyLoop_steps res0 arg0 hne mem nnz
        (by omega) (by omega)
      obtain ⟨m1, g1, g2, _, g4⟩ := CStmt.mulLoop_steps ncol_y nrow_x nrow_y res0 arg1 arg2 hx hy
        m0 (by rw [c3, hlr, hnnz]) (by rw [c2 arg1 (Ne.symm hx), hlx])
        (by rw [c2 arg2 (Ne.symm hy), hly]) ncol_y (Nat.le_refl _)
      refine ⟨m1, ?_, fun q hq => by rw [g2 q hq, c2 q hq], fun i j hi hj => ?_⟩
      · simp [DenseMultiplication.emitted, CStmt.execAll, CStmt.exec, h, c1, g1]
      · have hlt : j + i * nrow_x < nnz := by
          have h5 : (i + 1) * nrow_x ≤ ncol_y * nrow_x := Nat.mul_le_mul_right _ hi
          rw [Nat.succ_mul] at h5
          rw [hnnz, Nat.mul_comm nrow_x ncol_y]
          omega
        rw [g4 i j hj, if_pos hi, c4, if_pos hlt, c2 arg1 (Ne.symm hx), c2 arg2 (Ne.symm hy)]

end GeneratedCode

/-- Instance in the integers: a 2x1 matrix `x = (2, 3)` times a 1x2 matrix `y = (5, 7)`
added to `z0 = (1, 1, 1, 1)` and stored in a separate result cell. -/
theorem DenseMultiplication.generateOperation_spec_witness :
    DenseMultiplication.generateOperation 4 2 1 2 ["z", "x", "y"] ["r"]
      = Except.ok (String.join
          ((DenseMultiplication.emitted 4 2 1 2 "z" "x" "y" "r").map CStmt.render)) ∧
    (CStmt.execAll (DenseMultiplication.emitted 4 2 1 2 "z" "x" "y" "r")
      (fun q => if q = "x" then [2, 3] else if q = "y" then [5, 7]
        else if q = "z" then [1, 1, 1, 1] else [0, 0, 0, 0] : CellMem Int)).map
        (fun m => m "r") = some [11, 16, 15, 22] :=
  ⟨(DenseMultiplication.generateOperation_spec 4 2 1 2 "z" "x" "y" "r" []
      (fun q => if q = "x" then [2, 3] else if q = "y" then [5, 7]
        else if q = "z" then [1, 1, 1, 1] else [0, 0, 0, 0] : CellMem Int)
      (by decide) (by decide) (by decide) (by decide) (by decide) (by decide) (by decide)).1,
    by decide⟩

/-! ### Symbolic optimal control problem: explicit form -/

section MakeExplicit

variable {D : Type}

theorem SymbolicOCP.makeExplicit_quick_return (T : SXTools) (ocp : SymbolicOCP D)
    (h : ocp.s.isEmpty = true) : ocp.makeExplicit T = Except.ok ocp := by
  simp [SymbolicOCP.makeExplicit, h]

/-- The loop over the blocks of `makeExplicit` stops at the first block whose
local Jacobian depends on the state derivatives of the block, and runs to its
end when there is none. -/
theorem SymbolicOCP.makeExplicit_blocks (T : SXTools) (ocp : SymbolicOCP D) (J : SX) (blt : BLT)
    (n : Nat)
    (hder : ∀ b, b < n → ∃ dxb, ocp.der (SymbolicOCP.blockVariables T ocp blt b) = Except.ok dxb)
    (acc : SX) :
    ((∀ b, b < n → ∀ dxb, ocp.der (SymbolicOCP.blockVariables T ocp blt b) = Except.ok dxb →
        T.dependsOn (SymbolicOCP.blockJacobian T J blt b) dxb = false) →
      ∃ r, (List.range n).foldlM (SymbolicOCP.makeExplicitBlock T ocp J blt) acc = Except.ok r) ∧
    ((∃ b, b < n ∧ ∃ dxb, ocp.der (SymbolicOCP.blockVariables T ocp blt b) = Except.ok dxb ∧
        T.dependsOn (SymbolicOCP.blockJacobian T J blt b) dxb = true) →
      ∃ b, b < n ∧
        (∃ dxb, ocp.der (SymbolicOCP.blockVariables T ocp blt b) = Except.ok dxb ∧
          T.dependsOn (SymbolicOCP.blockJacobian T J blt b) dxb = true) ∧
        (List.range n).foldlM (SymbolicOCP.makeExplicitBlock T ocp J blt) acc
          = Except.error ⟨"Cannot find an explicit expression for variable(s) "
              ++ T.toString (SymbolicOCP.blockVariables T ocp blt b)⟩) := by
  induction n with
  | zero =>
    refine ⟨fun _ => ⟨acc, rfl⟩, ?_⟩
    rintro ⟨b, hb, _⟩
    exact absurd hb (Nat.not_lt_zero _)
  | succ n ih =>
    obtain ⟨ih1, ih2⟩ := ih (fun b hb => hder b (by omega))
    obtain ⟨dn, hdn⟩ := hder n (by omega)
    rw [List.range_succ, List.foldlM_append]
    by_cases hprev : ∃ b, b < n ∧ ∃ dxb,
        ocp.der (SymbolicOCP.blockVariables T ocp blt b) = Except.ok dxb ∧
        T.dependsOn (SymbolicOCP.blockJacobian T J blt b) dxb = true
    · obtain ⟨b, hb, hP, hfold⟩ := ih2 hprev
      refine ⟨?_, fun _ => ⟨b, by omega, hP, ?_⟩⟩
      · intro hall
        obtain ⟨b', hb', dxb, h1, h2⟩ := hprev
        rw [hall b' (by omega) dxb h1] at h2
        cases h2
      · rw [hfold]
        rfl
    · have hnone : ∀ b, b < n → ∀ dxb,
          ocp.der (SymbolicOCP.blockVariables T ocp blt b) = Except.ok dxb →
          T.dependsOn (SymbolicOCP.blockJacobian T J blt b) dxb = false := by
        intro b hb dxb h1
        cases h2 : T.dependsOn (SymbolicOCP.blockJacobian T J blt b) dxb with
        | false => rfl
        | true => exact absurd ⟨b, hb, dxb, h1, h2⟩ hprev
      obtain ⟨r, hr⟩ := ih1 hnone
      rw [hr]
      cases hdep : T.dependsOn (SymbolicOCP.blockJacobian T J blt n) dn with
      | false =>
        refine ⟨fun _ => ?_, ?_⟩
        · simp only [List.foldlM_cons, List.foldlM_nil, SymbolicOCP.makeExplicitBlock, hdn, hdep]
          exact ⟨_, rfl⟩
        · rintro ⟨b, hb, dxb, h1, h2⟩
          rcases Nat.lt_or_ge b n with hlt | hge
          · exact absurd ⟨b, hlt, dxb, h1, h2⟩ hprev
          · have : b = n := by omega
            subst this
            rw [hdn] at h1
            cases h1
            rw [hdep] at h2
            cases h2
      | true =>
        refine ⟨fun hall => ?_, fun _ => ⟨n, by omega, ⟨dn, hdn, hdep⟩, ?_⟩⟩
        · rw [hall n (by omega) dn hdn] at hdep
          cases hdep
        · simp only [List.foldlM_cons, List.foldlM_nil, SymbolicOCP.makeExplicitBlock, hdn, hdep,
            casadi_error]
          rfl

/-- C22: `SymbolicOCP::makeExplicit` returns at once, leaving every field
unchanged, when there are no implicitly defined states. Otherwise, the
derivative vectors `der(s)`, `der(xb)` being defined, it fails with the error
`Cannot find an explicit expression for variable(s) ...` of some block if and
only if for at least one block of the block-triangular decomposition the block
of the Jacobian of the sorted equations with respect to the state derivatives
depends on the state derivatives of that block; when there is no such block it
returns normally. -/
theorem SymbolicOCP.makeExplicit_spec (T : SXTools) (ocp : SymbolicOCP D) :
    (ocp.s.isEmpty = true → ocp.makeExplicit T = Except.ok ocp) ∧
    (∀ ds ds1 : SX, ocp.s.isEmpty = false → ocp.der ocp.s = Except.ok ds →
      (ocp.makeExplicitSorted T ds).der (ocp.makeExplicitSorted T ds).s = Except.ok ds1 →
      (∀ b, b < (ocp.makeExplicitBLT T ds).nb →
        ∃ dxb, (ocp.makeExplicitSorted T ds).der
          (SymbolicOCP.blockVariables T (ocp.makeExplicitSorted T ds)
            (ocp.makeExplicitBLT T ds) b) = Except.ok dxb) →
      ((∃ b, b < (ocp.makeExplicitBLT T ds).nb ∧
          ocp.makeExplicit T = Except.error
            ⟨"Cannot find an explicit expression for variable(s) "
              ++ T.toString (SymbolicOCP.blockVariables T (ocp.makeExplicitSorted T ds)
                  (ocp.makeExplicitBLT T ds) b)⟩)
        ↔ ∃ b, b < (ocp.makeExplicitBLT T ds).nb ∧
            ∃ dxb, (ocp.makeExplicitSorted T ds).der
              (SymbolicOCP.blockVariables T (ocp.makeExplicitSorted T ds)
                (ocp.makeExplicitBLT T ds) b) = Except.ok dxb ∧
              T.dependsOn (SymbolicOCP.blockJacobian T
                (T.jac ds1 (ocp.makeExplicitSorted T ds).dae) (ocp.makeExplicitBLT T ds) b)
                dxb = true) ∧
      ((¬ ∃ b, b < (ocp.makeExplicitBLT T ds).nb ∧
            ∃ dxb, (ocp.makeExplicitSorted T ds).der
              (SymbolicOCP.blockVariables T (ocp.makeExplicitSorted T ds)
                (ocp.makeExplicitBLT T ds) b) = Except.ok dxb ∧
              T.dependsOn (SymbolicOCP.blockJacobian T
                (T.jac ds1 (ocp.makeExplicitSorted T ds).dae) (ocp.makeExplicitBLT T ds) b)
                dxb = true) →
        ∃ ocp2, ocp.makeExplicit T = Except.ok ocp2)) := by
  refine ⟨SymbolicOCP.makeExplicit_quick_return T ocp, ?_⟩
  intro ds ds1 hs hds hds1 hder
  obtain ⟨hok, herr⟩ := SymbolicOCP.makeExplicit_blocks T (ocp.makeExplicitSorted T ds)
    (T.jac ds1 (ocp.makeExplicitSorted T ds).dae) (ocp.makeExplicitBLT T ds)
    (ocp.makeExplicitBLT T ds).nb hder { size1 := 0, size2 := 0, data := [] }
  have hrun : ∀ r, (List.range (ocp.makeExplicitBLT T ds).nb).foldlM
      (SymbolicOCP.makeExplicitBlock T (ocp.makeExplicitSorted T ds)
        (T.jac ds1 (ocp.makeExplicitSorted T ds).dae) (ocp.makeExplicitBLT T ds))
      { size1 := 0, size2 := 0, data := [] } = r →
      ocp.makeExplicit T = match r with
        | Except.error e => Except.error e
        | Except.ok new_ode => Except.ok { ocp.makeExplicitSorted T ds with
            ode := T.append (ocp.makeExplicitSorted T ds).ode
              (T.substituteInPlace ds1 new_ode false),
            x := T.append (ocp.makeExplicitSorted T ds).x (ocp.makeExplicitSorted T ds).s,
            s := { size1 := 0, size2 := 1, data := [] } } := by
    intro r hr
    simp only [SymbolicOCP.makeExplicit, hs, Bool.false_eq_true, if_false, hds, hds1, hr]
  have hnone : (¬ ∃ b, b < (ocp.makeExplicitBLT T ds).nb ∧
      ∃ dxb, (ocp.makeExplicitSorted T ds).der
        (SymbolicOCP.blockVariables T (ocp.makeExplicitSorted T ds)
          (ocp.makeExplicitBLT T ds) b) = Except.ok dxb ∧
        T.dependsOn (SymbolicOCP.blockJacobian T
          (T.jac ds1 (ocp.makeExplicitSorted T ds).dae) (ocp.makeExplicitBLT T ds) b)
          dxb = true) → ∃ ocp2, ocp.makeExplicit T = Except.ok ocp2 := by
    intro hno
    obtain ⟨r, hr⟩ := hok (fun b hb dxb h1 => by
      cases h2 : T.dependsOn (SymbolicOCP.blockJacobian T
          (T.jac ds1 (ocp.makeExplicitSorted T ds).dae) (ocp.makeExplicitBLT T ds) b) dxb with
      | false => rfl
      | true => exact absurd ⟨b, hb, dxb, h1, h2⟩ hno)
    exact ⟨_, hrun _ hr⟩
  refine ⟨⟨?_, ?_⟩, hnone⟩
  · rintro ⟨b, _, hb⟩
    by_contra hno
    obtain ⟨ocp2, h2⟩ := hnone hno
    rw [h2] at hb
    cases hb
  · intro hex
    obtain ⟨b, hb, _, hfold⟩ := herr hex
    exact ⟨b, hb, hrun _ hfold⟩

end MakeExplicit

/-- Witness for C22: one implicitly defined state `x` whose equation has a
Jacobian that depends on the derivative of `x`, and the same problem without
implicitly defined states. -/
theorem SymbolicOCP.makeExplicit_spec_witness :
    let T : SXTools :=
      { jacSparsity := fun _ _ => Sparsity.dense 1 1,
        dulmageMendelsohn := fun _ => ⟨1, [0], [0], [0, 1], [0, 1]⟩,
        getPerm := fun x _ => x, jac := fun ds _ => ds, slice := fun x _ _ => x,
        slice2 := fun x _ _ _ _ => x,
        dependsOn := fun a b => a.data.any (fun e => b.data.contains e),
        substitute := fun f _ _ => f, zeros := fun x => x, inv := fun x => x,
        mul := fun _ y => y, neg := fun x => x, solve := fun _ y => y,
        append := fun a b => ⟨a.size1 + b.size1, 1, a.data ++ b.data⟩,
        substituteInPlace := fun _ d _ => d, toString := fun _ => "x" }
    let e : SX := ⟨0, 1, []⟩
    let ocp : SymbolicOCP Int :=
      { varmap_ := [("x", { der_ := SXElement.sym "der_x", nominal_ := 1, start_ := 0 })],
        s := ⟨1, 1, [SXElement.sym "x"]⟩, dae := ⟨1, 1, [SXElement.node 0]⟩, x := e, ode := e,
        z := e, alg := e, y := e, dep := e }
    ({ ocp with s := e } : SymbolicOCP Int).makeExplicit T = Except.ok { ocp with s := e } ∧
    ∃ b, b < 1 ∧ ocp.makeExplicit T
      = Except.error ⟨"Cannot find an explicit expression for variable(s) x"⟩ := by
  intro T e ocp
  refine ⟨(SymbolicOCP.makeExplicit_spec T { ocp with s := e }).1 rfl, ?_⟩
  exact ((SymbolicOCP.makeExplicit_spec T ocp).2 ⟨1, 1, [SXElement.sym "der_x"]⟩
    ⟨1, 1, [SXElement.sym "der_x"]⟩ rfl rfl rfl
    (fun b _ => ⟨⟨1, 1, [SXElement.sym "der_x"]⟩, rfl⟩)).1.2
    ⟨0, by decide, ⟨1, 1, [SXElement.sym "der_x"]⟩, rfl, by decide⟩
/-! ### Symbolic optimal control problem: explicit solution of a linear block -/

section LinearBlock

variable {K : Type} [Field K] {n : Nat}

/-- A residual `Jb*v + r` with an invertible matrix `Jb` has at most one root. -/
theorem SymbolicOCP.linear_root_unique (Jb : Matrix (Fin n) (Fin n) K) (r : Fin n → K)
    (hJ : IsUnit Jb.det) (v w : Fin n → K) (hv : Jb.mulVec v + r = 0)
    (hw : Jb.mulVec w + r = 0) : w = v := by
  have h : Jb.mulVec w = Jb.mulVec v := by
    have h1 : Jb.mulVec w = -r := eq_neg_of_add_eq_zero_left hw
    have h2 : Jb.mulVec v = -r := eq_neg_of_add_eq_zero_left hv
    rw [h1, h2]
  have h3 := congrArg (Jb⁻¹).mulVec h
  simpa only [Matrix.mulVec_mulVec, Matrix.nonsing_inv_mul Jb hJ, Matrix.one_mulVec] using h3

/-- C23: explicit solution of a linear block in `eliminateAlgebraic` and
`makeExplicit`. Let the residual of a block be affine in the unknown `v`,
`fb(v) = Jb*v + r`, with `Jb` independent of `v` and invertible, let `inv`
return the inverse of every invertible matrix and `solve(A, b)` a solution of
`A*x = b` for every invertible `A`. Then the residual part obtained by
substituting `v = 0` is `r`; the expression produced by the block step is a
root of `fb`, and the only one; and it equals both `inv(Jb)*(-r)` and
`solve(Jb, -r)`, whatever the block size. -/
theorem SymbolicOCP.explicitBlock_linear
    (inv : Matrix (Fin n) (Fin n) K → Matrix (Fin n) (Fin n) K)
    (solve : Matrix (Fin n) (Fin n) K → (Fin n → K) → (Fin n → K))
    (Jb : Matrix (Fin n) (Fin n) K) (r : Fin n → K) (bs : Nat) (hJ : IsUnit Jb.det)
    (hinv : ∀ A : Matrix (Fin n) (Fin n) K, IsUnit A.det → A * inv A = 1)
    (hsolve : ∀ (A : Matrix (Fin n) (Fin n) K) (b : Fin n → K), IsUnit A.det →
      A.mulVec (solve A b) = b) :
    (fun v => Jb.mulVec v + r) (0 : Fin n → K) = r ∧
    Jb.mulVec (SymbolicOCP.explicitBlock
        (fun (fb : (Fin n → K) → (Fin n → K)) (_ : Unit) (z : Fin n → K) => fb z)
        Matrix.mulVec inv solve (fun w => -w) bs Jb (fun v => Jb.mulVec v + r) () 0) + r = 0 ∧
    (∀ w : Fin n → K, Jb.mulVec w + r = 0 →
      w = SymbolicOCP.explicitBlock
        (fun (fb : (Fin n → K) → (Fin n → K)) (_ : Unit) (z : Fin n → K) => fb z)
        Matrix.mulVec inv solve (fun w => -w) bs Jb (fun v => Jb.mulVec v + r) () 0) ∧
    SymbolicOCP.explicitBlock
        (fun (fb : (Fin n → K) → (Fin n → K)) (_ : Unit) (z : Fin n → K) => fb z)
        Matrix.mulVec inv solve (fun w => -w) bs Jb (fun v => Jb.mulVec v + r) () 0
      = (inv Jb).mulVec (-r) ∧
    SymbolicOCP.explicitBlock
        (fun (fb : (Fin n → K) → (Fin n → K)) (_ : Unit) (z : Fin n → K) => fb z)
        Matrix.mulVec inv solve (fun w => -w) bs Jb (fun v => Jb.mulVec v + r) () 0
      = solve Jb (-r) := by
  have h0 : Jb.mulVec (0 : Fin n → K) + r = r := by
    rw [Matrix.mulVec_zero, zero_add]
  have hi : Jb.mulVec ((inv Jb).mulVec (-r)) + r = 0 := by
    rw [Matrix.mulVec_mulVec, hinv Jb hJ, Matrix.one_mulVec, neg_add_cancel]
  have hs : Jb.mulVec (solve Jb (-r)) + r = 0 := by
    rw [hsolve Jb (-r) hJ, neg_add_cancel]
  have hsame : (inv Jb).mulVec (-r) = solve Jb (-r) :=
    SymbolicOCP.linear_root_unique Jb r hJ _ _ hs hi
  have hval : SymbolicOCP.explicitBlock
      (fun (fb : (Fin n → K) → (Fin n → K)) (_ : Unit) (z : Fin n → K) => fb z)
      Matrix.mulVec inv solve (fun w => -w) bs Jb (fun v => Jb.mulVec v + r) () 0
        = (inv Jb).mulVec (-r) := by
    simp only [SymbolicOCP.explicitBlock, h0]
    split_ifs
    · rfl
    · exact hsame.symm
  refine ⟨h0, ?_, ?_, hval, hval.trans hsame⟩
  · rw [hval]
    exact hi
  · intro w hw
    rw [hval]
    exact SymbolicOCP.linear_root_unique Jb r hJ _ _ hi hw

end LinearBlock

/-- Witness for C23: the block `2*v + 4 = 0` of size 1 over the rationals, with
the inverse and the linear solve given by the matrix inverse. -/
theorem SymbolicOCP.explicitBlock_linear_witness :
    IsUnit (!![(2 : ℚ)] : Matrix (Fin 1) (Fin 1) ℚ).det ∧
    (!![(2 : ℚ)] : Matrix (Fin 1) (Fin 1) ℚ).mulVec (SymbolicOCP.explicitBlock
        (fun (fb : (Fin 1 → ℚ) → (Fin 1 → ℚ)) (_ : Unit) (z : Fin 1 → ℚ) => fb z)
        Matrix.mulVec (fun A => A⁻¹) (fun A b => A⁻¹.mulVec b) (fun w => -w) 1 !![(2 : ℚ)]
        (fun v => (!![(2 : ℚ)] : Matrix (Fin 1) (Fin 1) ℚ).mulVec v + ![4]) () 0) + ![4] = 0 := by
  have hJ : IsUnit (!![(2 : ℚ)] : Matrix (Fin 1) (Fin 1) ℚ).det := by
    simp
  exact ⟨hJ, (SymbolicOCP.explicitBlock_linear (fun A => A⁻¹) (fun A b => A⁻¹.mulVec b)
    !![(2 : ℚ)] ![4] 1 hJ (fun A hA => Matrix.mul_nonsing_inv A hA)
    (fun A b hA => by rw [Matrix.mulVec_mulVec, Matrix.mul_nonsing_inv A hA,
      Matrix.one_mulVec])).2.1⟩

/-! ### Discrete Lyapunov equation solver: pattern of the outputs -/

theorem Pattern.patternProduct_nz (a b : Pattern) (i k : Nat) :
    (a.patternProduct b).nz i k = true
      ↔ ∃ j, j < a.size2 ∧ a.nz i j = true ∧ b.nz j k = true := by
  simp [Pattern.patternProduct, List.any_eq_true]

theorem Pattern.mem_positions (p : Pattern) (i j : Nat) :
    (i, j) ∈ p.positions ↔ i < p.size1 ∧ j < p.size2 := by
  simp only [Pattern.positions, List.mem_flatMap, List.mem_range, List.mem_map, Prod.mk.injEq]
  constructor
  · rintro ⟨c, hc, r, hr, rfl, rfl⟩
    exact ⟨hr, hc⟩
  · rintro ⟨h1, h2⟩
    exact ⟨j, h2, i, h1, rfl, rfl⟩

theorem Pattern.positions_length (p : Pattern) : p.positions.length = p.size1 * p.size2 := by
  simp [Pattern.positions, List.length_flatMap, Function.comp_def, Nat.mul_comm]

theorem Pattern.size_le (p : Pattern) : p.size ≤ p.size1 * p.size2 := by
  rw [← Pattern.positions_length]
  exact List.countP_le_length _

/-- Two Boolean predicates with the same count on a list, one implying the
other, agree on the list. -/
theorem countP_eq_of_imp {α : Type} (l : List α) (f g : α → Bool)
    (himp : ∀ x ∈ l, f x = true → g x = true) (hcount : l.countP f = l.countP g) :
    ∀ x ∈ l, g x = true → f x = true := by
  induction l with
  | nil => intro x hx; simp at hx
  | cons a rest ih =>
    have hmono : rest.countP f ≤ rest.countP g :=
      List.countP_mono_left (fun x hx h => himp x (List.mem_cons_of_mem _ hx) h)
    have ha := himp a (List.mem_cons_self _ _)
    simp only [List.countP_cons] at hcount
    intro x hx hg
    by_cases hfa : f a = true
    · have hga := ha hfa
      simp only [hfa, hga, if_true] at hcount
      rcases List.mem_cons.mp hx with rfl | hx2
      · exact hfa
      · exact ih (fun y hy h => himp y (List.mem_cons_of_mem _ hy) h) (by omega) x hx2 hg
    · simp only [hfa, Bool.false_eq_true, if_false] at hcount
      by_cases hga : g a = true
      · simp only [hga, if_true] at hcount
        omega
      · simp only [hga, Bool.false_eq_true, if_false] at hcount
        rcases List.mem_cons.mp hx with rfl | hx2
        · exact absurd hg hga
        · exact ih (fun y hy h => himp y (List.mem_cons_of_mem _ hy) h) (by omega) x hx2 hg

theorem Pattern.size_mono (p q : Pattern) (h1 : p.size1 = q.size1) (h2 : p.size2 = q.size2)
    (himp : ∀ i j, i < p.size1 → j < p.size2 → p.nz i j = true → q.nz i j = true) :
    p.size ≤ q.size := by
  have hpos : q.positions = p.positions := by simp [Pattern.positions, h1, h2]
  unfold Pattern.size
  rw [hpos]
  apply List.countP_mono_left
  intro t ht h
  have := (Pattern.mem_positions p t.1 t.2).mp ht
  exact himp t.1 t.2 this.1 this.2 h

theorem Pattern.eq_of_size_eq (p q : Pattern) (h1 : p.size1 = q.size1) (h2 : p.size2 = q.size2)
    (himp : ∀ i j, i < p.size1 → j < p.size2 → p.nz i j = true → q.nz i j = true)
    (hsize : p.size = q.size) :
    ∀ i j, i < p.size1 → j < p.size2 → q.nz i j = true → p.nz i j = true := by
  have hpos : q.positions = p.positions := by simp [Pattern.positions, h1, h2]
  unfold Pattern.size at hsize
  rw [hpos] at hsize
  intro i j hi hj hq
  exact countP_eq_of_imp p.positions (fun t => p.nz t.1 t.2) (fun t => q.nz t.1 t.2)
    (fun t ht h => by
      have := (Pattern.mem_positions p t.1 t.2).mp ht
      exact himp t.1 t.2 this.1 this.2 h) hsize (i, j)
    ((Pattern.mem_positions p i j).mpr ⟨hi, hj⟩) hq

theorem Pattern.size_eq_zero (p : Pattern) (h : p.size = 0) :
    ∀ i j, i < p.size1 → j < p.size2 → p.nz i j = false := by
  intro i j hi hj
  unfold Pattern.size at h
  rw [List.countP_eq_zero] at h
  have := h (i, j) ((Pattern.mem_positions p i j).mpr ⟨hi, hj⟩)
  simpa using this

theorem Pattern.size_sparse (nrow ncol : Nat) : (Pattern.sparse nrow ncol).size = 0 := by
  unfold Pattern.size
  rw [List.countP_eq_zero]
  intro t _
  simp [Pattern.sparse]

section DlePatterns

variable (A C V : Pattern) (n : Nat)

theorem Pattern.power_size1 (k : Nat) : (A.power k).size1 = A.size1 := by
  cases k <;> rfl

theorem Pattern.power_size2 (k : Nat) : (A.power k).size2 = A.size1 := by
  induction k with
  | zero => rfl
  | succ k ih => simpa [Pattern.power, Pattern.patternProduct] using ih

theorem Pattern.power_succ_nz (k i a : Nat) :
    (A.power (k + 1)).nz i a = true
      ↔ ∃ c, c < A.size2 ∧ A.nz i c = true ∧ (A.power k).nz c a = true := by
  simp only [Pattern.power]
  exact Pattern.patternProduct_nz A (A.power k) i a

theorem Pattern.power_lt (h2 : A.size2 = n) (k : Nat) :
    ∀ i a, i < n → (A.power k).nz i a = true → a < n := by
  induction k with
  | zero =>
    intro i a hi h
    simp only [Pattern.power, Pattern.identity, decide_eq_true_eq] at h
    omega
  | succ k ih =>
    intro i a _ h
    obtain ⟨c, hc, _, h3⟩ := (Pattern.power_succ_nz A k i a).mp h
    exact ih c a (by omega) h3

theorem Pattern.power_add (h2 : A.size2 = n) (a b : Nat) :
    ∀ i k, i < n → ((A.power (a + b)).nz i k = true
      ↔ ∃ j, j < n ∧ (A.power a).nz i j = true ∧ (A.power b).nz j k = true) := by
  induction a with
  | zero =>
    intro i k hi
    rw [Nat.zero_add]
    constructor
    · intro h
      exact ⟨i, hi, by simp [Pattern.power, Pattern.identity], h⟩
    · rintro ⟨j, _, h1, h3⟩
      simp only [Pattern.power, Pattern.identity, decide_eq_true_eq] at h1
      rw [h1]
      exact h3
  | succ a ih =>
    intro i k hi
    rw [Nat.succ_add, Pattern.power_succ_nz]
    constructor
    · rintro ⟨c, hc, h1, h3⟩
      obtain ⟨j, hj, h4, h5⟩ := (ih c k (by omega)).mp h3
      exact ⟨j, hj, (Pattern.power_succ_nz A a i j).mpr ⟨c, hc, h1, h4⟩, h5⟩
    · rintro ⟨j, hj, h1, h3⟩
      obtain ⟨c, hc, h4, h5⟩ := (Pattern.power_succ_nz A a i j).mp h1
      exact ⟨c, hc, h4, (ih c k (by omega)).mpr ⟨j, hj, h5, h3⟩⟩

theorem DleInternal.term_nz (h1 : A.size1 = n) (hC : C.size1 = n) (k i j : Nat) :
    (DleInternal.term A C V k).nz i j = true
      ↔ ∃ a b, a < n ∧ b < n ∧ (A.power k).nz i a = true ∧
          ((C.patternProduct V).patternProduct C.T).nz a b = true ∧
          (A.power k).nz j b = true := by
  simp only [DleInternal.term]
  rw [Pattern.patternProduct_nz]
  have e1 : ((A.power k).patternProduct ((C.patternProduct V).patternProduct C.T)).size2 = n := by
    simp [Pattern.patternProduct, Pattern.T, hC]
  rw [e1]
  constructor
  · rintro ⟨b, hb, h3, h4⟩
    obtain ⟨a, ha, h5, h6⟩ := (Pattern.patternProduct_nz _ _ _ _).mp h3
    rw [Pattern.power_size2, h1] at ha
    exact ⟨a, b, ha, hb, h5, h6, h4⟩
  · rintro ⟨a, b, ha, hb, h5, h6, h4⟩
    refine ⟨b, hb, (Pattern.patternProduct_nz _ _ _ _).mpr ⟨a, ?_, h5, h6⟩, h4⟩
    rw [Pattern.power_size2, h1]
    exact ha

theorem DleInternal.term_shift (h1 : A.size1 = n) (h2 : A.size2 = n) (hC : C.size1 = n)
    (a s i j : Nat) (hi : i < n) (hj : j < n) :
    (DleInternal.term A C V (a + s)).nz i j = true
      ↔ ∃ c d, c < n ∧ d < n ∧ (A.power a).nz i c = true ∧ (A.power a).nz j d = true ∧
          (DleInternal.term A C V s).nz c d = true := by
  rw [DleInternal.term_nz A C V n h1 hC]
  constructor
  · rintro ⟨x, y, hx, hy, h3, h4, h5⟩
    obtain ⟨c, hc, h6, h7⟩ := (Pattern.power_add A n h2 a s i x hi).mp h3
    obtain ⟨d, hd, h8, h9⟩ := (Pattern.power_add A n h2 a s j y hj).mp h5
    exact ⟨c, d, hc, hd, h6, h8,
      (DleInternal.term_nz A C V n h1 hC s c d).mpr ⟨x, y, hx, hy, h7, h4, h9⟩⟩
  · rintro ⟨c, d, hc, hd, h6, h8, h10⟩
    obtain ⟨x, y, hx, hy, h7, h4, h9⟩ := (DleInternal.term_nz A C V n h1 hC s c d).mp h10
    exact ⟨x, y, hx, hy, (Pattern.power_add A n h2 a s i x hi).mpr ⟨c, hc, h6, h7⟩, h4,
      (Pattern.power_add A n h2 a s j y hj).mpr ⟨d, hd, h8, h9⟩⟩

theorem DleInternal.term_zero (h1 : A.size1 = n) (hC : C.size1 = n) (i j : Nat) (hi : i < n)
    (hj : j < n) :
    (DleInternal.term A C V 0).nz i j = true
      ↔ ((C.patternProduct V).patternProduct C.T).nz i j = true := by
  rw [DleInternal.term_nz A C V n h1 hC]
  constructor
  · rintro ⟨a, b, _, _, h3, h4, h5⟩
    simp only [Pattern.power, Pattern.identity, decide_eq_true_eq] at h3 h5
    rw [h3, h5]
    exact h4
  · intro h
    exact ⟨i, j, hi, hj, by simp [Pattern.power, Pattern.identity], h,
      by simp [Pattern.power, Pattern.identity]⟩

end DlePatterns

theorem Pattern.mul_ok (dimString : Pattern → String) (a b : Pattern) (h : a.size2 = b.size1) :
    Pattern.mul dimString a b = Except.ok (a.patternProduct b) := by
  simp [Pattern.mul, h]

theorem Pattern.horzcat_ok (dimString : Pattern → String) (x y : Pattern)
    (h : x.size1 = y.size1) :
    Pattern.horzcat dimString x y = Except.ok
      { size1 := x.size1, size2 := x.size2 + y.size2,
        nz := fun i j => if j < x.size2 then x.nz i j else y.nz i (j - x.size2) } := by
  simp [Pattern.horzcat, h]

/-- The product `[C B] * blkdiag(V, V) * [C B]^T` is the union of `C*V*C^T` and
`B*V*B^T`. -/
theorem Pattern.block_product (Cp B Vp : Pattern) (hB : B.size2 = Cp.size2)
    (hV1 : Vp.size1 = Cp.size2) (hV2 : Vp.size2 = Cp.size2) (i j : Nat) :
    ((Pattern.patternProduct
        { size1 := Cp.size1, size2 := Cp.size2 + B.size2,
          nz := fun i j => if j < Cp.size2 then Cp.nz i j else B.nz i (j - Cp.size2) }
        (Pattern.blkdiag Vp Vp)).patternProduct
      (Pattern.T
        { size1 := Cp.size1, size2 := Cp.size2 + B.size2,
          nz := fun i j => if j < Cp.size2 then Cp.nz i j else B.nz i (j - Cp.size2) })).nz i j
        = true
      ↔ ((Cp.patternProduct Vp).patternProduct Cp.T).nz i j = true ∨
        ((B.patternProduct Vp).patternProduct B.T).nz i j = true := by
  simp only [Pattern.patternProduct_nz]
  simp only [Pattern.patternProduct, Pattern.blkdiag, Pattern.T]
  constructor
  · rintro ⟨q, hq, ⟨p, hp, h1, h2⟩, h3⟩
    by_cases hpw : p < Cp.size2
    · have hpv : p < Vp.size1 := by omega
      simp only [hpw, hpv, if_true, Bool.and_eq_true, decide_eq_true_eq] at h1 h2
      have hqw : q < Cp.size2 := by omega
      simp only [hqw, if_true] at h3
      exact Or.inl ⟨q, by omega, ⟨p, hpw, h1, h2.2⟩, h3⟩
    · have hpv : ¬ p < Vp.size1 := by omega
      simp only [hpw, hpv, if_false, Bool.and_eq_true, decide_eq_true_eq] at h1 h2
      have hqw : ¬ q < Cp.size2 := by omega
      simp only [hqw, if_false] at h3
      rw [hV1] at h2
      rw [hV2] at h2
      exact Or.inr ⟨q - Cp.size2, by omega, ⟨p - Cp.size2, by omega, h1, h2.2⟩, h3⟩
  · rintro (⟨q, hq, ⟨p, hp, h1, h2⟩, h3⟩ | ⟨q, hq, ⟨p, hp, h1, h2⟩, h3⟩)
    · have hpv : p < Vp.size1 := by omega
      have hqw : q < Cp.size2 := by omega
      refine ⟨q, by omega, ⟨p, by omega, ?_, ?_⟩, ?_⟩
      · simp only [hp, if_true]
        exact h1
      · simp only [hpv, if_true, Bool.and_eq_true, decide_eq_true_eq]
        exact ⟨hq, h2⟩
      · simp only [hqw, if_true]
        exact h3
    · have e1 : ¬ p + Cp.size2 < Cp.size2 := by omega
      have e2 : ¬ q + Cp.size2 < Cp.size2 := by omega
      have e3 : ¬ p + Cp.size2 < Vp.size1 := by omega
      refine ⟨q + Cp.size2, by omega, ⟨p + Cp.size2, by omega, ?_, ?_⟩, ?_⟩
      · simp only [e1, if_false, Nat.add_sub_cancel]
        exact h1
      · rw [if_neg e3, Bool.and_eq_true, decide_eq_true_eq, hV1, hV2, Nat.add_sub_cancel,
          Nat.add_sub_cancel]
        exact ⟨by omega, h2⟩
      · simp only [e2, if_false, Nat.add_sub_cancel]
        exact h3

/-- The product `(A*C)*V*(A*C)^T` is `A*(C*V*C^T)*A^T`. -/
theorem Pattern.conjugate_product (Ap Cp Vp : Pattern) (i j : Nat) :
    (((Ap.patternProduct Cp).patternProduct Vp).patternProduct (Ap.patternProduct Cp).T).nz i j
        = true
      ↔ ∃ c d, c < Ap.size2 ∧ d < Ap.size2 ∧ Ap.nz i c = true ∧ Ap.nz j d = true ∧
          ((Cp.patternProduct Vp).patternProduct Cp.T).nz c d = true := by
  simp only [Pattern.patternProduct_nz]
  simp only [Pattern.patternProduct, Pattern.T, List.any_eq_true, List.mem_range,
    Bool.and_eq_true]
  constructor
  · rintro ⟨q, hq, ⟨p, hp, ⟨c, hc, h1, h2⟩, h3⟩, ⟨d, hd, h4, h5⟩⟩
    exact ⟨c, d, hc, hd, h1, h4, q, hq, ⟨p, hp, h2, h3⟩, h5⟩
  · rintro ⟨c, d, hc, hd, h1, h4, q, hq, ⟨p, hp, h2, h3⟩, h5⟩
    exact ⟨q, hq, ⟨p, hp, ⟨c, hc, h1, h2⟩, h3⟩, ⟨d, hd, h4, h5⟩⟩

section DleLoop

variable (dimString : Pattern → String) (A0 C0 V0 : Pattern) (n : Nat)

/-- One pass through the body of the loop raises no error and doubles the
number of terms held by `P`. -/
theorem DleInternal.loopBody_invariant (hA1 : A0.size1 = n) (hA2 : A0.size2 = n)
    (hC : C0.size1 = n) (N M : Nat) (S : DleInternal.LoopState)
    (h : DleInternal.Invariant A0 C0 V0 n N M S) :
    ∃ S1, DleInternal.loopBody dimString S = Except.ok S1 ∧
      DleInternal.Invariant A0 C0 V0 n (N + N) N S1 ∧ S1.Pprev = S.P := by
  obtain ⟨hMN, ⟨d1, d2, d3, d4, d5, d6, d7, d8, d9⟩, hAinv, hPex, hPU, hPrev⟩ := h
  have e1 : Pattern.mul dimString S.A S.C = Except.ok (S.A.patternProduct S.C) :=
    Pattern.mul_ok _ _ _ (by rw [d2, d3])
  have e2 := Pattern.horzcat_ok dimString S.C (S.A.patternProduct S.C)
    (by simp [Pattern.patternProduct, d1, d3])
  have e3 : Pattern.mul dimString S.A S.A = Except.ok (S.A.patternProduct S.A) :=
    Pattern.mul_ok _ _ _ (by rw [d2, d1])
  have e4 := Pattern.mul_ok dimString
    { size1 := S.C.size1, size2 := S.C.size2 + (S.A.patternProduct S.C).size2,
      nz := fun i j => if j < S.C.size2 then S.C.nz i j
        else (S.A.patternProduct S.C).nz i (j - S.C.size2) }
    (Pattern.blkdiag S.V S.V) (by simp [Pattern.patternProduct, Pattern.blkdiag, d4])
  have e5 := Pattern.mul_ok dimString
    (Pattern.patternProduct
      { size1 := S.C.size1, size2 := S.C.size2 + (S.A.patternProduct S.C).size2,
        nz := fun i j => if j < S.C.size2 then S.C.nz i j
          else (S.A.patternProduct S.C).nz i (j - S.C.size2) }
      (Pattern.blkdiag S.V S.V))
    (Pattern.T
      { size1 := S.C.size1, size2 := S.C.size2 + (S.A.patternProduct S.C).size2,
        nz := fun i j => if j < S.C.size2 then S.C.nz i j
          else (S.A.patternProduct S.C).nz i (j - S.C.size2) })
    (by simp [Pattern.patternProduct, Pattern.blkdiag, Pattern.T, d5])
  have hblock : ∀ i j,
      ((Pattern.patternProduct
        { size1 := S.C.size1, size2 := S.C.size2 + (S.A.patternProduct S.C).size2,
          nz := fun i j => if j < S.C.size2 then S.C.nz i j
            else (S.A.patternProduct S.C).nz i (j - S.C.size2) }
        (Pattern.blkdiag S.V S.V)).patternProduct
      (Pattern.T
        { size1 := S.C.size1, size2 := S.C.size2 + (S.A.patternProduct S.C).size2,
          nz := fun i j => if j < S.C.size2 then S.C.nz i j
            else (S.A.patternProduct S.C).nz i (j - S.C.size2) })).nz i j = true
        ↔ S.P.nz i j = true ∨ ∃ c d, c < n ∧ d < n ∧ S.A.nz i c = true ∧ S.A.nz j d = true ∧
            S.P.nz c d = true := by
    intro i j
    rw [Pattern.block_product S.C (S.A.patternProduct S.C) S.V (by simp [Pattern.patternProduct])
      d4 d5, Pattern.conjugate_product, d2, ← hPex]
    simp only [← hPex]
  simp only [DleInternal.loopBody, e1, e2, e3, e4, e5]
  refine ⟨_, rfl, ?_, rfl⟩
  have hN : 0 < N := by omega
  refine ⟨by omega, ⟨?_, ?_, d3, ?_, ?_, ?_, ?_, d6, d7⟩, ?_, fun i j => Iff.rfl, ?_, hPU⟩
  · simp [Pattern.patternProduct, d1]
  · simp [Pattern.patternProduct, d2]
  · simp [Pattern.patternProduct, Pattern.blkdiag, d4]
  · simp [Pattern.patternProduct, Pattern.blkdiag, d5]
  · simp [Pattern.patternProduct, d3]
  · simp [Pattern.patternProduct, Pattern.T, d3]
  · intro i c hi hc
    rw [Pattern.patternProduct_nz, d2, Pattern.power_add A0 n hA2 N N i c hi]
    constructor
    · rintro ⟨j, hj, h1, h2⟩
      exact ⟨j, hj, (hAinv i j hi hj).mp h1, (hAinv j c hj hc).mp h2⟩
    · rintro ⟨j, hj, h1, h2⟩
      exact ⟨j, hj, (hAinv i j hi hj).mpr h1, (hAinv j c hj hc).mpr h2⟩
  · intro i j hi hj
    rw [hblock i j]
    constructor
    · rintro (h1 | ⟨c, d, hc, hd, h1, h2, h3⟩)
      · obtain ⟨s, hs, h4⟩ := (hPU i j hi hj).mp h1
        exact ⟨s, by omega, h4⟩
      · obtain ⟨s, hs, h4⟩ := (hPU c d hc hd).mp h3
        exact ⟨N + s, by omega, (DleInternal.term_shift A0 C0 V0 n hA1 hA2 hC N s i j hi hj).mpr
          ⟨c, d, hc, hd, (hAinv i c hi hc).mp h1, (hAinv j d hj hd).mp h2, h4⟩⟩
    · rintro ⟨s, hs, h4⟩
      rcases Nat.lt_or_ge s N with hlt | hge
      · exact Or.inl ((hPU i j hi hj).mpr ⟨s, hlt, h4⟩)
      · obtain ⟨s1, rfl⟩ : ∃ s1, s = N + s1 := ⟨s - N, by omega⟩
        obtain ⟨c, d, hc, hd, h1, h2, h3⟩ :=
          (DleInternal.term_shift A0 C0 V0 n hA1 hA2 hC N s1 i j hi hj).mp h4
        exact Or.inr ⟨c, d, hc, hd, (hAinv i c hi hc).mpr h1, (hAinv j d hj hd).mpr h2,
          (hPU c d hc hd).mpr ⟨s1, by omega, h3⟩⟩

/-- When the loop stops, `P` holds every term. -/
theorem DleInternal.exit_union (hA1 : A0.size1 = n) (hA2 : A0.size2 = n) (hC : C0.size1 = n)
    (N M : Nat) (S : DleInternal.LoopState) (h : DleInternal.Invariant A0 C0 V0 n N M S)
    (hexit : S.Pprev.size = S.P.size) :
    ∀ i j, i < n → j < n →
      (S.P.nz i j = true ↔ ∃ k, (DleInternal.term A0 C0 V0 k).nz i j = true) := by
  obtain ⟨hMN, ⟨d1, d2, d3, d4, d5, d6, d7, d8, d9⟩, hAinv, hPex, hPU, hPrev⟩ := h
  have hsub : ∀ i j, i < S.Pprev.size1 → j < S.Pprev.size2 → S.Pprev.nz i j = true →
      S.P.nz i j = true := by
    intro i j hi hj hp
    rw [d8] at hi
    rw [d9] at hj
    obtain ⟨s, hs, h1⟩ := (hPrev i j hi hj).mp hp
    exact (hPU i j hi hj).mpr ⟨s, by omega, h1⟩
  have hback := Pattern.eq_of_size_eq S.Pprev S.P (by rw [d8, d6]) (by rw [d9, d7]) hsub hexit
  have hall : ∀ k i j, i < n → j < n → (DleInternal.term A0 C0 V0 k).nz i j = true →
      S.P.nz i j = true := by
    intro k
    induction k with
    | zero =>
      intro i j hi hj ht
      exact (hPU i j hi hj).mpr ⟨0, by omega, ht⟩
    | succ k ih =>
      intro i j hi hj ht
      rw [Nat.add_comm k 1] at ht
      obtain ⟨c, d, hc, hd, h1, h2, h3⟩ :=
        (DleInternal.term_shift A0 C0 V0 n hA1 hA2 hC 1 k i j hi hj).mp ht
      have hp := hback c d (by rw [d8]; exact hc) (by rw [d9]; exact hd) (ih c d hc hd h3)
      obtain ⟨s, hs, h4⟩ := (hPrev c d hc hd).mp hp
      exact (hPU i j hi hj).mpr ⟨1 + s, by omega,
        (DleInternal.term_shift A0 C0 V0 n hA1 hA2 hC 1 s i j hi hj).mpr
          ⟨c, d, hc, hd, h1, h2, h4⟩⟩
  intro i j hi hj
  constructor
  · intro hp
    obtain ⟨s, _, h1⟩ := (hPU i j hi hj).mp hp
    exact ⟨s, h1⟩
  · rintro ⟨k, hk⟩
    exact hall k i j hi hj hk

/-- The loop stops within `n*n - Pprev.size()` passes and returns the union of
all the terms. -/
theorem DleInternal.loop_runs (hA1 : A0.size1 = n) (hA2 : A0.size2 = n) (hC : C0.size1 = n)
    (g : Nat) :
    ∀ (N M : Nat) (S : DleInternal.LoopState) (fuel : Nat),
      DleInternal.Invariant A0 C0 V0 n N M S → n * n - S.Pprev.size ≤ g → g ≤ fuel →
      ∃ R, DleInternal.loop dimString fuel S = Except.ok (some R) ∧ R.size1 = n ∧ R.size2 = n ∧
        ∀ i j, i < n → j < n →
          (R.nz i j = true ↔ ∃ k, (DleInternal.term A0 C0 V0 k).nz i j = true) := by
  induction g with
  | zero =>
    intro N M S fuel hinv hg _
    have hinv2 := hinv
    obtain ⟨hMN, ⟨d1, d2, d3, d4, d5, d6, d7, d8, d9⟩, hAinv, hPex, hPU, hPrev⟩ := hinv
    have hle : S.Pprev.size ≤ S.P.size :=
      Pattern.size_mono S.Pprev S.P (by rw [d8, d6]) (by rw [d9, d7]) (fun i j hi hj hp => by
        rw [d8] at hi
        rw [d9] at hj
        obtain ⟨s, hs, h1⟩ := (hPrev i j hi hj).mp hp
        exact (hPU i j hi hj).mpr ⟨s, by omega, h1⟩)
    have hup : S.P.size ≤ n * n := by
      have := Pattern.size_le S.P
      rw [d6, d7] at this
      exact this
    have hexit : S.Pprev.size = S.P.size := by omega
    refine ⟨S.P, ?_, d6, d7, DleInternal.exit_union A0 C0 V0 n hA1 hA2 hC N M S hinv2 hexit⟩
    cases fuel <;> simp [DleInternal.loop, hexit]
  | succ g ih =>
    intro N M S fuel hinv hg hfuel
    have hinv2 := hinv
    obtain ⟨hMN, ⟨d1, d2, d3, d4, d5, d6, d7, d8, d9⟩, hAinv, hPex, hPU, hPrev⟩ := hinv
    have hle : S.Pprev.size ≤ S.P.size :=
      Pattern.size_mono S.Pprev S.P (by rw [d8, d6]) (by rw [d9, d7]) (fun i j hi hj hp => by
        rw [d8] at hi
        rw [d9] at hj
        obtain ⟨s, hs, h1⟩ := (hPrev i j hi hj).mp hp
        exact (hPU i j hi hj).mpr ⟨s, by omega, h1⟩)
    by_cases hexit : S.Pprev.size = S.P.size
    · refine ⟨S.P, ?_, d6, d7, DleInternal.exit_union A0 C0 V0 n hA1 hA2 hC N M S hinv2 hexit⟩
      cases fuel <;> simp [DleInternal.loop, hexit]
    · obtain ⟨f, rfl⟩ : ∃ f, fuel = f + 1 := ⟨fuel - 1, by omega⟩
      obtain ⟨S1, hbody, hinv1, hprev1⟩ :=
        DleInternal.loopBody_invariant dimString A0 C0 V0 n hA1 hA2 hC N M S hinv2
      have hstep : DleInternal.loop dimString (f + 1) S = DleInternal.loop dimString f S1 := by
        simp [DleInternal.loop, hexit, hbody]
      rw [hstep]
      exact ih (N + N) N S1 f hinv1 (by rw [hprev1]; omega) (by omega)

/-- More iterations do not change the result of a loop that has stopped. -/
theorem DleInternal.loop_mono (fuel : Nat) :
    ∀ (S : DleInternal.LoopState) (R : Pattern),
      DleInternal.loop dimString fuel S = Except.ok (some R) →
      DleInternal.loop dimString (fuel + 1) S = Except.ok (some R) := by
  induction fuel with
  | zero =>
    intro S R h
    by_cases hexit : S.Pprev.size = S.P.size
    · simp only [DleInternal.loop, hexit, ne_eq, not_true_eq_false, if_false] at h ⊢
      exact h
    · simp [DleInternal.loop, hexit] at h
  | succ f ih =>
    intro S R h
    by_cases hexit : S.Pprev.size = S.P.size
    · simp only [DleInternal.loop, hexit, ne_eq, not_true_eq_false, if_false] at h ⊢
      exact h
    · rw [DleInternal.loop] at h ⊢
      simp only [ne_eq, hexit, not_false_eq_true, if_true] at h ⊢
      cases hb : DleInternal.loopBody dimString S with
      | error e => rw [hb] at h; cases h
      | ok S1 =>
        rw [hb] at h
        exact ih S1 R h

theorem DleInternal.loop_mono_le (fuel fuel1 : Nat) (hle : fuel ≤ fuel1)
    (S : DleInternal.LoopState) (R : Pattern)
    (h : DleInternal.loop dimString fuel S = Except.ok (some R)) :
    DleInternal.loop dimString fuel1 S = Except.ok (some R) := by
  induction fuel1 with
  | zero =>
    have : fuel = 0 := by omega
    subst this
    exact h
  | succ f ih =>
    rcases Nat.eq_or_lt_of_le hle with rfl | hlt
    · exact h
    · exact DleInternal.loop_mono dimString f S R (ih (by omega))

end DleLoop

/-- The pattern of a symmetric matrix is square. -/
theorem Pattern.isSymmetric_square (p : Pattern) (h : p.isSymmetric = true) :
    p.size1 = p.size2 := by
  simp only [Pattern.isSymmetric, Bool.and_eq_true, beq_iff_eq] at h
  exact h.1

/-- With `C` supplied and fitting shapes, `init` reaches the sparsity loop. -/
theorem DleInternal.init_with_C (dimString : Pattern → String) (A V C : Pattern) (n m : Nat)
    (hA1 : A.size1 = n) (hA2 : A.size2 = n) (hV : V.isSymmetric = true) (hV1 : V.size1 = m)
    (hC1 : C.size1 = n) (hC2 : C.size2 = m) (fuel : Nat) :
    DleInternal.init dimString A V (some C) fuel
      = DleInternal.loop dimString fuel
          { C := C, V := V, A := A, P := (C.patternProduct V).patternProduct C.T,
            Pprev := Pattern.sparse n n } := by
  have hV2 : V.size2 = m := by
    rw [← Pattern.isSymmetric_square V hV]
    exact hV1
  have e1 := Pattern.mul_ok dimString C V (by rw [hC2, hV1])
  have e2 := Pattern.mul_ok dimString (C.patternProduct V) C.T
    (by simp [Pattern.patternProduct, Pattern.T, hV2, hC2])
  simp [DleInternal.init, hV, hA1, hA2, hC1, hC2, hV1, e1, e2]

/-- The start of the loop satisfies the invariant with one term in `P` and none
in `Pprev`. -/
theorem DleInternal.invariant_start (A V C : Pattern) (n m : Nat) (hA1 : A.size1 = n)
    (hA2 : A.size2 = n) (hV1 : V.size1 = m) (hV2 : V.size2 = m) (hC1 : C.size1 = n)
    (hC2 : C.size2 = m) :
    DleInternal.Invariant A C V n 1 0
      { C := C, V := V, A := A, P := (C.patternProduct V).patternProduct C.T,
        Pprev := Pattern.sparse n n } := by
  refine ⟨by omega, ⟨hA1, hA2, hC1, by rw [hV1, hC2], by rw [hV2, hC2], ?_, ?_, rfl, rfl⟩, ?_,
    fun i j => Iff.rfl, ?_, ?_⟩
  · simp [Pattern.patternProduct, hC1]
  · simp [Pattern.patternProduct, Pattern.T, hC1]
  · intro i c hi hc
    rw [Pattern.power_succ_nz]
    constructor
    · intro h
      exact ⟨c, by omega, h, by simp [Pattern.power, Pattern.identity]⟩
    · rintro ⟨c1, _, h1, h2⟩
      simp only [Pattern.power, Pattern.identity, decide_eq_true_eq] at h2
      rw [← h2]
      exact h1
  · intro i j hi hj
    constructor
    · intro h
      exact ⟨0, by omega, (DleInternal.term_zero A C V n hA1 hC1 i j hi hj).mpr h⟩
    · rintro ⟨s, hs, h⟩
      have : s = 0 := by omega
      subst this
      exact (DleInternal.term_zero A C V n hA1 hC1 i j hi hj).mp h
  · intro i j _ _
    constructor
    · intro h
      simp [Pattern.sparse] at h
    · rintro ⟨s, hs, _⟩
      omega

/-- C27: pattern of the outputs of the discrete Lyapunov solver when `C` is
supplied. For a square pattern `A` (`n x n`), a symmetric pattern `V`
(`m x m`) and a pattern `C` (`n x m`) the sparsity loop of `DleInternal::init`
stops: `n*n` iterations are enough, and more do not change the result. The
pattern `P` it returns is `n x n` and is the union over all `k` of the
structural products `A^k*(C*V*C^T)*(A^T)^k`; it contains `C*V*C^T`, is closed
under `P -> A*P*A^T`, and is contained in every `n x n` pattern with these two
properties. -/
theorem DleInternal.init_sparsity_spec (dimString : Pattern → String) (A V C : Pattern)
    (n m : Nat) (hA1 : A.size1 = n) (hA2 : A.size2 = n) (hV : V.isSymmetric = true)
    (hV1 : V.size1 = m) (hC1 : C.size1 = n) (hC2 : C.size2 = m) :
    ∃ P, (∀ fuel, n * n ≤ fuel →
        DleInternal.init dimString A V (some C) fuel = Except.ok (some P)) ∧
      P.size1 = n ∧ P.size2 = n ∧
      (∀ i j, i < n → j < n →
        (P.nz i j = true ↔ ∃ k, (DleInternal.term A C V k).nz i j = true)) ∧
      (∀ i j, i < n → j < n → ((C.patternProduct V).patternProduct C.T).nz i j = true →
        P.nz i j = true) ∧
      (∀ i j, i < n → j < n → ((A.patternProduct P).patternProduct A.T).nz i j = true →
        P.nz i j = true) ∧
      (∀ Q : Pattern, Q.size1 = n → Q.size2 = n →
        (∀ i j, i < n → j < n → ((C.patternProduct V).patternProduct C.T).nz i j = true →
          Q.nz i j = true) →
        (∀ i j, i < n → j < n → ((A.patternProduct Q).patternProduct A.T).nz i j = true →
          Q.nz i j = true) →
        ∀ i j, i < n → j < n → P.nz i j = true → Q.nz i j = true) := by
  have hV2 : V.size2 = m := by
    rw [← Pattern.isSymmetric_square V hV]
    exact hV1
  have hstart := DleInternal.invariant_start A V C n m hA1 hA2 hV1 hV2 hC1 hC2
  obtain ⟨P, hP, hs1, hs2, hU⟩ := DleInternal.loop_runs dimString A C V n hA1 hA2 hC1 (n * n) 1 0
    _ (n * n) hstart (by simp [Pattern.size_sparse]) (Nat.le_refl _)
  have hpow1 : ∀ i c, i < n → c < n → ((A.power 1).nz i c = true ↔ A.nz i c = true) := by
    intro i c hi hc
    rw [Pattern.power_succ_nz]
    constructor
    · rintro ⟨c1, _, h1, h2⟩
      simp only [Pattern.power, Pattern.identity, decide_eq_true_eq] at h2
      rw [← h2]
      exact h1
    · intro h
      exact ⟨c, by omega, h, by simp [Pattern.power, Pattern.identity]⟩
  have hconj : ∀ (Q : Pattern), Q.size2 = n → ∀ i j,
      ((A.patternProduct Q).patternProduct A.T).nz i j = true
        ↔ ∃ c d, c < n ∧ d < n ∧ A.nz i c = true ∧ A.nz j d = true ∧ Q.nz c d = true := by
    intro Q hQ i j
    rw [Pattern.patternProduct_nz]
    simp only [Pattern.patternProduct, Pattern.T, List.any_eq_true, List.mem_range,
      Bool.and_eq_true, hQ, hA2]
    constructor
    · rintro ⟨d, hd, ⟨c, hc, h1, h2⟩, h3⟩
      exact ⟨c, d, hc, hd, h1, h3, h2⟩
    · rintro ⟨c, d, hc, hd, h1, h3, h2⟩
      exact ⟨d, hd, ⟨c, hc, h1, h2⟩, h3⟩
  refine ⟨P, ?_, hs1, hs2, hU, ?_, ?_, ?_⟩
  · intro fuel hfuel
    rw [DleInternal.init_with_C dimString A V C n m hA1 hA2 hV hV1 hC1 hC2]
    exact DleInternal.loop_mono_le dimString (n * n) fuel hfuel _ _ hP
  · intro i j hi hj h
    exact (hU i j hi hj).mpr ⟨0, (DleInternal.term_zero A C V n hA1 hC1 i j hi hj).mpr h⟩
  · intro i j hi hj h
    obtain ⟨c, d, hc, hd, h1, h2, h3⟩ := (hconj P hs2 i j).mp h
    obtain ⟨k, hk⟩ := (hU c d hc hd).mp h3
    exact (hU i j hi hj).mpr ⟨1 + k,
      (DleInternal.term_shift A C V n hA1 hA2 hC1 1 k i j hi hj).mpr
        ⟨c, d, hc, hd, (hpow1 i c hi hc).mpr h1, (hpow1 j d hj hd).mpr h2, hk⟩⟩
  · intro Q _ hQ2 hbase hclosed
    have hall : ∀ k i j, i < n → j < n → (DleInternal.term A C V k).nz i j = true →
        Q.nz i j = true := by
      intro k
      induction k with
      | zero =>
        intro i j hi hj h
        exact hbase i j hi hj ((DleInternal.term_zero A C V n hA1 hC1 i j hi hj).mp h)
      | succ k ih =>
        intro i j hi hj h
        rw [Nat.add_comm k 1] at h
        obtain ⟨c, d, hc, hd, h1, h2, h3⟩ :=
          (DleInternal.term_shift A C V n hA1 hA2 hC1 1 k i j hi hj).mp h
        exact hclosed i j hi hj ((hconj Q hQ2 i j).mpr
          ⟨c, d, hc, hd, (hpow1 i c hi hc).mp h1, (hpow1 j d hj hd).mp h2, ih c d hc hd h3⟩)
    intro i j hi hj h
    obtain ⟨k, hk⟩ := (hU i j hi hj).mp h
    exact hall k i j hi hj hk

/-- Witness for C27: `A` moves row 0 to row 1, `C` selects row 0 and `V` is
1x1; the output pattern holds the two diagonal entries. -/
theorem DleInternal.init_sparsity_spec_witness :
    (⟨1, 1, fun _ _ => true⟩ : Pattern).isSymmetric = true ∧
    ∃ P, DleInternal.init (fun _ => "") ⟨2, 2, fun i j => i == 1 && j == 0⟩
        ⟨1, 1, fun _ _ => true⟩ (some ⟨2, 1, fun i j => i == 0 && j == 0⟩) 4
          = Except.ok (some P) ∧
      P.size1 = 2 ∧ P.size2 = 2 ∧ P.nz 0 0 = true ∧ P.nz 1 1 = true := by
  refine ⟨by decide, ?_⟩
  obtain ⟨P, h1, h2, h3, hU, _⟩ := DleInternal.init_sparsity_spec (fun _ => "")
    ⟨2, 2, fun i j => i == 1 && j == 0⟩ ⟨1, 1, fun _ _ => true⟩
    ⟨2, 1, fun i j => i == 0 && j == 0⟩ 2 1 rfl rfl (by decide) rfl rfl rfl
  exact ⟨P, h1 4 (by decide), h2, h3, (hU 0 0 (by decide) (by decide)).mpr ⟨0, by decide⟩,
    (hU 1 1 (by decide) (by decide)).mpr ⟨1, by decide⟩⟩

/-- C28 (defect of the code): without `C`, `DleInternal::init` replaces the null
pattern by the empty 0x0 pattern and passes its dimension checks, but the
sparsity computation still multiplies `C` by `V`: for every square `A` and
symmetric `V` of the same size `n > 0` the product of the 0x0 pattern with the
`n x n` pattern `V` raises a dimension error, and no output pattern is
allocated. The second part is the case of the dense 2x2 patterns. -/
theorem DleInternal.init_without_C_fails :
    (∀ (dimString : Pattern → String) (A V : Pattern) (fuel : Nat), V.isSymmetric = true →
      A.size1 = A.size2 → A.size1 = V.size1 → 0 < A.size1 →
      DleInternal.init dimString A V none fuel = Except.error
        ⟨"Matrix product with incompatible dimensions. Lhs is "
          ++ dimString (Pattern.sparse 0 0) ++ " and rhs is " ++ dimString V ++ "."⟩) ∧
    (∀ (dimString : Pattern → String) (fuel : Nat),
      DleInternal.init dimString ⟨2, 2, fun _ _ => true⟩ ⟨2, 2, fun _ _ => true⟩ none fuel
        = Except.error
          ⟨"Matrix product with incompatible dimensions. Lhs is "
            ++ dimString (Pattern.sparse 0 0) ++ " and rhs is "
            ++ dimString ⟨2, 2, fun _ _ => true⟩ ++ "."⟩) := by
  have hgen : ∀ (dimString : Pattern → String) (A V : Pattern) (fuel : Nat),
      V.isSymmetric = true → A.size1 = A.size2 → A.size1 = V.size1 → 0 < A.size1 →
      DleInternal.init dimString A V none fuel = Except.error
        ⟨"Matrix product with incompatible dimensions. Lhs is "
          ++ dimString (Pattern.sparse 0 0) ++ " and rhs is " ++ dimString V ++ "."⟩ := by
    intro dimString A V fuel hV hA hAV hpos
    have hne : ¬ (Pattern.sparse 0 0).size2 = V.size1 := by
      simp only [Pattern.sparse]
      omega
    have hmul : Pattern.mul dimString (Pattern.sparse 0 0) V = Except.error
        ⟨"Matrix product with incompatible dimensions. Lhs is "
          ++ dimString (Pattern.sparse 0 0) ++ " and rhs is " ++ dimString V ++ "."⟩ := by
      simp only [Pattern.mul, hne, not_false_eq_true, if_true, casadi_error]
    simp [DleInternal.init, hV, hA, ← hAV, hmul]
  exact ⟨hgen, fun dimString fuel =>
    hgen dimString ⟨2, 2, fun _ _ => true⟩ ⟨2, 2, fun _ _ => true⟩ fuel (by decide) rfl rfl
      (by decide)⟩

/-! ### Reverse mode: the loops over the directions -/

/-- A loop over directions that address pairwise disjoint sets of slots: when
each step leaves the slots outside its own set untouched and reads no slot
outside its own set, the loop leaves in the slots of a direction what the step
of that direction alone leaves there, and leaves every other slot untouched. -/
theorem MXStore.foldl_disjoint {R D : Type} (step : D → MXStore R → MXStore R)
    (foot : D → List Nat) (ds : List D)
    (hframe : ∀ d, d ∈ ds → ∀ (s : MXStore R) q, q ∉ foot d → step d s q = s q)
    (hlocal : ∀ d, d ∈ ds → ∀ (s t : MXStore R), (∀ q, q ∈ foot d → s q = t q) →
      ∀ q, q ∈ foot d → step d s q = step d t q)
    (hdisj : ds.Pairwise (fun a b => ∀ q, q ∈ foot a → q ∉ foot b)) (st : MXStore R) :
    (∀ d, d ∈ ds → ∀ q, q ∈ foot d → ds.foldl (fun s d => step d s) st q = step d st q) ∧
    (∀ q, (∀ d, d ∈ ds → q ∉ foot d) → ds.foldl (fun s d => step d s) st q = st q) := by
  induction ds generalizing st with
  | nil =>
    refine ⟨fun d hd => absurd hd (List.not_mem_nil d), fun q _ => rfl⟩
  | cons a ds ih =>
    rw [List.pairwise_cons] at hdisj
    obtain ⟨ih1, ih2⟩ := ih (fun d hd => hframe d (List.mem_cons_of_mem _ hd))
      (fun d hd => hlocal d (List.mem_cons_of_mem _ hd)) hdisj.2 (step a st)
    refine ⟨?_, ?_⟩
    · intro d hd q hq
      rw [List.foldl_cons]
      rcases List.mem_cons.mp hd with rfl | hd2
      · exact ih2 q (fun b hb hqb => hdisj.1 b hb q hq hqb)
      · rw [ih1 d hd2 q hq]
        refine hlocal d hd (step a st) st (fun p hp => ?_) q hq
        exact hframe a (List.mem_cons_self _ _) st p (fun hpa => hdisj.1 d hd2 p hpa hp)
    · intro q hq
      rw [List.foldl_cons, ih2 q (fun d hd => hq d (List.mem_cons_of_mem _ hd))]
      exact hframe a (List.mem_cons_self _ _) st q (hq a (List.mem_cons_self _ _))

theorem MXStore.addToSum_frame {R : Type} [Add R] (st : MXStore R) (p : Nat) (x : MX R)
    (q : Nat) (h : q ≠ p) : st.addToSum p x q = st q := by
  unfold MXStore.addToSum
  exact MXStore.write_of_ne _ _ _ _ h

theorem Multiplication.mul_evalAdjDir_frame {R : Type} [Zero R] [Add R] [Mul R] (dep1 dep2 : MX R)
    (d : Nat × Nat × Nat × Nat) (s : MXStore R) (q : Nat) (hq : q ∉ Multiplication.slots d) :
    Multiplication.evalAdjDir dep1 dep2 d.1 d.2 s q = s q := by
  simp only [Multiplication.slots, List.mem_cons, List.mem_singleton, List.not_mem_nil,
    or_false, not_or] at hq
  obtain ⟨h0, h1, h2, h3⟩ := hq
  by_cases hc : d.1 = d.2.1
  · simp only [Multiplication.evalAdjDir, ne_eq, hc, not_true_eq_false, if_false]
    rw [MXStore.addToSum_frame _ _ _ _ h3, MXStore.addToSum_frame _ _ _ _ h2]
  · simp only [Multiplication.evalAdjDir, ne_eq, hc, not_false_eq_true, if_true]
    rw [MXStore.write_of_ne _ _ _ _ h0, MXStore.addToSum_frame _ _ _ _ h1,
      MXStore.addToSum_frame _ _ _ _ h3, MXStore.addToSum_frame _ _ _ _ h2]

theorem Multiplication.mul_evalAdjDir_local {R : Type} [Zero R] [Add R] [Mul R] (dep1 dep2 : MX R)
    (d : Nat × Nat × Nat × Nat) (s t : MXStore R)
    (h : ∀ q, q ∈ Multiplication.slots d → s q = t q) (q : Nat)
    (hq : q ∈ Multiplication.slots d) :
    Multiplication.evalAdjDir dep1 dep2 d.1 d.2 s q
      = Multiplication.evalAdjDir dep1 dep2 d.1 d.2 t q := by
  have e0 : s d.1 = t d.1 := h _ (by simp [Multiplication.slots])
  have e1 : s d.2.1 = t d.2.1 := h _ (by simp [Multiplication.slots])
  have e2 : s d.2.2.1 = t d.2.2.1 := h _ (by simp [Multiplication.slots])
  have e3 : s d.2.2.2 = t d.2.2.2 := h _ (by simp [Multiplication.slots])
  have eq : s q = t q := h q hq
  by_cases hc : d.1 = d.2.1
  · simp only [Multiplication.evalAdjDir, ne_eq, hc, not_true_eq_false, if_false,
      MXStore.addToSum, MXStore.write, e0, e1, e2, e3, eq]
  · simp only [Multiplication.evalAdjDir, ne_eq, hc, not_false_eq_true, if_true,
      MXStore.addToSum, MXStore.write, e0, e1, e2, e3, eq]
/-- The loop of `Multiplication::evalAdj` over directions with pairwise
disjoint slots leaves in the slots of each direction what the body leaves there
when run on the initial slots. -/
theorem Multiplication.evalAdj_disjoint {R : Type} [Zero R] [Add R] [Mul R] (dep1 dep2 : MX R)
    (adjSeed : List Nat) (adjSens : List (Nat × Nat × Nat)) (st : MXStore R)
    (hdisj : (adjSeed.zip adjSens).Pairwise
      (fun a b => ∀ q, q ∈ Multiplication.slots a → q ∉ Multiplication.slots b)) :
    (∀ d, d ∈ adjSeed.zip adjSens → ∀ q, q ∈ Multiplication.slots d →
      Multiplication.evalAdj dep1 dep2 adjSeed adjSens st q
        = Multiplication.evalAdjDir dep1 dep2 d.1 d.2 st q) ∧
    (∀ q, (∀ d, d ∈ adjSeed.zip adjSens → q ∉ Multiplication.slots d) →
      Multiplication.evalAdj dep1 dep2 adjSeed adjSens st q = st q) :=
  MXStore.foldl_disjoint
    (fun (d : Nat × Nat × Nat × Nat) (s : MXStore R) =>
      Multiplication.evalAdjDir dep1 dep2 d.1 d.2 s)
    Multiplication.slots (adjSeed.zip adjSens)
    (fun d _ => Multiplication.mul_evalAdjDir_frame dep1 dep2 d)
    (fun d _ => Multiplication.mul_evalAdjDir_local dep1 dep2 d) hdisj st

/-- C6: `Multiplication::evalAdj` over any number of adjoint directions, the
directions being the pairs `(adjSeed[d], adjSens[d])`, each with its own slots
(no slot of a direction is a slot of another direction) and with a seed slot
distinct from the adjoint slots of `X` and `Y`. For every direction, with `S` the
seed held by its seed slot: the adjoint of `X` has gained `S*Y^T` projected on
the pattern of `X`, the adjoint of `Y` has gained `X^T*S` projected on the
pattern of `Y`, and, when the seed slot differs from the adjoint slot of `Z0`,
the adjoint of `Z0` has gained `S` and the seed slot is empty; when the two
slots coincide the slot still holds `S`. Every contribution is added to the
previous content of its slot, and the slots of no direction are untouched. -/
theorem Multiplication.mul_evalAdj_spec {R : Type} [CommRing R] (dep1 dep2 : MX R)
    (adjSeed : List Nat) (adjSens : List (Nat × Nat × Nat)) (st : MXStore R)
    (h12 : ∀ d, d ∈ adjSeed.zip adjSens → d.1 ≠ d.2.2.1 ∧ d.1 ≠ d.2.2.2)
    (hdisj : (adjSeed.zip adjSens).Pairwise
      (fun a b => ∀ q, q ∈ Multiplication.slots a → q ∉ Multiplication.slots b))
    (hst : ∀ q, (st q).Proper) (hd1 : dep1.Proper) (hd2 : dep2.Proper) :
    (∀ seed sens0 sens1 sens2, (seed, sens0, sens1, sens2) ∈ adjSeed.zip adjSens →
      (∀ p i j, p ∈ [sens0, sens1, sens2] → p ≠ seed →
        (Multiplication.evalAdj dep1 dep2 adjSeed adjSens st p).val i j
          = (st p).val i j
            + (if p = sens1 then
                (if (dep1.elem i j).isSome then
                  ∑ k ∈ Finset.range (st seed).size2, (st seed).val i k * dep2.val j k else 0)
               else 0)
            + (if p = sens2 then
                (if (dep2.elem i j).isSome then
                  ∑ k ∈ Finset.range dep1.size1, dep1.val k i * (st seed).val k j else 0)
               else 0)
            + (if p = sens0 then (st seed).val i j else 0)) ∧
      (seed ≠ sens0 →
        Multiplication.evalAdj dep1 dep2 adjSeed adjSens st seed = MX.empty) ∧
      (seed = sens0 →
        Multiplication.evalAdj dep1 dep2 adjSeed adjSens st seed = st seed)) ∧
    (∀ q, (∀ d, d ∈ adjSeed.zip adjSens → q ∉ Multiplication.slots d) →
      Multiplication.evalAdj dep1 dep2 adjSeed adjSens st q = st q) := by
  obtain ⟨f1, f2⟩ := Multiplication.evalAdj_disjoint dep1 dep2 adjSeed adjSens st hdisj
  refine ⟨?_, f2⟩
  intro seed sens0 sens1 sens2 hd
  obtain ⟨g1, g2, g3⟩ := Multiplication.mul_evalAdjDir_spec dep1 dep2 seed sens0 sens1 sens2 st
    (h12 _ hd).1 (h12 _ hd).2 hst hd1 hd2
  have hseed : Multiplication.evalAdj dep1 dep2 adjSeed adjSens st seed
      = Multiplication.evalAdjDir dep1 dep2 seed (sens0, sens1, sens2) st seed :=
    f1 _ hd seed (by simp [Multiplication.slots])
  refine ⟨?_, ?_, ?_⟩
  · intro p i j hp hps
    have hmem : p ∈ Multiplication.slots (seed, sens0, sens1, sens2) := by
      simp only [List.mem_cons, List.mem_singleton, List.not_mem_nil, or_false] at hp
      simp only [Multiplication.slots, List.mem_cons, List.mem_singleton, List.not_mem_nil,
        or_false]
      exact Or.inr hp
    rw [f1 _ hd p hmem]
    exact g1 p i j hps
  · intro h0
    rw [hseed]
    exact g2 h0
  · intro h0
    rw [hseed]
    exact g3 h0

/-- Witness for C6: scalar operands `X = 2`, `Y = 3` and two directions. The
first has the seed 5 in slot 0 and the adjoint slots 1, 2, 3 of `Z0`, `X`, `Y`;
the second is evaluated in place: its seed 7 sits in slot 4, which is also the
adjoint slot of `Z0`, and the adjoint slots of `X`, `Y` are 5 and 6. -/
theorem Multiplication.mul_evalAdj_spec_witness :
    (Multiplication.evalAdj (⟨1, 1, fun _ _ => some 2⟩ : MX Int) ⟨1, 1, fun _ _ => some 3⟩
        [0, 4] [(1, 2, 3), (4, 5, 6)]
        (MXStore.ofList [⟨1, 1, fun _ _ => some 5⟩, MX.empty, MX.empty, MX.empty,
          ⟨1, 1, fun _ _ => some 7⟩]) 2).val 0 0 = 5 * 3 ∧
    (Multiplication.evalAdj (⟨1, 1, fun _ _ => some 2⟩ : MX Int) ⟨1, 1, fun _ _ => some 3⟩
        [0, 4] [(1, 2, 3), (4, 5, 6)]
        (MXStore.ofList [⟨1, 1, fun _ _ => some 5⟩, MX.empty, MX.empty, MX.empty,
          ⟨1, 1, fun _ _ => some 7⟩]) 6).val 0 0 = 2 * 7 ∧
    Multiplication.evalAdj (⟨1, 1, fun _ _ => some 2⟩ : MX Int) ⟨1, 1, fun _ _ => some 3⟩
        [0, 4] [(1, 2, 3), (4, 5, 6)]
        (MXStore.ofList [⟨1, 1, fun _ _ => some 5⟩, MX.empty, MX.empty, MX.empty,
          ⟨1, 1, fun _ _ => some 7⟩]) 0 = MX.empty ∧
    ((Multiplication.evalAdj (⟨1, 1, fun _ _ => some 2⟩ : MX Int) ⟨1, 1, fun _ _ => some 3⟩
        [0, 4] [(1, 2, 3), (4, 5, 6)]
        (MXStore.ofList [⟨1, 1, fun _ _ => some 5⟩, MX.empty, MX.empty, MX.empty,
          ⟨1, 1, fun _ _ => some 7⟩]) 4).val 0 0 = 7) := by
  have h := Multiplication.mul_evalAdj_spec (⟨1, 1, fun _ _ => some 2⟩ : MX Int)
    ⟨1, 1, fun _ _ => some 3⟩ [0, 4] [(1, 2, 3), (4, 5, 6)]
    (MXStore.ofList [⟨1, 1, fun _ _ => some 5⟩, MX.empty, MX.empty, MX.empty,
      ⟨1, 1, fun _ _ => some 7⟩])
    (by decide) (by decide)
    (by
      intro q
      unfold MXStore.ofList
      rcases q with _ | _ | _ | _ | _ | q <;> simp [MX.Proper, MX.isEmpty, MX.empty])
    (by simp [MX.Proper, MX.isEmpty]) (by simp [MX.Proper, MX.isEmpty])
  obtain ⟨a1, a2, _⟩ := h.1 0 1 2 3 (by decide)
  obtain ⟨b1, _, b3⟩ := h.1 4 4 5 6 (by decide)
  refine ⟨?_, ?_, a2 (by decide), ?_⟩
  · rw [a1 2 0 0 (by decide) (by decide)]
    decide
  · rw [b1 6 0 0 (by decide) (by decide)]
    decide
  · rw [b3 rfl]
    decide
theorem Inverse.inv_evalAdjDir_frame {R : Type} [Zero R] [Add R] [Mul R] [Neg R] (inv_X : MX R)
    (d : Nat × Nat) (s : MXStore R) (q : Nat) (hq : q ∉ Inverse.slots d) :
    Inverse.evalAdjDir inv_X d.1 d.2 s q = s q := by
  simp only [Inverse.slots, List.mem_cons, List.mem_singleton, List.not_mem_nil, or_false,
    not_or] at hq
  simp only [Inverse.evalAdjDir]
  rw [MXStore.write_of_ne _ _ _ _ hq.1, MXStore.addToSum_frame _ _ _ _ hq.2]

theorem Inverse.inv_evalAdjDir_local {R : Type} [Zero R] [Add R] [Mul R] [Neg R] (inv_X : MX R)
    (d : Nat × Nat) (s t : MXStore R) (h : ∀ q, q ∈ Inverse.slots d → s q = t q) (q : Nat)
    (hq : q ∈ Inverse.slots d) :
    Inverse.evalAdjDir inv_X d.1 d.2 s q = Inverse.evalAdjDir inv_X d.1 d.2 t q := by
  have e0 : s d.1 = t d.1 := h _ (by simp [Inverse.slots])
  have e1 : s d.2 = t d.2 := h _ (by simp [Inverse.slots])
  have eq : s q = t q := h q hq
  simp only [Inverse.evalAdjDir, MXStore.addToSum, MXStore.write, e0, e1, eq]

/-- The loop of `Inverse::evalAdj` over directions with pairwise disjoint slots
leaves in the slots of each direction what the body leaves there when run on
the initial slots. -/
theorem Inverse.inv_evalAdj_disjoint {R : Type} [Zero R] [Add R] [Mul R] [Neg R] (inv_X : MX R)
    (adjSeed adjSens : List Nat) (st : MXStore R)
    (hdisj : (adjSeed.zip adjSens).Pairwise
      (fun a b => ∀ q, q ∈ Inverse.slots a → q ∉ Inverse.slots b)) :
    (∀ d, d ∈ adjSeed.zip adjSens → ∀ q, q ∈ Inverse.slots d →
      Inverse.evalAdj inv_X adjSeed adjSens st q = Inverse.evalAdjDir inv_X d.1 d.2 st q) ∧
    (∀ q, (∀ d, d ∈ adjSeed.zip adjSens → q ∉ Inverse.slots d) →
      Inverse.evalAdj inv_X adjSeed adjSens st q = st q) :=
  MXStore.foldl_disjoint
    (fun (d : Nat × Nat) (s : MXStore R) => Inverse.evalAdjDir inv_X d.1 d.2 s)
    Inverse.slots (adjSeed.zip adjSens)
    (fun d _ => Inverse.inv_evalAdjDir_frame inv_X d)
    (fun d _ => Inverse.inv_evalAdjDir_local inv_X d) hdisj st

/-- C10: `Inverse::evalAdj` over any number of adjoint directions, the
directions being the pairs `(adjSeed[d], adjSens[d])`, each with its own slots
(no slot of a direction is a slot of another direction) and with a seed slot
distinct from its adjoint slot. For every direction, with `S` the seed held by
its seed slot and `Y` the value of the node itself, the adjoint of `X` has
gained `-Y^T*S*Y^T` on top of its previous content and the seed slot holds the
empty matrix; the slots of no direction are untouched. -/
theorem Inverse.inv_evalAdj_spec {R : Type} [CommRing R] (inv_X : MX R)
    (adjSeed adjSens : List Nat) (st : MXStore R) (n : Nat)
    (hne : ∀ d, d ∈ adjSeed.zip adjSens → d.1 ≠ d.2)
    (hdisj : (adjSeed.zip adjSens).Pairwise
      (fun a b => ∀ q, q ∈ Inverse.slots a → q ∉ Inverse.slots b))
    (hst : ∀ d, d ∈ adjSeed.zip adjSens → (st d.2).Proper) (hY : inv_X.size1 = n)
    (hS : ∀ d, d ∈ adjSeed.zip adjSens → (st d.1).size2 = n) :
    (∀ seed sens, (seed, sens) ∈ adjSeed.zip adjSens →
      (Inverse.evalAdj inv_X adjSeed adjSens st sens).toMatrix n n
        = (st sens).toMatrix n n
          + -((inv_X.toMatrix n n).transpose * (st seed).toMatrix n n
              * (inv_X.toMatrix n n).transpose) ∧
      Inverse.evalAdj inv_X adjSeed adjSens st seed = MX.empty) ∧
    (∀ q, (∀ d, d ∈ adjSeed.zip adjSens → q ∉ Inverse.slots d) →
      Inverse.evalAdj inv_X adjSeed adjSens st q = st q) := by
  obtain ⟨f1, f2⟩ := Inverse.inv_evalAdj_disjoint inv_X adjSeed adjSens st hdisj
  refine ⟨?_, f2⟩
  intro seed sens hd
  obtain ⟨g1, g2, _⟩ := Inverse.inv_evalAdjDir_spec inv_X seed sens st n (hne _ hd) (hst _ hd)
    hY (hS _ hd)
  refine ⟨?_, ?_⟩
  · rw [f1 _ hd sens (by simp [Inverse.slots])]
    exact g1
  · rw [f1 _ hd seed (by simp [Inverse.slots])]
    exact g2

/-- Witness for C10: scalar node value `Y = 2` and two directions, with the
seeds 5 and 7 in the slots 0 and 2 and the empty adjoint slots 1 and 3. -/
theorem Inverse.inv_evalAdj_spec_witness :
    (Inverse.evalAdj (⟨1, 1, fun _ _ => some 2⟩ : MX Int) [0, 2] [1, 3]
        (MXStore.ofList [⟨1, 1, fun _ _ => some 5⟩, MX.empty, ⟨1, 1, fun _ _ => some 7⟩]) 1).val
        0 0 = -(2 * 5 * 2) ∧
    (Inverse.evalAdj (⟨1, 1, fun _ _ => some 2⟩ : MX Int) [0, 2] [1, 3]
        (MXStore.ofList [⟨1, 1, fun _ _ => some 5⟩, MX.empty, ⟨1, 1, fun _ _ => some 7⟩]) 3).val
        0 0 = -(2 * 7 * 2) ∧
    Inverse.evalAdj (⟨1, 1, fun _ _ => some 2⟩ : MX Int) [0, 2] [1, 3]
        (MXStore.ofList [⟨1, 1, fun _ _ => some 5⟩, MX.empty, ⟨1, 1, fun _ _ => some 7⟩]) 2
      = MX.empty := by
  have h := Inverse.inv_evalAdj_spec (⟨1, 1, fun _ _ => some 2⟩ : MX Int) [0, 2] [1, 3]
    (MXStore.ofList [⟨1, 1, fun _ _ => some 5⟩, MX.empty, ⟨1, 1, fun _ _ => some 7⟩]) 1
    (by decide) (by decide)
    (by
      intro d hd
      simp only [List.zip_cons_cons, List.zip_nil_right, List.mem_cons, List.mem_singleton,
        List.not_mem_nil, or_false] at hd
      rcases hd with rfl | rfl <;> simp [MXStore.ofList, MX.Proper, MX.empty])
    rfl
    (by
      intro d hd
      simp only [List.zip_cons_cons, List.zip_nil_right, List.mem_cons, List.mem_singleton,
        List.not_mem_nil, or_false] at hd
      rcases hd with rfl | rfl <;> rfl)
  obtain ⟨a1, _⟩ := h.1 0 1 (by decide)
  obtain ⟨b1, b2⟩ := h.1 2 3 (by decide)
  refine ⟨?_, ?_, b2⟩
  · have h1 := congrFun (congrFun a1 0) 0
    simp only [MX.toMatrix] at h1
    exact h1.trans (by decide)
  · have h1 := congrFun (congrFun b1 0) 0
    simp only [MX.toMatrix] at h1
    exact h1.trans (by decide)
theorem UnaryMX.unary_evalAdjDir_frame {R : Type} [Add R] [Mul R] (pd0 : MX R) (d : Nat × Nat)
    (s : MXStore R) (q : Nat) (hq : q ∉ UnaryMX.slots d) :
    UnaryMX.evalAdjDir pd0 d.1 d.2 s q = s q := by
  simp only [UnaryMX.slots, List.mem_cons, List.mem_singleton, List.not_mem_nil, or_false,
    not_or] at hq
  simp only [UnaryMX.evalAdjDir]
  rw [MXStore.addToSum_frame _ _ _ _ hq.2, MXStore.write_of_ne _ _ _ _ hq.1]

theorem UnaryMX.unary_evalAdjDir_local {R : Type} [Add R] [Mul R] (pd0 : MX R) (d : Nat × Nat)
    (s t : MXStore R) (h : ∀ q, q ∈ UnaryMX.slots d → s q = t q) (q : Nat)
    (hq : q ∈ UnaryMX.slots d) :
    UnaryMX.evalAdjDir pd0 d.1 d.2 s q = UnaryMX.evalAdjDir pd0 d.1 d.2 t q := by
  have e0 : s d.1 = t d.1 := h _ (by simp [UnaryMX.slots])
  have e1 : s d.2 = t d.2 := h _ (by simp [UnaryMX.slots])
  have eq : s q = t q := h q hq
  simp only [UnaryMX.evalAdjDir, MXStore.addToSum, MXStore.write, e0, e1, eq]

/-- The loop of `UnaryMX::evalAdj` over directions with pairwise disjoint slots
leaves in the slots of each direction what the body leaves there when run on
the initial slots, with the partial derivative computed before the loop. -/
theorem UnaryMX.unary_evalAdj_disjoint {R : Type} [Add R] [Mul R]
    (der : Operation → MX R → MX R → MX R → MX R × MX R) (op_ : Operation) (dep this : MX R)
    (adjSeed adjSens : List Nat) (st : MXStore R)
    (hdisj : (adjSeed.zip adjSens).Pairwise
      (fun a b => ∀ q, q ∈ UnaryMX.slots a → q ∉ UnaryMX.slots b)) :
    (∀ d, d ∈ adjSeed.zip adjSens → ∀ q, q ∈ UnaryMX.slots d →
      UnaryMX.evalAdj der op_ dep this adjSeed adjSens st q
        = UnaryMX.evalAdjDir (der op_ dep MX.empty this).1 d.1 d.2 st q) ∧
    (∀ q, (∀ d, d ∈ adjSeed.zip adjSens → q ∉ UnaryMX.slots d) →
      UnaryMX.evalAdj der op_ dep this adjSeed adjSens st q = st q) :=
  MXStore.foldl_disjoint
    (fun (d : Nat × Nat) (s : MXStore R) =>
      UnaryMX.evalAdjDir (der op_ dep MX.empty this).1 d.1 d.2 s)
    UnaryMX.slots (adjSeed.zip adjSens)
    (fun d _ => UnaryMX.unary_evalAdjDir_frame _ d)
    (fun d _ => UnaryMX.unary_evalAdjDir_local _ d) hdisj st

/-- C11: with `pd` the partial derivative returned by the per-operation table
for the dependency `x` and the node's own value, `UnaryMX::evalFwd` writes for
every forward direction the elementwise product `pd*seed`, and
`UnaryMX::evalAdj`, over any number of adjoint directions `(adjSeed[d],
adjSens[d])` each with its own slots, adds for every direction `pd*seed` to the
previous content of the adjoint slot and leaves the seed slot empty, the seed
used in the product being the one held before clearing. For a direction
evaluated in place (the seed slot is the adjoint slot) the slot ends as
`pd*seed`. The slots of no direction are untouched. -/
theorem UnaryMX.unary_evalAdj_spec {R : Type} [CommRing R]
    (der : Operation → MX R → MX R → MX R → MX R × MX R) (op_ : Operation) (dep this : MX R)
    (fwdSeed : List (MX R)) (adjSeed adjSens : List Nat) (st : MXStore R)
    (hdisj : (adjSeed.zip adjSens).Pairwise
      (fun a b => ∀ q, q ∈ UnaryMX.slots a → q ∉ UnaryMX.slots b))
    (hst : ∀ d, d ∈ adjSeed.zip adjSens → (st d.2).Proper) :
    (UnaryMX.evalFwd der op_ dep this fwdSeed).length = fwdSeed.length ∧
    (∀ d (hd : d < fwdSeed.length),
      (UnaryMX.evalFwd der op_ dep this fwdSeed).getD d MX.empty
        = MX.times (der op_ dep MX.empty this).1 fwdSeed[d] ∧
      ∀ i j, ((UnaryMX.evalFwd der op_ dep this fwdSeed).getD d MX.empty).val i j
        = (der op_ dep MX.empty this).1.val i j * fwdSeed[d].val i j) ∧
    (∀ seed sens, (seed, sens) ∈ adjSeed.zip adjSens →
      (seed ≠ sens →
        (∀ i j, (UnaryMX.evalAdj der op_ dep this adjSeed adjSens st sens).val i j
          = (st sens).val i j + (der op_ dep MX.empty this).1.val i j * (st seed).val i j) ∧
        UnaryMX.evalAdj der op_ dep this adjSeed adjSens st seed = MX.empty) ∧
      (seed = sens →
        UnaryMX.evalAdj der op_ dep this adjSeed adjSens st seed
          = MX.times (der op_ dep MX.empty this).1 (st seed))) ∧
    (∀ q, (∀ d, d ∈ adjSeed.zip adjSens → q ∉ UnaryMX.slots d) →
      UnaryMX.evalAdj der op_ dep this adjSeed adjSens st q = st q) := by
  obtain ⟨f1, f2⟩ := UnaryMX.unary_evalAdj_disjoint der op_ dep this adjSeed adjSens st hdisj
  have hfwd : ∀ d (hd : d < fwdSeed.length),
      (UnaryMX.evalFwd der op_ dep this fwdSeed).getD d MX.empty
        = MX.times (der op_ dep MX.empty this).1 fwdSeed[d] := by
    intro d hd
    have hlen : d < (UnaryMX.evalFwd der op_ dep this fwdSeed).length := by
      simpa [UnaryMX.evalFwd] using hd
    rw [List.getD_eq_getElem _ _ hlen]
    simp [UnaryMX.evalFwd]
  refine ⟨by simp [UnaryMX.evalFwd], ?_, ?_, f2⟩
  · intro d hd
    refine ⟨hfwd d hd, fun i j => ?_⟩
    rw [hfwd d hd, MX.val_times]
  · intro seed sens hd
    have hs := f1 _ hd seed (by simp [UnaryMX.slots])
    have ht := f1 _ hd sens (by simp [UnaryMX.slots])
    refine ⟨fun hne => ⟨fun i j => ?_, ?_⟩, fun he => ?_⟩
    · have hne2 : sens ≠ seed := fun e => hne e.symm
      rw [ht]
      simp only [UnaryMX.evalAdjDir, MXStore.addToSum]
      rw [MXStore.write_same, MXStore.write_of_ne _ _ _ _ hne2, MX.val_addToSum _ _ (hst _ hd),
        MX.val_times]
    · rw [hs]
      simp only [UnaryMX.evalAdjDir]
      rw [MXStore.addToSum_frame _ _ _ _ hne, MXStore.write_same]
    · subst he
      rw [hs]
      exact UnaryMX.unary_evalAdjDir_inplace _ seed st

/-- Witness for C11: a scalar node with partial derivative 3, one forward
direction with seed 5, and two adjoint directions: the seed 7 in slot 0 with the
empty adjoint slot 1, and the seed 11 in slot 2 evaluated in place. -/
theorem UnaryMX.unary_evalAdj_spec_witness :
    ((UnaryMX.evalFwd (fun _ _ _ _ => (⟨1, 1, fun _ _ => some 3⟩, MX.empty))
        Operation.OP_SQ (⟨1, 1, fun _ _ => some 2⟩ : MX Int) ⟨1, 1, fun _ _ => some 4⟩
        [⟨1, 1, fun _ _ => some 5⟩]).getD 0 MX.empty).val 0 0 = 3 * 5 ∧
    (UnaryMX.evalAdj (fun _ _ _ _ => (⟨1, 1, fun _ _ => some 3⟩, MX.empty))
        Operation.OP_SQ (⟨1, 1, fun _ _ => some 2⟩ : MX Int) ⟨1, 1, fun _ _ => some 4⟩
        [0, 2] [1, 2]
        (MXStore.ofList [⟨1, 1, fun _ _ => some 7⟩, MX.empty, ⟨1, 1, fun _ _ => some 11⟩]) 1).val
        0 0 = 0 + 3 * 7 ∧
    UnaryMX.evalAdj (fun _ _ _ _ => (⟨1, 1, fun _ _ => some 3⟩, MX.empty))
        Operation.OP_SQ (⟨1, 1, fun _ _ => some 2⟩ : MX Int) ⟨1, 1, fun _ _ => some 4⟩
        [0, 2] [1, 2]
        (MXStore.ofList [⟨1, 1, fun _ _ => some 7⟩, MX.empty, ⟨1, 1, fun _ _ => some 11⟩]) 0
      = MX.empty ∧
    (UnaryMX.evalAdj (fun _ _ _ _ => (⟨1, 1, fun _ _ => some 3⟩, MX.empty))
        Operation.OP_SQ (⟨1, 1, fun _ _ => some 2⟩ : MX Int) ⟨1, 1, fun _ _ => some 4⟩
        [0, 2] [1, 2]
        (MXStore.ofList [⟨1, 1, fun _ _ => some 7⟩, MX.empty, ⟨1, 1, fun _ _ => some 11⟩]) 2).val
        0 0 = 3 * 11 := by
  have h := UnaryMX.unary_evalAdj_spec (fun _ _ _ _ => (⟨1, 1, fun _ _ => some 3⟩, MX.empty))
    Operation.OP_SQ (⟨1, 1, fun _ _ => some 2⟩ : MX Int) ⟨1, 1, fun _ _ => some 4⟩
    [⟨1, 1, fun _ _ => some 5⟩] [0, 2] [1, 2]
    (MXStore.ofList [⟨1, 1, fun _ _ => some 7⟩, MX.empty, ⟨1, 1, fun _ _ => some 11⟩])
    (by decide)
    (by
      intro d hd
      simp only [List.zip_cons_cons, List.zip_nil_right, List.mem_cons, List.mem_singleton,
        List.not_mem_nil, or_false] at hd
      rcases hd with rfl | rfl <;> simp [MXStore.ofList, MX.Proper, MX.empty, MX.isEmpty])
  obtain ⟨a1, _⟩ := h.2.2.1 0 1 (by decide)
  obtain ⟨_, b2⟩ := h.2.2.1 2 2 (by decide)
  refine ⟨(h.2.1 0 (by decide)).2 0 0, ?_, (a1 (by decide)).2, ?_⟩
  · rw [(a1 (by decide)).1 0 0]
    decide
  · rw [b2 rfl]
    decide
theorem Assertion.assert_evalAdjDir_frame {R : Type} [Add R] (d : Nat × Nat × Nat) (s : MXStore R)
    (q : Nat) (hq : q ∉ Assertion.slots d) : Assertion.evalAdjDir d.1 d.2 s q = s q := by
  simp only [Assertion.slots, List.mem_cons, List.mem_singleton, List.not_mem_nil, or_false,
    not_or] at hq
  simp only [Assertion.evalAdjDir]
  rw [MXStore.write_of_ne _ _ _ _ hq.1, MXStore.addToSum_frame _ _ _ _ hq.2]

theorem Assertion.assert_evalAdjDir_local {R : Type} [Add R] (d : Nat × Nat × Nat) (s t : MXStore R)
    (h : ∀ q, q ∈ Assertion.slots d → s q = t q) (q : Nat) (hq : q ∈ Assertion.slots d) :
    Assertion.evalAdjDir d.1 d.2 s q = Assertion.evalAdjDir d.1 d.2 t q := by
  have e0 : s d.1 = t d.1 := h _ (by simp [Assertion.slots])
  have e1 : s d.2.1 = t d.2.1 := h _ (by simp [Assertion.slots])
  have eq : s q = t q := h q hq
  simp only [Assertion.evalAdjDir, MXStore.addToSum, MXStore.write, e0, e1, eq]

/-- The loop of `Assertion::evalAdj` over directions with pairwise disjoint
slots leaves in the slots of each direction what the body leaves there when run
on the initial slots. -/
theorem Assertion.assert_evalAdj_disjoint {R : Type} [Add R] (adjSeed : List Nat)
    (adjSens : List (Nat × Nat)) (st : MXStore R)
    (hdisj : (adjSeed.zip adjSens).Pairwise
      (fun a b => ∀ q, q ∈ Assertion.slots a → q ∉ Assertion.slots b)) :
    (∀ d, d ∈ adjSeed.zip adjSens → ∀ q, q ∈ Assertion.slots d →
      Assertion.evalAdj adjSeed adjSens st q = Assertion.evalAdjDir d.1 d.2 st q) ∧
    (∀ q, (∀ d, d ∈ adjSeed.zip adjSens → q ∉ Assertion.slots d) →
      Assertion.evalAdj adjSeed adjSens st q = st q) :=
  MXStore.foldl_disjoint
    (fun (d : Nat × Nat × Nat) (s : MXStore R) => Assertion.evalAdjDir d.1 d.2 s)
    Assertion.slots (adjSeed.zip adjSens)
    (fun d _ => Assertion.assert_evalAdjDir_frame d)
    (fun d _ => Assertion.assert_evalAdjDir_local d) hdisj st

/-- C12 (defect of the code): `Assertion::evalAdj` adds the seed to the adjoint
slot of the value and then clears the seed slot, without testing whether the two
slots are the same object. Over any number of adjoint directions
`(adjSeed[d], adjSens[d])`, each with its own slots: the forward sensitivity is
the forward seed of the value; a direction whose seed slot differs from the
adjoint slot of the value adds the seed to the adjoint of the value and leaves
the seed slot empty; but a direction evaluated in place (the seed slot is the
adjoint slot of the value) leaves the adjoint of the value empty, so the seed is
not passed on. The last part is the case of one direction with the seed 7 in
slot 0, which is also the adjoint slot of the value. -/
theorem Assertion.assert_evalAdj_same_slot_lost {R : Type} [CommRing R] :
    (∀ (fwdSeed : List (MX R × MX R)) (d : Nat) (hd : d < fwdSeed.length),
      (Assertion.evalFwd fwdSeed).getD d MX.empty = fwdSeed[d].1) ∧
    (∀ (adjSeed : List Nat) (adjSens : List (Nat × Nat)) (st : MXStore R),
      (adjSeed.zip adjSens).Pairwise
        (fun a b => ∀ q, q ∈ Assertion.slots a → q ∉ Assertion.slots b) →
      (∀ seed sens0 sens1, (seed, sens0, sens1) ∈ adjSeed.zip adjSens →
        (seed ≠ sens0 → (st sens0).Proper →
          (∀ i j, (Assertion.evalAdj adjSeed adjSens st sens0).val i j
            = (st sens0).val i j + (st seed).val i j) ∧
          Assertion.evalAdj adjSeed adjSens st seed = MX.empty) ∧
        (seed = sens0 → Assertion.evalAdj adjSeed adjSens st sens0 = MX.empty)) ∧
      (∀ q, (∀ d, d ∈ adjSeed.zip adjSens → q ∉ Assertion.slots d) →
        Assertion.evalAdj adjSeed adjSens st q = st q)) ∧
    (((MXStore.ofList [(⟨1, 1, fun _ _ => some 7⟩ : MX Int)]) 0).val 0 0 = 7 ∧
      Assertion.evalAdj [0] [(0, 1)] (MXStore.ofList [(⟨1, 1, fun _ _ => some 7⟩ : MX Int)]) 0
        = MX.empty ∧
      (Assertion.evalAdj [0] [(0, 1)]
        (MXStore.ofList [(⟨1, 1, fun _ _ => some 7⟩ : MX Int)]) 0).val 0 0 = 0) := by
  refine ⟨?_, ?_, ?_⟩
  · intro fwdSeed d hd
    have hlen : d < (Assertion.evalFwd fwdSeed).length := by
      simpa [Assertion.evalFwd] using hd
    rw [List.getD_eq_getElem _ _ hlen]
    simp [Assertion.evalFwd]
  · intro adjSeed adjSens st hdisj
    obtain ⟨f1, f2⟩ := Assertion.assert_evalAdj_disjoint adjSeed adjSens st hdisj
    refine ⟨?_, f2⟩
    intro seed sens0 sens1 hd
    have hs := f1 _ hd seed (by simp [Assertion.slots])
    have ht := f1 _ hd sens0 (by simp [Assertion.slots])
    refine ⟨fun hne hst => ⟨fun i j => ?_, ?_⟩, fun he => ?_⟩
    · have hne2 : sens0 ≠ seed := fun e => hne e.symm
      rw [ht]
      simp only [Assertion.evalAdjDir]
      rw [MXStore.write_of_ne _ _ _ _ hne2, MXStore.addToSum, MXStore.write_same,
        MX.val_addToSum _ _ hst]
    · rw [hs]
      simp only [Assertion.evalAdjDir]
      rw [MXStore.write_same]
    · subst he
      rw [hs]
      simp only [Assertion.evalAdjDir]
      rw [MXStore.write_same]
  · have e : Assertion.evalAdj [0] [(0, 1)]
        (MXStore.ofList [(⟨1, 1, fun _ _ => some 7⟩ : MX Int)]) 0 = MX.empty := by
      simp only [Assertion.evalAdj, List.zip_cons_cons, List.zip_nil_right, List.foldl_cons,
        List.foldl_nil, Assertion.evalAdjDir]
      rw [MXStore.write_same]
    refine ⟨by decide, e, ?_⟩
    rw [e]
    decide
theorem Split.mem_slots (node : Split) (seeds : List (Option Nat)) (sens : Option Nat) (q : Nat) :
    q ∈ Split.slots node (seeds, sens)
      ↔ (∃ i, i < node.offset_.length - 1 ∧ seeds.getD i none = some q) ∨ sens = some q := by
  simp [Split.slots, List.mem_filterMap, List.mem_range, eq_comm]

/-- Slots after one direction of the `evalAdj` of a split node whose present
seed pointers are pairwise distinct: the present seed slots are cleared, then
the concatenation of the matrices read from the initial slots is added to the
adjoint slot. -/
theorem Split.evalAdjDir_some {R : Type} [Add R] (cat : List (MX R) → MX R) (node : Split)
    (seeds : List (Option Nat)) (p : Nat) (s : MXStore R)
    (hdist : ∀ a b q, a < b → b < node.offset_.length - 1 → seeds.getD a none = some q →
      seeds.getD b none ≠ some q) (q : Nat) :
    Split.evalAdjDir cat node seeds (some p) s q
      = if q = p then
          MX.addToSum
            (if (List.range (node.offset_.length - 1)).any
                (fun i => decide (seeds.getD i none = some p)) = true then MX.empty else s p)
            (cat (Split.seedMatrices node seeds s))
        else if (List.range (node.offset_.length - 1)).any
            (fun i => decide (seeds.getD i none = some q)) = true then MX.empty else s q := by
  obtain ⟨r1, r2⟩ := Split.collectSeeds_steps node seeds (node.offset_.length - 1) s hdist
  have hev : Split.evalAdjDir cat node seeds (some p) s
      = MXStore.addToSum (Split.collectSeeds node seeds (node.offset_.length - 1) s).2 p
          (cat (Split.collectSeeds node seeds (node.offset_.length - 1) s).1) := rfl
  rw [hev, r1]
  by_cases hq : q = p
  · subst hq
    rw [if_pos rfl]
    unfold MXStore.addToSum
    rw [MXStore.write_same, r2 q]
    rfl
  · rw [if_neg hq, MXStore.addToSum_frame _ _ _ _ hq, r2 q]

theorem Split.split_evalAdjDir_frame {R : Type} [Add R] (cat : List (MX R) → MX R) (node : Split)
    (seeds : List (Option Nat)) (sens : Option Nat)
    (hdist : ∀ a b q, a < b → b < node.offset_.length - 1 → seeds.getD a none = some q →
      seeds.getD b none ≠ some q)
    (s : MXStore R) (q : Nat) (hq : q ∉ Split.slots node (seeds, sens)) :
    Split.evalAdjDir cat node seeds sens s q = s q := by
  rw [Split.mem_slots, not_or] at hq
  cases sens with
  | none => rfl
  | some p =>
    have hqp : q ≠ p := fun e => hq.2 (by rw [e])
    have hany : (List.range (node.offset_.length - 1)).any
        (fun i => decide (seeds.getD i none = some q)) = false := by
      rw [List.any_eq_false]
      intro a ha hax
      exact hq.1 ⟨a, List.mem_range.mp ha, by simpa using hax⟩
    rw [Split.evalAdjDir_some cat node seeds p s hdist q, if_neg hqp, hany]
    simp

theorem Split.seedMatrices_congr {R : Type} (node : Split) (seeds : List (Option Nat))
    (s t : MXStore R)
    (h : ∀ i q, i < node.offset_.length - 1 → seeds.getD i none = some q → s q = t q) :
    Split.seedMatrices node seeds s = Split.seedMatrices node seeds t := by
  unfold Split.seedMatrices
  apply List.map_congr_left
  intro i hi
  cases hs : seeds.getD i none with
  | none => rfl
  | some q => exact h i q (List.mem_range.mp hi) hs

theorem Split.split_evalAdjDir_local {R : Type} [Add R] (cat : List (MX R) → MX R) (node : Split)
    (seeds : List (Option Nat)) (sens : Option Nat)
    (hdist : ∀ a b q, a < b → b < node.offset_.length - 1 → seeds.getD a none = some q →
      seeds.getD b none ≠ some q)
    (s t : MXStore R) (h : ∀ q, q ∈ Split.slots node (seeds, sens) → s q = t q) (q : Nat)
    (hq : q ∈ Split.slots node (seeds, sens)) :
    Split.evalAdjDir cat node seeds sens s q = Split.evalAdjDir cat node seeds sens t q := by
  cases sens with
  | none => exact h q hq
  | some p =>
    have hm : Split.seedMatrices node seeds s = Split.seedMatrices node seeds t :=
      Split.seedMatrices_congr node seeds s t
        (fun i r hi hr => h r ((Split.mem_slots node seeds (some p) r).mpr (Or.inl ⟨i, hi, hr⟩)))
    have hp : s p = t p := h p ((Split.mem_slots node seeds (some p) p).mpr (Or.inr rfl))
    rw [Split.evalAdjDir_some cat node seeds p s hdist q,
      Split.evalAdjDir_some cat node seeds p t hdist q, hm, hp, h q hq]

/-- The loop over the directions of the `evalAdj` of a split node, the
directions having pairwise disjoint slots and pairwise distinct present seeds:
it leaves in the slots of each direction what the body leaves there when run on
the initial slots. -/
theorem Split.split_evalAdj_disjoint {R : Type} [Add R] (cat : List (MX R) → MX R)
    (node : Split) (adjSeed : List (List (Option Nat))) (adjSens : List (Option Nat))
    (st : MXStore R)
    (hdist : ∀ d, d ∈ adjSeed.zip adjSens → ∀ a b q, a < b → b < node.offset_.length - 1 →
      d.1.getD a none = some q → d.1.getD b none ≠ some q)
    (hdisj : (adjSeed.zip adjSens).Pairwise
      (fun a b => ∀ q, q ∈ Split.slots node a → q ∉ Split.slots node b)) :
    (∀ d, d ∈ adjSeed.zip adjSens → ∀ q, q ∈ Split.slots node d →
      (adjSeed.zip adjSens).foldl (fun s d => Split.evalAdjDir cat node d.1 d.2 s) st q
        = Split.evalAdjDir cat node d.1 d.2 st q) ∧
    (∀ q, (∀ d, d ∈ adjSeed.zip adjSens → q ∉ Split.slots node d) →
      (adjSeed.zip adjSens).foldl (fun s d => Split.evalAdjDir cat node d.1 d.2 s) st q
        = st q) :=
  MXStore.foldl_disjoint
    (fun (d : List (Option Nat) × Option Nat) (s : MXStore R) =>
      Split.evalAdjDir cat node d.1 d.2 s)
    (Split.slots node) (adjSeed.zip adjSens)
    (fun d hd => Split.split_evalAdjDir_frame cat node d.1 d.2 (hdist d hd))
    (fun d hd => Split.split_evalAdjDir_local cat node d.1 d.2 (hdist d hd)) hdisj st
/-- The reverse-mode rule of a split node with concatenation `cat`, for the loop
over the directions. -/
theorem Split.split_evalAdj_rule {R : Type} [CommRing R] (cat : List (MX R) → MX R)
    (node : Split) (adjSeed : List (List (Option Nat))) (adjSens : List (Option Nat))
    (st : MXStore R)
    (hp : ∀ seeds p, (seeds, some p) ∈ adjSeed.zip adjSens →
      ∀ i, i < node.offset_.length - 1 → seeds.getD i none ≠ some p)
    (hdist : ∀ d, d ∈ adjSeed.zip adjSens → ∀ a b q, a < b → b < node.offset_.length - 1 →
      d.1.getD a none = some q → d.1.getD b none ≠ some q)
    (hdisj : (adjSeed.zip adjSens).Pairwise
      (fun a b => ∀ q, q ∈ Split.slots node a → q ∉ Split.slots node b))
    (hst : ∀ seeds p, (seeds, some p) ∈ adjSeed.zip adjSens → (st p).Proper) :
    (∀ seeds p, (seeds, some p) ∈ adjSeed.zip adjSens →
      (∀ i j,
        ((adjSeed.zip adjSens).foldl (fun s d => Split.evalAdjDir cat node d.1 d.2 s) st p).val
            i j
          = (st p).val i j + (cat (Split.seedMatrices node seeds st)).val i j) ∧
      (∀ k q, k < node.offset_.length - 1 → seeds.getD k none = some q →
        (adjSeed.zip adjSens).foldl (fun s d => Split.evalAdjDir cat node d.1 d.2 s) st q
          = MX.empty)) ∧
    (∀ seeds, (seeds, none) ∈ adjSeed.zip adjSens →
      ∀ q, q ∈ Split.slots node (seeds, none) →
        (adjSeed.zip adjSens).foldl (fun s d => Split.evalAdjDir cat node d.1 d.2 s) st q
          = st q) ∧
    (∀ q, (∀ d, d ∈ adjSeed.zip adjSens → q ∉ Split.slots node d) →
      (adjSeed.zip adjSens).foldl (fun s d => Split.evalAdjDir cat node d.1 d.2 s) st q
        = st q) := by
  obtain ⟨f1, f2⟩ := Split.split_evalAdj_disjoint cat node adjSeed adjSens st hdist hdisj
  refine ⟨?_, ?_, f2⟩
  · intro seeds p hd
    obtain ⟨_, g2, g3, _, _⟩ := Split.split_evalAdjDir_spec cat node seeds p st
      (hp seeds p hd) (hdist _ hd) (hst seeds p hd)
    refine ⟨fun i j => ?_, fun k q hk hq => ?_⟩
    · rw [f1 _ hd p ((Split.mem_slots node seeds (some p) p).mpr (Or.inr rfl))]
      exact g2 i j
    · rw [f1 _ hd q ((Split.mem_slots node seeds (some p) q).mpr (Or.inl ⟨k, hk, hq⟩))]
      exact g3 k q hk hq
  · intro seeds hd q hq
    rw [f1 _ hd q hq]
    rfl

/-- C14: the `evalAdj` of the split nodes (`Horzsplit`, `Vertsplit`, `Diagsplit`
with `horzcat`, `vertcat`, `diagcat` respectively) over any number of adjoint
directions `(adjSeed[d], adjSens[d])`, each with its own slots, the present seed
pointers of a direction being pairwise distinct and distinct from its adjoint
pointer. For every direction whose dependency-adjoint slot is present, the
adjoint of the dependency has gained the concatenation, in output order, of one
matrix per output slot: the seed held by the slot when it is present, the
all-structurally-zero matrix of the shape of the output when it is absent; every
present seed slot of that direction is empty afterwards. A direction whose
adjoint slot is absent changes nothing, and the slots of no direction are
untouched. For a node with at least one output whose present seeds have the
shapes of their outputs, the concatenated matrix has the shape of the
dependency. -/
theorem Split.split_evalAdj_spec {R : Type} [CommRing R] (node : Split)
    (adjSeed : List (List (Option Nat))) (adjSens : List (Option Nat)) (st : MXStore R)
    (hp : ∀ seeds p, (seeds, some p) ∈ adjSeed.zip adjSens →
      ∀ i, i < node.offset_.length - 1 → seeds.getD i none ≠ some p)
    (hdist : ∀ d, d ∈ adjSeed.zip adjSens → ∀ a b q, a < b → b < node.offset_.length - 1 →
      d.1.getD a none = some q → d.1.getD b none ≠ some q)
    (hdisj : (adjSeed.zip adjSens).Pairwise
      (fun a b => ∀ q, q ∈ Split.slots node a → q ∉ Split.slots node b))
    (hst : ∀ seeds p, (seeds, some p) ∈ adjSeed.zip adjSens → (st p).Proper) :
    (∀ ec, ec ∈ [((Horzsplit.evalAdj node : List (List (Option Nat)) → List (Option Nat) →
          MXStore R → MXStore R), (MX.horzcat : List (MX R) → MX R)),
        (Vertsplit.evalAdj node, MX.vertcat), (Diagsplit.evalAdj node, MX.diagcat)] →
      (∀ seeds p, (seeds, some p) ∈ adjSeed.zip adjSens →
        (∀ i j, (ec.1 adjSeed adjSens st p).val i j
          = (st p).val i j + (ec.2 (Split.seedMatrices node seeds st)).val i j) ∧
        (∀ k q, k < node.offset_.length - 1 → seeds.getD k none = some q →
          ec.1 adjSeed adjSens st q = MX.empty)) ∧
      (∀ seeds, (seeds, none) ∈ adjSeed.zip adjSens →
        ∀ q, q ∈ Split.slots node (seeds, none) → ec.1 adjSeed adjSens st q = st q) ∧
      (∀ q, (∀ d, d ∈ adjSeed.zip adjSens → q ∉ Split.slots node d) →
        ec.1 adjSeed adjSens st q = st q)) ∧
    (∀ seeds p, (seeds, some p) ∈ adjSeed.zip adjSens →
      (∀ i q, i < node.offset_.length - 1 → seeds.getD i none = some q →
        (st q).shape = (node.output_sparsity_.map Sparsity.shape).getD i (0, 0)) →
      (∀ sp offset, node = Horzsplit.mk sp offset → ValidOffset offset sp.ncol →
        2 ≤ offset.length →
        (MX.horzcat (Split.seedMatrices node seeds st)).shape = sp.shape) ∧
      (∀ sp offset, node = Vertsplit.mk sp offset → ValidOffset offset sp.nrow →
        2 ≤ offset.length →
        (MX.vertcat (Split.seedMatrices node seeds st)).shape = sp.shape) ∧
      (∀ sp offset1 offset2, Diagsplit.mk sp offset1 offset2 = Except.ok node →
        ValidOffset offset1 sp.nrow → ValidOffset offset2 sp.ncol →
        offset2.length = offset1.length → 2 ≤ offset1.length →
        (MX.diagcat (Split.seedMatrices node seeds st)).shape = sp.shape)) := by
  refine ⟨?_, ?_⟩
  · intro ec hec
    simp only [List.mem_cons, List.mem_singleton, List.not_mem_nil, or_false] at hec
    rcases hec with rfl | rfl | rfl
    · exact Split.split_evalAdj_rule MX.horzcat node adjSeed adjSens st hp hdist hdisj hst
    · exact Split.split_evalAdj_rule MX.vertcat node adjSeed adjSens st hp hdist hdisj hst
    · exact Split.split_evalAdj_rule MX.diagcat node adjSeed adjSens st hp hdist hdisj hst
  · intro seeds p hd hshape
    exact (Split.split_evalAdjDir_spec MX.horzcat node seeds p st (hp seeds p hd) (hdist _ hd)
      (hst seeds p hd)).2.2.2.2 hshape

/-- Witness for C14: a horizontal split of a dense 1x2 matrix into two 1x1
outputs and two directions. In the first the seed of output 0 is the scalar 5 in
slot 0, the seed of output 1 is absent and the adjoint of the dependency is the
empty slot 1; in the second the seeds 7 and 11 sit in the slots 2 and 3 and the
adjoint of the dependency is the empty slot 4. -/
theorem Split.split_evalAdj_spec_witness :
    (Horzsplit.evalAdj (Horzsplit.mk (Sparsity.dense 1 2) [0, 1, 2])
        [[some 0, none], [some 2, some 3]] [some 1, some 4]
        (MXStore.ofList [(⟨1, 1, fun _ _ => some 5⟩ : MX Int), MX.empty,
          ⟨1, 1, fun _ _ => some 7⟩, ⟨1, 1, fun _ _ => some 11⟩]) 1).val 0 0 = 0 + 5 ∧
    (Horzsplit.evalAdj (Horzsplit.mk (Sparsity.dense 1 2) [0, 1, 2])
        [[some 0, none], [some 2, some 3]] [some 1, some 4]
        (MXStore.ofList [(⟨1, 1, fun _ _ => some 5⟩ : MX Int), MX.empty,
          ⟨1, 1, fun _ _ => some 7⟩, ⟨1, 1, fun _ _ => some 11⟩]) 4).val 0 1 = 0 + 11 ∧
    Horzsplit.evalAdj (Horzsplit.mk (Sparsity.dense 1 2) [0, 1, 2])
        [[some 0, none], [some 2, some 3]] [some 1, some 4]
        (MXStore.ofList [(⟨1, 1, fun _ _ => some 5⟩ : MX Int), MX.empty,
          ⟨1, 1, fun _ _ => some 7⟩, ⟨1, 1, fun _ _ => some 11⟩]) 3 = MX.empty := by
  have hnx : (Horzsplit.mk (Sparsity.dense 1 2) [0, 1, 2]).offset_.length - 1 = 2 := by decide
  have h := Split.split_evalAdj_spec (Horzsplit.mk (Sparsity.dense 1 2) [0, 1, 2])
    [[some 0, none], [some 2, some 3]] [some 1, some 4]
    (MXStore.ofList [(⟨1, 1, fun _ _ => some 5⟩ : MX Int), MX.empty,
      ⟨1, 1, fun _ _ => some 7⟩, ⟨1, 1, fun _ _ => some 11⟩])
    (by
      intro seeds p hd i hi
      rw [hnx] at hi
      simp only [List.zip_cons_cons, List.zip_nil_right, List.mem_cons, List.mem_singleton,
        List.not_mem_nil, or_false, Prod.mk.injEq, Option.some.injEq] at hd
      rcases hd with ⟨rfl, rfl⟩ | ⟨rfl, rfl⟩ <;> interval_cases i <;> decide)
    (by
      intro d hd a b q hab hb
      rw [hnx] at hb
      simp only [List.zip_cons_cons, List.zip_nil_right, List.mem_cons, List.mem_singleton,
        List.not_mem_nil, or_false] at hd
      rcases hd with rfl | rfl
      · interval_cases b <;> interval_cases a
        simp
      · interval_cases b <;> interval_cases a
        simp only [List.getD_cons_zero, List.getD_cons_succ, Option.some.injEq, ne_eq]
        omega)
    (by decide)
    (by
      intro seeds p hd
      simp only [List.zip_cons_cons, List.zip_nil_right, List.mem_cons, List.mem_singleton,
        List.not_mem_nil, or_false, Prod.mk.injEq, Option.some.injEq] at hd
      rcases hd with ⟨rfl, rfl⟩ | ⟨rfl, rfl⟩ <;>
        simp [MXStore.ofList, MX.Proper, MX.empty])
  obtain ⟨r1, _, _⟩ := h.1 (Horzsplit.evalAdj (Horzsplit.mk (Sparsity.dense 1 2) [0, 1, 2]),
    MX.horzcat) (List.mem_cons_self _ _)
  obtain ⟨a1, _⟩ := r1 [some 0, none] 1 (by decide)
  obtain ⟨b1, b2⟩ := r1 [some 2, some 3] 4 (by decide)
  refine ⟨?_, ?_, b2 1 3 (by decide) rfl⟩
  · exact (a1 0 0).trans (by decide)
  · exact (b1 0 1).trans (by decide)
/-! ### Code generation of the dense multiplication: any arithmetic -/

theorem CellMem.readCell_dflt {R : Type} (dflt : R) (m : CellMem R) (name : String) (idx : Nat)
    (h : idx < (m name).length) : m.readCell name idx = some ((m name).getD idx dflt) := by
  simp [CellMem.readCell, List.getD_eq_getElem?_getD, List.getElem?_eq_getElem h]

theorem getD_set_dflt {R : Type} (dflt : R) (l : List R) (i j : Nat) (v : R) :
    (l.set i v).getD j dflt = if i = j ∧ i < l.length then v else l.getD j dflt := by
  simp only [List.getD_eq_getElem?_getD, List.getElem?_set]
  by_cases hij : i = j
  · subst hij
    by_cases hl : i < l.length
    · simp [hl]
    · simp [hl, List.getElem?_eq_none (Nat.le_of_not_lt hl)]
  · simp [hij]

/-- Where addition is associative and `zero` is neutral on the right, the
running accumulation `((z + t 0) + t 1) + ...` is `z` plus the sum
`t 0 + (t 1 + (... + zero))`. -/
theorem foldl_add_eq_add_foldr {R : Type} [Add R] (zero : R) (hzero : ∀ a : R, a + zero = a)
    (hassoc : ∀ a b c : R, a + b + c = a + (b + c)) (t : Nat → R) (l : List Nat) (z : R) :
    l.foldl (fun acc k => acc + t k) z = z + l.foldr (fun k s => t k + s) zero := by
  induction l generalizing z with
  | nil => exact (hzero z).symm
  | cons k l ih => rw [List.foldl_cons, List.foldr_cons, ih, hassoc]

/-- The copy loop overwrites the first `n` cells of `dst` with those of `src`. -/
theorem CStmt.copyLoop_cells {R : Type} (dflt : R) (dst src : String) (hne : dst ≠ src) (m : CellMem R) (n : Nat)
    (hd : n ≤ (m dst).length) (hs : n ≤ (m src).length) :
    ∃ m1, (List.range n).foldlM
        (fun (mem : CellMem R) i =>
          match mem.readCell src i with
          | some v => mem.writeCell dst i v
          | none => none) m = some m1 ∧
      (∀ q, q ≠ dst → m1 q = m q) ∧ (m1 dst).length = (m dst).length ∧
      ∀ p, (m1 dst).getD p dflt = if p < n then (m src).getD p dflt else (m dst).getD p dflt := by
  induction n with
  | zero =>
    refine ⟨m, rfl, fun _ _ => rfl, rfl, fun p => ?_⟩
    rw [if_neg (by omega)]
  | succ n ih =>
    obtain ⟨m1, h1, h2, h3, h4⟩ := ih (by omega) (by omega)
    have e1 : m1.readCell src n = some ((m src).getD n dflt) := by
      rw [CellMem.readCell_dflt dflt m1 src n (by rw [h2 src (Ne.symm hne)]; omega),
        h2 src (Ne.symm hne)]
    have e2 : ∀ v, m1.writeCell dst n v = some (m1.write dst ((m1 dst).set n v)) := by
      intro v
      have : n < (m dst).length := by omega
      simp [CellMem.writeCell, h3, this]
    refine ⟨m1.write dst ((m1 dst).set n ((m src).getD n dflt)), ?_, ?_, ?_, ?_⟩
    · rw [List.range_succ, List.foldlM_append, h1]
      simp only [Option.bind_eq_bind, Option.some_bind, List.foldlM_cons, List.foldlM_nil, e1, e2]
      rfl
    · intro q hq
      rw [CellMem.cell_write_of_ne _ _ _ _ hq, h2 q hq]
    · rw [CellMem.cell_write_same, List.length_set, h3]
    · intro p
      rw [CellMem.cell_write_same, getD_set_dflt, h3]
      by_cases hp : n = p
      · subst hp
        rw [if_pos ⟨rfl, by omega⟩, if_pos (by omega)]
      · rw [if_neg (fun h => hp h.1), h4 p]
        by_cases hq : p < n
        · rw [if_pos hq, if_pos (by omega)]
        · rw [if_neg hq, if_neg (by omega)]

section GeneratedCodeArith

variable {R : Type} [Add R] [Mul R] (dflt : R)

/-- The loop over `k` accumulates the products onto the cell `rr` of `res`, one
after the other, in the order of `k`. -/
theorem CStmt.mulBody_fold (nrow_x : Nat) (res x y : String) (hx : res ≠ x) (hy : res ≠ y)
    (rr ss tt : Nat) (m : CellMem R) (n : Nat) (hrr : rr < (m res).length)
    (hss : ∀ k, k < n → ss + k * nrow_x < (m x).length)
    (htt : tt + n ≤ (m y).length) :
    ∃ m1, (List.range n).foldlM (CStmt.mulBody nrow_x res x y rr ss) (m, tt)
        = some (m1, tt + n) ∧
      (∀ q, q ≠ res → m1 q = m q) ∧ (m1 res).length = (m res).length ∧
      ∀ p, (m1 res).getD p dflt
        = if p = rr then
            (List.range n).foldl (fun acc k =>
              acc + (m x).getD (ss + k * nrow_x) dflt * (m y).getD (tt + k) dflt)
              ((m res).getD rr dflt)
          else (m res).getD p dflt := by
  induction n with
  | zero =>
    refine ⟨m, rfl, fun _ _ => rfl, rfl, fun p => ?_⟩
    by_cases hp : p = rr
    · subst hp; simp
    · simp [hp]
  | succ n ih =>
    obtain ⟨m1, h1, h2, h3, h4⟩ := ih (fun k hk => hss k (by omega)) (by omega)
    have e1 : m1.readCell res rr = some ((m1 res).getD rr dflt) :=
      CellMem.readCell_dflt dflt m1 res rr (by rw [h3]; exact hrr)
    have e2 : m1.readCell x (ss + n * nrow_x) = some ((m x).getD (ss + n * nrow_x) dflt) := by
      rw [CellMem.readCell_dflt dflt m1 x _ (by rw [h2 x (Ne.symm hx)]; exact hss n (by omega)),
        h2 x (Ne.symm hx)]
    have e3 : m1.readCell y (tt + n) = some ((m y).getD (tt + n) dflt) := by
      rw [CellMem.readCell_dflt dflt m1 y _ (by rw [h2 y (Ne.symm hy)]; omega),
        h2 y (Ne.symm hy)]
    have e4 : ∀ v, m1.writeCell res rr v = some (m1.write res ((m1 res).set rr v)) := by
      intro v
      simp [CellMem.writeCell, h3, hrr]
    refine ⟨m1.write res ((m1 res).set rr
        ((m1 res).getD rr dflt + (m x).getD (ss + n * nrow_x) dflt * (m y).getD (tt + n) dflt)),
      ?_, ?_, ?_, ?_⟩
    · rw [List.range_succ, List.foldlM_append, h1]
      simp only [Option.bind_eq_bind, Option.some_bind, List.foldlM_cons, List.foldlM_nil,
        CStmt.mulBody, e1, e2, e3, e4]
      rfl
    · intro q hq
      rw [CellMem.cell_write_of_ne _ _ _ _ hq, h2 q hq]
    · rw [CellMem.cell_write_same, List.length_set, h3]
    · intro p
      rw [CellMem.cell_write_same, getD_set_dflt, h3]
      by_cases hp : p = rr
      · subst hp
        rw [if_pos ⟨rfl, hrr⟩, if_pos rfl, h4 p, if_pos rfl, List.range_succ, List.foldl_append]
        rfl
      · rw [if_neg (fun h => hp h.1.symm), if_neg hp, h4 p, if_neg hp]

/-- The loop over `j` accumulates the products of one column onto the cells
`rr0`, `rr0+1`, ... of `res`. -/
theorem CStmt.mulColumn_fold (nrow_x nrow_y : Nat) (res x y : String) (hx : res ≠ x)
    (hy : res ≠ y) (i : Nat) (m : CellMem R) (rr0 n : Nat) (hn : n ≤ nrow_x)
    (hrr : rr0 + n ≤ (m res).length) (hlx : (m x).length = nrow_x * nrow_y)
    (hly : (i + 1) * nrow_y ≤ (m y).length) :
    ∃ m1, (List.range n).foldlM (CStmt.mulColumnBody nrow_x nrow_y res x y i) (m, rr0)
        = some (m1, rr0 + n) ∧
      (∀ q, q ≠ res → m1 q = m q) ∧ (m1 res).length = (m res).length ∧
      ∀ p, (m1 res).getD p dflt
        = if rr0 ≤ p ∧ p < rr0 + n then
            (List.range nrow_y).foldl (fun acc k =>
              acc + (m x).getD (p - rr0 + k * nrow_x) dflt * (m y).getD (i * nrow_y + k) dflt)
              ((m res).getD p dflt)
          else (m res).getD p dflt := by
  induction n with
  | zero =>
    refine ⟨m, rfl, fun _ _ => rfl, rfl, fun p => ?_⟩
    rw [if_neg (by omega)]
  | succ n ih =>
    obtain ⟨m1, h1, h2, h3, h4⟩ := ih (by omega) (by omega)
    have hss : ∀ k, k < nrow_y → n + k * nrow_x < (m1 x).length := by
      intro k hk
      rw [h2 x (Ne.symm hx), hlx]
      have h5 : (k + 1) * nrow_x ≤ nrow_y * nrow_x := Nat.mul_le_mul_right _ (by omega)
      rw [Nat.succ_mul] at h5
      rw [Nat.mul_comm nrow_x nrow_y]
      omega
    have htt : i * nrow_y + nrow_y ≤ (m1 y).length := by
      rw [h2 y (Ne.symm hy)]
      rw [Nat.succ_mul] at hly
      exact hly
    obtain ⟨m2, g1, g2, g3, g4⟩ := CStmt.mulBody_fold dflt nrow_x res x y hx hy (rr0 + n) n
      (i * nrow_y) m1 nrow_y (by rw [h3]; omega) hss htt
    refine ⟨m2, ?_, ?_, ?_, ?_⟩
    · rw [List.range_succ, List.foldlM_append, h1]
      simp only [Option.bind_eq_bind, Option.some_bind, List.foldlM_cons, List.foldlM_nil,
        CStmt.mulColumnBody, g1]
      rfl
    · intro q hq
      rw [g2 q hq, h2 q hq]
    · rw [g3, h3]
    · intro p
      rw [g4 p, h2 x (Ne.symm hx), h2 y (Ne.symm hy)]
      by_cases hp : p = rr0 + n
      · subst hp
        rw [if_pos rfl, if_pos ⟨by omega, by omega⟩, h4, if_neg (by omega),
          Nat.add_sub_cancel_left]
      · rw [if_neg hp, h4 p]
        by_cases hq : rr0 ≤ p ∧ p < rr0 + n
        · rw [if_pos hq, if_pos ⟨hq.1, by omega⟩]
        · rw [if_neg hq, if_neg (by omega)]

/-- The loop over `i` accumulates the product onto the first `n` columns of
`res`. -/
theorem CStmt.mulLoop_fold (ncol_y nrow_x nrow_y : Nat) (res x y : String) (hx : res ≠ x)
    (hy : res ≠ y) (m : CellMem R) (hlr : (m res).length = nrow_x * ncol_y)
    (hlx : (m x).length = nrow_x * nrow_y) (hly : (m y).length = nrow_y * ncol_y) (n : Nat)
    (hn : n ≤ ncol_y) :
    ∃ m1, (List.range n).foldlM
        (fun (st : CellMem R × Nat) i =>
          (List.range nrow_x).foldlM (CStmt.mulColumnBody nrow_x nrow_y res x y i) st) (m, 0)
        = some (m1, n * nrow_x) ∧
      (∀ q, q ≠ res → m1 q = m q) ∧ (m1 res).length = (m res).length ∧
      ∀ i j, j < nrow_x → (m1 res).getD (j + i * nrow_x) dflt
        = if i < n then
            (List.range nrow_y).foldl (fun acc k =>
              acc + (m x).getD (j + k * nrow_x) dflt * (m y).getD (k + i * nrow_y) dflt)
              ((m res).getD (j + i * nrow_x) dflt)
          else (m res).getD (j + i * nrow_x) dflt := by
  induction n with
  | zero =>
    refine ⟨m, by simp, fun _ _ => rfl, rfl, fun i j _ => ?_⟩
    rw [if_neg (by omega)]
  | succ n ih =>
    obtain ⟨m1, h1, h2, h3, h4⟩ := ih (by omega)
    have hcol : (n + 1) * nrow_x ≤ ncol_y * nrow_x := Nat.mul_le_mul_right _ hn
    have hrow : (n + 1) * nrow_y ≤ ncol_y * nrow_y := Nat.mul_le_mul_right _ hn
    obtain ⟨m2, g1, g2, g3, g4⟩ := CStmt.mulColumn_fold dflt nrow_x nrow_y res x y hx hy n m1
      (n * nrow_x) nrow_x (Nat.le_refl _)
      (by rw [h3, hlr, Nat.mul_comm nrow_x ncol_y]; rw [Nat.succ_mul] at hcol; exact hcol)
      (by rw [h2 x (Ne.symm hx), hlx])
      (by rw [h2 y (Ne.symm hy), hly, Nat.mul_comm nrow_y ncol_y]; exact hrow)
    refine ⟨m2, ?_, ?_, ?_, ?_⟩
    · rw [List.range_succ, List.foldlM_append, h1]
      simp only [Option.bind_eq_bind, Option.some_bind, List.foldlM_cons, List.foldlM_nil, g1,
        Nat.succ_mul]
      rfl
    · intro q hq
      rw [g2 q hq, h2 q hq]
    · rw [g3, h3]
    · intro i j hj
      rw [g4, h2 x (Ne.symm hx), h2 y (Ne.symm hy), h4 i j hj]
      rcases Nat.lt_trichotomy i n with hin | hin | hin
      · have h5 : (i + 1) * nrow_x ≤ n * nrow_x := Nat.mul_le_mul_right _ hin
        rw [Nat.succ_mul] at h5
        rw [if_neg (by omega), if_pos hin, if_pos (by omega)]
      · subst hin
        rw [if_pos ⟨by omega, by omega⟩, if_neg (Nat.lt_irrefl _), if_pos (by omega),
          Nat.add_sub_cancel]
        congr 1
        funext acc k
        rw [Nat.add_comm k (i * nrow_y)]
      · have h5 : (n + 1) * nrow_x ≤ i * nrow_x := Nat.mul_le_mul_right _ hin
        rw [Nat.succ_mul] at h5
        rw [if_neg (by omega), if_neg (by omega), if_neg (by omega)]

/-- C24: the code emitted by `DenseMultiplication::generateOperation` computes
`Z = Z0 + X*Y` on dense column-major arrays, in every arithmetic with an
addition and a multiplication (no law is assumed of them, so floating-point
arithmetic is included). For a node whose result has `nnz = nrow_x * ncol_y`
nonzeros and arrays of the sizes of the operands, the result cell being neither
the cell of `x` nor the cell of `y`: the text written to the stream is the text
of the statements `emitted`; the copy of `z0` into `res` is among them exactly
when the name of the result cell differs from the name of the first argument;
their execution reads and writes no cell outside the arrays (it has a result),
leaves the other arrays unchanged, and leaves in `res[j + i*nrow_x]`, for every
`i < ncol_y` and `j < nrow_x`, the value `z0[j + i*nrow_x]` onto which the
products `x[j + k*nrow_x] * y[k + i*nrow_y]`, `k = 0, ..., nrow_y - 1`, have been
added one after the other by `*rr += ...`. Where the addition is associative
with a right-neutral `zero`, that value is `z0[j + i*nrow_x]` plus the sum of
the products. The value `dflt` stands for a cell outside an array and is never
read. -/
theorem DenseMultiplication.generateOperation_arith_spec (nnz nrow_x nrow_y ncol_y : Nat)
    (arg0 arg1 arg2 res0 : String) (rest : List String) (mem : CellMem R)
    (hnnz : nnz = nrow_x * ncol_y) (hx : res0 ≠ arg1) (hy : res0 ≠ arg2)
    (hlz : (mem arg0).length = nnz) (hlr : (mem res0).length = nnz)
    (hlx : (mem arg1).length = nrow_x * nrow_y) (hly : (mem arg2).length = nrow_y * ncol_y) :
    DenseMultiplication.generateOperation nnz nrow_x nrow_y ncol_y [arg0, arg1, arg2]
        (res0 :: rest)
      = Except.ok (String.join
          ((DenseMultiplication.emitted nnz nrow_x nrow_y ncol_y arg0 arg1 arg2 res0).map
            CStmt.render)) ∧
    (CStmt.copyLoop nnz res0 arg0
        ∈ DenseMultiplication.emitted nnz nrow_x nrow_y ncol_y arg0 arg1 arg2 res0
      ↔ res0 ≠ arg0) ∧
    ∃ mem1,
      CStmt.execAll (DenseMultiplication.emitted nnz nrow_x nrow_y ncol_y arg0 arg1 arg2 res0)
        mem = some mem1 ∧
      (∀ q, q ≠ res0 → mem1 q = mem q) ∧
      (mem1 res0).length = nnz ∧
      ∀ i j, i < ncol_y → j < nrow_x →
        (mem1 res0).getD (j + i * nrow_x) dflt
          = (List.range nrow_y).foldl (fun acc k =>
              acc + (mem arg1).getD (j + k * nrow_x) dflt * (mem arg2).getD (k + i * nrow_y) dflt)
              ((mem arg0).getD (j + i * nrow_x) dflt) ∧
        ∀ zero : R, (∀ a : R, a + zero = a) → (∀ a b c : R, a + b + c = a + (b + c)) →
          (mem1 res0).getD (j + i * nrow_x) dflt
            = (mem arg0).getD (j + i * nrow_x) dflt
              + (List.range nrow_y).foldr (fun k s =>
                  (mem arg1).getD (j + k * nrow_x) dflt * (mem arg2).getD (k + i * nrow_y) dflt
                    + s) zero := by
  have hmain : ∃ mem1,
      CStmt.execAll (DenseMultiplication.emitted nnz nrow_x nrow_y ncol_y arg0 arg1 arg2 res0)
        mem = some mem1 ∧
      (∀ q, q ≠ res0 → mem1 q = mem q) ∧
      (mem1 res0).length = nnz ∧
      ∀ i j, i < ncol_y → j < nrow_x →
        (mem1 res0).getD (j + i * nrow_x) dflt
          = (List.range nrow_y).foldl (fun acc k =>
              acc + (mem arg1).getD (j + k * nrow_x) dflt * (mem arg2).getD (k + i * nrow_y) dflt)
              ((mem arg0).getD (j + i * nrow_x) dflt) := by
    by_cases h : arg0 = res0
    · subst h
      obtain ⟨m1, g1, g2, g3, g4⟩ := CStmt.mulLoop_fold dflt ncol_y nrow_x nrow_y arg0 arg1 arg2
        hx hy mem (by rw [hlr, hnnz]) hlx hly ncol_y (Nat.le_refl _)
      refine ⟨m1, ?_, g2, by rw [g3, hlr], fun i j hi hj => ?_⟩
      · simp [DenseMultiplication.emitted, CStmt.execAll, CStmt.exec, g1]
      · rw [g4 i j hj, if_pos hi]
    · have hne : res0 ≠ arg0 := Ne.symm h
      obtain ⟨m0, c1, c2, c3, c4⟩ := CStmt.copyLoop_cells dflt res0 arg0 hne mem nnz
        (by omega) (by omega)
      obtain ⟨m1, g1, g2, g3, g4⟩ := CStmt.mulLoop_fold dflt ncol_y nrow_x nrow_y res0 arg1 arg2
        hx hy m0 (by rw [c3, hlr, hnnz]) (by rw [c2 arg1 (Ne.symm hx), hlx])
        (by rw [c2 arg2 (Ne.symm hy), hly]) ncol_y (Nat.le_refl _)
      refine ⟨m1, ?_, fun q hq => by rw [g2 q hq, c2 q hq], by rw [g3, c3, hlr],
        fun i j hi hj => ?_⟩
      · simp [DenseMultiplication.emitted, CStmt.execAll, CStmt.exec, h, c1, g1]
      · have hlt : j + i * nrow_x < nnz := by
          have h5 : (i + 1) * nrow_x ≤ ncol_y * nrow_x := Nat.mul_le_mul_right _ hi
          rw [Nat.succ_mul] at h5
          rw [hnnz, Nat.mul_comm nrow_x ncol_y]
          omega
        rw [g4 i j hj, if_pos hi, c4, if_pos hlt, c2 arg1 (Ne.symm hx), c2 arg2 (Ne.symm hy)]
  refine ⟨DenseMultiplication.render_emitted nnz nrow_x nrow_y ncol_y arg0 arg1 arg2 res0 rest,
    ?_, ?_⟩
  · by_cases h : arg0 = res0
    · simp [DenseMultiplication.emitted, h]
    · simp [DenseMultiplication.emitted, h, Ne.symm h]
  · obtain ⟨mem1, e1, e2, e3, e4⟩ := hmain
    refine ⟨mem1, e1, e2, e3, fun i j hi hj => ⟨e4 i j hi hj, fun zero hzero hassoc => ?_⟩⟩
    rw [e4 i j hi hj]
    exact foldl_add_eq_add_foldr zero hzero hassoc
      (fun k => (mem arg1).getD (j + k * nrow_x) dflt * (mem arg2).getD (k + i * nrow_y) dflt)
      (List.range nrow_y) _

end GeneratedCodeArith

/-- Witness for C24: a 2x1 matrix `x = (2, 3)` times a 1x2 matrix `y = (5, 7)`
added to `z0 = (1, 1, 1, 1)` and stored in a separate result cell. -/
theorem DenseMultiplication.generateOperation_arith_spec_witness :
    DenseMultiplication.generateOperation 4 2 1 2 ["z", "x", "y"] ["r"]
      = Except.ok (String.join
          ((DenseMultiplication.emitted 4 2 1 2 "z" "x" "y" "r").map CStmt.render)) ∧
    (CStmt.execAll (DenseMultiplication.emitted 4 2 1 2 "z" "x" "y" "r")
      (fun q => if q = "x" then [2, 3] else if q = "y" then [5, 7]
        else if q = "z" then [1, 1, 1, 1] else [0, 0, 0, 0] : CellMem Int)).map
        (fun m => m "r") = some [11, 16, 15, 22] :=
  ⟨(DenseMultiplication.generateOperation_arith_spec (0 : Int) 4 2 1 2 "z" "x" "y" "r" []
      (fun q => if q = "x" then [2, 3] else if q = "y" then [5, 7]
        else if q = "z" then [1, 1, 1, 1] else [0, 0, 0, 0] : CellMem Int)
      (by decide) (by decide) (by decide) (by decide) (by decide) (by decide) (by decide)).1,
    by decide⟩

end casadi
